import Mathlib

/-! # ClassScope hierarchy resolution (HipHop compiler, `compiler/analysis/class_scope.cpp`)

A shallow embedding of the class-scope analysis: the class graph, the merged
method table built by `ClassScope::collectMethods`, and the lookups around it.

Class scopes and function scopes are shared, mutable objects in the source
(`ClassScopePtr`, `FunctionScopePtr`).  They are embedded as two stores indexed
by identifiers; a pointer is an identifier, and a mutation through a pointer is
an update of the store.  Recursion over the class graph takes a fuel argument
that bounds the depth of the call stack: `none` stands for a run that does not
return (stack exhausted) or that reads past the end of a vector.
-/

namespace HPHP

/-! ## Data model -/

/-- Identifier of a `FunctionScope` object (a `FunctionScopePtr`). -/
abbrev FuncId := Nat

/-- Identifier of a `ClassScope` object (a `ClassScopePtr`). -/
abbrev ClassId := Nat

/-- The part of `FunctionScope` that `class_scope.cpp` reads and writes. -/
structure FunctionScope where
  name : String := ""
  isPrivate : Bool := false
  isStatic : Bool := false
  isAbstract : Bool := false
  minParamCount : Nat := 0
  virtual : Bool := false
  dynamic : Bool := false
  redeclaring : Int := -1
  system : Bool := false
deriving DecidableEq, Inhabited

/-- Values of `ClassScope::KindOf`. -/
inductive KindOf where
  | KindOfObjectClass
  | KindOfAbstractClass
  | KindOfFinalClass
  | KindOfInterface
deriving DecidableEq, Inhabited

/-- Values of `ClassScope::Derivation`; `FromNormal` is the zero value. -/
inductive Derivation where
  | FromNormal
  | DirectFromRedeclared
  | IndirectFromRedeclared
deriving DecidableEq, Inhabited

/-- The flags of the class's `VariableTable` that `collectMethods` sets. -/
structure VariableTable where
  forcedVariants : Bool := false
  needGlobalPointer : Bool := false
deriving DecidableEq, Inhabited

/-- Fields of `ClassScope` (names as in the source, without the `m_` prefix). -/
structure ClassScope where
  name : String := ""
  kindOf : KindOf := KindOf.KindOfObjectClass
  parent : String := ""
  bases : List String := []
  functions : List (String × List FuncId) := []
  missingMethods : List String := []
  attrs : Nat := 0
  dynamic : Bool := false
  redeclaring : Int := -1
  volatile : Bool := false
  derivesFromRedeclaring : Derivation := Derivation.FromNormal
  variableTable : VariableTable := {}
  implemented : List (String × Int) := []
deriving DecidableEq, Inhabited

/-- Kinds of `CodeError` that the class scope records. -/
inductive ErrorType where
  | InvalidDerivation
  | UnknownBaseClass
  | DeclaredFunctionTwice
deriving DecidableEq, Inhabited

/-- The statement a diagnostic points at: none, the statement of a class, or
the statement of a function. -/
inductive Construct where
  | null
  | classStmt (c : ClassId)
  | funcStmt (f : FuncId)
deriving DecidableEq, Inhabited

/-- One call of `CodeError::record(kind, construct1, construct2, data)`. -/
structure ErrorRecord where
  kind : ErrorType
  construct1 : Construct
  construct2 : Construct
  data : String
deriving DecidableEq, Inhabited

/-- The analysis result: both object stores, the class registry `m_classDecs`
and the diagnostics recorded so far. -/
structure AnalysisResult where
  classScopes : ClassId → ClassScope
  functionScopes : FuncId → FunctionScope
  classDecs : List (String × List ClassId)
  codeError : List ErrorRecord

/-- A `StringToFunctionScopePtrMap`: at most the first entry of a key counts. -/
abbrev FuncMap := List (String × FuncId)

/-- Lookup `m.find(key)` in a string-keyed map kept as an association list. -/
def mapFind {β : Type} : List (String × β) → String → Option β
  | [], _ => none
  | (k, v) :: rest, key => if k = key then some v else mapFind rest key

/-- The assignment `funcs[key] = f` for a key that `find` did not locate. -/
def mapAdd (funcs : FuncMap) (key : String) (f : FuncId) : FuncMap :=
  funcs ++ [(key, f)]

/-- The range insert `funcs.insert(cur.begin(), cur.end())` of `std::map`:
an element is added only when its key is absent. -/
def mapInsertAll (funcs : FuncMap) : FuncMap → FuncMap
  | [] => funcs
  | (k, v) :: rest =>
    match mapFind funcs k with
    | none => mapInsertAll (mapAdd funcs k v) rest
    | some _ => mapInsertAll funcs rest

/-! ## The class registry -/

/-- Modelled from the spec: `Util::toLower` is not under `src/`; names compare
case-insensitively, letter by letter. -/
def toLower (s : String) : String := String.mk (s.data.map Char.toLower)

/-- Modelled from the spec: `AnalysisResult::findClasses` is not under `src/`.
`allCandidates(name)`: the ordered declarations registered under the name,
compared case-insensitively; empty if absent. -/
def findClasses (ar : AnalysisResult) (name : String) : List ClassId :=
  match ar.classDecs.find? (fun e => toLower e.1 = toLower name) with
  | some e => e.2
  | none => []

/-- Modelled from the spec: `AnalysisResult::findClass` is not under `src/`.
`lookup(name)`: absent when nothing is registered under the name, otherwise a
declaration registered under it, the primary (first) one of a group. -/
def findClass (ar : AnalysisResult) (name : String) : Option ClassId :=
  (findClasses ar name).head?

/-! ## Accessors and setters declared in the headers -/

/-- Modelled from the spec: `ClassScope::isRedeclaring` is declared in
`class_scope.h`; `redeclaring == -1` denotes "not part of a redeclaration
group". -/
def ClassScope.isRedeclaring (c : ClassScope) : Bool := decide (0 ≤ c.redeclaring)

/-- The test `isInterface()`. -/
def ClassScope.isInterface (c : ClassScope) : Bool :=
  decide (c.kindOf = KindOf.KindOfInterface)

/-- Update of one class scope in the store. -/
def AnalysisResult.updClass (ar : AnalysisResult) (c : ClassId)
    (f : ClassScope → ClassScope) : AnalysisResult :=
  { ar with classScopes := Function.update ar.classScopes c (f (ar.classScopes c)) }

/-- Update of one function scope in the store. -/
def AnalysisResult.updFunc (ar : AnalysisResult) (f : FuncId)
    (g : FunctionScope → FunctionScope) : AnalysisResult :=
  { ar with functionScopes := Function.update ar.functionScopes f (g (ar.functionScopes f)) }

/-- The call `fs->setVirtual()`. -/
def setVirtual (ar : AnalysisResult) (f : FuncId) : AnalysisResult :=
  ar.updFunc f (fun fs => { fs with virtual := true })

/-- The call `fs->setDynamic()`. -/
def setFuncDynamic (ar : AnalysisResult) (f : FuncId) : AnalysisResult :=
  ar.updFunc f (fun fs => { fs with dynamic := true })

/-- The call `ar->getCodeError()->record(kind, m_stmt, ConstructPtr(), data)`
made by class `self`. -/
def record (ar : AnalysisResult) (kind : ErrorType) (self : ClassId) (data : String) :
    AnalysisResult :=
  { ar with codeError := ar.codeError ++
      [{ kind := kind, construct1 := Construct.classStmt self,
         construct2 := Construct.null, data := data }] }

/-- The statement `m_bases.erase(m_bases.begin() + i)`. -/
def eraseBase (ar : AnalysisResult) (self : ClassId) (i : Nat) : AnalysisResult :=
  ar.updClass self (fun c => { c with bases := c.bases.eraseIdx i })

/-- The assignment `m_derivesFromRedeclaring = d`. -/
def setDerives (ar : AnalysisResult) (self : ClassId) (d : Derivation) : AnalysisResult :=
  ar.updClass self (fun c => { c with derivesFromRedeclaring := d })

/-- The call `getVariables()->forceVariants(ar)`. -/
def forceVariants (ar : AnalysisResult) (self : ClassId) : AnalysisResult :=
  ar.updClass self (fun c => { c with variableTable := { c.variableTable with forcedVariants := true } })

/-- The call `getVariables()->setAttribute(VariableTable::NeedGlobalPointer)`. -/
def setNeedGlobalPointer (ar : AnalysisResult) (self : ClassId) : AnalysisResult :=
  ar.updClass self
    (fun c => { c with variableTable := { c.variableTable with needGlobalPointer := true } })

/-- The call `setVolatile()`. -/
def setVolatile (ar : AnalysisResult) (self : ClassId) : AnalysisResult :=
  ar.updClass self (fun c => { c with volatile := true })

/-! ## `ClassScope::collectMethods` -/

/-- The first loop of `collectMethods` (lines 186-198), over the entries of
`m_functions` that are still to be visited. -/
def collectOwn (collectPrivate : Bool) :
    List (String × List FuncId) → AnalysisResult → FuncMap → Option (AnalysisResult × FuncMap)
  | [], ar, funcs => some (ar, funcs)
  | (name, vec) :: rest, ar, funcs =>
    match vec.getLast? with
    | none => none
    | some last =>
      if !collectPrivate && (ar.functionScopes last).isPrivate then
        collectOwn collectPrivate rest ar funcs
      else
        match mapFind funcs name with
        | none => collectOwn collectPrivate rest ar (mapAdd funcs name last)
        | some existing =>
          collectOwn collectPrivate rest (setVirtual (setVirtual ar existing) last) funcs

/-- The loop over `m_missingMethods` (lines 200-206). -/
def markMissing (funcs : FuncMap) : List String → AnalysisResult → AnalysisResult
  | [], ar => ar
  | miss :: rest, ar =>
    match mapFind funcs miss with
    | some f => markMissing funcs rest (setVirtual ar f)
    | none => markMissing funcs rest ar

/-- The loop over the candidates of a redeclared parent (lines 231-235); `rec`
is the recursive call `cls->collectMethods(ar, cur, false, forInvoke)`. -/
def collectCandidates (rec : AnalysisResult → ClassId → FuncMap → Option (AnalysisResult × FuncMap))
    (pristine : FuncMap) :
    List ClassId → AnalysisResult → FuncMap → Option (AnalysisResult × FuncMap)
  | [], ar, funcs => some (ar, funcs)
  | cls :: rest, ar, funcs =>
    match rec ar cls pristine with
    | none => none
    | some (ar1, cur) => collectCandidates rec pristine rest ar1 (mapInsertAll funcs cur)

/-- One iteration of the walk over `m_bases` (lines 213-270), at index `i`. -/
def walkBase (rec : AnalysisResult → ClassId → FuncMap → Option (AnalysisResult × FuncMap))
    (self : ClassId) (forInvoke : Bool) (i : Nat) (seen : List String)
    (ar : AnalysisResult) (funcs : FuncMap) :
    Option (List String × AnalysisResult × FuncMap) :=
  match (ar.classScopes self).bases[i]? with
  | none => none
  | some base =>
    if base ∈ seen then
      some (seen, eraseBase (record ar ErrorType.InvalidDerivation self base) self i, funcs)
    else
      let seen1 := base :: seen
      if forInvoke && base != (ar.classScopes self).parent then
        some (seen1, ar, funcs)
      else
        match findClass ar base with
        | some super =>
          if (ar.classScopes super).isRedeclaring then
            if base = (ar.classScopes self).parent then
              if forInvoke then some (seen1, ar, funcs)
              else
                match collectCandidates rec funcs
                    (findClasses ar (ar.classScopes self).parent) ar funcs with
                | none => none
                | some (ar1, funcs1) =>
                  some (seen1,
                    setVolatile (setNeedGlobalPointer (forceVariants
                      (setDerives ar1 self Derivation.DirectFromRedeclared) self) self) self,
                    funcs1)
            else if (ar.classScopes self).isInterface then
              some (seen1, setDerives ar self Derivation.DirectFromRedeclared, funcs)
            else some (seen1, ar, funcs)
          else
            match rec ar super funcs with
            | none => none
            | some (ar1, funcs1) =>
              if (ar1.classScopes super).derivesFromRedeclaring ≠ Derivation.FromNormal then
                if base = (ar1.classScopes self).parent then
                  some (seen1,
                    setVolatile (forceVariants
                      (setDerives ar1 self Derivation.IndirectFromRedeclared) self) self,
                    funcs1)
                else if (ar1.classScopes self).isInterface then
                  some (seen1, setDerives ar1 self Derivation.IndirectFromRedeclared, funcs1)
                else some (seen1, ar1, funcs1)
              else some (seen1, ar1, funcs1)
        | none =>
          let ar1 := record ar ErrorType.UnknownBaseClass self base
          if base = (ar1.classScopes self).parent then
            some (seen1,
              setVolatile (forceVariants (setNeedGlobalPointer
                (setDerives ar1 self Derivation.DirectFromRedeclared) self) self) self,
              funcs)
          else if (ar1.classScopes self).isInterface then
            some (seen1,
              eraseBase (setDerives ar1 self Derivation.DirectFromRedeclared) self i, funcs)
          else some (seen1, eraseBase ar1 self i, funcs)

/-- The walk `for (int i = m_bases.size() - 1; i >= 0; i--)`; the first
argument is `i + 1`. -/
def walkBases (rec : AnalysisResult → ClassId → FuncMap → Option (AnalysisResult × FuncMap))
    (self : ClassId) (forInvoke : Bool) :
    Nat → List String → AnalysisResult → FuncMap → Option (AnalysisResult × FuncMap)
  | 0, _, ar, funcs => some (ar, funcs)
  | i + 1, seen, ar, funcs =>
    match walkBase rec self forInvoke i seen ar funcs with
    | none => none
    | some (seen1, ar1, funcs1) => walkBases rec self forInvoke i seen1 ar1 funcs1

/-- The method `ClassScope::collectMethods(ar, funcs, collectPrivate, forInvoke)`
called on class `self`; it returns the new state and the new `funcs`. -/
def collectMethods :
    Nat → AnalysisResult → ClassId → FuncMap → Bool → Bool → Option (AnalysisResult × FuncMap)
  | 0, _, _, _, _, _ => none
  | fuel + 1, ar, self, funcs, collectPrivate, forInvoke =>
    match collectOwn collectPrivate (ar.classScopes self).functions ar funcs with
    | none => none
    | some (ar1, funcs1) =>
      let ar2 := markMissing funcs1 (ar1.classScopes self).missingMethods ar1
      walkBases (fun a c t => collectMethods fuel a c t false forInvoke) self forInvoke
        (ar2.classScopes self).bases.length [(ar2.classScopes self).name] ar2 funcs1

/-! ## `ClassScope::setDynamic` and `ClassScope::findFunction` -/

/-- The loop `BOOST_FOREACH(ClassScopePtr cl, parents) cl->setDynamic(ar, name)`. -/
def forEachClass (rec : AnalysisResult → ClassId → Option AnalysisResult) :
    List ClassId → AnalysisResult → Option AnalysisResult
  | [], ar => some ar
  | cl :: rest, ar =>
    match rec ar cl with
    | none => none
    | some ar1 => forEachClass rec rest ar1

/-- The method `ClassScope::setDynamic(ar, name)` called on class `self`. -/
def setDynamic : Nat → AnalysisResult → ClassId → String → Option AnalysisResult
  | 0, _, _, _ => none
  | fuel + 1, ar, self, name =>
    match mapFind (ar.classScopes self).functions name with
    | some vec => some (vec.foldl setFuncDynamic ar)
    | none =>
      if (ar.classScopes self).parent ≠ "" then
        if (ar.classScopes self).derivesFromRedeclaring = Derivation.DirectFromRedeclared then
          forEachClass (fun a cl => setDynamic fuel a cl name)
            (findClasses ar (ar.classScopes self).parent) ar
        else
          match findClass ar (ar.classScopes self).parent with
          | some parent => setDynamic fuel ar parent name
          | none => some ar
      else some ar

/-- The loop `for (int i = 0; i < s; i++)` of `findFunction` (lines 334-349);
the first numeric argument is `s`, the second is `s - i`.  The result carries
the function when the loop returned one, and nothing when the loop ended or
was left by `break`. -/
def findFunctionBases
    (rec : AnalysisResult → ClassId → Option (AnalysisResult × Option FuncId))
    (self : ClassId) (exclIntfBase : Bool) (s : Nat) :
    Nat → AnalysisResult → Option (AnalysisResult × Option FuncId)
  | 0, ar => some (ar, none)
  | k + 1, ar =>
    match (ar.classScopes self).bases[s - (k + 1)]? with
    | none => none
    | some base =>
      match findClass ar base with
      | none => findFunctionBases rec self exclIntfBase s k ar
      | some super =>
        if exclIntfBase && (ar.classScopes super).isInterface then some (ar, none)
        else if (ar.classScopes super).isRedeclaring then
          if !(ar.classScopes super).isInterface then
            some (setDerives ar self Derivation.DirectFromRedeclared, none)
          else findFunctionBases rec self exclIntfBase s k ar
        else
          match rec ar super with
          | none => none
          | some (ar1, some func) => some (ar1, some func)
          | some (ar1, none) => findFunctionBases rec self exclIntfBase s k ar1

/-- The method `ClassScope::findFunction(ar, name, recursive, exclIntfBase)`
called on class `self`.  A failed `ASSERT(Util::toLower(name) == name)` and a
`back()` of an empty vector give `none`. -/
def findFunction :
    Nat → AnalysisResult → ClassId → String → Bool → Bool →
      Option (AnalysisResult × Option FuncId)
  | 0, _, _, _, _, _ => none
  | fuel + 1, ar, self, name, recursive, exclIntfBase =>
    if toLower name ≠ name then none
    else
      match mapFind (ar.classScopes self).functions name with
      | some vec =>
        match vec.getLast? with
        | none => none
        | some last => some (ar, some last)
      | none =>
        let walked :=
          if recursive then
            findFunctionBases (fun a c => findFunction fuel a c name true exclIntfBase)
              self exclIntfBase (ar.classScopes self).bases.length
              (ar.classScopes self).bases.length ar
          else some (ar, none)
        match walked with
        | none => none
        | some (ar1, some func) => some (ar1, some func)
        | some (ar1, none) =>
          if (ar1.classScopes self).derivesFromRedeclaring = Derivation.DirectFromRedeclared then
            match setDynamic (fuel + 1) ar1 self name with
            | none => none
            | some ar2 => some (ar2, none)
          else some (ar1, none)

/-! ## Concrete class graphs -/

/-- An analysis result built from the list of its class scopes, the list of its
function scopes and the registry; identifiers are positions in the lists. -/
def mkAnalysisResult (classes : List ClassScope) (funcs : List FunctionScope)
    (decs : List (String × List ClassId)) : AnalysisResult :=
  { classScopes := fun c => classes.getD c {}
    functionScopes := fun f => funcs.getD f {}
    classDecs := decs
    codeError := [] }

/-! ## Predicates used in the statements -/

/-- The fields of a class scope that `collectMethods` never writes: everything
but the base list, the volatile flag, the derivation tag and the flags of the
variable table. -/
def classCore (c : ClassScope) : ClassScope :=
  { c with bases := [], volatile := false,
           derivesFromRedeclaring := Derivation.FromNormal, variableTable := {} }

/-- A function scope after `setVirtual()`. -/
def markedVirtual (fs : FunctionScope) : FunctionScope := { fs with virtual := true }

/-- The state `ar1` is a later state of `ar` in a run of `collectMethods`: the
registry and the frozen fields are the same, base lists only lose entries,
flags only widen, function scopes change by `setVirtual()` only, diagnostics
are only appended. -/
structure Evolves (ar ar1 : AnalysisResult) : Prop where
  classDecs : ar1.classDecs = ar.classDecs
  core : ∀ c, classCore (ar1.classScopes c) = classCore (ar.classScopes c)
  bases : ∀ c, (ar1.classScopes c).bases.Sublist (ar.classScopes c).bases
  volatile : ∀ c, (ar.classScopes c).volatile = true → (ar1.classScopes c).volatile = true
  derives : ∀ c, (ar.classScopes c).derivesFromRedeclaring ≠ Derivation.FromNormal →
    (ar1.classScopes c).derivesFromRedeclaring ≠ Derivation.FromNormal
  forced : ∀ c, (ar.classScopes c).variableTable.forcedVariants = true →
    (ar1.classScopes c).variableTable.forcedVariants = true
  needGlobal : ∀ c, (ar.classScopes c).variableTable.needGlobalPointer = true →
    (ar1.classScopes c).variableTable.needGlobalPointer = true
  funcs : ∀ f, ar1.functionScopes f = ar.functionScopes f ∨
    ar1.functionScopes f = markedVirtual (ar.functionScopes f)
  codeError : ar.codeError <+: ar1.codeError

/-- Every entry of `funcs` is still an entry of `funcs1`. -/
def MapLe (funcs funcs1 : FuncMap) : Prop :=
  ∀ name f, mapFind funcs name = some f → mapFind funcs1 name = some f

/-- Every vector of `m_functions` holds a function, in every class: what
`addFunction` establishes and `back()` relies on. -/
def FunctionsNonempty (ar : AnalysisResult) : Prop :=
  ∀ c name vec, (name, vec) ∈ (ar.classScopes c).functions → vec ≠ []

/-- The class graph is acyclic where `rank` is positive: every class registered
under a base name of a class of positive rank, other than the class's own
name, has a smaller positive rank.  Rank zero marks the classes left out of
consideration. -/
def Ranked (ar : AnalysisResult) (rank : ClassId → Nat) : Prop :=
  ∀ c base, 0 < rank c → base ∈ (ar.classScopes c).bases →
    base ≠ (ar.classScopes c).name →
    ∀ d, d ∈ findClasses ar base → 0 < rank d ∧ rank d < rank c

/-- The recursive call handed to the walk only lets the state evolve and only
adds entries to the table. -/
def RecEvolves (rec : AnalysisResult → ClassId → FuncMap → Option (AnalysisResult × FuncMap)) :
    Prop :=
  ∀ ar c funcs ar1 funcs1, rec ar c funcs = some (ar1, funcs1) →
    Evolves ar ar1 ∧ MapLe funcs funcs1

/-- The updates of class `self` after the walk has collected a redeclared
parent (lines 236-239). -/
def afterRedeclaredParent (ar : AnalysisResult) (self : ClassId) : AnalysisResult :=
  setVolatile (setNeedGlobalPointer (forceVariants
    (setDerives ar self Derivation.DirectFromRedeclared) self) self) self

/-- The updates of class `self` after the walk has met a redeclared base that
is not the parent (lines 240-242). -/
def afterRedeclaredBase (ar : AnalysisResult) (self : ClassId) : AnalysisResult :=
  if (ar.classScopes self).isInterface then
    setDerives ar self Derivation.DirectFromRedeclared
  else ar

/-- The updates of class `self` after the walk has collected the unique class
`super` found under `base` (lines 245-253). -/
def afterKnownBase (ar : AnalysisResult) (self super : ClassId) (base : String) :
    AnalysisResult :=
  if (ar.classScopes super).derivesFromRedeclaring ≠ Derivation.FromNormal then
    if base = (ar.classScopes self).parent then
      setVolatile (forceVariants
        (setDerives ar self Derivation.IndirectFromRedeclared) self) self
    else if (ar.classScopes self).isInterface then
      setDerives ar self Derivation.IndirectFromRedeclared
    else ar
  else ar

/-- The updates after the walk has met an unknown base at index `i`
(lines 256-269). -/
def afterUnknownBase (ar : AnalysisResult) (self : ClassId) (base : String) (i : Nat) :
    AnalysisResult :=
  let ar1 := record ar ErrorType.UnknownBaseClass self base
  if base = (ar1.classScopes self).parent then
    setVolatile (forceVariants (setNeedGlobalPointer
      (setDerives ar1 self Derivation.DirectFromRedeclared) self) self) self
  else if (ar1.classScopes self).isInterface then
    eraseBase (setDerives ar1 self Derivation.DirectFromRedeclared) self i
  else eraseBase ar1 self i

/-- The ways one iteration of the walk over the bases can go, at index `i`:
the relation between the values before and after the iteration. -/
inductive WalkStep
    (rec : AnalysisResult → ClassId → FuncMap → Option (AnalysisResult × FuncMap))
    (self : ClassId) (forInvoke : Bool) (i : Nat) (seen : List String)
    (ar : AnalysisResult) (funcs : FuncMap) :
    List String → AnalysisResult → FuncMap → Prop where
  | invalid (base : String) (hbase : (ar.classScopes self).bases[i]? = some base)
      (hseen : base ∈ seen) :
      WalkStep rec self forInvoke i seen ar funcs seen
        (eraseBase (record ar ErrorType.InvalidDerivation self base) self i) funcs
  | skipped (base : String) (hbase : (ar.classScopes self).bases[i]? = some base)
      (hseen : base ∉ seen) (hinvoke : forInvoke = true)
      (hparent : base ≠ (ar.classScopes self).parent) :
      WalkStep rec self forInvoke i seen ar funcs (base :: seen) ar funcs
  | redeclaredParentInvoke (base : String) (super : ClassId)
      (hbase : (ar.classScopes self).bases[i]? = some base) (hseen : base ∉ seen)
      (hinvoke : forInvoke = true) (hparent : base = (ar.classScopes self).parent)
      (hfind : findClass ar base = some super)
      (hredec : (ar.classScopes super).isRedeclaring = true) :
      WalkStep rec self forInvoke i seen ar funcs (base :: seen) ar funcs
  | redeclaredParent (base : String) (super : ClassId) (ar2 : AnalysisResult)
      (funcs2 : FuncMap)
      (hbase : (ar.classScopes self).bases[i]? = some base) (hseen : base ∉ seen)
      (hinvoke : forInvoke = false) (hparent : base = (ar.classScopes self).parent)
      (hfind : findClass ar base = some super)
      (hredec : (ar.classScopes super).isRedeclaring = true)
      (hcands : collectCandidates rec funcs
        (findClasses ar (ar.classScopes self).parent) ar funcs = some (ar2, funcs2)) :
      WalkStep rec self forInvoke i seen ar funcs (base :: seen)
        (afterRedeclaredParent ar2 self) funcs2
  | redeclaredBase (base : String) (super : ClassId)
      (hbase : (ar.classScopes self).bases[i]? = some base) (hseen : base ∉ seen)
      (hinvoke : forInvoke = false) (hparent : base ≠ (ar.classScopes self).parent)
      (hfind : findClass ar base = some super)
      (hredec : (ar.classScopes super).isRedeclaring = true) :
      WalkStep rec self forInvoke i seen ar funcs (base :: seen)
        (afterRedeclaredBase ar self) funcs
  | known (base : String) (super : ClassId) (ar2 : AnalysisResult) (funcs2 : FuncMap)
      (hbase : (ar.classScopes self).bases[i]? = some base) (hseen : base ∉ seen)
      (hfollow : forInvoke = false ∨ base = (ar.classScopes self).parent)
      (hfind : findClass ar base = some super)
      (hredec : (ar.classScopes super).isRedeclaring = false)
      (hcall : rec ar super funcs = some (ar2, funcs2)) :
      WalkStep rec self forInvoke i seen ar funcs (base :: seen)
        (afterKnownBase ar2 self super base) funcs2
  | unknown (base : String)
      (hbase : (ar.classScopes self).bases[i]? = some base) (hseen : base ∉ seen)
      (hfollow : forInvoke = false ∨ base = (ar.classScopes self).parent)
      (hfind : findClass ar base = none) :
      WalkStep rec self forInvoke i seen ar funcs (base :: seen)
        (afterUnknownBase ar self base i) funcs

/-- Between `ar` and `ar1` no class scope changed but those of positive rank
below `r`. -/
def FrameAbove (rank : ClassId → Nat) (r : Nat) (ar ar1 : AnalysisResult) : Prop :=
  ∀ x, ¬(0 < rank x ∧ rank x < r) → ar1.classScopes x = ar.classScopes x

/-- The recursive call handed to the walk, made on a class of positive rank
below `bound` in an acyclic graph, changes no class scope of another rank. -/
def RecFrame (rank : ClassId → Nat) (bound : Nat)
    (rec : AnalysisResult → ClassId → FuncMap → Option (AnalysisResult × FuncMap)) : Prop :=
  ∀ ar d funcs ar1 funcs1, Ranked ar rank → 0 < rank d → rank d < bound →
    rec ar d funcs = some (ar1, funcs1) → FrameAbove rank bound ar ar1

/-- The recursive call handed to the walk returns on every class of positive
rank below `bound` in an acyclic graph whose function vectors are non-empty. -/
def RecTotal (rank : ClassId → Nat) (bound : Nat)
    (rec : AnalysisResult → ClassId → FuncMap → Option (AnalysisResult × FuncMap)) : Prop :=
  ∀ ar d funcs, Ranked ar rank → FunctionsNonempty ar → 0 < rank d → rank d < bound →
    ∃ r, rec ar d funcs = some r

/-- Between `ar` and `ar1` no class scope changed but that of `self`. -/
def OnlySelf (self : ClassId) (ar ar1 : AnalysisResult) : Prop :=
  ∀ x, x ≠ self → ar1.classScopes x = ar.classScopes x

/-! ## Concrete class graphs used as inputs -/

/-- The chain `a` extends `b` extends `c`: `b` declares `foo` (function 0),
`c` declares `foo` (function 1) and `bar` (function 2), `a` declares nothing. -/
def chainGraph : AnalysisResult := mkAnalysisResult
  [ { name := "a", parent := "b", bases := ["b"] },
    { name := "b", parent := "c", bases := ["c"], functions := [("foo", [0])] },
    { name := "c", functions := [("foo", [1]), ("bar", [2])] } ]
  [ { name := "foo" }, { name := "foo" }, { name := "bar" } ]
  [("a", [0]), ("b", [1]), ("c", [2])]

/-- A rank for `chainGraph`: 3 for `a`, 2 for `b`, 1 for `c`. -/
def chainRank (c : ClassId) : Nat := 3 - c

/-- Two classes that derive from each other: the parent of `a` is `b` and the
parent of `b` is `a`; `a` declares `foo` (function 0), `b` declares `bar`
(function 1). -/
def cycleGraph : AnalysisResult := mkAnalysisResult
  [ { name := "a", parent := "b", bases := ["b"], functions := [("foo", [0])] },
    { name := "b", parent := "a", bases := ["a"], functions := [("bar", [1])] } ]
  [ { name := "foo" }, { name := "bar" } ]
  [("a", [0]), ("b", [1])]

/-- A class that names itself as its parent: `class A extends A`. -/
def selfParentGraph : AnalysisResult := mkAnalysisResult
  [ { name := "a", parent := "a", bases := ["a"] } ] [] [("a", [0])]

/-- The chain `a` extends `b` extends `c` where the `foo` of `b` (function 0)
is private and the `foo` of `c` (function 1) is public. -/
def privateChainGraph : AnalysisResult := mkAnalysisResult
  [ { name := "a", parent := "b", bases := ["b"] },
    { name := "b", parent := "c", bases := ["c"], functions := [("foo", [0])] },
    { name := "c", functions := [("foo", [1])] } ]
  [ { name := "foo", isPrivate := true }, { name := "foo" } ]
  [("a", [0]), ("b", [1]), ("c", [2])]

/-- Whatever `rec1` returns, `rec2` returns too. -/
def RecLe (rec1 rec2 : AnalysisResult → ClassId → FuncMap → Option (AnalysisResult × FuncMap)) :
    Prop :=
  ∀ ar c funcs r, rec1 ar c funcs = some r → rec2 ar c funcs = some r

/-- The iterations of the walk over the bases at the indices `lo + n - 1` down
to `lo`; the set of seen names is returned as well.  `walkBases` is the case
`lo = 0`. -/
def walkRange (rec : AnalysisResult → ClassId → FuncMap → Option (AnalysisResult × FuncMap))
    (self : ClassId) (forInvoke : Bool) (lo : Nat) :
    Nat → List String → AnalysisResult → FuncMap →
      Option (List String × AnalysisResult × FuncMap)
  | 0, seen, ar, funcs => some (seen, ar, funcs)
  | n + 1, seen, ar, funcs =>
    match walkBase rec self forInvoke (lo + n) seen ar funcs with
    | none => none
    | some (seen1, ar1, funcs1) => walkRange rec self forInvoke lo n seen1 ar1 funcs1

/-- A class `x` (class 0) of a redeclaration group that names its own group as
its parent: `class X extends X` beside a second declaration of `X` (class 1)
that declares `m` (function 0).  Both carry what `setRedeclaring` sets. -/
def selfGroupGraph : AnalysisResult := mkAnalysisResult
  [ { name := "x", parent := "x", bases := ["x"], redeclaring := 0, volatile := true,
      variableTable := { forcedVariants := true } },
    { name := "x", functions := [("m", [0])], redeclaring := 1, volatile := true,
      variableTable := { forcedVariants := true } } ]
  [ { name := "m", dynamic := true } ]
  [("x", [0, 1])]

/-- A class `x` (class 0) whose parent `ghost` is not registered. -/
def ghostGraph : AnalysisResult := mkAnalysisResult
  [ { name := "x", parent := "ghost", bases := ["ghost"] } ] [] [("x", [0])]

/-- A rank for the graphs whose only class with bases is class 0 and whose
other classes are ranked below it: 2 for class 0, 1 for classes 1 and 2. -/
def rootRank (c : ClassId) : Nat := if c = 0 then 2 else if c ≤ 2 then 1 else 0

/-- A class `child` (class 0) that declares `own` (function 0) and whose
parent name `p` resolves to a redeclaration group of two classes: the first
(class 1) declares `m` (function 1) and `only1` (function 2), the second
(class 2) declares `m` (function 3) and `own` (function 4). -/
def groupGraph : AnalysisResult := mkAnalysisResult
  [ { name := "child", parent := "p", bases := ["p"], functions := [("own", [0])] },
    { name := "p", functions := [("m", [1]), ("only1", [2])], redeclaring := 0,
      volatile := true, variableTable := { forcedVariants := true } },
    { name := "p", functions := [("m", [3]), ("own", [4])], redeclaring := 1,
      volatile := true, variableTable := { forcedVariants := true } } ]
  [ { name := "own" }, { name := "m", dynamic := true }, { name := "only1", dynamic := true },
    { name := "m", dynamic := true }, { name := "own", dynamic := true } ]
  [("child", [0]), ("p", [1, 2])]

/-- The first table of `curs` that holds `name` decides. -/
def firstFound : List FuncMap → String → Option FuncId
  | [], _ => none
  | cur :: rest, name =>
    match mapFind cur name with
    | some f => some f
    | none => firstFound rest name

/-- The runs of the loop over the candidates of a redeclared parent: each
candidate is collected by `rec`, in turn, into its own copy of `pristine`;
`curs` lists the tables obtained, in the order of the candidates. -/
inductive CandidateRuns
    (rec : AnalysisResult → ClassId → FuncMap → Option (AnalysisResult × FuncMap))
    (pristine : FuncMap) : List ClassId → AnalysisResult → List FuncMap → AnalysisResult → Prop
    where
  | nil (ar : AnalysisResult) : CandidateRuns rec pristine [] ar [] ar
  | cons (cls : ClassId) (rest : List ClassId) (ar ar1 ar2 : AnalysisResult) (cur : FuncMap)
      (curs : List FuncMap) (hcall : rec ar cls pristine = some (ar1, cur))
      (hrest : CandidateRuns rec pristine rest ar1 curs ar2) :
      CandidateRuns rec pristine (cls :: rest) ar (cur :: curs) ar2

/-! ## Reference semantics of the merged table

`collectMethods` erases bases and records diagnostics as it goes, so that a
second run walks other base lists than the first.  The functions below compute
the table and the methods marked virtual from the bases a walk keeps, without
changing the state; `collectMethods` is proved to agree with them. -/

/-- The walk of `self` erases `base` as an unknown base: the lookup is reached
and fails, and `base` is not the parent. -/
def erasable (ar : AnalysisResult) (self : ClassId) (forInvoke : Bool) (base : String) : Bool :=
  !forInvoke && (findClass ar base).isNone && decide (base ≠ (ar.classScopes self).parent)

/-- The bases the walk keeps, of the bases `pending` given in the order of the
walk: a base already seen is dropped, an erasable base is dropped and seen. -/
def keptRev (erase : String → Bool) : List String → List String → List String
  | [], _ => []
  | base :: pending, seen =>
    if base ∈ seen then keptRev erase pending seen
    else if erase base then keptRev erase pending (base :: seen)
    else base :: keptRev erase pending (base :: seen)

/-- The names seen once the walk has gone over `pending`. -/
def seenAfter : List String → List String → List String
  | [], seen => seen
  | base :: pending, seen =>
    if base ∈ seen then seenAfter pending seen else seenAfter pending (base :: seen)

/-- The bases the walk of `self` keeps, in the order of the walk (last base
first). -/
def keptBases (ar : AnalysisResult) (self : ClassId) (forInvoke : Bool) : List String :=
  keptRev (erasable ar self forInvoke) (ar.classScopes self).bases.reverse
    [(ar.classScopes self).name]

/-- The function store after `setVirtual()` on the functions of `marks`. -/
def markFuncs (marks : List FuncId) (fs : FuncId → FunctionScope) : FuncId → FunctionScope :=
  fun f => if f ∈ marks then markedVirtual (fs f) else fs f

/-- The first loop of `collectMethods`, on the table and the list of marked
functions only. -/
def pureOwn (ar : AnalysisResult) (collectPrivate : Bool) :
    List (String × List FuncId) → FuncMap → List FuncId → Option (FuncMap × List FuncId)
  | [], funcs, marks => some (funcs, marks)
  | (name, vec) :: rest, funcs, marks =>
    match vec.getLast? with
    | none => none
    | some last =>
      if !collectPrivate && (ar.functionScopes last).isPrivate then
        pureOwn ar collectPrivate rest funcs marks
      else
        match mapFind funcs name with
        | none => pureOwn ar collectPrivate rest (mapAdd funcs name last) marks
        | some existing => pureOwn ar collectPrivate rest funcs (last :: existing :: marks)

/-- The loop over the missing methods, on the list of marked functions. -/
def pureMissing (funcs : FuncMap) : List String → List FuncId → List FuncId
  | [], marks => marks
  | miss :: rest, marks =>
    match mapFind funcs miss with
    | some f => pureMissing funcs rest (f :: marks)
    | none => pureMissing funcs rest marks

/-- The loop over the candidates of a redeclared parent, on the table and the
list of marked functions. -/
def pureCandidates (rec : ClassId → FuncMap → Option (FuncMap × List FuncId))
    (pristine : FuncMap) :
    List ClassId → FuncMap → List FuncId → Option (FuncMap × List FuncId)
  | [], funcs, marks => some (funcs, marks)
  | cls :: rest, funcs, marks =>
    match rec cls pristine with
    | none => none
    | some (cur, marks1) =>
      pureCandidates rec pristine rest (mapInsertAll funcs cur) (marks1 ++ marks)

/-- The visit of one kept base, on the table and the list of marked functions. -/
def pureVisit (rec : ClassId → FuncMap → Option (FuncMap × List FuncId))
    (ar : AnalysisResult) (self : ClassId) (forInvoke : Bool) (base : String)
    (funcs : FuncMap) (marks : List FuncId) : Option (FuncMap × List FuncId) :=
  if forInvoke && base != (ar.classScopes self).parent then some (funcs, marks)
  else
    match findClass ar base with
    | some super =>
      if (ar.classScopes super).isRedeclaring then
        if base = (ar.classScopes self).parent then
          if forInvoke then some (funcs, marks)
          else pureCandidates rec funcs (findClasses ar (ar.classScopes self).parent)
            funcs marks
        else some (funcs, marks)
      else
        match rec super funcs with
        | none => none
        | some (funcs1, marks1) => some (funcs1, marks1 ++ marks)
    | none => some (funcs, marks)

/-- The visits of the kept bases, in the order of the walk. -/
def pureWalk (rec : ClassId → FuncMap → Option (FuncMap × List FuncId))
    (ar : AnalysisResult) (self : ClassId) (forInvoke : Bool) :
    List String → FuncMap → List FuncId → Option (FuncMap × List FuncId)
  | [], funcs, marks => some (funcs, marks)
  | base :: rest, funcs, marks =>
    match pureVisit rec ar self forInvoke base funcs marks with
    | none => none
    | some (funcs1, marks1) => pureWalk rec ar self forInvoke rest funcs1 marks1

/-- The table `collectMethods` produces on class `self` and the functions it
marks virtual, computed on the unchanged state `ar`. -/
def pureCollect :
    Nat → AnalysisResult → ClassId → FuncMap → Bool → Bool → Option (FuncMap × List FuncId)
  | 0, _, _, _, _, _ => none
  | fuel + 1, ar, self, funcs, collectPrivate, forInvoke =>
    match pureOwn ar collectPrivate (ar.classScopes self).functions funcs [] with
    | none => none
    | some (funcs1, marks1) =>
      pureWalk (fun c t => pureCollect fuel ar c t false forInvoke) ar self forInvoke
        (keptBases ar self forInvoke) funcs1
        (pureMissing funcs1 (ar.classScopes self).missingMethods marks1)

/-- The state `ar` is a later state of `ar0` for the reference semantics: the
registry, the frozen fields and the visibility of the functions are the same,
and every class of positive rank below `bound` keeps the same bases in its
walk. -/
structure KeptRel (rank : ClassId → Nat) (bound : Nat) (forInvoke : Bool)
    (ar0 ar : AnalysisResult) : Prop where
  classDecs : ar.classDecs = ar0.classDecs
  core : ∀ x, classCore (ar.classScopes x) = classCore (ar0.classScopes x)
  isPrivate : ∀ f, (ar.functionScopes f).isPrivate = (ar0.functionScopes f).isPrivate
  kept : ∀ x, 0 < rank x → rank x < bound →
    keptBases ar x forInvoke = keptBases ar0 x forInvoke

/-- The recursive call handed to the walk agrees with the reference `prec`: on
a class of positive rank below `bound`, from a later state of `ar0`, it returns
the table of `prec`, marks the functions of `prec` and leaves a later state of
`ar0`. -/
def RecRefines (rank : ClassId → Nat) (bound : Nat) (forInvoke : Bool) (ar0 : AnalysisResult)
    (rec : AnalysisResult → ClassId → FuncMap → Option (AnalysisResult × FuncMap))
    (prec : ClassId → FuncMap → Option (FuncMap × List FuncId)) : Prop :=
  ∀ ar d funcs ar1 funcs1, Ranked ar rank → KeptRel rank bound forInvoke ar0 ar →
    0 < rank d → rank d < bound → rec ar d funcs = some (ar1, funcs1) →
    ∃ marks, prec d funcs = some (funcs1, marks) ∧
      ar1.functionScopes = markFuncs marks ar.functionScopes ∧
      KeptRel rank bound forInvoke ar0 ar1

/-- Between `ar` and `ar1` no class scope changed but that of `self` and those
of positive rank below the rank of `self`. -/
def FrameSelf (rank : ClassId → Nat) (self : ClassId) (ar ar1 : AnalysisResult) : Prop :=
  ∀ x, x ≠ self → ¬(0 < rank x ∧ rank x < rank self) →
    ar1.classScopes x = ar.classScopes x

/-- Two reference recursive calls agree at the name `n`: from tables that
agree at `n` they return tables that agree at `n`. -/
def RecAgree (n : String) (rec1 rec2 : ClassId → FuncMap → Option (FuncMap × List FuncId)) :
    Prop :=
  ∀ c funcs1 funcs2 r1 r2, rec1 c funcs1 = some r1 → rec2 c funcs2 = some r2 →
    mapFind funcs1 n = mapFind funcs2 n → mapFind r1.1 n = mapFind r2.1 n

/-- A reference recursive call only adds entries to the table. -/
def RecKeeps (rec : ClassId → FuncMap → Option (FuncMap × List FuncId)) : Prop :=
  ∀ c funcs r, rec c funcs = some r → MapLe funcs r.1

/-- A class `c` (class 0) with the parent `p` (class 1) and the interfaces
`i1` (class 2) and `i2` (class 3); the three bases declare `m`, as the
functions 0, 1 and 2. -/
def threeBaseGraph : AnalysisResult := mkAnalysisResult
  [ { name := "c", parent := "p", bases := ["p", "i1", "i2"] },
    { name := "p", functions := [("m", [0])] },
    { name := "i1", kindOf := KindOf.KindOfInterface, functions := [("m", [1])] },
    { name := "i2", kindOf := KindOf.KindOfInterface, functions := [("m", [2])] } ]
  [ { name := "m" }, { name := "m" }, { name := "m" } ]
  [("c", [0]), ("p", [1]), ("i1", [2]), ("i2", [3])]

/-- A rank for `threeBaseGraph`: 2 for class 0, 1 for the classes 1 to 3. -/
def baseRank (c : ClassId) : Nat := if c = 0 then 2 else if c ≤ 3 then 1 else 0

/-- A class `c` (class 0) with the parent `p` (class 1) and the interfaces
`i1` (class 2) and `i2` (class 3): `p` declares `m` (function 0), `i1`
declares `m` (function 1), `i2` declares `other` (function 2). -/
def mixedBaseGraph : AnalysisResult := mkAnalysisResult
  [ { name := "c", parent := "p", bases := ["p", "i1", "i2"] },
    { name := "p", functions := [("m", [0])] },
    { name := "i1", kindOf := KindOf.KindOfInterface, functions := [("m", [1])] },
    { name := "i2", kindOf := KindOf.KindOfInterface, functions := [("other", [2])] } ]
  [ { name := "m" }, { name := "m" }, { name := "other" } ]
  [("c", [0]), ("p", [1]), ("i1", [2]), ("i2", [3])]

/-- The states `s` and `s1` have the same registry, the same function scopes
and the same scopes of the classes of positive rank below `bound`. -/
structure AgreeLow (rank : ClassId → Nat) (bound : Nat) (s s1 : AnalysisResult) : Prop where
  classDecs : s1.classDecs = s.classDecs
  functionScopes : s1.functionScopes = s.functionScopes
  low : ∀ y, 0 < rank y → rank y < bound → s1.classScopes y = s.classScopes y

/-- The recursive call handed to the walk is local: made on a class of positive
rank below `bound` from two states that agree below `bound`, it returns the
same table and leaves states that agree below `bound`. -/
def RecLocal (rank : ClassId → Nat) (bound : Nat)
    (rec : AnalysisResult → ClassId → FuncMap → Option (AnalysisResult × FuncMap)) : Prop :=
  ∀ s s1 d funcs s2 funcs2, Ranked s rank → Ranked s1 rank → AgreeLow rank bound s s1 →
    0 < rank d → rank d < bound → rec s d funcs = some (s2, funcs2) →
    ∃ s3, rec s1 d funcs = some (s3, funcs2) ∧ AgreeLow rank bound s2 s3

/-- The class scopes `c` and `c1` differ at most in their base lists. -/
def SameButBases (c c1 : ClassScope) : Prop :=
  { c1 with bases := [] } = { c with bases := [] }

/-- The diagnostic `UnknownBaseClass` that class `self` records for `base`. -/
def unknownBaseRecord (self : ClassId) (base : String) : ErrorRecord :=
  { kind := ErrorType.UnknownBaseClass, construct1 := Construct.classStmt self,
    construct2 := Construct.null, data := base }

/-- A class `x` (class 0) with the registered parent `p` (class 1), which
declares `m` (function 0), and the unregistered interface name `ghost` in its
base list. -/
def ghostBaseGraph : AnalysisResult := mkAnalysisResult
  [ { name := "x", parent := "p", bases := ["p", "ghost"] },
    { name := "p", functions := [("m", [0])] } ]
  [ { name := "m" } ]
  [("x", [0]), ("p", [1])]

/-- The reference computation on class `c` returns with fuel `g`; whether it
does depends neither on the table nor on `collectPrivate`. -/
def Returns (ar0 : AnalysisResult) (forInvoke : Bool) (g : Nat) (c : ClassId) : Prop :=
  (pureCollect g ar0 c [] false forInvoke).isSome = true

/-- Whenever the reference computation on `c` returns, the one on `y` returns
with no more fuel: `y` is `c` or a class the computation on `c` goes through. -/
def BelowLe (ar0 : AnalysisResult) (forInvoke : Bool) (y c : ClassId) : Prop :=
  ∀ g, Returns ar0 forInvoke g c → ∃ g1, g1 ≤ g ∧ Returns ar0 forInvoke g1 y

/-- The reference computation on `c` calls the one on `d`. -/
def Edge (ar0 : AnalysisResult) (forInvoke : Bool) (c d : ClassId) : Prop :=
  ∀ g, Returns ar0 forInvoke (g + 1) c → Returns ar0 forInvoke g d

/-- The state `ar` is a later state of `ar0` for the reference semantics, on
every class: the registry, the frozen fields and the visibility of the
functions are the same and every class keeps the same bases in its walk. -/
structure Later (forInvoke : Bool) (ar0 ar : AnalysisResult) : Prop where
  classDecs : ar.classDecs = ar0.classDecs
  core : ∀ x, classCore (ar.classScopes x) = classCore (ar0.classScopes x)
  isPrivate : ∀ f, (ar.functionScopes f).isPrivate = (ar0.functionScopes f).isPrivate
  kept : ∀ x, keptBases ar x forInvoke = keptBases ar0 x forInvoke

/-- The state `ar` is a later state of `ar0` for the reference semantics on
every class but `c`, whose walk is under way. -/
structure LaterBut (c : ClassId) (forInvoke : Bool) (ar0 ar : AnalysisResult) : Prop where
  classDecs : ar.classDecs = ar0.classDecs
  core : ∀ x, classCore (ar.classScopes x) = classCore (ar0.classScopes x)
  isPrivate : ∀ f, (ar.functionScopes f).isPrivate = (ar0.functionScopes f).isPrivate
  kept : ∀ x, x ≠ c → keptBases ar x forInvoke = keptBases ar0 x forInvoke

/-- What the walk has established when it is about to visit index `k - 1` of
the base list `l`: the class's own name is seen, the entries from `k` upwards
are the bases kept so far, distinct, seen and not erasable, and every name seen
is the class's name, one of these entries or an erasable name. -/
structure WalkInv (erase : String → Bool) (nm : String) (k : Nat) (seen l : List String) :
    Prop where
  name : nm ∈ seen
  upper : ∀ b, b ∈ l.drop k → b ∈ seen ∧ erase b = false ∧ b ≠ nm
  nodup : (l.drop k).Nodup
  seen : ∀ b, b ∈ seen → b = nm ∨ b ∈ l.drop k ∨ erase b = true
  le : k ≤ l.length

/-- The runs with fuel `g` agree with the reference computation: a run on a
class `d` from a later state of `ar0` that returns gives the table and the
marked functions of the reference computation, leaves a later state of `ar0`
and changes only classes the computation on `d` goes through; and the run
returns whenever the reference computation does. -/
def RecSim (forInvoke : Bool) (ar0 : AnalysisResult) (g : Nat) : Prop :=
  ∀ a d t, Later forInvoke ar0 a →
    (∀ a1 t1, collectMethods g a d t false forInvoke = some (a1, t1) →
      ∃ marks, pureCollect g ar0 d t false forInvoke = some (t1, marks) ∧
        a1.functionScopes = markFuncs marks a.functionScopes ∧ Later forInvoke ar0 a1 ∧
        ∀ y, ¬BelowLe ar0 forInvoke y d → a1.classScopes y = a.classScopes y) ∧
    ((pureCollect g ar0 d t false forInvoke).isSome = true →
      (collectMethods g a d t false forInvoke).isSome = true)

/-- The recursive call `rec` of the walk of `self`, cut down to the calls made
on a class that is not redeclared and is the one found under the parent name of
`self`: every other call does not return. -/
def parentCallOnly (self : ClassId)
    (rec : AnalysisResult → ClassId → FuncMap → Option (AnalysisResult × FuncMap)) :
    AnalysisResult → ClassId → FuncMap → Option (AnalysisResult × FuncMap) :=
  fun a d t =>
    if findClass a (a.classScopes self).parent = some d ∧
        (a.classScopes d).isRedeclaring = false then rec a d t
    else none

/-- A class `c` (class 0) whose parent `p` (class 1) is a single class that
extends the unregistered name `ghost`. -/
def taggedParentGraph : AnalysisResult := mkAnalysisResult
  [ { name := "c", parent := "p", bases := ["p"] },
    { name := "p", parent := "ghost", bases := ["ghost"] } ]
  []
  [("c", [0]), ("p", [1])]

/-- An interface `i` (class 0) that extends the interface `j` (class 1), which
extends the unregistered name `ghost`. -/
def taggedInterfaceGraph : AnalysisResult := mkAnalysisResult
  [ { name := "i", kindOf := KindOf.KindOfInterface, bases := ["j"] },
    { name := "j", kindOf := KindOf.KindOfInterface, bases := ["ghost"] } ]
  []
  [("i", [0]), ("j", [1])]

/-! ## `ClassScope::addFunction` -/

/-- Modelled from the spec: `FunctionScope::setRedeclaring` is declared in
`function_scope.h`; the call `fs->setRedeclaring(i)` marks the declaration
redeclaring, with the index `i`. -/
def setFuncRedeclaring (ar : AnalysisResult) (f : FuncId) (i : Int) : AnalysisResult :=
  ar.updFunc f (fun fs => { fs with redeclaring := i })

/-- The diagnostic `DeclaredFunctionTwice` recorded for the declaration
`second` against the first declaration `first`. -/
def declaredTwiceRecord (second first : FuncId) : ErrorRecord :=
  { kind := ErrorType.DeclaredFunctionTwice, construct1 := Construct.funcStmt second,
    construct2 := Construct.funcStmt first, data := "" }

/-- The call `ar->getCodeError()->record(CodeError::DeclaredFunctionTwice,
funcScope->getStmt(), funcs[0]->getStmt())`. -/
def recordTwice (ar : AnalysisResult) (second first : FuncId) : AnalysisResult :=
  { ar with codeError := ar.codeError ++ [declaredTwiceRecord second first] }

/-- The assignment to the element `m[key]` of a string-keyed map: the entry of
the key is replaced, or a new entry is added. -/
def mapSet {β : Type} : List (String × β) → String → β → List (String × β)
  | [], key, v => [(key, v)]
  | (k, w) :: rest, key, v =>
    if k = key then (k, v) :: rest else (k, w) :: mapSet rest key v

/-- The method `ClassScope::addFunction(ar, funcScope)` called on class `self`
(lines 1098-1112); `funcs` is the vector `m_functions[funcScope->getName()]`,
empty when the name was absent. -/
def addFunction (ar : AnalysisResult) (self : ClassId) (funcScope : FuncId) :
    AnalysisResult × Bool :=
  let name := (ar.functionScopes funcScope).name
  let funcs := (mapFind (ar.classScopes self).functions name).getD []
  let ar1 :=
    match funcs with
    | [first] => recordTwice (setFuncRedeclaring ar first 0) funcScope first
    | _ => ar
  let ar2 := if 0 < funcs.length then setFuncRedeclaring ar1 funcScope funcs.length else ar1
  (ar2.updClass self (fun c =>
    { c with functions := mapSet c.functions name (funcs ++ [funcScope]) }), true)

/-- The marks and the diagnostic of `addFunction` (lines 1101-1109), by the
vector `v` found under the name of the declaration `f`. -/
def addMarks (a : AnalysisResult) (f : FuncId) : List FuncId → AnalysisResult
  | [] => a
  | [first] => setFuncRedeclaring (recordTwice (setFuncRedeclaring a first 0) f first) f 1
  | first :: second :: tl => setFuncRedeclaring a f ((first :: second :: tl).length : Nat)

/-- The assignment of the vector `vec` to `m_functions[name]` in class `c`. -/
def setFunctions (a : AnalysisResult) (c : ClassId) (name : String) (vec : List FuncId) :
    AnalysisResult :=
  a.updClass c (fun cs => { cs with functions := mapSet cs.functions name vec })

/-- The diagnostic `r` is a `DeclaredFunctionTwice` recorded for a declaration
named `n`. -/
def declaredTwiceFor (ar : AnalysisResult) (n : String) (r : ErrorRecord) : Bool :=
  decide (r.kind = ErrorType.DeclaredFunctionTwice) &&
    match r.construct1 with
    | Construct.funcStmt f => decide ((ar.functionScopes f).name = n)
    | _ => false

/-- The declarations of `done` named `m`, in the order of `done`. -/
def namedIn (ar : AnalysisResult) (done : List FuncId) (m : String) : List FuncId :=
  done.filter (fun f => decide ((ar.functionScopes f).name = m))

/-- What holds once the declarations `done` have been added, in turn, to the
class `c` that had no method in the state `ar`: the vectors of `m_functions`
list the declarations added under each name, names are unchanged, the
declarations of a name added twice or more carry their positions, and for each
such name one diagnostic was recorded. -/
structure AddInv (ar : AnalysisResult) (c : ClassId) (done : List FuncId)
    (a : AnalysisResult) : Prop where
  functions : ∀ m, mapFind (a.classScopes c).functions m =
    if namedIn ar done m = [] then none else some (namedIn ar done m)
  names : ∀ f, (a.functionScopes f).name = (ar.functionScopes f).name
  indices : ∀ m, 2 ≤ (namedIn ar done m).length →
    ∀ (j : Nat) f, (namedIn ar done m)[j]? = some f → (a.functionScopes f).redeclaring = j
  errors : ∃ news, a.codeError = ar.codeError ++ news ∧
    ∀ m, news.filter (declaredTwiceFor ar m) =
      match namedIn ar done m with
      | first :: second :: _ => [declaredTwiceRecord second first]
      | _ => []

/-- A class `k` (class 0) without methods yet, and four function scopes: three
named `bar` (functions 0, 2 and 3) and one named `foo` (function 1). -/
def emptyClassGraph : AnalysisResult := mkAnalysisResult
  [ { name := "k" } ]
  [ { name := "bar" }, { name := "foo" }, { name := "bar" }, { name := "bar" } ]
  [("k", [0])]

/-- The class graph is acyclic where `rank` is positive: every class registered
under the parent name or under a base name of a class of positive rank has a
smaller positive rank. -/
def Acyclic (ar : AnalysisResult) (rank : ClassId → Nat) : Prop :=
  ∀ c base, 0 < rank c →
    (base = (ar.classScopes c).parent ∨ base ∈ (ar.classScopes c).bases) →
    ∀ d, d ∈ findClasses ar base → 0 < rank d ∧ rank d < rank c

/-- A function scope after `setDynamic()`. -/
def markedDynamic (fs : FunctionScope) : FunctionScope := { fs with dynamic := true }

/-- The state `ar1` is a later state of `ar` in a run of `findFunction` or of
`setDynamic`: the registry and the diagnostics are the same, class scopes
differ at most in a derivation tag that became `DirectFromRedeclared`, and
function scopes change by `setDynamic()` only. -/
structure Flagged (ar ar1 : AnalysisResult) : Prop where
  classDecs : ar1.classDecs = ar.classDecs
  scopes : ∀ c, ar1.classScopes c = ar.classScopes c ∨
    ar1.classScopes c =
      { ar.classScopes c with derivesFromRedeclaring := Derivation.DirectFromRedeclared }
  funcs : ∀ f, ar1.functionScopes f = ar.functionScopes f ∨
    ar1.functionScopes f = markedDynamic (ar.functionScopes f)
  codeError : ar1.codeError = ar.codeError

/-- A class `c` (class 0) without a tag whose parent name `p` is registered
for a redeclaration group of two classes; only the second (class 2) declares
`m` (function 0). -/
def untaggedGroupGraph : AnalysisResult := mkAnalysisResult
  [ { name := "c", parent := "p", bases := ["p"] },
    { name := "p", redeclaring := 0 },
    { name := "p", functions := [("m", [0])], redeclaring := 1 } ]
  [ { name := "m" } ]
  [("c", [0]), ("p", [1, 2])]

/-- The graph `untaggedGroupGraph` once class 0 is tagged
`DirectFromRedeclared`. -/
def taggedGroupGraph : AnalysisResult :=
  setDerives untaggedGroupGraph 0 Derivation.DirectFromRedeclared

/-- The name `n` is not found in class `s`: whenever `findFunction` on `s`,
run from a later state of `ar`, returns, it returns no function. -/
def NotFoundIn (ar : AnalysisResult) (n : String) (exclIntfBase : Bool) (s : ClassId) : Prop :=
  ∀ fuel a a1 r, Flagged ar a → findFunction fuel a s n true exclIntfBase = some (a1, r) →
    r = none

/-- The walk of `findFunction` passes over the base name `base` and goes on:
the name is unregistered, or it resolves to a class that does not end the walk
(no interface when `exclIntfBase` is set, no redeclared class that is not an
interface) and in which `n` is not found. -/
def PassedOver (ar : AnalysisResult) (n : String) (exclIntfBase : Bool) (base : String) :
    Prop :=
  ∀ s, findClass ar base = some s →
    (exclIntfBase = true → (ar.classScopes s).isInterface = false) ∧
    ((ar.classScopes s).isRedeclaring = true → (ar.classScopes s).isInterface = true) ∧
    ((ar.classScopes s).isRedeclaring = false → NotFoundIn ar n exclIntfBase s)

/-- A class `c` (class 0) with the parent `p` and the bases `ghost`, `i`, `p`,
`q` in this order: `ghost` is unregistered, `i` (class 1) is an interface
without methods, `p` is registered for a redeclaration group of two classes
(classes 2 and 3) that declare `m` (functions 0 and 1), and `q` (class 4)
declares `m` (function 2). -/
def lookupGraph : AnalysisResult := mkAnalysisResult
  [ { name := "c", parent := "p", bases := ["ghost", "i", "p", "q"] },
    { name := "i", kindOf := KindOf.KindOfInterface },
    { name := "p", functions := [("m", [0])], redeclaring := 0 },
    { name := "p", functions := [("m", [1])], redeclaring := 1 },
    { name := "q", functions := [("m", [2])] } ]
  [ { name := "m" }, { name := "m" }, { name := "m" } ]
  [("c", [0]), ("i", [1]), ("p", [2, 3]), ("q", [4])]

/-- A rank for `lookupGraph`: 2 for class 0, 1 for the classes 1 to 4. -/
def lookupRank (c : ClassId) : Nat := if c = 0 then 2 else if c ≤ 4 then 1 else 0

/-! ## `ClassScope::findConstructor` -/

/-- Modelled from the spec: `ClassScope::getAttribute` is declared in
`class_scope.h`; the attribute set `m_attribute` is a set of bit flags, and the
test is whether a bit of `attr` is set. -/
def ClassScope.getAttribute (c : ClassScope) (attr : Nat) : Bool := (c.attrs &&& attr) != 0

/-- The method `ClassScope::findConstructor(ar, recursive)` called on class
`self` (lines 358-388).  The test `classNameCtor()` is declared in
`class_scope.h`: it reads the attribute `ClassNameConstructor`, whose value
`classNameConstructor` is taken as a parameter. -/
def findConstructor (classNameConstructor : Nat) :
    Nat → AnalysisResult → ClassId → Bool → Option (AnalysisResult × Option FuncId)
  | 0, _, _, _ => none
  | fuel + 1, ar, self, recursive =>
    let name :=
      if (ar.classScopes self).getAttribute classNameConstructor then (ar.classScopes self).name
      else "__construct"
    match mapFind (ar.classScopes self).functions name with
    | some vec =>
      match vec.getLast? with
      | none => none
      | some last => some (ar, some last)
    | none =>
      let walked :=
        if recursive &&
            (ar.classScopes self).derivesFromRedeclaring != Derivation.DirectFromRedeclared then
          match findClass ar (ar.classScopes self).parent with
          | some super => findConstructor classNameConstructor fuel ar super true
          | none => some (ar, none)
        else some (ar, none)
      match walked with
      | none => none
      | some (ar1, some func) => some (ar1, some func)
      | some (ar1, none) =>
        if (ar1.classScopes self).derivesFromRedeclaring = Derivation.DirectFromRedeclared then
          match setDynamic (fuel + 1) ar1 self name with
          | none => none
          | some ar2 => some (ar2, none)
        else some (ar1, none)

/-- The method `ClassScope::derivesDirectlyFrom(ar, base)` called on class
`self` (lines 292-298). -/
def derivesDirectlyFrom (ar : AnalysisResult) (self : ClassId) (base : String) : Bool :=
  (ar.classScopes self).bases.any (fun base_i => base_i == base)

/-- The loop of `derivesFrom` over the bases still to visit (lines 306-315);
`rec` is the recursive call `cl->derivesFrom(ar, base, strict, def)`. -/
def derivesFromBases (rec : ClassId → Option Bool) (ar : AnalysisResult)
    (strict deflt : Bool) : List String → Option Bool
  | [] => some false
  | base_i :: rest =>
    match findClass ar base_i with
    | none => derivesFromBases rec ar strict deflt rest
    | some cl =>
      if strict && (ar.classScopes cl).isRedeclaring then
        if deflt then some true else derivesFromBases rec ar strict deflt rest
      else
        match rec cl with
        | none => none
        | some true => some true
        | some false => derivesFromBases rec ar strict deflt rest

/-- The method `ClassScope::derivesFrom(ar, base, strict, def)` called on
class `self` (lines 300-317); the parameter `def` is named `deflt`. -/
def derivesFrom : Nat → AnalysisResult → ClassId → String → Bool → Bool → Option Bool
  | 0, _, _, _, _, _ => none
  | fuel + 1, ar, self, base, strict, deflt =>
    if derivesDirectlyFrom ar self base then some true
    else
      derivesFromBases (fun cl => derivesFrom fuel ar cl base strict deflt) ar strict deflt
        (ar.classScopes self).bases

/-- The recursive call of `derivesFrom`, cut down to the classes that are not
redeclared when `strict` is set: on a redeclared class it does not return. -/
def strictCallOnly (ar : AnalysisResult) (strict : Bool) (rec : ClassId → Option Bool) :
    ClassId → Option Bool :=
  fun cl => if strict && (ar.classScopes cl).isRedeclaring then none else rec cl

/-! ## `ClassScope::needsInvokeParent` -/

/-- The loop of `needsInvokeParent` over `m_functions` (lines 278-281): whether
the last declaration of some name is private. -/
def anyLastPrivate (ar : AnalysisResult) : List (String × List FuncId) → Option Bool
  | [] => some false
  | (_, vec) :: rest =>
    match vec.getLast? with
    | none => none
    | some last =>
      if (ar.functionScopes last).isPrivate then some true else anyLastPrivate ar rest

/-- The method `ClassScope::needsInvokeParent(ar, considerSelf)` called on
class `self` (lines 274-290). -/
def needsInvokeParent : Nat → AnalysisResult → ClassId → Bool → Option Bool
  | 0, _, _, _ => none
  | fuel + 1, ar, self, considerSelf =>
    match (if considerSelf then anyLastPrivate ar (ar.classScopes self).functions
        else some false) with
    | none => none
    | some true => some true
    | some false =>
      if (ar.classScopes self).parent ≠ "" then
        match findClass ar (ar.classScopes self).parent with
        | none => some true
        | some super =>
          if (ar.classScopes super).isRedeclaring then some true
          else needsInvokeParent fuel ar super true
      else some false

/-- A class `k` (class 0) without a parent that declares `m` twice: the first
declaration (function 0) is private, the second (function 1) is public. -/
def privateFirstGraph : AnalysisResult := mkAnalysisResult
  [ { name := "k", functions := [("m", [0, 1])] } ]
  [ { name := "m", isPrivate := true, redeclaring := 0 }, { name := "m", redeclaring := 1 } ]
  [("k", [0])]

/-! ## `ClassScope::implementsArrayAccess` and `ClassScope::implementsAccessor` -/

/-- The C library function `strcasecmp`: zero exactly when the two strings are
equal up to the case of their letters; of a non-zero result only the fact that
it is not zero is used. -/
def strcasecmp (a b : String) : Int := if toLower a = toLower b then 0 else 1

/-- Modelled from the spec: the map type `hphp_const_char_imap` of
`m_implemented` is not under `src/`; the cache is keyed by the token, compared
case-insensitively.  The lookup `m_implemented.find(key)`. -/
def cacheFind (m : List (String × Int)) (key : String) : Option Int :=
  (m.find? (fun e => decide (toLower e.1 = toLower key))).map (fun e => e.2)

/-- The assignment `m_implemented[key] = v`, in the same map. -/
def cacheSet : List (String × Int) → String → Int → List (String × Int)
  | [], key, v => [(key, v)]
  | (k, w) :: rest, key, v =>
    if toLower k = toLower key then (k, v) :: rest else (k, w) :: cacheSet rest key v

/-- The assignment `m_implemented[key] = v` in class `self`. -/
def setImplemented (ar : AnalysisResult) (self : ClassId) (key : String) (v : Int) :
    AnalysisResult :=
  ar.updClass self (fun c => { c with implemented := cacheSet c.implemented key v })

/-- The loop over the classes registered under the parent name (lines 121-132
and 160-171), with the counters `yes` and `no`; `rec` is the recursive call on
a candidate.  The counters are `int` in the source and are not bounded here:
they count candidates. -/
def pollCandidates (rec : AnalysisResult → ClassId → Option (AnalysisResult × Int)) :
    List ClassId → AnalysisResult → Nat → Nat → Option (AnalysisResult × Nat × Nat)
  | [], ar, yes, no => some (ar, yes, no)
  | cls :: rest, ar, yes, no =>
    match rec ar cls with
    | none => none
    | some (ar1, a) =>
      if a < 0 then some (ar1, 1, 1)
      else if a > 0 then pollCandidates rec rest ar1 (yes + 1) no
      else pollCandidates rec rest ar1 yes (no + 1)

/-- The value of `ret` after the loop over the candidates (lines 133-135). -/
def pollResult (ret : Int) (yes no : Nat) : Int :=
  if yes ≠ 0 then (if no ≠ 0 then -1 else 1) else ret

/-- The method `ClassScope::implementsArrayAccess(ar)` called on class `self`
(lines 103-140). -/
def implementsArrayAccess : Nat → AnalysisResult → ClassId → Option (AnalysisResult × Int)
  | 0, _, _ => none
  | fuel + 1, ar, self =>
    match cacheFind (ar.classScopes self).implemented "arrayaccess" with
    | some v => some (ar, v)
    | none =>
      let s := if (ar.classScopes self).parent = "" then 0 else 1
      let ret : Int :=
        if ((ar.classScopes self).bases.drop s).any
            (fun b => strcasecmp b "arrayaccess" != 0) then 1 else 0
      let polled :=
        if s ≠ 0 ∧ ret = 0 then
          match pollCandidates (fun a cls => implementsArrayAccess fuel a cls)
              (findClasses ar (ar.classScopes self).parent) ar 0 0 with
          | none => none
          | some (ar1, yes, no) => some (ar1, pollResult ret yes no)
        else some (ar, ret)
      match polled with
      | none => none
      | some (ar1, ret1) => some (setImplemented ar1 self "arrayaccess" ret1, ret1)

/-- The method `ClassScope::implementsAccessor(ar, name)` called on class
`self` (lines 142-179). -/
def implementsAccessor :
    Nat → AnalysisResult → ClassId → String → Option (AnalysisResult × Int)
  | 0, _, _, _ => none
  | fuel + 1, ar, self, name =>
    match cacheFind (ar.classScopes self).implemented name with
    | some v => some (ar, v)
    | none =>
      let ret : Int :=
        if (ar.classScopes self).functions.any (fun e => strcasecmp e.1 name != 0) then 1
        else 0
      let polled :=
        if (ar.classScopes self).parent ≠ "" ∧ ret = 0 then
          match pollCandidates (fun a cls => implementsAccessor fuel a cls name)
              (findClasses ar (ar.classScopes self).parent) ar 0 0 with
          | none => none
          | some (ar1, yes, no) => some (ar1, pollResult ret yes no)
        else some (ar, ret)
      match polled with
      | none => none
      | some (ar1, ret1) => some (setImplemented ar1 self name ret1, ret1)

/-- Four classes without a parent: `plain` (class 0) implements `countable`
and declares `foo` (function 0); `access` (class 1) implements `arrayaccess`;
`getter` (class 2) declares `__get` (function 1) only; `bare` (class 3) has no
base and no method. -/
def capabilityGraph : AnalysisResult := mkAnalysisResult
  [ { name := "plain", bases := ["countable"], functions := [("foo", [0])] },
    { name := "access", bases := ["arrayaccess"] },
    { name := "getter", functions := [("__get", [1])] },
    { name := "bare" } ]
  [ { name := "foo" }, { name := "__get" } ]
  [("plain", [0]), ("access", [1]), ("getter", [2]), ("bare", [3])]

/-! ## The pattern of the two capability queries -/

/-- The local check of `implementsArrayAccess` (lines 109-116). -/
def localArrayAccess (c : ClassScope) : Int :=
  if (c.bases.drop (if c.parent = "" then 0 else 1)).any
      (fun b => strcasecmp b "arrayaccess" != 0) then 1 else 0

/-- The local check of `implementsAccessor` (lines 148-155). -/
def localAccessor (name : String) (c : ClassScope) : Int :=
  if c.functions.any (fun e => strcasecmp e.1 name != 0) then 1 else 0

/-- The pattern common to `implementsArrayAccess` and `implementsAccessor`,
with the cache key and the local check as parameters: the cache is looked up,
the local check is run, the parent candidates are polled when the check says No
and there is a parent name, and the result is cached. -/
def implementsWith (key : String) (localCheck : ClassScope → Int) :
    Nat → AnalysisResult → ClassId → Option (AnalysisResult × Int)
  | 0, _, _ => none
  | fuel + 1, ar, self =>
    match cacheFind (ar.classScopes self).implemented key with
    | some v => some (ar, v)
    | none =>
      let ret := localCheck (ar.classScopes self)
      let polled :=
        if (ar.classScopes self).parent ≠ "" ∧ ret = 0 then
          match pollCandidates (fun a cls => implementsWith key localCheck fuel a cls)
              (findClasses ar (ar.classScopes self).parent) ar 0 0 with
          | none => none
          | some (ar1, yes, no) => some (ar1, pollResult ret yes no)
        else some (ar, ret)
      match polled with
      | none => none
      | some (ar1, ret1) => some (setImplemented ar1 self key ret1, ret1)

/-- The loop over the candidates, on the counters only; `rec` gives the result
of a candidate. -/
def pollValues (rec : ClassId → Option Int) : List ClassId → Nat → Nat → Option (Nat × Nat)
  | [], yes, no => some (yes, no)
  | cls :: rest, yes, no =>
    match rec cls with
    | none => none
    | some a =>
      if a < 0 then some (1, 1)
      else if a > 0 then pollValues rec rest (yes + 1) no
      else pollValues rec rest yes (no + 1)

/-- The result of a capability query computed on the unchanged state `ar`:
the cache of `ar` is read and nothing is written. -/
def pureImplements (key : String) (localCheck : ClassScope → Int) :
    Nat → AnalysisResult → ClassId → Option Int
  | 0, _, _ => none
  | fuel + 1, ar, self =>
    match cacheFind (ar.classScopes self).implemented key with
    | some v => some v
    | none =>
      let ret := localCheck (ar.classScopes self)
      if (ar.classScopes self).parent ≠ "" ∧ ret = 0 then
        match pollValues (fun cls => pureImplements key localCheck fuel ar cls)
            (findClasses ar (ar.classScopes self).parent) 0 0 with
        | none => none
        | some (yes, no) => some (pollResult ret yes no)
      else some ret

/-- The local check does not read the cache. -/
def LocalOk (localCheck : ClassScope → Int) : Prop :=
  ∀ c c1 : ClassScope, { c1 with implemented := [] } = { c with implemented := [] } →
    localCheck c1 = localCheck c

/-- The state `ar` is a later state of `ar0` in a run of a capability query:
only caches differ, no cache lost its entry for the key, and every entry for
the key is the result computed on `ar0`. -/
structure Cached (key : String) (localCheck : ClassScope → Int) (ar0 ar : AnalysisResult) :
    Prop where
  classDecs : ar.classDecs = ar0.classDecs
  scopes : ∀ c, { ar.classScopes c with implemented := [] } =
    { ar0.classScopes c with implemented := [] }
  miss : ∀ c, cacheFind (ar.classScopes c).implemented key = none →
    cacheFind (ar0.classScopes c).implemented key = none
  entries : ∀ c v, cacheFind (ar.classScopes c).implemented key = some v →
    ∃ fuel, pureImplements key localCheck fuel ar0 c = some v

/-- The join of the results of the candidates, in the words of the
specification: Ambiguous (-1) if a result is Ambiguous, or if a result is Yes
and a result is No; Yes (1) if there is a result and all are Yes; No (0)
otherwise. -/
def joinResults (results : List Int) : Int :=
  if results.any (fun a => decide (a < 0)) ||
      (results.any (fun a => decide (0 < a)) && results.any (fun a => decide (a = 0))) then -1
  else if !results.isEmpty && results.all (fun a => decide (0 < a)) then 1
  else 0
/-- The value of the counters after the loop, by the results polled: the
counters started at `yes` and `no`. -/
def joinFrom (yes no : Bool) (vals : List Int) : Int :=
  if vals.any (fun a => decide (a < 0)) then -1
  else if yes || vals.any (fun a => decide (0 < a)) then
    (if no || vals.any (fun a => decide (a = 0)) then -1 else 1)
  else 0
/-- The capability query `query`, run on class `c`, joins the results of its
runs on the classes registered under the parent name of `c`: it returns the
join of results `vals` that the query gives on these classes, one by one, from
the same state; any other order of the results has the same join; and when a
single class `p` is registered under the parent name, a result No (0), Yes (1)
or Ambiguous (-1) of `p` is the result for `c`. -/
def JoinsCandidates (query : Nat → AnalysisResult → ClassId → Option (AnalysisResult × Int))
    (ar : AnalysisResult) (rank : ClassId → Nat) (c : ClassId) : Prop :=
  ∃ ar1 vals, query (rank c) ar c = some (ar1, joinResults vals) ∧
    List.Forall₂ (fun cl v => ∃ a, query (rank cl) ar cl = some (a, v))
      (findClasses ar (ar.classScopes c).parent) vals ∧
    (∀ vals1 : List Int, vals1.Perm vals → joinResults vals1 = joinResults vals) ∧
    (∀ p a v, findClasses ar (ar.classScopes c).parent = [p] →
      query (rank p) ar p = some (a, v) → (v = -1 ∨ v = 0 ∨ v = 1) →
      ∃ ar2, query (rank c) ar c = some (ar2, v))

/-- A class `child` (class 0) whose parent name `p` is registered for a
redeclaration group of two classes: the first (class 1) implements `countable`
and declares `foo` (function 0), the second (class 2) has no base and no
method. -/
def capabilityGroupGraph : AnalysisResult := mkAnalysisResult
  [ { name := "child", parent := "p", bases := ["p"] },
    { name := "p", bases := ["countable"], functions := [("foo", [0])], redeclaring := 0 },
    { name := "p", redeclaring := 1 } ]
  [ { name := "foo" } ]
  [("child", [0]), ("p", [1, 2])]

/-- A class `child` (class 0) whose parent name `parent` is registered for a
redeclaration group of two classes without a parent: the first (class 1) lists
`arrayaccess` among its bases, the second (class 2) has no base.  No class has
a cached capability result. -/
def ambiguityGraph : AnalysisResult := mkAnalysisResult
  [ { name := "child", parent := "parent", bases := ["parent"] },
    { name := "parent", bases := ["arrayaccess"], redeclaring := 0 },
    { name := "parent", redeclaring := 1 } ]
  []
  [("child", [0]), ("parent", [1, 2])]

/-- The cache `m_implemented` of class `c` keeps its entries from the state
`ar1` to the state `ar2`: every entry found in `ar1` is found, with the same
value, in `ar2`.  Nothing is asked of the other fields of `c`, of the other
classes or of the registry. -/
def CacheKept (c : ClassId) (ar1 ar2 : AnalysisResult) : Prop :=
  ∀ key v, cacheFind (ar1.classScopes c).implemented key = some v →
    cacheFind (ar2.classScopes c).implemented key = some v

/-- The state `capabilityGraph` after a query for `arrayaccess` on `access`
(class 1) has cached the result 0, and after the class graph has changed: the
class `access` now has the parent `plain` and the bases `plain` and
`countable`, and the registry lists `plain` only. -/
def changedCapabilityGraph : AnalysisResult :=
  { (setImplemented capabilityGraph 1 "arrayaccess" 0).updClass 1
      (fun c => { c with parent := "plain", bases := ["plain", "countable"] }) with
    classDecs := [("plain", [0])] }

/-- The function `f` is one of the declarations of class `c`: it stands in a
vector of `m_functions`. -/
def DeclaredBy (ar : AnalysisResult) (c : ClassId) (f : FuncId) : Prop :=
  ∃ name vec, (name, vec) ∈ (ar.classScopes c).functions ∧ f ∈ vec

/-- The recursive call handed to the walk adds only entries whose method is
not private. -/
def RecPublic (rec : AnalysisResult → ClassId → FuncMap → Option (AnalysisResult × FuncMap)) :
    Prop :=
  ∀ ar c funcs ar1 funcs1, rec ar c funcs = some (ar1, funcs1) →
    ∀ e, e ∈ funcs1 → e ∈ funcs ∨ (ar.functionScopes e.2).isPrivate = false

/-- The diagnostic `InvalidDerivation` that class `self` records for `base`. -/
def invalidDerivationRecord (self : ClassId) (base : String) : ErrorRecord :=
  { kind := ErrorType.InvalidDerivation, construct1 := Construct.classStmt self,
    construct2 := Construct.null, data := base }

/-- The class `c` (class 0) that lists the interface `i` (class 1) twice, with
the interface `j` (class 2) in between, and `d` (class 3) that lists its own
name after its parent `c`. -/
def repeatedBaseGraph : AnalysisResult := mkAnalysisResult
  [ { name := "c", bases := ["i", "j", "i"] },
    { name := "i", kindOf := KindOf.KindOfInterface },
    { name := "j", kindOf := KindOf.KindOfInterface },
    { name := "d", parent := "c", bases := ["c", "d"] } ]
  []
  [("c", [0]), ("i", [1]), ("j", [2]), ("d", [3])]

/-- A rank for `repeatedBaseGraph`: the interfaces, then `c`, then `d`. -/
def repeatedRank (c : ClassId) : Nat :=
  if c = 0 then 2 else if c ≤ 2 then 1 else if c = 3 then 3 else 0

/-! ## `ClassScope::setStaticDynamic`, `ClassScope::setSystem`, `ClassScope::setRedeclaring` -/

/-- Modelled from the spec: `ClassScope::setAttribute` is declared in
`class_scope.h`; the attribute set is a set of bit flags, and the call adds the
bits of `attr`. -/
def setAttribute (ar : AnalysisResult) (self : ClassId) (attr : Nat) : AnalysisResult :=
  ar.updClass self (fun c => { c with attrs := c.attrs ||| attr })

/-- Modelled from the spec: `FunctionScope::setSystem` is declared in
`function_scope.h`; the call marks the method as provided by the system. -/
def setFuncSystem (ar : AnalysisResult) (f : FuncId) : AnalysisResult :=
  ar.updFunc f (fun fs => { fs with system := true })

/-- The loop `BOOST_FOREACH(fs, iter->second) if (fs->isStatic()) fs->setDynamic()`
of `setStaticDynamic` (lines 393-395). -/
def setStaticVec : List FuncId → AnalysisResult → AnalysisResult
  | [], ar => ar
  | fs :: rest, ar =>
    setStaticVec rest (if (ar.functionScopes fs).isStatic then setFuncDynamic ar fs else ar)

/-- The loop of `setStaticDynamic` over `m_functions` (lines 391-396). -/
def setStaticOwn : List (String × List FuncId) → AnalysisResult → AnalysisResult
  | [], ar => ar
  | (_, vec) :: rest, ar => setStaticOwn rest (setStaticVec vec ar)

/-- The method `ClassScope::setStaticDynamic(ar)` called on class `self`
(lines 390-410). -/
def setStaticDynamic : Nat → AnalysisResult → ClassId → Option AnalysisResult
  | 0, _, _ => none
  | fuel + 1, ar, self =>
    let ar1 := setStaticOwn (ar.classScopes self).functions ar
    if (ar1.classScopes self).parent ≠ "" then
      if (ar1.classScopes self).derivesFromRedeclaring = Derivation.DirectFromRedeclared then
        forEachClass (fun a cl => setStaticDynamic fuel a cl)
          (findClasses ar1 (ar1.classScopes self).parent) ar1
      else
        match findClass ar1 (ar1.classScopes self).parent with
        | some parent => setStaticDynamic fuel ar1 parent
        | none => some ar1
    else some ar1

/-- The loop of `setSystem` over `m_functions` (lines 437-440); the element
`iter->second[0]` of an empty vector does not exist. -/
def setSystemOwn : List (String × List FuncId) → AnalysisResult → Option AnalysisResult
  | [], ar => some ar
  | (_, vec) :: rest, ar =>
    match vec[0]? with
    | none => none
    | some f => setSystemOwn rest (setFuncSystem ar f)

/-- The method `ClassScope::setSystem()` called on class `self` (lines 434-441).
The value `system` of the attribute `ClassScope::System`, declared in
`class_scope.h`, is taken as a parameter. -/
def setSystem (system : Nat) (ar : AnalysisResult) (self : ClassId) : Option AnalysisResult :=
  let ar1 := setAttribute ar self system
  let ar2 := ar1.updClass self (fun c => { c with volatile := false, dynamic := false })
  setSystemOwn (ar2.classScopes self).functions ar2

/-- The loop of `setRedeclaring` over `m_functions` (lines 850-855). -/
def setDynamicOwn : List (String × List FuncId) → AnalysisResult → AnalysisResult
  | [], ar => ar
  | (_, vec) :: rest, ar => setDynamicOwn rest (vec.foldl setFuncDynamic ar)

/-- The method `ClassScope::setRedeclaring(ar, redecId)` called on class `self`
(lines 847-857). -/
def setRedeclaring (ar : AnalysisResult) (self : ClassId) (redecId : Int) : AnalysisResult :=
  let ar1 := ar.updClass self (fun c => { c with redeclaring := redecId })
  let ar2 := setVolatile ar1 self
  let ar3 := setDynamicOwn (ar2.classScopes self).functions ar2
  forceVariants ar3 self

/-- Between `ar` and `ar1` the state has only widened: no class lost its
volatile flag or a bit of its attributes, no derivation tag went back to
`FromNormal`, and no function lost its dynamic or its virtual flag. -/
structure Widens (ar ar1 : AnalysisResult) : Prop where
  volatileKept : ∀ c, (ar.classScopes c).volatile = true → (ar1.classScopes c).volatile = true
  attrsKept : ∀ c attr, (ar.classScopes c).getAttribute attr = true →
    (ar1.classScopes c).getAttribute attr = true
  tagKept : ∀ c, (ar.classScopes c).derivesFromRedeclaring ≠ Derivation.FromNormal →
    (ar1.classScopes c).derivesFromRedeclaring ≠ Derivation.FromNormal
  dynamicKept : ∀ f, (ar.functionScopes f).dynamic = true → (ar1.functionScopes f).dynamic = true
  virtualKept : ∀ f, (ar.functionScopes f).virtual = true → (ar1.functionScopes f).virtual = true

/-- A class made volatile by `Option::AllVolatile` when it was constructed
(line 55), with one method `m` (function 0) that is dynamic and virtual. -/
def volatileClassGraph : AnalysisResult := mkAnalysisResult
  [ { name := "c", volatile := true, attrs := 1, functions := [("m", [0])] } ]
  [ { name := "m", dynamic := true, virtual := true } ]
  [("c", [0])]

/-! ## The invoke tables: `findJumpTableMethods`, `outputCPPMethodInvokeTable`, `outputCPPJumpTable` -/

/-- The settings the output of the invoke tables reads.  They are declared in
`option.h` and `code_generator.h`, which are not under `src/`, and are taken as
parameters: the flags `Option::FlattenInvoke` and `Option::GenerateCPPMacros`,
the threshold `Option::InvokeFewArgsCount`, the test
`cg.getOutput() == CodeGenerator::SystemCPP`, the levels `Option::EnableEval`
and `Option::LimitedEval`, and the name prefixes. -/
structure OutputOptions where
  flattenInvoke : Bool
  generateCPPMacros : Bool
  invokeFewArgsCount : Nat
  systemCPP : Bool
  enableEval : Nat
  limitedEval : Nat
  classPrefix : String
  classStaticsObjectPrefix : String
  objectPrefix : String
  objectStaticPrefix : String
  methodPrefix : String
  methodImplPrefix : String
deriving DecidableEq, Inhabited

/-- Modelled from the spec: `FunctionScope::isRedeclaring` is declared in
`function_scope.h`; `redeclaring == -1` denotes a declaration that is the only
one of its name. -/
def FunctionScope.isRedeclaring (fs : FunctionScope) : Bool := decide (0 ≤ fs.redeclaring)

/-- The test of `findJumpTableMethods` (lines 1123-1125) that lets a method
into the table; `system` is `cg.getOutput() == CodeGenerator::SystemCPP`. -/
def jumpTableSkips (system staticOnly : Bool) (fs : FunctionScope) : Bool :=
  fs.isAbstract || (staticOnly && !fs.isStatic) || !(system || fs.dynamic || fs.virtual)

/-- The method `ClassScope::findJumpTableMethods(cg, ar, staticOnly, funcs)`
(lines 1114-1130), as the loop over the entries of `m_functions`; it returns
the names pushed to `funcs`.  The element `iter->second[0]` of an empty vector
does not exist. -/
def findJumpTableMethods (system : Bool) (ar : AnalysisResult) (staticOnly : Bool) :
    List (String × List FuncId) → Option (List String)
  | [] => some []
  | (name, vec) :: rest =>
    match vec[0]? with
    | none => none
    | some func =>
      match findJumpTableMethods system ar staticOnly rest with
      | none => none
      | some names =>
        if !(ar.functionScopes func).isRedeclaring then
          if jumpTableSkips system staticOnly (ar.functionScopes func) then some names
          else some (name :: names)
        else some names

/-- One guarded entry of an invoke table (lines 1148-1168): the key, the
function found under it, the method prefix and the extra argument handed to
`outputCPPDynamicInvoke` or `outputCPPEvalInvoke`, and which of the two is
called. -/
structure InvokeEntry where
  name : String
  func : FuncId
  methodPrefix : String
  extra : Option String
  fewArgs : Bool
  forEval : Bool
deriving DecidableEq, Inhabited

/-- The entry that `outputCPPMethodInvokeTable` emits for the key `name` and
the function `func` (lines 1150-1167). -/
def invokeEntry (opts : OutputOptions) (ar : AnalysisResult) (name : String) (func : FuncId)
    (fewArgs staticOnly forEval : Bool) : InvokeEntry :=
  let isStatic := (ar.functionScopes func).isStatic
  let usedPrefix := if isStatic then opts.methodImplPrefix else opts.methodPrefix
  let extra := if isStatic then some (if staticOnly then "c" else "o_getClassName()") else none
  ⟨name, func, usedPrefix, extra, fewArgs, forEval⟩

/-- The method `ClassScope::outputCPPMethodInvokeTable(cg, ar, keys,
funcScopes, fewArgs, staticOnly, forEval)` (lines 1132-1171), as the loop over
the keys; it returns the entries emitted.  The class `JumpTable` is not under
`src/`: it is modelled from the spec as a visit of every key.  A failed
`ASSERT(iterFuncs != funcScopes.end())` and the element `second[0]` of an
empty vector give `none`. -/
def outputCPPMethodInvokeTable (opts : OutputOptions) (ar : AnalysisResult)
    (funcScopes : List (String × List FuncId)) (fewArgs staticOnly forEval : Bool) :
    List String → Option (List InvokeEntry)
  | [] => some []
  | name :: keys =>
    match mapFind funcScopes name with
    | none => none
    | some vec =>
      match vec[0]? with
      | none => none
      | some func =>
        match outputCPPMethodInvokeTable opts ar funcScopes fewArgs staticOnly forEval keys with
        | none => none
        | some entries =>
          if fewArgs && decide (opts.invokeFewArgsCount < (ar.functionScopes func).minParamCount)
          then some entries
          else some (invokeEntry opts ar name func fewArgs staticOnly forEval :: entries)

/-- The loop `funcScopes[it->first].push_back(it->second)` over the entries of
the merged table (lines 1212-1215). -/
def flattenScopes : FuncMap → List (String × List FuncId) → List (String × List FuncId)
  | [], funcScopes => funcScopes
  | (name, f) :: rest, funcScopes =>
    flattenScopes rest (mapSet funcScopes name ((mapFind funcScopes name).getD [] ++ [f]))

/-- The selection of the keys from the flattened table (lines 1221-1231);
`inPseudoMain` is the test `FunctionScope::inPseudoMain`, declared in
`function_scope.h` and taken as a parameter. -/
def flattenedMethods (system : Bool) (inPseudoMain : FuncId → Bool) (ar : AnalysisResult)
    (staticOnly : Bool) : List (String × List FuncId) → Option (List String)
  | [] => some []
  | (name, vec) :: rest =>
    match vec[0]? with
    | none => none
    | some func =>
      match flattenedMethods system inPseudoMain ar staticOnly rest with
      | none => none
      | some names =>
        if (ar.functionScopes func).isAbstract || inPseudoMain func ||
            (staticOnly && !(ar.functionScopes func).isStatic) ||
            !(system || (ar.functionScopes func).dynamic || (ar.functionScopes func).virtual)
        then some names
        else some (name :: names)

/-- Values of `ClassScope::JumpTableName` that `outputCPPJumpTable` inserts
into `m_emptyJumpTables`. -/
inductive JumpTableName where
  | JumpTableInvoke
  | JumpTableStaticInvoke
deriving DecidableEq, Inhabited

/-- What one call of `outputCPPJumpTable` emits: the name of the function, the
keys handed to `outputCPPMethodInvokeTable`, the map handed alongside, the
entries of the table, the function its `return` statement calls, the same for
the `_few_args` table when there is one, whether the globals are declared, and
what is inserted into `m_emptyJumpTables`. -/
structure JumpTableCode where
  staticOnly : Bool
  forEval : Bool
  invokeName : String
  keys : List String
  funcScopes : List (String × List FuncId)
  entries : List InvokeEntry
  target : String
  fewArgsEntries : Option (List InvokeEntry)
  fewArgsTarget : Option String
  needGlobals : Bool
  emptyJumpTables : List JumpTableName
deriving DecidableEq, Inhabited

/-- The name `parentName` of `outputCPPJumpTable` (line 1185). -/
def parentNameOf (c : ClassScope) : String :=
  if c.parent = "" then "ObjectData" else c.parent

/-- The name `invokeName` of `outputCPPJumpTable` (lines 1199-1205). -/
def invokeNameOf (opts : OutputOptions) (staticOnly forEval : Bool) : String :=
  (if staticOnly then opts.objectStaticPrefix else opts.objectPrefix) ++ "invoke" ++
    (if forEval then "_from_eval" else "")

/-- The string `parent` of `outputCPPJumpTable` before the name of the function
is appended (lines 1188-1198). -/
def parentScopeOf (opts : OutputOptions) (c : ClassScope) (staticOnly dynamicObject : Bool) :
    String :=
  if dynamicObject then
    if staticOnly then "g->" ++ opts.classStaticsObjectPrefix ++ parentNameOf c ++ "->"
    else "parent->"
  else opts.classPrefix ++ parentNameOf c ++ "::"

/-- The string `base` of `outputCPPJumpTable` (lines 1277-1281); `needs` is the
result of `needsInvokeParent(ar, false)`. -/
def baseOf (opts : OutputOptions) (c : ClassScope) (needs : Bool) (parent invokeName : String) :
    String :=
  if opts.flattenInvoke && !needs then
    (if c.derivesFromRedeclaring ≠ Derivation.FromNormal then "c_DynamicObjectData"
      else "c_ObjectData") ++ "::" ++ invokeName
  else parent

/-- The method `ClassScope::outputCPPJumpTable(cg, ar, staticOnly,
dynamicObject, forEval)` called on class `self` (lines 1173-1322).  It returns
the state after the call and what was emitted. -/
def outputCPPJumpTable (opts : OutputOptions) (inPseudoMain : FuncId → Bool) (fuel : Nat)
    (ar : AnalysisResult) (self : ClassId) (staticOnly dynamicObject forEval : Bool) :
    Option (AnalysisResult × JumpTableCode) :=
  let needGlobals := dynamicObject && staticOnly
  let invokeName := invokeNameOf opts staticOnly forEval
  let parent := parentScopeOf opts (ar.classScopes self) staticOnly dynamicObject ++ invokeName
  let flattened :=
    if opts.flattenInvoke then
      match collectMethods fuel ar self [] true true with
      | none => none
      | some (ar1, fss) => some (ar1, flattenScopes fss [])
    else some (ar, [])
  match flattened with
  | none => none
  | some (ar1, funcScopes) =>
    match findJumpTableMethods opts.systemCPP ar1 staticOnly (ar1.classScopes self).functions with
    | none => none
    | some found =>
      let selected :=
        if opts.flattenInvoke then
          flattenedMethods opts.systemCPP inPseudoMain ar1 staticOnly funcScopes
        else some found
      match selected with
      | none => none
      | some funcs =>
        let empties :=
          if !forEval && funcs.isEmpty then
            [if staticOnly then JumpTableName.JumpTableStaticInvoke
              else JumpTableName.JumpTableInvoke]
          else []
        match outputCPPMethodInvokeTable opts ar1 funcScopes false staticOnly forEval funcs with
        | none => none
        | some entries =>
          let needed :=
            if opts.flattenInvoke then needsInvokeParent fuel ar1 self false else some true
          match needed with
          | none => none
          | some needs =>
            let base := baseOf opts (ar1.classScopes self) needs parent invokeName
            let target := if forEval then parent else base
            if !staticOnly && !forEval then
              match outputCPPMethodInvokeTable opts ar1 funcScopes true staticOnly false funcs with
              | none => none
              | some few =>
                some (ar1, ⟨staticOnly, forEval, invokeName, funcs, funcScopes, entries, target,
                  some few, some (base ++ "_few_args"), needGlobals, empties⟩)
            else
              some (ar1, ⟨staticOnly, forEval, invokeName, funcs, funcScopes, entries, target,
                none, none, needGlobals, empties⟩)

/-- The output of the invoke tables by `ClassScope::outputCPPSupportMethodsImpl`
called on class `self`: the flag `dynamicObject` (line 900) and the calls of
`outputCPPJumpTable` (lines 1030-1040).  It returns the state after the calls
and the tables in the order of their output. -/
def outputCPPSupportMethodsImpl (opts : OutputOptions) (inPseudoMain : FuncId → Bool)
    (fuel : Nat) (ar : AnalysisResult) (self : ClassId) :
    Option (AnalysisResult × List JumpTableCode) :=
  let dynamicObject :=
    decide ((ar.classScopes self).derivesFromRedeclaring = Derivation.DirectFromRedeclared)
  if opts.generateCPPMacros then
    match outputCPPJumpTable opts inPseudoMain fuel ar self false dynamicObject false with
    | none => none
    | some (ar1, t1) =>
      match outputCPPJumpTable opts inPseudoMain fuel ar1 self true dynamicObject false with
      | none => none
      | some (ar2, t2) =>
        if opts.systemCPP || decide (opts.limitedEval ≤ opts.enableEval) then
          match outputCPPJumpTable opts inPseudoMain fuel ar2 self false dynamicObject true with
          | none => none
          | some (ar3, t3) =>
            match outputCPPJumpTable opts inPseudoMain fuel ar3 self true dynamicObject true with
            | none => none
            | some (ar4, t4) => some (ar4, [t1, t2, t3, t4])
        else some (ar2, [t1, t2])
  else some (ar, [])

/-- The method found under `name` is one the invoke table may hold: it is not
abstract, it is dynamic or virtual or the output is the system's, and it is
static when the table is the static one. -/
def Eligible (system staticOnly : Bool) (fs : FunctionScope) : Prop :=
  fs.isAbstract = false ∧ (system = true ∨ fs.dynamic = true ∨ fs.virtual = true) ∧
    (staticOnly = true → fs.isStatic = true)

/-- Settings with the usual prefixes, the threshold 6, flattened tables and no
eval tables. -/
def sampleOptions : OutputOptions :=
  ⟨true, true, 6, false, 0, 1, "c_", "cso_", "o_", "os_", "t_", "ti_"⟩

/-- A class `k` without a parent and its methods: `a` (function 0) is abstract
and dynamic, `s` (function 1) is static and dynamic with 6 required
parameters, `v` (function 2) is virtual, `p` (function 3) is neither dynamic
nor virtual, and `w` (function 4) is dynamic with 7 required parameters. -/
def methodsGraph : AnalysisResult := mkAnalysisResult
  [ { name := "k", functions := [("a", [0]), ("s", [1]), ("v", [2]), ("p", [3]), ("w", [4])] } ]
  [ { name := "a", isAbstract := true, dynamic := true },
    { name := "s", isStatic := true, dynamic := true, minParamCount := 6 },
    { name := "v", virtual := true },
    { name := "p" },
    { name := "w", dynamic := true, minParamCount := 7 } ]
  [("k", [0])]

/-- Every entry of the map handed to `outputCPPMethodInvokeTable` is found
under its key, with a first function, and holds a function itself. -/
def ScopesFound (funcScopes : List (String × List FuncId)) : Prop :=
  ∀ name vec, (name, vec) ∈ funcScopes →
    vec ≠ [] ∧ ∃ vec1 func, mapFind funcScopes name = some vec1 ∧ vec1[0]? = some func

/-- A rank for `methodsGraph`: its one class. -/
def methodsRank (c : ClassId) : Nat := if c = 0 then 1 else 0

/-- The settings `sampleOptions` with `Option::FlattenInvoke` off. -/
def unflattenedOptions : OutputOptions :=
  ⟨false, true, 6, false, 0, 1, "c_", "cso_", "o_", "os_", "t_", "ti_"⟩

/-- The runtime indirection of the claim, before the name of the function: the
parent object for the instance table, the entry of the class-statics registry
of the globals for the static table. -/
def runtimeParent (opts : OutputOptions) (c : ClassScope) (staticOnly : Bool) : String :=
  if staticOnly then "g->" ++ opts.classStaticsObjectPrefix ++ parentNameOf c ++ "->"
  else "parent->"

/-- The statically named parent class of the claim, before the name of the
function. -/
def namedParent (opts : OutputOptions) (c : ClassScope) : String :=
  opts.classPrefix ++ parentNameOf c ++ "::"

/-- The class `c` (class 0) tagged `IndirectFromRedeclared`: its parent `p`
(class 1) is a single class tagged `DirectFromRedeclared`, whose parent name
`q` is registered for a redeclaration group of two classes. -/
def indirectGraph : AnalysisResult := mkAnalysisResult
  [ { name := "c", parent := "p", bases := ["p"],
      derivesFromRedeclaring := Derivation.IndirectFromRedeclared },
    { name := "p", parent := "q", bases := ["q"],
      derivesFromRedeclaring := Derivation.DirectFromRedeclared },
    { name := "q", redeclaring := 0 },
    { name := "q", redeclaring := 1 } ]
  []
  [("c", [0]), ("p", [1]), ("q", [2, 3])]

/-- The fallthrough of one table, in terms of the state the output of the
tables began in. -/
def TargetSpec (opts : OutputOptions) (fuel : Nat) (ar : AnalysisResult) (c : ClassId)
    (t : JumpTableCode) : Prop :=
  ((t.forEval = true ∨ opts.flattenInvoke = false ∨
      needsInvokeParent fuel ar c false = some true) →
    ((ar.classScopes c).derivesFromRedeclaring = Derivation.DirectFromRedeclared →
      t.target = runtimeParent opts (ar.classScopes c) t.staticOnly ++ t.invokeName) ∧
    ((ar.classScopes c).derivesFromRedeclaring ≠ Derivation.DirectFromRedeclared →
      t.target = namedParent opts (ar.classScopes c) ++ t.invokeName)) ∧
  (t.forEval = false → opts.flattenInvoke = true →
    needsInvokeParent fuel ar c false = some false →
    (t.target = "c_DynamicObjectData::" ++ t.invokeName ∨
      t.target = "c_ObjectData::" ++ t.invokeName) ∧
    ((ar.classScopes c).derivesFromRedeclaring ≠ Derivation.FromNormal →
      t.target = "c_DynamicObjectData::" ++ t.invokeName))

/-- The visit of the base `b` by the walk of `self` (with `forInvoke = false`)
leaves the derivation tag `T` of `self` in place, seen from the state `ar` with
`afin` a later state: either `b` is not the parent and `self` is not an
interface, so that the visit does not write the tag, or the visit writes `T`
or nothing: an unregistered or redeclared `b` writes `DirectFromRedeclared`;
a `b` found as a single class that is not redeclared writes
`IndirectFromRedeclared` if that class is tagged, and the class is not tagged
when it is still `FromNormal` in `afin`. -/
def TagSafe (ar afin : AnalysisResult) (self : ClassId) (T : Derivation) (b : String) : Prop :=
  (b ≠ (ar.classScopes self).parent ∧ (ar.classScopes self).isInterface = false) ∨
  (findClass ar b = none ∧ T = Derivation.DirectFromRedeclared) ∨
  (∃ s, findClass ar b = some s ∧ (ar.classScopes s).isRedeclaring = true ∧
    T = Derivation.DirectFromRedeclared) ∨
  (∃ s, findClass ar b = some s ∧ (ar.classScopes s).isRedeclaring = false ∧
    (T = Derivation.IndirectFromRedeclared ∨
      (afin.classScopes s).derivesFromRedeclaring = Derivation.FromNormal))

/-- A class `child` (class 0) that declares `own` (function 0) and whose base
list names its parent `p`, the interface `i` (class 3) and `p` again.  The name
`p` resolves to a redeclaration group of two classes: the first (class 1)
declares `m` (function 1) and `only1` (function 2), the second (class 2)
declares `m` (function 3) and `own` (function 4); `i` declares `extra`
(function 5). -/
def repeatedParentGraph : AnalysisResult := mkAnalysisResult
  [ { name := "child", parent := "p", bases := ["p", "i", "p"], functions := [("own", [0])] },
    { name := "p", functions := [("m", [1]), ("only1", [2])], redeclaring := 0,
      volatile := true, variableTable := { forcedVariants := true } },
    { name := "p", functions := [("m", [3]), ("own", [4])], redeclaring := 1,
      volatile := true, variableTable := { forcedVariants := true } },
    { name := "i", kindOf := KindOf.KindOfInterface, functions := [("extra", [5])] } ]
  [ { name := "own" }, { name := "m", dynamic := true }, { name := "only1", dynamic := true },
    { name := "m", dynamic := true }, { name := "own", dynamic := true }, { name := "extra" } ]
  [("child", [0]), ("p", [1, 2]), ("i", [3])]

/-- A class `x` (class 0) whose base list names the unregistered parent
`ghost` twice. -/
def ghostTwiceGraph : AnalysisResult := mkAnalysisResult
  [ { name := "x", parent := "ghost", bases := ["ghost", "ghost"] } ] [] [("x", [0])]

/-- An interface `x` (class 0) with the unregistered parent name `ghost`, whose
base list names `ghost`, then the interface `j` (class 1), then `ghost` again;
`j` extends the unregistered name `ghost2`. -/
def ghostInterfaceGraph : AnalysisResult := mkAnalysisResult
  [ { name := "x", kindOf := KindOf.KindOfInterface, parent := "ghost",
      bases := ["ghost", "j", "ghost"] },
    { name := "j", kindOf := KindOf.KindOfInterface, bases := ["ghost2"] } ]
  []
  [("x", [0]), ("j", [1])]

theorem mapFind_append {β : Type} (l1 l2 : List (String × β)) (key : String) :
    mapFind (l1 ++ l2) key =
      match mapFind l1 key with
      | some v => some v
      | none => mapFind l2 key := by
  induction l1 with
  | nil => simp [mapFind]
  | cons e rest ih =>
    obtain ⟨k, v⟩ := e
    by_cases h : k = key
    · simp [mapFind, h]
    · simp [mapFind, h, ih]

theorem mapFind_mapAdd (funcs : FuncMap) (key : String) (f : FuncId) (name : String) :
    mapFind (mapAdd funcs key f) name =
      match mapFind funcs name with
      | some v => some v
      | none => if key = name then some f else none := by
  unfold mapAdd
  rw [mapFind_append]
  cases mapFind funcs name <;> simp [mapFind]

theorem mapFind_mem {β : Type} (l : List (String × β)) (key : String) (v : β)
    (h : mapFind l key = some v) : (key, v) ∈ l := by
  induction l with
  | nil => simp [mapFind] at h
  | cons e rest ih =>
    obtain ⟨k, w⟩ := e
    by_cases hk : k = key
    · simp [mapFind, hk] at h
      simp [hk, h]
    · simp [mapFind, hk] at h
      simp [ih h]

theorem MapLe.mrefl (funcs : FuncMap) : MapLe funcs funcs := fun _ _ h => h

theorem MapLe.mtrans {a b c : FuncMap} (h1 : MapLe a b) (h2 : MapLe b c) : MapLe a c :=
  fun name f h => h2 name f (h1 name f h)

theorem MapLe_mapAdd (funcs : FuncMap) (key : String) (f : FuncId) :
    MapLe funcs (mapAdd funcs key f) := by
  intro name g h
  rw [mapFind_mapAdd, h]

theorem mapFind_mapInsertAll (cur funcs : FuncMap) (name : String) :
    mapFind (mapInsertAll funcs cur) name =
      match mapFind funcs name with
      | some v => some v
      | none => mapFind cur name := by
  induction cur generalizing funcs with
  | nil => cases h : mapFind funcs name <;> simp [mapInsertAll, mapFind, h]
  | cons e rest ih =>
    obtain ⟨k, v⟩ := e
    simp only [mapInsertAll]
    cases hk : mapFind funcs k with
    | none =>
      simp only [ih, mapFind_mapAdd]
      by_cases hkn : k = name
      · subst hkn; simp [hk, mapFind]
      · cases hn : mapFind funcs name <;> simp [mapFind, hkn]
    | some w =>
      simp only [ih]
      by_cases hkn : k = name
      · subst hkn; simp [hk]
      · cases hn : mapFind funcs name <;> simp [mapFind, hkn]

theorem MapLe_mapInsertAll (funcs cur : FuncMap) : MapLe funcs (mapInsertAll funcs cur) := by
  intro name g h
  rw [mapFind_mapInsertAll, h]

theorem findClasses_congr {ar ar1 : AnalysisResult} (h : ar1.classDecs = ar.classDecs)
    (name : String) : findClasses ar1 name = findClasses ar name := by
  simp [findClasses, h]

theorem findClass_congr {ar ar1 : AnalysisResult} (h : ar1.classDecs = ar.classDecs)
    (name : String) : findClass ar1 name = findClass ar name := by
  simp [findClass, findClasses_congr h]

theorem findClass_mem {ar : AnalysisResult} {name : String} {c : ClassId}
    (h : findClass ar name = some c) : c ∈ findClasses ar name := by
  unfold findClass at h
  exact List.mem_of_mem_head? h

/-! ## The state only evolves -/

theorem Evolves.refl (ar : AnalysisResult) : Evolves ar ar where
  classDecs := rfl
  core := fun _ => rfl
  bases := fun _ => List.Sublist.refl _
  volatile := fun _ h => h
  derives := fun _ h => h
  forced := fun _ h => h
  needGlobal := fun _ h => h
  funcs := fun _ => Or.inl rfl
  codeError := List.prefix_refl _

theorem markedVirtual_idem (fs : FunctionScope) :
    markedVirtual (markedVirtual fs) = markedVirtual fs := rfl

theorem Evolves.trans {a b c : AnalysisResult} (h1 : Evolves a b) (h2 : Evolves b c) :
    Evolves a c where
  classDecs := h2.classDecs.trans h1.classDecs
  core := fun x => (h2.core x).trans (h1.core x)
  bases := fun x => (h2.bases x).trans (h1.bases x)
  volatile := fun x h => h2.volatile x (h1.volatile x h)
  derives := fun x h => h2.derives x (h1.derives x h)
  forced := fun x h => h2.forced x (h1.forced x h)
  needGlobal := fun x h => h2.needGlobal x (h1.needGlobal x h)
  funcs := fun f => by
    rcases h1.funcs f with e1 | e1 <;> rcases h2.funcs f with e2 | e2
    · exact Or.inl (e2.trans e1)
    · exact Or.inr (by rw [e2, e1])
    · exact Or.inr (by rw [e2, e1])
    · exact Or.inr (by rw [e2, e1, markedVirtual_idem])
  codeError := h1.codeError.trans h2.codeError

theorem Evolves.name {ar ar1 : AnalysisResult} (h : Evolves ar ar1) (c : ClassId) :
    (ar1.classScopes c).name = (ar.classScopes c).name :=
  show (classCore (ar1.classScopes c)).name = (classCore (ar.classScopes c)).name from
    congrArg ClassScope.name (h.core c)

theorem Evolves.parent {ar ar1 : AnalysisResult} (h : Evolves ar ar1) (c : ClassId) :
    (ar1.classScopes c).parent = (ar.classScopes c).parent :=
  show (classCore (ar1.classScopes c)).parent = (classCore (ar.classScopes c)).parent from
    congrArg ClassScope.parent (h.core c)

theorem Evolves.kindOf {ar ar1 : AnalysisResult} (h : Evolves ar ar1) (c : ClassId) :
    (ar1.classScopes c).kindOf = (ar.classScopes c).kindOf :=
  show (classCore (ar1.classScopes c)).kindOf = (classCore (ar.classScopes c)).kindOf from
    congrArg ClassScope.kindOf (h.core c)

theorem Evolves.functions {ar ar1 : AnalysisResult} (h : Evolves ar ar1) (c : ClassId) :
    (ar1.classScopes c).functions = (ar.classScopes c).functions :=
  show (classCore (ar1.classScopes c)).functions = (classCore (ar.classScopes c)).functions from
    congrArg ClassScope.functions (h.core c)

theorem Evolves.missingMethods {ar ar1 : AnalysisResult} (h : Evolves ar ar1) (c : ClassId) :
    (ar1.classScopes c).missingMethods = (ar.classScopes c).missingMethods :=
  show (classCore (ar1.classScopes c)).missingMethods = (classCore (ar.classScopes c)).missingMethods from
    congrArg ClassScope.missingMethods (h.core c)

theorem Evolves.redeclaring {ar ar1 : AnalysisResult} (h : Evolves ar ar1) (c : ClassId) :
    (ar1.classScopes c).redeclaring = (ar.classScopes c).redeclaring :=
  show (classCore (ar1.classScopes c)).redeclaring = (classCore (ar.classScopes c)).redeclaring from
    congrArg ClassScope.redeclaring (h.core c)

theorem Evolves.isRedeclaring {ar ar1 : AnalysisResult} (h : Evolves ar ar1) (c : ClassId) :
    (ar1.classScopes c).isRedeclaring = (ar.classScopes c).isRedeclaring := by
  simp [ClassScope.isRedeclaring, h.redeclaring c]

theorem Evolves.isInterface {ar ar1 : AnalysisResult} (h : Evolves ar ar1) (c : ClassId) :
    (ar1.classScopes c).isInterface = (ar.classScopes c).isInterface := by
  simp [ClassScope.isInterface, h.kindOf c]

theorem Evolves.isPrivate {ar ar1 : AnalysisResult} (h : Evolves ar ar1) (f : FuncId) :
    (ar1.functionScopes f).isPrivate = (ar.functionScopes f).isPrivate := by
  rcases h.funcs f with e | e <;> rw [e]
  rfl

theorem Evolves.virtual {ar ar1 : AnalysisResult} (h : Evolves ar ar1) (f : FuncId)
    (hv : (ar.functionScopes f).virtual = true) : (ar1.functionScopes f).virtual = true := by
  rcases h.funcs f with e | e <;> rw [e]
  · exact hv
  · rfl

theorem Evolves.findClasses {ar ar1 : AnalysisResult} (h : Evolves ar ar1) (name : String) :
    findClasses ar1 name = findClasses ar name :=
  findClasses_congr h.classDecs name

theorem Evolves.findClass {ar ar1 : AnalysisResult} (h : Evolves ar ar1) (name : String) :
    findClass ar1 name = findClass ar name :=
  findClass_congr h.classDecs name

theorem Evolves.functionsNonempty {ar ar1 : AnalysisResult} (h : Evolves ar ar1)
    (hn : FunctionsNonempty ar) : FunctionsNonempty ar1 := by
  intro c name vec hm
  rw [h.functions c] at hm
  exact hn c name vec hm

theorem Evolves.ranked {ar ar1 : AnalysisResult} (h : Evolves ar ar1) {rank : ClassId → Nat}
    (hr : Ranked ar rank) : Ranked ar1 rank := by
  intro c base hc hb hne d hd
  rw [h.name c] at hne
  rw [h.findClasses] at hd
  exact hr c base hc ((h.bases c).subset hb) hne d hd

/-- A change of one class scope that keeps the frozen fields, only removes
bases and only widens the flags is an evolution. -/
theorem Evolves.updClass (ar : AnalysisResult) (c : ClassId) (g : ClassScope → ClassScope)
    (hcore : classCore (g (ar.classScopes c)) = classCore (ar.classScopes c))
    (hbases : (g (ar.classScopes c)).bases.Sublist (ar.classScopes c).bases)
    (hvol : (ar.classScopes c).volatile = true → (g (ar.classScopes c)).volatile = true)
    (hder : (ar.classScopes c).derivesFromRedeclaring ≠ Derivation.FromNormal →
      (g (ar.classScopes c)).derivesFromRedeclaring ≠ Derivation.FromNormal)
    (hforced : (ar.classScopes c).variableTable.forcedVariants = true →
      (g (ar.classScopes c)).variableTable.forcedVariants = true)
    (hglobal : (ar.classScopes c).variableTable.needGlobalPointer = true →
      (g (ar.classScopes c)).variableTable.needGlobalPointer = true) :
    Evolves ar (ar.updClass c g) where
  classDecs := rfl
  core := fun x => by
    by_cases hx : x = c
    · subst hx; simpa [AnalysisResult.updClass] using hcore
    · simp [AnalysisResult.updClass, Function.update_noteq hx]
  bases := fun x => by
    by_cases hx : x = c
    · subst hx; simpa [AnalysisResult.updClass] using hbases
    · simp [AnalysisResult.updClass, Function.update_noteq hx]
  volatile := fun x => by
    by_cases hx : x = c
    · subst hx; simpa [AnalysisResult.updClass] using hvol
    · simp [AnalysisResult.updClass, Function.update_noteq hx]
  derives := fun x => by
    by_cases hx : x = c
    · subst hx; simpa [AnalysisResult.updClass] using hder
    · simp [AnalysisResult.updClass, Function.update_noteq hx]
  forced := fun x => by
    by_cases hx : x = c
    · subst hx; simpa [AnalysisResult.updClass] using hforced
    · simp [AnalysisResult.updClass, Function.update_noteq hx]
  needGlobal := fun x => by
    by_cases hx : x = c
    · subst hx; simpa [AnalysisResult.updClass] using hglobal
    · simp [AnalysisResult.updClass, Function.update_noteq hx]
  funcs := fun _ => Or.inl rfl
  codeError := List.prefix_refl _

theorem Evolves_setVirtual (ar : AnalysisResult) (f : FuncId) : Evolves ar (setVirtual ar f) where
  classDecs := rfl
  core := fun _ => rfl
  bases := fun _ => List.Sublist.refl _
  volatile := fun _ h => h
  derives := fun _ h => h
  forced := fun _ h => h
  needGlobal := fun _ h => h
  funcs := fun g => by
    by_cases hg : g = f
    · subst hg; right; simp [setVirtual, AnalysisResult.updFunc, markedVirtual]
    · left; simp [setVirtual, AnalysisResult.updFunc, Function.update_noteq hg]
  codeError := List.prefix_refl _

theorem Evolves_record (ar : AnalysisResult) (kind : ErrorType) (self : ClassId)
    (data : String) : Evolves ar (record ar kind self data) where
  classDecs := rfl
  core := fun _ => rfl
  bases := fun _ => List.Sublist.refl _
  volatile := fun _ h => h
  derives := fun _ h => h
  forced := fun _ h => h
  needGlobal := fun _ h => h
  funcs := fun _ => Or.inl rfl
  codeError := List.prefix_append _ _

theorem Evolves_eraseBase (ar : AnalysisResult) (self : ClassId) (i : Nat) :
    Evolves ar (eraseBase ar self i) :=
  Evolves.updClass ar self _ rfl (List.eraseIdx_sublist _ _) id id id id

theorem Evolves_setDerives (ar : AnalysisResult) (self : ClassId) (d : Derivation)
    (hd : d ≠ Derivation.FromNormal) : Evolves ar (setDerives ar self d) :=
  Evolves.updClass ar self _ rfl (List.Sublist.refl _) id (fun _ => hd) id id

theorem Evolves_forceVariants (ar : AnalysisResult) (self : ClassId) :
    Evolves ar (forceVariants ar self) :=
  Evolves.updClass ar self _ rfl (List.Sublist.refl _) id id (fun _ => rfl) id

theorem Evolves_setNeedGlobalPointer (ar : AnalysisResult) (self : ClassId) :
    Evolves ar (setNeedGlobalPointer ar self) :=
  Evolves.updClass ar self _ rfl (List.Sublist.refl _) id id id (fun _ => rfl)

theorem Evolves_setVolatile (ar : AnalysisResult) (self : ClassId) :
    Evolves ar (setVolatile ar self) :=
  Evolves.updClass ar self _ rfl (List.Sublist.refl _) (fun _ => rfl) id id id

/-! ## The first loop of `collectMethods` -/

theorem collectOwn_classScopes (collectPrivate : Bool) (fs : List (String × List FuncId))
    (ar : AnalysisResult) (funcs : FuncMap) (ar1 : AnalysisResult) (funcs1 : FuncMap)
    (h : collectOwn collectPrivate fs ar funcs = some (ar1, funcs1)) :
    ar1.classScopes = ar.classScopes ∧ ar1.classDecs = ar.classDecs ∧
      ar1.codeError = ar.codeError := by
  induction fs generalizing ar funcs with
  | nil => simp [collectOwn] at h; obtain ⟨rfl, rfl⟩ := h; exact ⟨rfl, rfl, rfl⟩
  | cons e rest ih =>
    obtain ⟨name, vec⟩ := e
    simp only [collectOwn] at h
    split at h
    · exact absurd h (by simp)
    · split at h
      · exact ih _ _ h
      · split at h
        · exact ih _ _ h
        · have := ih _ _ h
          exact this

theorem collectOwn_evolves (collectPrivate : Bool) (fs : List (String × List FuncId))
    (ar : AnalysisResult) (funcs : FuncMap) (ar1 : AnalysisResult) (funcs1 : FuncMap)
    (h : collectOwn collectPrivate fs ar funcs = some (ar1, funcs1)) :
    Evolves ar ar1 ∧ MapLe funcs funcs1 := by
  induction fs generalizing ar funcs with
  | nil =>
    simp [collectOwn] at h; obtain ⟨rfl, rfl⟩ := h
    exact ⟨Evolves.refl _, MapLe.mrefl _⟩
  | cons e rest ih =>
    obtain ⟨name, vec⟩ := e
    simp only [collectOwn] at h
    split at h
    · exact absurd h (by simp)
    · split at h
      · exact ih _ _ h
      · split at h
        · obtain ⟨h1, h2⟩ := ih _ _ h
          exact ⟨h1, (MapLe_mapAdd _ _ _).mtrans h2⟩
        · obtain ⟨h1, h2⟩ := ih _ _ h
          exact ⟨((Evolves_setVirtual _ _).trans (Evolves_setVirtual _ _)).trans h1, h2⟩

/-- The first loop returns whenever every vector of the class holds a
function. -/
theorem collectOwn_total (collectPrivate : Bool) (fs : List (String × List FuncId))
    (ar : AnalysisResult) (funcs : FuncMap)
    (hne : ∀ name vec, (name, vec) ∈ fs → vec ≠ []) :
    ∃ r, collectOwn collectPrivate fs ar funcs = some r := by
  induction fs generalizing ar funcs with
  | nil => exact ⟨_, rfl⟩
  | cons e rest ih =>
    obtain ⟨name, vec⟩ := e
    have hrest : ∀ name vec, (name, vec) ∈ rest → vec ≠ [] :=
      fun n v hm => hne n v (List.mem_cons_of_mem _ hm)
    have hvec : vec ≠ [] := hne name vec (List.mem_cons_self _ _)
    simp only [collectOwn]
    cases hl : vec.getLast? with
    | none => exact absurd (List.getLast?_eq_none_iff.mp hl) hvec
    | some last =>
      simp only []
      split
      · exact ih _ _ hrest
      · split
        · exact ih _ _ hrest
        · exact ih _ _ hrest

/-- What the first loop leaves under a name the class declares, when the last
declaration of the name is not skipped: the entry that was there, or else that
last declaration. -/
theorem collectOwn_find (collectPrivate : Bool) (fs : List (String × List FuncId))
    (ar : AnalysisResult) (funcs : FuncMap) (ar1 : AnalysisResult) (funcs1 : FuncMap)
    (name : String) (vec : List FuncId) (last : FuncId)
    (hdecl : mapFind fs name = some vec) (hlast : vec.getLast? = some last)
    (hpriv : collectPrivate = true ∨ (ar.functionScopes last).isPrivate = false)
    (h : collectOwn collectPrivate fs ar funcs = some (ar1, funcs1)) :
    mapFind funcs1 name = some ((mapFind funcs name).getD last) := by
  induction fs generalizing ar funcs with
  | nil => simp [mapFind] at hdecl
  | cons e rest ih =>
    obtain ⟨k, v⟩ := e
    by_cases hk : k = name
    · subst hk
      simp [mapFind] at hdecl
      subst hdecl
      simp only [collectOwn, hlast] at h
      have hskip : (!collectPrivate && (ar.functionScopes last).isPrivate) = false := by
        rcases hpriv with hp | hp <;> simp [hp]
      simp only [hskip] at h
      cases hf : mapFind funcs k with
      | none =>
        simp only [hf] at h
        have := (collectOwn_evolves _ _ _ _ _ _ h).2 k last (by simp [mapFind_mapAdd, hf])
        simpa using this
      | some g =>
        simp only [hf] at h
        have := (collectOwn_evolves _ _ _ _ _ _ h).2 k g hf
        simpa using this
    · simp only [mapFind, hk, if_false] at hdecl
      simp only [collectOwn] at h
      split at h
      · exact absurd h (by simp)
      · split at h
        · exact ih _ _ hdecl hpriv h
        · split at h
          · rename_i hnone
            have := ih _ _ hdecl hpriv h
            rw [this, mapFind_mapAdd]
            cases hn : mapFind funcs name <;> simp [hk]
          · refine ih _ _ hdecl ?_ h
            rcases hpriv with hp | hp
            · exact Or.inl hp
            · right
              rw [((Evolves_setVirtual _ _).trans (Evolves_setVirtual _ _)).isPrivate]
              exact hp

/-- A contributed name that is already in the table: both methods end virtual
and the entry stays. -/
theorem collectOwn_collision (collectPrivate : Bool) (fs : List (String × List FuncId))
    (ar : AnalysisResult) (funcs : FuncMap) (ar1 : AnalysisResult) (funcs1 : FuncMap)
    (name : String) (vec : List FuncId) (last existing : FuncId)
    (hdecl : (name, vec) ∈ fs) (hlast : vec.getLast? = some last)
    (hpriv : collectPrivate = true ∨ (ar.functionScopes last).isPrivate = false)
    (hpresent : mapFind funcs name = some existing)
    (h : collectOwn collectPrivate fs ar funcs = some (ar1, funcs1)) :
    mapFind funcs1 name = some existing ∧ (ar1.functionScopes existing).virtual = true ∧
      (ar1.functionScopes last).virtual = true := by
  induction fs generalizing ar funcs with
  | nil => simp at hdecl
  | cons e rest ih =>
    obtain ⟨k, v⟩ := e
    have hkeep := (collectOwn_evolves _ _ _ _ _ _ h).2 name existing hpresent
    rcases List.mem_cons.mp hdecl with heq | hmem
    · obtain ⟨rfl, rfl⟩ := Prod.mk.inj heq
      simp only [collectOwn, hlast] at h
      have hskip : (!collectPrivate && (ar.functionScopes last).isPrivate) = false := by
        rcases hpriv with hp | hp <;> simp [hp]
      simp only [hskip, hpresent] at h
      have hev := (collectOwn_evolves _ _ _ _ _ _ h).1
      refine ⟨hkeep, hev.virtual _ ?_, hev.virtual _ ?_⟩
      · by_cases he : existing = last
        · subst he; simp [setVirtual, AnalysisResult.updFunc]
        · simp [setVirtual, AnalysisResult.updFunc, Function.update_noteq he]
      · simp [setVirtual, AnalysisResult.updFunc]
    · simp only [collectOwn] at h
      split at h
      · exact absurd h (by simp)
      · split at h
        · exact ih _ _ hmem hpriv hpresent h
        · split at h
          · exact ih _ _ hmem hpriv (MapLe_mapAdd _ _ _ _ _ hpresent) h
          · refine ih _ _ hmem ?_ hpresent h
            rcases hpriv with hp | hp
            · exact Or.inl hp
            · right
              rw [((Evolves_setVirtual _ _).trans (Evolves_setVirtual _ _)).isPrivate]
              exact hp

/-! ## The loop over the missing methods -/

theorem markMissing_classScopes (funcs : FuncMap) (miss : List String) (ar : AnalysisResult) :
    (markMissing funcs miss ar).classScopes = ar.classScopes ∧
      (markMissing funcs miss ar).classDecs = ar.classDecs ∧
      (markMissing funcs miss ar).codeError = ar.codeError := by
  induction miss generalizing ar with
  | nil => exact ⟨rfl, rfl, rfl⟩
  | cons m rest ih =>
    simp only [markMissing]
    split
    · exact ih _
    · exact ih _

theorem markMissing_evolves (funcs : FuncMap) (miss : List String) (ar : AnalysisResult) :
    Evolves ar (markMissing funcs miss ar) := by
  induction miss generalizing ar with
  | nil => exact Evolves.refl _
  | cons m rest ih =>
    simp only [markMissing]
    split
    · exact (Evolves_setVirtual _ _).trans (ih _)
    · exact ih _

/-! ## The walk over the bases only lets the state evolve -/

theorem Evolves_directParent (ar : AnalysisResult) (self : ClassId) :
    Evolves ar (setVolatile (setNeedGlobalPointer (forceVariants
      (setDerives ar self Derivation.DirectFromRedeclared) self) self) self) :=
  (((Evolves_setDerives ar self _ (by decide)).trans (Evolves_forceVariants _ _)).trans
    (Evolves_setNeedGlobalPointer _ _)).trans (Evolves_setVolatile _ _)

theorem Evolves_indirectParent (ar : AnalysisResult) (self : ClassId) :
    Evolves ar (setVolatile (forceVariants
      (setDerives ar self Derivation.IndirectFromRedeclared) self) self) :=
  ((Evolves_setDerives ar self _ (by decide)).trans (Evolves_forceVariants _ _)).trans
    (Evolves_setVolatile _ _)

theorem Evolves_unknownParent (ar : AnalysisResult) (self : ClassId) :
    Evolves ar (setVolatile (forceVariants (setNeedGlobalPointer
      (setDerives ar self Derivation.DirectFromRedeclared) self) self) self) :=
  (((Evolves_setDerives ar self _ (by decide)).trans (Evolves_setNeedGlobalPointer _ _)).trans
    (Evolves_forceVariants _ _)).trans (Evolves_setVolatile _ _)

theorem collectCandidates_evolves
    (rec : AnalysisResult → ClassId → FuncMap → Option (AnalysisResult × FuncMap))
    (hrec : RecEvolves rec) (pristine : FuncMap) (cands : List ClassId)
    (ar : AnalysisResult) (funcs : FuncMap) (ar1 : AnalysisResult) (funcs1 : FuncMap)
    (h : collectCandidates rec pristine cands ar funcs = some (ar1, funcs1)) :
    Evolves ar ar1 ∧ MapLe funcs funcs1 := by
  induction cands generalizing ar funcs with
  | nil =>
    simp [collectCandidates] at h; obtain ⟨rfl, rfl⟩ := h
    exact ⟨Evolves.refl _, MapLe.mrefl _⟩
  | cons cls rest ih =>
    simp only [collectCandidates] at h
    split at h
    · exact absurd h (by simp)
    · rename_i ar2 cur hcall
      obtain ⟨h1, h2⟩ := ih _ _ h
      exact ⟨(hrec _ _ _ _ _ hcall).1.trans h1, (MapLe_mapInsertAll _ _).mtrans h2⟩

theorem walkBase_evolves
    (rec : AnalysisResult → ClassId → FuncMap → Option (AnalysisResult × FuncMap))
    (hrec : RecEvolves rec) (self : ClassId) (forInvoke : Bool) (i : Nat)
    (seen : List String) (ar : AnalysisResult) (funcs : FuncMap)
    (seen1 : List String) (ar1 : AnalysisResult) (funcs1 : FuncMap)
    (h : walkBase rec self forInvoke i seen ar funcs = some (seen1, ar1, funcs1)) :
    Evolves ar ar1 ∧ MapLe funcs funcs1 := by
  unfold walkBase at h
  split at h
  · exact absurd h (by simp)
  · rename_i base hbase
    split at h
    · simp only [Option.some.injEq, Prod.mk.injEq] at h
      obtain ⟨-, rfl, rfl⟩ := h
      exact ⟨(Evolves_record _ _ _ _).trans (Evolves_eraseBase _ _ _), MapLe.mrefl _⟩
    · simp only [] at h
      split at h
      · simp only [Option.some.injEq, Prod.mk.injEq] at h
        obtain ⟨-, rfl, rfl⟩ := h
        exact ⟨Evolves.refl _, MapLe.mrefl _⟩
      · split at h
        · rename_i super hsuper
          split at h
          · split at h
            · split at h
              · simp only [Option.some.injEq, Prod.mk.injEq] at h
                obtain ⟨-, rfl, rfl⟩ := h
                exact ⟨Evolves.refl _, MapLe.mrefl _⟩
              · split at h
                · exact absurd h (by simp)
                · rename_i ar2 funcs2 hcands
                  simp only [Option.some.injEq, Prod.mk.injEq] at h
                  obtain ⟨-, rfl, rfl⟩ := h
                  obtain ⟨h1, h2⟩ := collectCandidates_evolves rec hrec _ _ _ _ _ _ hcands
                  exact ⟨h1.trans (Evolves_directParent _ _), h2⟩
            · split at h
              · simp only [Option.some.injEq, Prod.mk.injEq] at h
                obtain ⟨-, rfl, rfl⟩ := h
                exact ⟨Evolves_setDerives _ _ _ (by decide), MapLe.mrefl _⟩
              · simp only [Option.some.injEq, Prod.mk.injEq] at h
                obtain ⟨-, rfl, rfl⟩ := h
                exact ⟨Evolves.refl _, MapLe.mrefl _⟩
          · split at h
            · exact absurd h (by simp)
            · rename_i ar2 funcs2 hcall
              obtain ⟨h1, h2⟩ := hrec _ _ _ _ _ hcall
              split at h
              · split at h
                · simp only [Option.some.injEq, Prod.mk.injEq] at h
                  obtain ⟨-, rfl, rfl⟩ := h
                  exact ⟨h1.trans (Evolves_indirectParent _ _), h2⟩
                · split at h
                  · simp only [Option.some.injEq, Prod.mk.injEq] at h
                    obtain ⟨-, rfl, rfl⟩ := h
                    exact ⟨h1.trans (Evolves_setDerives _ _ _ (by decide)), h2⟩
                  · simp only [Option.some.injEq, Prod.mk.injEq] at h
                    obtain ⟨-, rfl, rfl⟩ := h
                    exact ⟨h1, h2⟩
              · simp only [Option.some.injEq, Prod.mk.injEq] at h
                obtain ⟨-, rfl, rfl⟩ := h
                exact ⟨h1, h2⟩
        · split at h
          · simp only [Option.some.injEq, Prod.mk.injEq] at h
            obtain ⟨-, rfl, rfl⟩ := h
            exact ⟨(Evolves_record _ _ _ _).trans (Evolves_unknownParent _ _), MapLe.mrefl _⟩
          · split at h
            · simp only [Option.some.injEq, Prod.mk.injEq] at h
              obtain ⟨-, rfl, rfl⟩ := h
              exact ⟨((Evolves_record _ _ _ _).trans
                (Evolves_setDerives _ _ _ (by decide))).trans (Evolves_eraseBase _ _ _),
                MapLe.mrefl _⟩
            · simp only [Option.some.injEq, Prod.mk.injEq] at h
              obtain ⟨-, rfl, rfl⟩ := h
              exact ⟨(Evolves_record _ _ _ _).trans (Evolves_eraseBase _ _ _), MapLe.mrefl _⟩

theorem walkBases_evolves
    (rec : AnalysisResult → ClassId → FuncMap → Option (AnalysisResult × FuncMap))
    (hrec : RecEvolves rec) (self : ClassId) (forInvoke : Bool) (k : Nat)
    (seen : List String) (ar : AnalysisResult) (funcs : FuncMap)
    (ar1 : AnalysisResult) (funcs1 : FuncMap)
    (h : walkBases rec self forInvoke k seen ar funcs = some (ar1, funcs1)) :
    Evolves ar ar1 ∧ MapLe funcs funcs1 := by
  induction k generalizing seen ar funcs with
  | zero =>
    simp [walkBases] at h; obtain ⟨rfl, rfl⟩ := h
    exact ⟨Evolves.refl _, MapLe.mrefl _⟩
  | succ i ih =>
    simp only [walkBases] at h
    split at h
    · exact absurd h (by simp)
    · rename_i seen2 ar2 funcs2 hstep
      obtain ⟨h1, h2⟩ := walkBase_evolves rec hrec _ _ _ _ _ _ _ _ _ hstep
      obtain ⟨h3, h4⟩ := ih _ _ _ h
      exact ⟨h1.trans h3, h2.mtrans h4⟩

theorem collectMethods_recEvolves (fuel : Nat) (collectPrivate forInvoke : Bool) :
    RecEvolves (fun a c t => collectMethods fuel a c t collectPrivate forInvoke) := by
  induction fuel generalizing collectPrivate with
  | zero => intro ar c funcs ar1 funcs1 h; simp [collectMethods] at h
  | succ fuel ih =>
    intro ar c funcs ar1 funcs1 h
    simp only [collectMethods] at h
    split at h
    · exact absurd h (by simp)
    · rename_i ar2 funcs2 hown
      obtain ⟨h1, h2⟩ := collectOwn_evolves _ _ _ _ _ _ hown
      obtain ⟨h3, h4⟩ := walkBases_evolves _ (ih false) _ _ _ _ _ _ _ _ h
      exact ⟨(h1.trans (markMissing_evolves _ _ _)).trans h3, h2.mtrans h4⟩

/-- A run of `collectMethods` only lets the state evolve and keeps every entry
that was in the table. -/
theorem collectMethods_evolves (fuel : Nat) (ar : AnalysisResult) (c : ClassId)
    (funcs : FuncMap) (collectPrivate forInvoke : Bool) (ar1 : AnalysisResult)
    (funcs1 : FuncMap)
    (h : collectMethods fuel ar c funcs collectPrivate forInvoke = some (ar1, funcs1)) :
    Evolves ar ar1 ∧ MapLe funcs funcs1 :=
  collectMethods_recEvolves fuel collectPrivate forInvoke ar c funcs ar1 funcs1 h

/-! ## The iterations of the walk, case by case -/

theorem walkBase_of_walkStep
    {rec : AnalysisResult → ClassId → FuncMap → Option (AnalysisResult × FuncMap)}
    {self : ClassId} {forInvoke : Bool} {i : Nat} {seen : List String}
    {ar : AnalysisResult} {funcs : FuncMap}
    {seen1 : List String} {ar1 : AnalysisResult} {funcs1 : FuncMap}
    (h : WalkStep rec self forInvoke i seen ar funcs seen1 ar1 funcs1) :
    walkBase rec self forInvoke i seen ar funcs = some (seen1, ar1, funcs1) := by
  cases h with
  | invalid base hbase hseen => simp [walkBase, hbase, hseen]
  | skipped base hbase hseen hinvoke hparent =>
    simp [walkBase, hbase, hseen, hinvoke, hparent]
  | redeclaredParentInvoke base super hbase hseen hinvoke hparent hfind hredec =>
    subst hparent
    simp [walkBase, hbase, hseen, hinvoke, hfind, hredec]
  | redeclaredParent base super ar2 funcs2 hbase hseen hinvoke hparent hfind hredec hcands =>
    subst hparent
    simp [walkBase, hbase, hseen, hinvoke, hfind, hredec, hcands, afterRedeclaredParent]
  | redeclaredBase base super hbase hseen hinvoke hparent hfind hredec =>
    simp only [walkBase, hbase, hseen, hinvoke, hfind, hredec, hparent, afterRedeclaredBase]
    by_cases hi : (ar.classScopes self).isInterface = true <;> simp [hi]
  | known base super ar2 funcs2 hbase hseen hfollow hfind hredec hcall =>
    have hskip : (forInvoke && base != (ar.classScopes self).parent) = false := by
      rcases hfollow with hf | hf <;> simp [hf]
    simp only [walkBase, hbase, hseen, hskip, hfind, hredec, hcall, afterKnownBase]
    simp only [if_false, Bool.false_eq_true]
    split <;> [split <;> [rfl; (split <;> rfl)]; rfl]
  | unknown base hbase hseen hfollow hfind =>
    have hskip : (forInvoke && base != (ar.classScopes self).parent) = false := by
      rcases hfollow with hf | hf <;> simp [hf]
    simp only [walkBase, hbase, hseen, hskip, hfind, afterUnknownBase]
    simp only [if_false, Bool.false_eq_true]
    split <;> [rfl; (split <;> rfl)]

theorem walkStep_of_walkBase
    {rec : AnalysisResult → ClassId → FuncMap → Option (AnalysisResult × FuncMap)}
    {self : ClassId} {forInvoke : Bool} {i : Nat} {seen : List String}
    {ar : AnalysisResult} {funcs : FuncMap}
    {seen1 : List String} {ar1 : AnalysisResult} {funcs1 : FuncMap}
    (h : walkBase rec self forInvoke i seen ar funcs = some (seen1, ar1, funcs1)) :
    WalkStep rec self forInvoke i seen ar funcs seen1 ar1 funcs1 := by
  cases hbase : (ar.classScopes self).bases[i]? with
  | none => simp [walkBase, hbase] at h
  | some base =>
    by_cases hseen : base ∈ seen
    · have := walkBase_of_walkStep (@WalkStep.invalid rec self forInvoke i seen ar funcs
        base hbase hseen)
      rw [h] at this
      simp only [Option.some.injEq, Prod.mk.injEq] at this
      obtain ⟨rfl, rfl, rfl⟩ := this
      exact WalkStep.invalid base hbase hseen
    · by_cases hfollow : forInvoke = false ∨ base = (ar.classScopes self).parent
      · cases hfind : findClass ar base with
        | none =>
          have := walkBase_of_walkStep (@WalkStep.unknown rec self forInvoke i seen ar funcs
            base hbase hseen hfollow hfind)
          rw [h] at this
          simp only [Option.some.injEq, Prod.mk.injEq] at this
          obtain ⟨rfl, rfl, rfl⟩ := this
          exact WalkStep.unknown base hbase hseen hfollow hfind
        | some super =>
          cases hredec : (ar.classScopes super).isRedeclaring with
          | false =>
            have hskip : (forInvoke && base != (ar.classScopes self).parent) = false := by
              rcases hfollow with hf | hf <;> simp [hf]
            cases hcall : rec ar super funcs with
            | none => simp [walkBase, hbase, hseen, hskip, hfind, hredec, hcall] at h
            | some r =>
              obtain ⟨ar2, funcs2⟩ := r
              have := walkBase_of_walkStep (@WalkStep.known rec self forInvoke i seen ar funcs
                base super ar2 funcs2 hbase hseen hfollow hfind hredec hcall)
              rw [h] at this
              simp only [Option.some.injEq, Prod.mk.injEq] at this
              obtain ⟨rfl, rfl, rfl⟩ := this
              exact WalkStep.known base super _ _ hbase hseen hfollow hfind hredec hcall
          | true =>
            by_cases hparent : base = (ar.classScopes self).parent
            · cases hinvoke : forInvoke with
              | true =>
                have := walkBase_of_walkStep (@WalkStep.redeclaredParentInvoke rec self forInvoke i seen ar
                  funcs base super hbase hseen hinvoke hparent hfind hredec)
                rw [h] at this
                simp only [Option.some.injEq, Prod.mk.injEq] at this
                obtain ⟨rfl, rfl, rfl⟩ := this
                exact WalkStep.redeclaredParentInvoke base super hbase hseen rfl hparent
                  hfind hredec
              | false =>
                cases hcands : collectCandidates rec funcs
                    (findClasses ar (ar.classScopes self).parent) ar funcs with
                | none =>
                  subst hparent
                  simp [walkBase, hbase, hseen, hinvoke, hfind, hredec, hcands] at h
                | some r =>
                  obtain ⟨ar2, funcs2⟩ := r
                  have := walkBase_of_walkStep (@WalkStep.redeclaredParent rec self forInvoke i seen ar funcs
                    base super ar2 funcs2 hbase hseen hinvoke hparent hfind hredec hcands)
                  rw [h] at this
                  simp only [Option.some.injEq, Prod.mk.injEq] at this
                  obtain ⟨rfl, rfl, rfl⟩ := this
                  exact WalkStep.redeclaredParent base super _ _ hbase hseen rfl
                    hparent hfind hredec hcands
            · have hinvoke : forInvoke = false := by
                rcases hfollow with hf | hf
                · exact hf
                · exact absurd hf hparent
              have := walkBase_of_walkStep (@WalkStep.redeclaredBase rec self forInvoke i seen ar funcs
                base super hbase hseen hinvoke hparent hfind hredec)
              rw [h] at this
              simp only [Option.some.injEq, Prod.mk.injEq] at this
              obtain ⟨rfl, rfl, rfl⟩ := this
              exact WalkStep.redeclaredBase base super hbase hseen hinvoke hparent hfind hredec
      · have hinvoke : forInvoke = true := by
          cases forInvoke <;> simp_all
        have hparent : base ≠ (ar.classScopes self).parent := fun hp => hfollow (Or.inr hp)
        have := walkBase_of_walkStep (@WalkStep.skipped rec self forInvoke i seen ar funcs
          base hbase hseen hinvoke hparent)
        rw [h] at this
        simp only [Option.some.injEq, Prod.mk.injEq] at this
        obtain ⟨rfl, rfl, rfl⟩ := this
        exact WalkStep.skipped base hbase hseen hinvoke hparent

/-! ## Which class scopes a run can change -/

theorem FrameAbove.frefl (rank : ClassId → Nat) (r : Nat) (ar : AnalysisResult) :
    FrameAbove rank r ar ar := fun _ _ => rfl

theorem FrameAbove.ftrans {rank : ClassId → Nat} {r : Nat} {a b c : AnalysisResult}
    (h1 : FrameAbove rank r a b) (h2 : FrameAbove rank r b c) : FrameAbove rank r a c :=
  fun x hx => (h2 x hx).trans (h1 x hx)

theorem FrameAbove.mono {rank : ClassId → Nat} {r s : Nat} {a b : AnalysisResult}
    (h : FrameAbove rank r a b) (hrs : r ≤ s) : FrameAbove rank s a b :=
  fun x hx => h x (fun hr => hx ⟨hr.1, Nat.lt_of_lt_of_le hr.2 hrs⟩)

theorem FrameAbove.of_classScopes_eq {rank : ClassId → Nat} {r : Nat} {a b : AnalysisResult}
    (h : b.classScopes = a.classScopes) : FrameAbove rank r a b :=
  fun x _ => by rw [h]

theorem OnlySelf.orefl (self : ClassId) (ar : AnalysisResult) : OnlySelf self ar ar :=
  fun _ _ => rfl

theorem OnlySelf.otrans {self : ClassId} {a b c : AnalysisResult}
    (h1 : OnlySelf self a b) (h2 : OnlySelf self b c) : OnlySelf self a c :=
  fun x hx => (h2 x hx).trans (h1 x hx)

theorem OnlySelf.frameAbove {self : ClassId} {a b : AnalysisResult} (h : OnlySelf self a b)
    {rank : ClassId → Nat} {r : Nat} (h0 : 0 < rank self) (hr : rank self < r) :
    FrameAbove rank r a b :=
  fun x hx => h x (fun hxs => hx (by subst hxs; exact ⟨h0, hr⟩))

theorem OnlySelf_updClass (ar : AnalysisResult) (self : ClassId) (g : ClassScope → ClassScope) :
    OnlySelf self ar (ar.updClass self g) :=
  fun x hx => by simp [AnalysisResult.updClass, Function.update_noteq hx]

theorem OnlySelf_record (ar : AnalysisResult) (kind : ErrorType) (c self : ClassId)
    (data : String) : OnlySelf self ar (record ar kind c data) := fun _ _ => rfl

theorem OnlySelf_setDerives (ar : AnalysisResult) (self : ClassId) (d : Derivation) :
    OnlySelf self ar (setDerives ar self d) := OnlySelf_updClass _ _ _

theorem OnlySelf_forceVariants (ar : AnalysisResult) (self : ClassId) :
    OnlySelf self ar (forceVariants ar self) := OnlySelf_updClass _ _ _

theorem OnlySelf_setNeedGlobalPointer (ar : AnalysisResult) (self : ClassId) :
    OnlySelf self ar (setNeedGlobalPointer ar self) := OnlySelf_updClass _ _ _

theorem OnlySelf_setVolatile (ar : AnalysisResult) (self : ClassId) :
    OnlySelf self ar (setVolatile ar self) := OnlySelf_updClass _ _ _

theorem OnlySelf_eraseBase (ar : AnalysisResult) (self : ClassId) (i : Nat) :
    OnlySelf self ar (eraseBase ar self i) := OnlySelf_updClass _ _ _

theorem OnlySelf_afterRedeclaredParent (ar : AnalysisResult) (self : ClassId) :
    OnlySelf self ar (afterRedeclaredParent ar self) :=
  (((OnlySelf_setDerives _ _ _).otrans (OnlySelf_forceVariants _ _)).otrans
    (OnlySelf_setNeedGlobalPointer _ _)).otrans (OnlySelf_setVolatile _ _)

theorem OnlySelf_afterRedeclaredBase (ar : AnalysisResult) (self : ClassId) :
    OnlySelf self ar (afterRedeclaredBase ar self) := by
  unfold afterRedeclaredBase
  split
  · exact OnlySelf_setDerives _ _ _
  · exact OnlySelf.orefl _ _

theorem OnlySelf_afterKnownBase (ar : AnalysisResult) (self super : ClassId) (base : String) :
    OnlySelf self ar (afterKnownBase ar self super base) := by
  unfold afterKnownBase
  split
  · split
    · exact ((OnlySelf_setDerives _ _ _).otrans (OnlySelf_forceVariants _ _)).otrans
        (OnlySelf_setVolatile _ _)
    · split
      · exact OnlySelf_setDerives _ _ _
      · exact OnlySelf.orefl _ _
  · exact OnlySelf.orefl _ _

theorem OnlySelf_afterUnknownBase (ar : AnalysisResult) (self : ClassId) (base : String)
    (i : Nat) : OnlySelf self ar (afterUnknownBase ar self base i) := by
  unfold afterUnknownBase
  simp only []
  split
  · exact ((((OnlySelf_record _ _ _ _ _).otrans (OnlySelf_setDerives _ _ _)).otrans
      (OnlySelf_setNeedGlobalPointer _ _)).otrans (OnlySelf_forceVariants _ _)).otrans
      (OnlySelf_setVolatile _ _)
  · split
    · exact ((OnlySelf_record _ _ _ _ _).otrans (OnlySelf_setDerives _ _ _)).otrans
        (OnlySelf_eraseBase _ _ _)
    · exact (OnlySelf_record _ _ _ _ _).otrans (OnlySelf_eraseBase _ _ _)

theorem Evolves_afterRedeclaredParent (ar : AnalysisResult) (self : ClassId) :
    Evolves ar (afterRedeclaredParent ar self) := Evolves_directParent ar self

theorem Evolves_afterRedeclaredBase (ar : AnalysisResult) (self : ClassId) :
    Evolves ar (afterRedeclaredBase ar self) := by
  unfold afterRedeclaredBase
  split
  · exact Evolves_setDerives _ _ _ (by decide)
  · exact Evolves.refl _

theorem Evolves_afterKnownBase (ar : AnalysisResult) (self super : ClassId) (base : String) :
    Evolves ar (afterKnownBase ar self super base) := by
  unfold afterKnownBase
  split
  · split
    · exact Evolves_indirectParent _ _
    · split
      · exact Evolves_setDerives _ _ _ (by decide)
      · exact Evolves.refl _
  · exact Evolves.refl _

theorem Evolves_afterUnknownBase (ar : AnalysisResult) (self : ClassId) (base : String)
    (i : Nat) : Evolves ar (afterUnknownBase ar self base i) := by
  unfold afterUnknownBase
  simp only []
  split
  · exact (Evolves_record _ _ _ _).trans (Evolves_unknownParent _ _)
  · split
    · exact ((Evolves_record _ _ _ _).trans (Evolves_setDerives _ _ _ (by decide))).trans
        (Evolves_eraseBase _ _ _)
    · exact (Evolves_record _ _ _ _).trans (Evolves_eraseBase _ _ _)

theorem mem_of_getElem?_eq_some {α : Type} {l : List α} {i : Nat} {a : α}
    (h : l[i]? = some a) : a ∈ l := by
  obtain ⟨hi, rfl⟩ := List.getElem?_eq_some.mp h
  exact List.getElem_mem hi

/-- The classes the walk of `self` recurses into have a smaller positive rank. -/
theorem Ranked.lower {ar : AnalysisResult} {rank : ClassId → Nat} (hR : Ranked ar rank)
    {self : ClassId} (hself : 0 < rank self) {i : Nat} {base : String} {seen : List String}
    (hbase : (ar.classScopes self).bases[i]? = some base)
    (hname : (ar.classScopes self).name ∈ seen) (hseen : base ∉ seen)
    {d : ClassId} (hd : d ∈ findClasses ar base) : 0 < rank d ∧ rank d < rank self :=
  hR self base hself (mem_of_getElem?_eq_some hbase)
    (fun hb => hseen (by rw [hb]; exact hname)) d hd

theorem collectCandidates_frame
    (rec : AnalysisResult → ClassId → FuncMap → Option (AnalysisResult × FuncMap))
    (hrecE : RecEvolves rec) (rank : ClassId → Nat) (bound : Nat)
    (hrecF : RecFrame rank bound rec) (pristine : FuncMap) (cands : List ClassId)
    (hc : ∀ d, d ∈ cands → 0 < rank d ∧ rank d < bound)
    (ar : AnalysisResult) (funcs : FuncMap) (ar1 : AnalysisResult) (funcs1 : FuncMap)
    (hR : Ranked ar rank)
    (h : collectCandidates rec pristine cands ar funcs = some (ar1, funcs1)) :
    FrameAbove rank bound ar ar1 := by
  induction cands generalizing ar funcs with
  | nil =>
    simp [collectCandidates] at h; obtain ⟨rfl, rfl⟩ := h
    exact FrameAbove.frefl _ _ _
  | cons cls rest ih =>
    simp only [collectCandidates] at h
    split at h
    · exact absurd h (by simp)
    · rename_i ar2 cur hcall
      have hcls := hc cls (List.mem_cons_self _ _)
      have h1 := hrecF _ _ _ _ _ hR hcls.1 hcls.2 hcall
      have hR2 := (hrecE _ _ _ _ _ hcall).1.ranked hR
      exact h1.ftrans (ih (fun d hd => hc d (List.mem_cons_of_mem _ hd)) _ _ hR2 h)

/-- One iteration of the walk of `self` changes the class scope of `self` and
class scopes of smaller positive rank only. -/
theorem walkStep_frame
    {rec : AnalysisResult → ClassId → FuncMap → Option (AnalysisResult × FuncMap)}
    (hrecE : RecEvolves rec) {rank : ClassId → Nat} {self : ClassId}
    (hrecF : RecFrame rank (rank self) rec) (hself : 0 < rank self)
    {forInvoke : Bool} {i : Nat} {seen : List String} {ar : AnalysisResult} {funcs : FuncMap}
    {seen1 : List String} {ar1 : AnalysisResult} {funcs1 : FuncMap}
    (hR : Ranked ar rank) (hname : (ar.classScopes self).name ∈ seen)
    (h : WalkStep rec self forInvoke i seen ar funcs seen1 ar1 funcs1) :
    FrameAbove rank (rank self + 1) ar ar1 := by
  have hs : rank self < rank self + 1 := Nat.lt_succ_self _
  cases h with
  | invalid base hbase hseen =>
    exact ((OnlySelf_record _ _ _ _ _).otrans (OnlySelf_eraseBase _ _ _)).frameAbove hself hs
  | skipped base hbase hseen hinvoke hparent => exact FrameAbove.frefl _ _ _
  | redeclaredParentInvoke base super hbase hseen hinvoke hparent hfind hredec =>
    exact FrameAbove.frefl _ _ _
  | redeclaredParent base super ar2 funcs2 hbase hseen hinvoke hparent hfind hredec hcands =>
    have h1 := collectCandidates_frame rec hrecE rank (rank self) hrecF _ _
      (fun d hd => hR.lower hself hbase hname hseen (hparent ▸ hd)) _ _ _ _ hR hcands
    exact (h1.mono (Nat.le_succ _)).ftrans
      ((OnlySelf_afterRedeclaredParent _ _).frameAbove hself hs)
  | redeclaredBase base super hbase hseen hinvoke hparent hfind hredec =>
    exact (OnlySelf_afterRedeclaredBase _ _).frameAbove hself hs
  | known base super ar2 funcs2 hbase hseen hfollow hfind hredec hcall =>
    have hlow := hR.lower hself hbase hname hseen (findClass_mem hfind)
    have h1 := hrecF _ _ _ _ _ hR hlow.1 hlow.2 hcall
    exact (h1.mono (Nat.le_succ _)).ftrans
      ((OnlySelf_afterKnownBase _ _ _ _).frameAbove hself hs)
  | unknown base hbase hseen hfollow hfind =>
    exact (OnlySelf_afterUnknownBase _ _ _ _).frameAbove hself hs

theorem walkStep_evolves
    {rec : AnalysisResult → ClassId → FuncMap → Option (AnalysisResult × FuncMap)}
    (hrecE : RecEvolves rec) {self : ClassId}
    {forInvoke : Bool} {i : Nat} {seen : List String} {ar : AnalysisResult} {funcs : FuncMap}
    {seen1 : List String} {ar1 : AnalysisResult} {funcs1 : FuncMap}
    (h : WalkStep rec self forInvoke i seen ar funcs seen1 ar1 funcs1) :
    Evolves ar ar1 ∧ MapLe funcs funcs1 :=
  walkBase_evolves rec hrecE _ _ _ _ _ _ _ _ _ (walkBase_of_walkStep h)

theorem walkStep_seen
    {rec : AnalysisResult → ClassId → FuncMap → Option (AnalysisResult × FuncMap)}
    {self : ClassId}
    {forInvoke : Bool} {i : Nat} {seen : List String} {ar : AnalysisResult} {funcs : FuncMap}
    {seen1 : List String} {ar1 : AnalysisResult} {funcs1 : FuncMap}
    (h : WalkStep rec self forInvoke i seen ar funcs seen1 ar1 funcs1) :
    ∀ s, s ∈ seen → s ∈ seen1 := by
  intro s hs
  cases h <;> first | exact hs | exact List.mem_cons_of_mem _ hs

theorem walkBases_frame
    (rec : AnalysisResult → ClassId → FuncMap → Option (AnalysisResult × FuncMap))
    (hrecE : RecEvolves rec) (rank : ClassId → Nat) (self : ClassId)
    (hrecF : RecFrame rank (rank self) rec) (hself : 0 < rank self)
    (forInvoke : Bool) (k : Nat) (seen : List String) (ar : AnalysisResult) (funcs : FuncMap)
    (ar1 : AnalysisResult) (funcs1 : FuncMap)
    (hR : Ranked ar rank) (hname : (ar.classScopes self).name ∈ seen)
    (h : walkBases rec self forInvoke k seen ar funcs = some (ar1, funcs1)) :
    FrameAbove rank (rank self + 1) ar ar1 := by
  induction k generalizing seen ar funcs with
  | zero =>
    simp [walkBases] at h; obtain ⟨rfl, rfl⟩ := h
    exact FrameAbove.frefl _ _ _
  | succ i ih =>
    simp only [walkBases] at h
    split at h
    · exact absurd h (by simp)
    · rename_i seen2 ar2 funcs2 hstep
      have hws := walkStep_of_walkBase hstep
      have hev := (walkStep_evolves hrecE hws).1
      have h1 := walkStep_frame hrecE hrecF hself hR hname hws
      have hname2 : (ar2.classScopes self).name ∈ seen2 := by
        rw [hev.name]; exact walkStep_seen hws _ hname
      exact h1.ftrans (ih _ _ _ (hev.ranked hR) hname2 h)

theorem collectMethods_recFrame (rank : ClassId → Nat) (fuel : Nat)
    (collectPrivate forInvoke : Bool) (ar : AnalysisResult) (c : ClassId) (funcs : FuncMap)
    (ar1 : AnalysisResult) (funcs1 : FuncMap) (hR : Ranked ar rank) (hc : 0 < rank c)
    (h : collectMethods fuel ar c funcs collectPrivate forInvoke = some (ar1, funcs1)) :
    FrameAbove rank (rank c + 1) ar ar1 := by
  induction fuel generalizing collectPrivate ar c funcs ar1 funcs1 with
  | zero => simp [collectMethods] at h
  | succ fuel ih =>
    simp only [collectMethods] at h
    split at h
    · exact absurd h (by simp)
    · rename_i ar2 funcs2 hown
      have hcs := collectOwn_classScopes _ _ _ _ _ _ hown
      have hms := markMissing_classScopes funcs2 (ar2.classScopes c).missingMethods ar2
      have hev := (collectOwn_evolves _ _ _ _ _ _ hown).1.trans
        (markMissing_evolves funcs2 (ar2.classScopes c).missingMethods ar2)
      have hF : RecFrame rank (rank c)
          (fun a d t => collectMethods fuel a d t false forInvoke) := by
        intro a d t a1 t1 hRa hd hdc hcall
        exact (ih false a d t a1 t1 hRa hd hcall).mono hdc
      have hw := walkBases_frame _ (collectMethods_recEvolves fuel false forInvoke) rank c hF hc
        forInvoke _ _ _ _ _ _ (hev.ranked hR) (List.mem_singleton.mpr rfl) h
      have h0 : FrameAbove rank (rank c + 1) ar
          (markMissing funcs2 (ar2.classScopes c).missingMethods ar2) :=
        FrameAbove.of_classScopes_eq (hms.1.trans hcs.1)
      exact h0.ftrans hw

/-! ## The base list of `self` during its walk -/

theorem eraseBase_bases (ar : AnalysisResult) (self : ClassId) (i : Nat) :
    ((eraseBase ar self i).classScopes self).bases =
      (ar.classScopes self).bases.eraseIdx i := by
  simp [eraseBase, AnalysisResult.updClass]

theorem setDerives_bases (ar : AnalysisResult) (self : ClassId) (d : Derivation) (x : ClassId) :
    ((setDerives ar self d).classScopes x).bases = (ar.classScopes x).bases := by
  by_cases hx : x = self
  · subst hx; simp [setDerives, AnalysisResult.updClass]
  · simp [setDerives, AnalysisResult.updClass, Function.update_noteq hx]

theorem forceVariants_bases (ar : AnalysisResult) (self : ClassId) (x : ClassId) :
    ((forceVariants ar self).classScopes x).bases = (ar.classScopes x).bases := by
  by_cases hx : x = self
  · subst hx; simp [forceVariants, AnalysisResult.updClass]
  · simp [forceVariants, AnalysisResult.updClass, Function.update_noteq hx]

theorem setNeedGlobalPointer_bases (ar : AnalysisResult) (self : ClassId) (x : ClassId) :
    ((setNeedGlobalPointer ar self).classScopes x).bases = (ar.classScopes x).bases := by
  by_cases hx : x = self
  · subst hx; simp [setNeedGlobalPointer, AnalysisResult.updClass]
  · simp [setNeedGlobalPointer, AnalysisResult.updClass, Function.update_noteq hx]

theorem setVolatile_bases (ar : AnalysisResult) (self : ClassId) (x : ClassId) :
    ((setVolatile ar self).classScopes x).bases = (ar.classScopes x).bases := by
  by_cases hx : x = self
  · subst hx; simp [setVolatile, AnalysisResult.updClass]
  · simp [setVolatile, AnalysisResult.updClass, Function.update_noteq hx]

theorem afterRedeclaredParent_bases (ar : AnalysisResult) (self : ClassId) (x : ClassId) :
    ((afterRedeclaredParent ar self).classScopes x).bases = (ar.classScopes x).bases := by
  simp [afterRedeclaredParent, setVolatile_bases, setNeedGlobalPointer_bases,
    forceVariants_bases, setDerives_bases]

theorem afterRedeclaredBase_bases (ar : AnalysisResult) (self : ClassId) (x : ClassId) :
    ((afterRedeclaredBase ar self).classScopes x).bases = (ar.classScopes x).bases := by
  unfold afterRedeclaredBase
  split <;> simp [setDerives_bases]

theorem afterKnownBase_bases (ar : AnalysisResult) (self super : ClassId) (base : String)
    (x : ClassId) :
    ((afterKnownBase ar self super base).classScopes x).bases = (ar.classScopes x).bases := by
  unfold afterKnownBase
  split
  · split
    · simp [setVolatile_bases, forceVariants_bases, setDerives_bases]
    · split <;> simp [setDerives_bases]
  · rfl

theorem afterUnknownBase_bases (ar : AnalysisResult) (self : ClassId) (base : String)
    (i : Nat) :
    ((afterUnknownBase ar self base i).classScopes self).bases =
      if base = (ar.classScopes self).parent then (ar.classScopes self).bases
      else (ar.classScopes self).bases.eraseIdx i := by
  unfold afterUnknownBase
  simp only []
  have hp : ((record ar ErrorType.UnknownBaseClass self base).classScopes self).parent =
      (ar.classScopes self).parent := rfl
  rw [hp]
  split
  · simp [setVolatile_bases, forceVariants_bases, setNeedGlobalPointer_bases,
      setDerives_bases, record]
  · split
    · simp [eraseBase_bases, setDerives_bases, record]
    · simp [eraseBase_bases, record]

/-- What one iteration of the walk does to the base list of `self`: nothing, or
the removal of the entry at the current index. -/
theorem walkStep_bases
    {rec : AnalysisResult → ClassId → FuncMap → Option (AnalysisResult × FuncMap)}
    {rank : ClassId → Nat} {self : ClassId}
    (hrecF : RecFrame rank (rank self) rec) (hself : 0 < rank self)
    {forInvoke : Bool} {i : Nat} {seen : List String} {ar : AnalysisResult} {funcs : FuncMap}
    {seen1 : List String} {ar1 : AnalysisResult} {funcs1 : FuncMap}
    (hrecE : RecEvolves rec)
    (hR : Ranked ar rank) (hname : (ar.classScopes self).name ∈ seen)
    (h : WalkStep rec self forInvoke i seen ar funcs seen1 ar1 funcs1) :
    (ar1.classScopes self).bases = (ar.classScopes self).bases ∨
      (ar1.classScopes self).bases = (ar.classScopes self).bases.eraseIdx i := by
  have hirr : ¬(0 < rank self ∧ rank self < rank self) := fun hx => Nat.lt_irrefl _ hx.2
  cases h with
  | invalid base hbase hseen =>
    right; rw [eraseBase_bases]; rfl
  | skipped base hbase hseen hinvoke hparent => exact Or.inl rfl
  | redeclaredParentInvoke base super hbase hseen hinvoke hparent hfind hredec =>
    exact Or.inl rfl
  | redeclaredParent base super ar2 funcs2 hbase hseen hinvoke hparent hfind hredec hcands =>
    have h1 := collectCandidates_frame rec hrecE rank (rank self) hrecF _ _
      (fun d hd => hR.lower hself hbase hname hseen (hparent ▸ hd)) _ _ _ _ hR hcands
    left; rw [afterRedeclaredParent_bases, h1 self hirr]
  | redeclaredBase base super hbase hseen hinvoke hparent hfind hredec =>
    left; rw [afterRedeclaredBase_bases]
  | known base super ar2 funcs2 hbase hseen hfollow hfind hredec hcall =>
    have hlow := hR.lower hself hbase hname hseen (findClass_mem hfind)
    have h1 := hrecF _ _ _ _ _ hR hlow.1 hlow.2 hcall
    left; rw [afterKnownBase_bases, h1 self hirr]
  | unknown base hbase hseen hfollow hfind =>
    rw [afterUnknownBase_bases]
    split
    · exact Or.inl rfl
    · exact Or.inr rfl

/-! ## The run returns on an acyclic graph -/

theorem collectCandidates_total
    (rec : AnalysisResult → ClassId → FuncMap → Option (AnalysisResult × FuncMap))
    (hrecE : RecEvolves rec) (rank : ClassId → Nat) (bound : Nat)
    (hrecT : RecTotal rank bound rec) (pristine : FuncMap) (cands : List ClassId)
    (hc : ∀ d, d ∈ cands → 0 < rank d ∧ rank d < bound)
    (ar : AnalysisResult) (funcs : FuncMap)
    (hR : Ranked ar rank) (hN : FunctionsNonempty ar) :
    ∃ r, collectCandidates rec pristine cands ar funcs = some r := by
  induction cands generalizing ar funcs with
  | nil => exact ⟨_, rfl⟩
  | cons cls rest ih =>
    have hcls := hc cls (List.mem_cons_self _ _)
    obtain ⟨⟨ar2, cur⟩, hcall⟩ := hrecT ar cls pristine hR hN hcls.1 hcls.2
    have hev := (hrecE _ _ _ _ _ hcall).1
    simp only [collectCandidates, hcall]
    exact ih (fun d hd => hc d (List.mem_cons_of_mem _ hd)) _ _ (hev.ranked hR)
      (hev.functionsNonempty hN)

theorem walkStep_total
    {rec : AnalysisResult → ClassId → FuncMap → Option (AnalysisResult × FuncMap)}
    (hrecE : RecEvolves rec) {rank : ClassId → Nat} {self : ClassId}
    (hrecT : RecTotal rank (rank self) rec) (hself : 0 < rank self)
    (forInvoke : Bool) {i : Nat} {seen : List String} {ar : AnalysisResult} (funcs : FuncMap)
    (hR : Ranked ar rank) (hN : FunctionsNonempty ar)
    (hname : (ar.classScopes self).name ∈ seen)
    (hi : i < (ar.classScopes self).bases.length) :
    ∃ seen1 ar1 funcs1, WalkStep rec self forInvoke i seen ar funcs seen1 ar1 funcs1 := by
  have hbase : (ar.classScopes self).bases[i]? = some ((ar.classScopes self).bases[i]) :=
    List.getElem?_eq_getElem hi
  generalize (ar.classScopes self).bases[i] = base at hbase
  by_cases hseen : base ∈ seen
  · exact ⟨_, _, _, WalkStep.invalid base hbase hseen⟩
  · by_cases hfollow : forInvoke = false ∨ base = (ar.classScopes self).parent
    · cases hfind : findClass ar base with
      | none => exact ⟨_, _, _, WalkStep.unknown base hbase hseen hfollow hfind⟩
      | some super =>
        cases hredec : (ar.classScopes super).isRedeclaring with
        | false =>
          have hlow := hR.lower hself hbase hname hseen (findClass_mem hfind)
          obtain ⟨⟨ar2, funcs2⟩, hcall⟩ := hrecT ar super funcs hR hN hlow.1 hlow.2
          exact ⟨_, _, _, WalkStep.known base super ar2 funcs2 hbase hseen hfollow hfind
            hredec hcall⟩
        | true =>
          by_cases hparent : base = (ar.classScopes self).parent
          · cases hinvoke : forInvoke with
            | true =>
              exact ⟨_, _, _, WalkStep.redeclaredParentInvoke base super hbase hseen rfl
                hparent hfind hredec⟩
            | false =>
              obtain ⟨⟨ar2, funcs2⟩, hcands⟩ := collectCandidates_total rec hrecE rank
                (rank self) hrecT funcs (findClasses ar (ar.classScopes self).parent)
                (fun d hd => hR.lower hself hbase hname hseen (hparent ▸ hd)) ar funcs hR hN
              exact ⟨_, _, _, WalkStep.redeclaredParent base super ar2 funcs2 hbase hseen rfl
                hparent hfind hredec hcands⟩
          · have hinvoke : forInvoke = false := by
              rcases hfollow with hf | hf
              · exact hf
              · exact absurd hf hparent
            exact ⟨_, _, _, WalkStep.redeclaredBase base super hbase hseen hinvoke hparent
              hfind hredec⟩
    · have hinvoke : forInvoke = true := by
        cases forInvoke <;> simp_all
      have hparent : base ≠ (ar.classScopes self).parent := fun hp => hfollow (Or.inr hp)
      exact ⟨_, _, _, WalkStep.skipped base hbase hseen hinvoke hparent⟩

theorem walkBases_total
    (rec : AnalysisResult → ClassId → FuncMap → Option (AnalysisResult × FuncMap))
    (hrecE : RecEvolves rec) (rank : ClassId → Nat) (self : ClassId)
    (hrecF : RecFrame rank (rank self) rec)
    (hrecT : RecTotal rank (rank self) rec) (hself : 0 < rank self)
    (forInvoke : Bool) (k : Nat) (seen : List String) (ar : AnalysisResult) (funcs : FuncMap)
    (hR : Ranked ar rank) (hN : FunctionsNonempty ar)
    (hname : (ar.classScopes self).name ∈ seen)
    (hk : k ≤ (ar.classScopes self).bases.length) :
    ∃ r, walkBases rec self forInvoke k seen ar funcs = some r := by
  induction k generalizing seen ar funcs with
  | zero => exact ⟨_, rfl⟩
  | succ i ih =>
    obtain ⟨seen1, ar1, funcs1, hws⟩ :=
      walkStep_total hrecE hrecT hself forInvoke funcs hR hN hname hk
    have hev := (walkStep_evolves hrecE hws).1
    have hname1 : (ar1.classScopes self).name ∈ seen1 := by
      rw [hev.name]; exact walkStep_seen hws _ hname
    have hlen : i ≤ (ar1.classScopes self).bases.length := by
      rcases walkStep_bases hrecF hself hrecE hR hname hws with hb | hb
      · rw [hb]; exact Nat.le_of_succ_le hk
      · rw [hb, List.length_eraseIdx]
        split <;> omega
    simp only [walkBases, walkBase_of_walkStep hws]
    exact ih _ _ _ (hev.ranked hR) (hev.functionsNonempty hN) hname1 hlen

/-- On an acyclic graph whose function vectors are non-empty, `collectMethods`
returns on every class of positive rank once the fuel reaches the rank. -/
theorem collectMethods_total (rank : ClassId → Nat) (fuel : Nat)
    (collectPrivate forInvoke : Bool) (ar : AnalysisResult) (c : ClassId) (funcs : FuncMap)
    (hR : Ranked ar rank) (hN : FunctionsNonempty ar) (hc : 0 < rank c)
    (hfuel : rank c ≤ fuel) :
    ∃ r, collectMethods fuel ar c funcs collectPrivate forInvoke = some r := by
  induction fuel generalizing collectPrivate ar c funcs with
  | zero => omega
  | succ fuel ih =>
    obtain ⟨⟨ar2, funcs2⟩, hown⟩ := collectOwn_total collectPrivate
      (ar.classScopes c).functions ar funcs (fun name vec hm => hN c name vec hm)
    have hms := markMissing_classScopes funcs2 (ar2.classScopes c).missingMethods ar2
    have hev := (collectOwn_evolves _ _ _ _ _ _ hown).1.trans
      (markMissing_evolves funcs2 (ar2.classScopes c).missingMethods ar2)
    have hF : RecFrame rank (rank c)
        (fun a d t => collectMethods fuel a d t false forInvoke) := by
      intro a d t a1 t1 hRa hd hdc hcall
      exact (collectMethods_recFrame rank fuel false forInvoke a d t a1 t1 hRa hd hcall).mono hdc
    have hT : RecTotal rank (rank c)
        (fun a d t => collectMethods fuel a d t false forInvoke) := by
      intro a d t hRa hNa hd hdc
      exact ih false a d t hRa hNa hd (by omega)
    simp only [collectMethods, hown]
    exact walkBases_total _ (collectMethods_recEvolves fuel false forInvoke) rank c hF hT hc
      forInvoke _ _ _ _ (hev.ranked hR) (hev.functionsNonempty hN)
      (List.mem_singleton.mpr rfl) (Nat.le_refl _)

/-! ## Facts about the concrete class graphs -/

theorem chainGraph_ranked : Ranked chainGraph chainRank := by
  intro c base hc hb hne d hd
  match c with
  | 0 =>
    simp [chainGraph, mkAnalysisResult] at hb
    subst hb
    have : d = 1 := by simpa [findClasses, chainGraph, mkAnalysisResult, toLower] using hd
    subst this
    decide
  | 1 =>
    simp [chainGraph, mkAnalysisResult] at hb
    subst hb
    have : d = 2 := by simpa [findClasses, chainGraph, mkAnalysisResult, toLower] using hd
    subst this
    decide
  | 2 => simp [chainGraph, mkAnalysisResult] at hb
  | n + 3 => simp [chainGraph, mkAnalysisResult] at hb

theorem chainGraph_functionsNonempty : FunctionsNonempty chainGraph := by
  intro c name vec hm
  match c with
  | 0 => simp [chainGraph, mkAnalysisResult] at hm
  | 1 =>
    simp [chainGraph, mkAnalysisResult] at hm
    simp [hm.2]
  | 2 =>
    simp [chainGraph, mkAnalysisResult] at hm
    rcases hm with hm | hm <;> simp [hm.2]
  | n + 3 => simp [chainGraph, mkAnalysisResult] at hm

/-! ## Entries of the table across a whole run -/

/-- A name declared by the visited class, whose last declaration is not
skipped, is mapped by the run to the entry the table already had, or else to
that last declaration. -/
theorem collectMethods_find_own (fuel : Nat) (ar : AnalysisResult) (c : ClassId)
    (funcs : FuncMap) (collectPrivate forInvoke : Bool) (ar1 : AnalysisResult)
    (funcs1 : FuncMap) (name : String) (vec : List FuncId) (last : FuncId)
    (hdecl : mapFind (ar.classScopes c).functions name = some vec)
    (hlast : vec.getLast? = some last)
    (hcontrib : collectPrivate = true ∨ (ar.functionScopes last).isPrivate = false)
    (h : collectMethods fuel ar c funcs collectPrivate forInvoke = some (ar1, funcs1)) :
    mapFind funcs1 name = some ((mapFind funcs name).getD last) := by
  cases fuel with
  | zero => simp [collectMethods] at h
  | succ fuel =>
    simp only [collectMethods] at h
    split at h
    · exact absurd h (by simp)
    · rename_i ar2 funcs2 hown
      have hfind := collectOwn_find collectPrivate _ _ _ _ _ name vec last hdecl hlast
        hcontrib hown
      have hle := (walkBases_evolves _ (collectMethods_recEvolves fuel false forInvoke)
        _ _ _ _ _ _ _ _ h).2
      exact hle name _ hfind

/-- A name contributed by the visited class and already in the table: the
entry stays and both methods are virtual when the run returns. -/
theorem collectMethods_collision (fuel : Nat) (ar : AnalysisResult) (c : ClassId)
    (funcs : FuncMap) (collectPrivate forInvoke : Bool) (ar1 : AnalysisResult)
    (funcs1 : FuncMap) (name : String) (vec : List FuncId) (last existing : FuncId)
    (hdecl : (name, vec) ∈ (ar.classScopes c).functions)
    (hlast : vec.getLast? = some last)
    (hcontrib : collectPrivate = true ∨ (ar.functionScopes last).isPrivate = false)
    (hpresent : mapFind funcs name = some existing)
    (h : collectMethods fuel ar c funcs collectPrivate forInvoke = some (ar1, funcs1)) :
    mapFind funcs1 name = some existing ∧ (ar1.functionScopes existing).virtual = true ∧
      (ar1.functionScopes last).virtual = true := by
  cases fuel with
  | zero => simp [collectMethods] at h
  | succ fuel =>
    simp only [collectMethods] at h
    split at h
    · exact absurd h (by simp)
    · rename_i ar2 funcs2 hown
      obtain ⟨h1, h2, h3⟩ := collectOwn_collision collectPrivate _ _ _ _ _ name vec last
        existing hdecl hlast hcontrib hpresent hown
      obtain ⟨hev, hle⟩ := walkBases_evolves _
        (collectMethods_recEvolves fuel false forInvoke) _ _ _ _ _ _ _ _ h
      have hev2 := (markMissing_evolves funcs2 (ar2.classScopes c).missingMethods ar2).trans hev
      exact ⟨hle name existing h1, hev2.virtual _ h2, hev2.virtual _ h3⟩

/-! ## Claims C1 and C2 -/

/-- C1: for a class `c` that declares `name`, `collectMethods` started with an
empty table, `collectPrivate = true` and `forInvoke = false` maps `name` to the
last declaration of `name` in `c`, whatever the bases declare: every run that
returns does so, and on an acyclic graph the run returns. -/
theorem collectMethods_own_declaration_wins (ar : AnalysisResult) (c : ClassId)
    (name : String) (vec : List FuncId) (last : FuncId)
    (hdecl : mapFind (ar.classScopes c).functions name = some vec)
    (hlast : vec.getLast? = some last) :
    (∀ fuel ar1 funcs1, collectMethods fuel ar c [] true false = some (ar1, funcs1) →
      mapFind funcs1 name = some last) ∧
    (∀ rank, Ranked ar rank → FunctionsNonempty ar → 0 < rank c →
      ∃ ar1 funcs1, collectMethods (rank c) ar c [] true false = some (ar1, funcs1) ∧
        mapFind funcs1 name = some last) := by
  have hpart : ∀ fuel ar1 funcs1,
      collectMethods fuel ar c [] true false = some (ar1, funcs1) →
      mapFind funcs1 name = some last := by
    intro fuel ar1 funcs1 h
    have := collectMethods_find_own fuel ar c [] true false ar1 funcs1 name vec last hdecl
      hlast (Or.inl rfl) h
    simpa [mapFind] using this
  refine ⟨hpart, ?_⟩
  intro rank hR hN hc
  obtain ⟨⟨ar1, funcs1⟩, hrun⟩ :=
    collectMethods_total rank (rank c) true false ar c [] hR hN hc (Nat.le_refl _)
  exact ⟨ar1, funcs1, hrun, hpart _ _ _ hrun⟩

/-- Witness of C1 on the chain: class `b` declares `foo`, and so does its
parent `c`; the table of `b` holds the `foo` of `b`. -/
theorem collectMethods_own_declaration_wins_witness :
    ∃ ar1 funcs1, collectMethods (chainRank 1) chainGraph 1 [] true false = some (ar1, funcs1) ∧
      mapFind funcs1 "foo" = some 0 :=
  (collectMethods_own_declaration_wins chainGraph 1 "foo" [0] 0 (by decide) (by decide)).2
    chainRank chainGraph_ranked chainGraph_functionsNonempty (by decide)

/-! ## Claim C5: two classes deriving from each other -/

theorem collectMethods_cycle_none (fuel : Nat) :
    ∀ (ar : AnalysisResult), ar.classScopes = cycleGraph.classScopes →
      ar.classDecs = cycleGraph.classDecs →
      ∀ funcs collectPrivate forInvoke,
        collectMethods fuel ar 0 funcs collectPrivate forInvoke = none ∧
        collectMethods fuel ar 1 funcs collectPrivate forInvoke = none := by
  induction fuel with
  | zero => intro ar _ _ funcs cp fi; exact ⟨rfl, rfl⟩
  | succ fuel ih =>
    intro ar hcs hcd funcs cp fi
    constructor
    · simp only [collectMethods]
      cases hown : collectOwn cp (ar.classScopes 0).functions ar funcs with
      | none => rfl
      | some r =>
        obtain ⟨ar2, funcs2⟩ := r
        have h2 := collectOwn_classScopes _ _ _ _ _ _ hown
        have h3 := markMissing_classScopes funcs2 (ar2.classScopes 0).missingMethods ar2
        have hcs3 := (h3.1.trans h2.1).trans hcs
        have hcd3 := (h3.2.1.trans h2.2.1).trans hcd
        have hrec := (ih _ hcs3 hcd3 funcs2 false fi).2
        have hfind : findClass (markMissing funcs2 (ar2.classScopes 0).missingMethods ar2) "b"
            = some 1 := by
          simp [findClass, findClasses, hcd3, cycleGraph, mkAnalysisResult, toLower]
        simp only []
        rw [hcs3]
        simp [walkBases, walkBase, hcs3, cycleGraph, mkAnalysisResult] at hfind ⊢
        simp [hfind, ClassScope.isRedeclaring]
        rw [hrec]
    · simp only [collectMethods]
      cases hown : collectOwn cp (ar.classScopes 1).functions ar funcs with
      | none => rfl
      | some r =>
        obtain ⟨ar2, funcs2⟩ := r
        have h2 := collectOwn_classScopes _ _ _ _ _ _ hown
        have h3 := markMissing_classScopes funcs2 (ar2.classScopes 1).missingMethods ar2
        have hcs3 := (h3.1.trans h2.1).trans hcs
        have hcd3 := (h3.2.1.trans h2.2.1).trans hcd
        have hrec := (ih _ hcs3 hcd3 funcs2 false fi).1
        have hfind : findClass (markMissing funcs2 (ar2.classScopes 1).missingMethods ar2) "a"
            = some 0 := by
          simp [findClass, findClasses, hcd3, cycleGraph, mkAnalysisResult, toLower]
        simp only []
        rw [hcs3]
        simp [walkBases, walkBase, hcs3, cycleGraph, mkAnalysisResult] at hfind ⊢
        simp [hfind, ClassScope.isRedeclaring]
        rw [hrec]

/-- C5 (what the code does): on two registered classes that derive from each
other, `collectMethods` does not return, whatever the depth allowed to the call
stack; no `InvalidDerivation` is ever reported to a caller. -/
theorem collectMethods_cycle_never_returns (fuel : Nat) :
    collectMethods fuel cycleGraph 0 [] true false = none :=
  (collectMethods_cycle_none fuel cycleGraph rfl rfl [] true false).1

/-! ## Claim C6: the parent at the head of the base list -/

/-- C6 (what the code does): the class `a` with parent `a` and base list
`[a]` satisfies the assertion of the constructor; `collectMethods` reports the
base as an invalid derivation and erases it, and leaves the parent name, so
that afterwards the parent is not at the head of the (empty) base list. -/
theorem collectMethods_drops_parent_entry :
    (selfParentGraph.classScopes 0).parent ≠ "" ∧
    (selfParentGraph.classScopes 0).bases.head? = some (selfParentGraph.classScopes 0).parent ∧
    (collectMethods 1 selfParentGraph 0 [] true false).map
      (fun r => ((r.1.classScopes 0).parent, (r.1.classScopes 0).bases,
        r.1.codeError.map (fun e => (e.kind, e.data)))) =
      some ("a", [], [(ErrorType.InvalidDerivation, "a")]) := by
  decide

/-! ## Claim C4: the chain `a` extends `b` extends `c` -/

/-- C4 as stated fails when the `foo` of `b` is private: `findFunction` on `a`
returns the `foo` of `b` (function 0), and after `collectMethods` on `a`
neither `foo` is virtual. -/
theorem chain_private_override_not_virtual :
    (findFunction 2 privateChainGraph 0 "foo" true false).map (fun r => r.2) = some (some 0) ∧
    (collectMethods 3 privateChainGraph 0 [] true false).map
      (fun r => ((r.1.functionScopes 0).virtual, (r.1.functionScopes 1).virtual)) =
      some (false, false) := by
  decide

/-- A run on a class whose only base is its parent, a unique class other than
itself: the run is the first loop, then the run on the parent. -/
theorem collectMethods_single_parent (fuel : Nat) (ar : AnalysisResult) (c : ClassId)
    (funcs : FuncMap) (collectPrivate forInvoke : Bool) (ar1 : AnalysisResult)
    (funcs1 : FuncMap) (p : ClassId)
    (hbases : (ar.classScopes c).bases = [(ar.classScopes c).parent])
    (hself : (ar.classScopes c).parent ≠ (ar.classScopes c).name)
    (hfind : findClass ar (ar.classScopes c).parent = some p)
    (hredec : (ar.classScopes p).isRedeclaring = false)
    (h : collectMethods (fuel + 1) ar c funcs collectPrivate forInvoke = some (ar1, funcs1)) :
    ∃ ar2 funcs2 ar3,
      collectOwn collectPrivate (ar.classScopes c).functions ar funcs = some (ar2, funcs2) ∧
      collectMethods fuel (markMissing funcs2 (ar.classScopes c).missingMethods ar2) p funcs2
        false forInvoke = some (ar3, funcs1) ∧
      (markMissing funcs2 (ar.classScopes c).missingMethods ar2).classScopes = ar.classScopes ∧
      (markMissing funcs2 (ar.classScopes c).missingMethods ar2).classDecs = ar.classDecs ∧
      Evolves ar (markMissing funcs2 (ar.classScopes c).missingMethods ar2) ∧
      Evolves ar3 ar1 := by
  simp only [collectMethods] at h
  split at h
  · exact absurd h (by simp)
  · rename_i ar2 funcs2 hown
    have h2 := collectOwn_classScopes _ _ _ _ _ _ hown
    have h3 := markMissing_classScopes funcs2 (ar2.classScopes c).missingMethods ar2
    have hcs := h3.1.trans h2.1
    have hcd := h3.2.1.trans h2.2.1
    have hev2 := (collectOwn_evolves _ _ _ _ _ _ hown).1
    rw [hcs, hbases] at h
    simp only [List.length_singleton, walkBases] at h
    split at h
    · exact absurd h (by simp)
    · rename_i seen1 ar4 funcs4 hstep
      simp only [Option.some.injEq, Prod.mk.injEq] at h
      obtain ⟨rfl, rfl⟩ := h
      have hb : ∀ base, ((markMissing funcs2 (ar2.classScopes c).missingMethods
          ar2).classScopes c).bases[0]? = some base → base = (ar.classScopes c).parent := by
        intro base hbase
        rw [hcs, hbases] at hbase
        simpa using hbase.symm
      have hfc : ∀ base, findClass (markMissing funcs2 (ar2.classScopes c).missingMethods ar2)
          base = findClass ar base := fun base => findClass_congr hcd base
      have hre : ∀ x, ((markMissing funcs2 (ar2.classScopes c).missingMethods
          ar2).classScopes x).isRedeclaring = (ar.classScopes x).isRedeclaring := by
        intro x; rw [hcs]
      have hpar : ((markMissing funcs2 (ar2.classScopes c).missingMethods
          ar2).classScopes c).parent = (ar.classScopes c).parent := by rw [hcs]
      have hmiss : (ar2.classScopes c).missingMethods = (ar.classScopes c).missingMethods := by
        rw [h2.1]
      cases walkStep_of_walkBase hstep with
      | invalid base hbase hseen =>
        have := hb base hbase
        subst this
        exact absurd (List.mem_singleton.mp hseen) hself
      | skipped base hbase hseen hinvoke hparent =>
        exact absurd ((hb base hbase).trans hpar.symm) hparent
      | redeclaredParentInvoke base super hbase hseen hinvoke hparent hfind2 hredec2 =>
        rw [hfc, hb base hbase, hfind] at hfind2
        obtain rfl := Option.some.inj hfind2
        rw [hre, hredec] at hredec2
        exact absurd hredec2 (by simp)
      | redeclaredParent base super ar5 funcs5 hbase hseen hinvoke hparent hfind2 hredec2 hc =>
        rw [hfc, hb base hbase, hfind] at hfind2
        obtain rfl := Option.some.inj hfind2
        rw [hre, hredec] at hredec2
        exact absurd hredec2 (by simp)
      | redeclaredBase base super hbase hseen hinvoke hparent hfind2 hredec2 =>
        exact absurd ((hb base hbase).trans hpar.symm) hparent
      | known base super ar5 funcs5 hbase hseen hfollow hfind2 hredec2 hcall =>
        rw [hfc, hb base hbase, hfind] at hfind2
        obtain rfl := Option.some.inj hfind2
        rw [hmiss] at hcall hcs hcd
        exact ⟨ar2, funcs2, ar5, hown, hcall, hcs, hcd,
          hev2.trans (markMissing_evolves _ _ _), Evolves_afterKnownBase _ _ _ _⟩
      | unknown base hbase hseen hfollow hfind2 =>
        rw [hfc, hb base hbase, hfind] at hfind2
        exact absurd hfind2 (by simp)

/-- C4, amended: in a chain where the parent of `a` is the unique class `b`,
the parent of `b` is the unique class `c`, `a` does not declare `foo` and `b`
and `c` each declare a `foo` that is not private, `findFunction` on `a` returns
the `foo` of `b`, and `collectMethods` on `a` returns and leaves both `foo`
virtual. -/
theorem chain_override_marks_virtual (ar : AnalysisResult) (rank : ClassId → Nat)
    (a b c : ClassId) (vecB vecC : List FuncId) (fooB fooC : FuncId)
    (hR : Ranked ar rank) (hN : FunctionsNonempty ar) (hrank : 0 < rank a)
    (haDecl : mapFind (ar.classScopes a).functions "foo" = none)
    (haBases : (ar.classScopes a).bases = [(ar.classScopes a).parent])
    (haSelf : (ar.classScopes a).parent ≠ (ar.classScopes a).name)
    (habFind : findClass ar (ar.classScopes a).parent = some b)
    (hbRedec : (ar.classScopes b).isRedeclaring = false)
    (hbBases : (ar.classScopes b).bases = [(ar.classScopes b).parent])
    (hbSelf : (ar.classScopes b).parent ≠ (ar.classScopes b).name)
    (hbcFind : findClass ar (ar.classScopes b).parent = some c)
    (hcRedec : (ar.classScopes c).isRedeclaring = false)
    (hbDecl : mapFind (ar.classScopes b).functions "foo" = some vecB)
    (hbLast : vecB.getLast? = some fooB)
    (hcDecl : mapFind (ar.classScopes c).functions "foo" = some vecC)
    (hcLast : vecC.getLast? = some fooC)
    (hbPublic : (ar.functionScopes fooB).isPrivate = false)
    (hcPublic : (ar.functionScopes fooC).isPrivate = false) :
    findFunction 2 ar a "foo" true false = some (ar, some fooB) ∧
    ∀ collectPrivate forInvoke, ∃ ar1 funcs1,
      collectMethods (rank a) ar a [] collectPrivate forInvoke = some (ar1, funcs1) ∧
      (ar1.functionScopes fooB).virtual = true ∧ (ar1.functionScopes fooC).virtual = true := by
  have hlow : toLower "foo" = "foo" := by decide
  constructor
  · simp [findFunction, findFunctionBases, hlow, haDecl, haBases, habFind, hbRedec, hbDecl,
      hbLast]
  · intro cp fi
    obtain ⟨⟨ar1, funcs1⟩, hrun⟩ :=
      collectMethods_total rank (rank a) cp fi ar a [] hR hN hrank (Nat.le_refl _)
    refine ⟨ar1, funcs1, hrun, ?_⟩
    -- the run on `a` is a run on `b`
    cases hfa : rank a with
    | zero => rw [hfa] at hrun; simp [collectMethods] at hrun
    | succ fa =>
      rw [hfa] at hrun
      obtain ⟨arA, funcsA, arB3, -, hrunB, hcsA, hcdA, hevA, hevB3⟩ :=
        collectMethods_single_parent fa ar a [] cp fi ar1 funcs1 b haBases haSelf habFind
          hbRedec hrun
      generalize markMissing funcsA (ar.classScopes a).missingMethods arA = arM at *
      -- the run on `b` is the first loop on `b`, then a run on `c`
      cases fa with
      | zero => simp [collectMethods] at hrunB
      | succ fb =>
        have hcsM : ∀ x, arM.classScopes x = ar.classScopes x := fun x => by rw [hcsA]
        obtain ⟨arB, funcsB, arC3, hownB, hrunC, hcsB, hcdB, hevBM, hevC3⟩ :=
          collectMethods_single_parent fb arM b funcsA false fi arB3 funcs1 c
            (by rw [hcsM]; exact hbBases) (by rw [hcsM]; exact hbSelf)
            (by rw [hcsM, findClass_congr hcdA]; exact hbcFind)
            (by rw [hcsM]; exact hcRedec) hrunB
        rw [hcsM] at hownB hrunC hcsB hcdB hevBM
        generalize hBM : markMissing funcsB (ar.classScopes b).missingMethods arB = arBM at *
        have hevMB : Evolves arM arB := (collectOwn_evolves _ _ _ _ _ _ hownB).1
        have hevBBM : Evolves arB arBM := by
          rw [← hBM]; exact markMissing_evolves _ _ _
        have hpubB : (arM.functionScopes fooB).isPrivate = false := by
          rw [hevA.isPrivate]; exact hbPublic
        have hpubC : (arBM.functionScopes fooC).isPrivate = false := by
          rw [(hevA.trans hevBM).isPrivate]; exact hcPublic
        have hfindB := collectOwn_find false _ _ _ _ _ "foo" vecB fooB hbDecl hbLast
          (Or.inr hpubB) hownB
        have hcDeclBM : ("foo", vecC) ∈ (arBM.classScopes c).functions := by
          rw [hcsB, hcsA]; exact mapFind_mem _ _ _ hcDecl
        obtain ⟨-, hvE, hvC⟩ := collectMethods_collision fb arBM c funcsB false fi arC3 funcs1
          "foo" vecC fooC _ hcDeclBM hcLast (Or.inr hpubC) hfindB hrunC
        have hevEnd : Evolves arC3 ar1 := hevC3.trans hevB3
        refine ⟨?_, hevEnd.virtual _ hvC⟩
        cases hA : mapFind funcsA "foo" with
        | none =>
          rw [hA] at hvE
          exact hevEnd.virtual _ hvE
        | some e =>
          have hcol := collectOwn_collision false _ _ _ _ _ "foo" vecB fooB e
            (mapFind_mem _ _ _ hbDecl) hbLast (Or.inr hpubB) hA hownB
          exact (((hevBBM.trans (collectMethods_evolves _ _ _ _ _ _ _ _ hrunC).1).trans
            hevEnd).virtual _ hcol.2.2)

/-- Witness of C4 (amended) on the chain `a` extends `b` extends `c`. -/
theorem chain_override_marks_virtual_witness :
    findFunction 2 chainGraph 0 "foo" true false = some (chainGraph, some 0) ∧
    ∀ collectPrivate forInvoke, ∃ ar1 funcs1,
      collectMethods (chainRank 0) chainGraph 0 [] collectPrivate forInvoke
        = some (ar1, funcs1) ∧
      (ar1.functionScopes 0).virtual = true ∧ (ar1.functionScopes 1).virtual = true :=
  chain_override_marks_virtual chainGraph chainRank 0 1 2 [0] [1] 0 1
    chainGraph_ranked chainGraph_functionsNonempty (by decide) (by decide) (by decide)
    (by decide) (by decide) (by decide) (by decide) (by decide) (by decide) (by decide)
    (by decide) (by decide) (by decide) (by decide) (by decide) (by decide)

/-! ## More fuel does not change a run that returns -/

theorem collectCandidates_mono
    {rec1 rec2 : AnalysisResult → ClassId → FuncMap → Option (AnalysisResult × FuncMap)}
    (hle : RecLe rec1 rec2) (pristine : FuncMap) (cands : List ClassId)
    (ar : AnalysisResult) (funcs : FuncMap) (r : AnalysisResult × FuncMap)
    (h : collectCandidates rec1 pristine cands ar funcs = some r) :
    collectCandidates rec2 pristine cands ar funcs = some r := by
  induction cands generalizing ar funcs with
  | nil => exact h
  | cons cls rest ih =>
    simp only [collectCandidates] at h ⊢
    split at h
    · exact absurd h (by simp)
    · rename_i ar2 cur hcall
      rw [hle _ _ _ _ hcall]
      exact ih _ _ h

theorem walkStep_mono
    {rec1 rec2 : AnalysisResult → ClassId → FuncMap → Option (AnalysisResult × FuncMap)}
    (hle : RecLe rec1 rec2) {self : ClassId}
    {forInvoke : Bool} {i : Nat} {seen : List String} {ar : AnalysisResult} {funcs : FuncMap}
    {seen1 : List String} {ar1 : AnalysisResult} {funcs1 : FuncMap}
    (h : WalkStep rec1 self forInvoke i seen ar funcs seen1 ar1 funcs1) :
    WalkStep rec2 self forInvoke i seen ar funcs seen1 ar1 funcs1 := by
  cases h with
  | invalid base hbase hseen => exact WalkStep.invalid base hbase hseen
  | skipped base hbase hseen hinvoke hparent =>
    exact WalkStep.skipped base hbase hseen hinvoke hparent
  | redeclaredParentInvoke base super hbase hseen hinvoke hparent hfind hredec =>
    exact WalkStep.redeclaredParentInvoke base super hbase hseen hinvoke hparent hfind hredec
  | redeclaredParent base super ar2 funcs2 hbase hseen hinvoke hparent hfind hredec hcands =>
    exact WalkStep.redeclaredParent base super _ _ hbase hseen hinvoke hparent hfind
      hredec (collectCandidates_mono hle _ _ _ _ _ hcands)
  | redeclaredBase base super hbase hseen hinvoke hparent hfind hredec =>
    exact WalkStep.redeclaredBase base super hbase hseen hinvoke hparent hfind hredec
  | known base super ar2 funcs2 hbase hseen hfollow hfind hredec hcall =>
    exact WalkStep.known base super _ _ hbase hseen hfollow hfind hredec
      (hle _ _ _ _ hcall)
  | unknown base hbase hseen hfollow hfind =>
    exact WalkStep.unknown base hbase hseen hfollow hfind

theorem walkBases_mono
    {rec1 rec2 : AnalysisResult → ClassId → FuncMap → Option (AnalysisResult × FuncMap)}
    (hle : RecLe rec1 rec2) (self : ClassId) (forInvoke : Bool) (k : Nat)
    (seen : List String) (ar : AnalysisResult) (funcs : FuncMap)
    (r : AnalysisResult × FuncMap)
    (h : walkBases rec1 self forInvoke k seen ar funcs = some r) :
    walkBases rec2 self forInvoke k seen ar funcs = some r := by
  induction k generalizing seen ar funcs with
  | zero => exact h
  | succ i ih =>
    simp only [walkBases] at h ⊢
    split at h
    · exact absurd h (by simp)
    · rename_i seen2 ar2 funcs2 hstep
      rw [walkBase_of_walkStep (walkStep_mono hle (walkStep_of_walkBase hstep))]
      exact ih _ _ _ h

theorem collectMethods_succ (fuel : Nat) :
    ∀ (collectPrivate forInvoke : Bool),
      RecLe (fun a c t => collectMethods fuel a c t collectPrivate forInvoke)
        (fun a c t => collectMethods (fuel + 1) a c t collectPrivate forInvoke) := by
  induction fuel with
  | zero => intro cp fi ar c funcs r h; simp [collectMethods] at h
  | succ fuel ih =>
    intro cp fi ar c funcs r h
    have h1 : collectMethods (fuel + 1) ar c funcs cp fi = some r := h
    show collectMethods (fuel + 1 + 1) ar c funcs cp fi = some r
    rw [collectMethods] at h1 ⊢
    split at h1
    · exact absurd h1 (by simp)
    · rename_i ar2 funcs2 hown
      simp only [hown]
      exact walkBases_mono (ih false fi) _ _ _ _ _ _ _ h1

/-- A run that returns returns the same with any larger fuel. -/
theorem collectMethods_mono {fuel fuel1 : Nat} (hle : fuel ≤ fuel1) (ar : AnalysisResult)
    (c : ClassId) (funcs : FuncMap) (collectPrivate forInvoke : Bool)
    (r : AnalysisResult × FuncMap)
    (h : collectMethods fuel ar c funcs collectPrivate forInvoke = some r) :
    collectMethods fuel1 ar c funcs collectPrivate forInvoke = some r := by
  induction hle with
  | refl => exact h
  | step _ ih => exact collectMethods_succ _ collectPrivate forInvoke ar c funcs r ih

/-- Two runs that return, from the same state and table, return the same. -/
theorem collectMethods_unique {fuel fuel1 : Nat} (ar : AnalysisResult)
    (c : ClassId) (funcs : FuncMap) (collectPrivate forInvoke : Bool)
    (r r1 : AnalysisResult × FuncMap)
    (h : collectMethods fuel ar c funcs collectPrivate forInvoke = some r)
    (h1 : collectMethods fuel1 ar c funcs collectPrivate forInvoke = some r1) : r = r1 := by
  have := collectMethods_mono (Nat.le_max_left fuel fuel1) ar c funcs collectPrivate forInvoke r h
  have := collectMethods_mono (Nat.le_max_right fuel fuel1) ar c funcs collectPrivate forInvoke
    r1 h1
  simp_all

/-! ## The walk over a range of indices -/

theorem walkBases_eq_walkRange
    (rec : AnalysisResult → ClassId → FuncMap → Option (AnalysisResult × FuncMap))
    (self : ClassId) (forInvoke : Bool) (k : Nat) (seen : List String)
    (ar : AnalysisResult) (funcs : FuncMap) :
    walkBases rec self forInvoke k seen ar funcs =
      (walkRange rec self forInvoke 0 k seen ar funcs).map (fun r => r.2) := by
  induction k generalizing seen ar funcs with
  | zero => rfl
  | succ i ih =>
    simp only [walkBases, walkRange, Nat.zero_add]
    cases walkBase rec self forInvoke i seen ar funcs with
    | none => rfl
    | some r =>
      obtain ⟨seen1, ar1, funcs1⟩ := r
      exact ih _ _ _

/-- The walk over `n + 1` indices from `lo` is the walk over the `n` indices
from `lo + 1`, then the iteration at `lo`. -/
theorem walkRange_succ_iff
    (rec : AnalysisResult → ClassId → FuncMap → Option (AnalysisResult × FuncMap))
    (self : ClassId) (forInvoke : Bool) (lo n : Nat) (seen : List String)
    (ar : AnalysisResult) (funcs : FuncMap) (r : List String × AnalysisResult × FuncMap) :
    walkRange rec self forInvoke lo (n + 1) seen ar funcs = some r ↔
      ∃ seen1 ar1 funcs1,
        walkRange rec self forInvoke (lo + 1) n seen ar funcs = some (seen1, ar1, funcs1) ∧
        walkBase rec self forInvoke lo seen1 ar1 funcs1 = some r := by
  induction n generalizing seen ar funcs with
  | zero =>
    simp only [walkRange, Nat.add_zero]
    constructor
    · intro h
      refine ⟨seen, ar, funcs, rfl, ?_⟩
      split at h
      · exact absurd h (by simp)
      · rename_i s a t hstep
        simp only [Option.some.injEq] at h
        rw [hstep, h]
    · rintro ⟨seen1, ar1, funcs1, h1, h2⟩
      simp only [Option.some.injEq, Prod.mk.injEq] at h1
      obtain ⟨rfl, rfl, rfl⟩ := h1
      rw [h2]
  | succ n ih =>
    have hidx : lo + (n + 1) = lo + 1 + n := by omega
    rw [walkRange]
    conv_rhs => simp only [walkRange]
    rw [hidx]
    cases hstep : walkBase rec self forInvoke (lo + 1 + n) seen ar funcs with
    | none => simp
    | some q =>
      obtain ⟨s, a, t⟩ := q
      simp only []
      exact ih s a t

theorem take_eraseIdx_of_le {α : Type} (l : List α) (lo j : Nat) (h : lo ≤ j) :
    (l.eraseIdx j).take lo = l.take lo := by
  induction l generalizing lo j with
  | nil => simp
  | cons a l ih =>
    cases lo with
    | zero => simp
    | succ lo =>
      cases j with
      | zero => omega
      | succ j =>
        simp only [List.eraseIdx_cons_succ, List.take_succ_cons]
        rw [ih lo j (by omega)]

theorem mem_drop_of_getElem? {α : Type} {l : List α} {lo n : Nat} {a : α}
    (h : l[lo + n]? = some a) : a ∈ l.drop lo := by
  have : (l.drop lo)[n]? = some a := by rw [List.getElem?_drop]; exact h
  exact mem_of_getElem?_eq_some this

theorem walkStep_seen_cases
    {rec : AnalysisResult → ClassId → FuncMap → Option (AnalysisResult × FuncMap)}
    {self : ClassId}
    {forInvoke : Bool} {i : Nat} {seen : List String} {ar : AnalysisResult} {funcs : FuncMap}
    {seen1 : List String} {ar1 : AnalysisResult} {funcs1 : FuncMap}
    (h : WalkStep rec self forInvoke i seen ar funcs seen1 ar1 funcs1) :
    seen1 = seen ∨ ∃ base, (ar.classScopes self).bases[i]? = some base ∧ seen1 = base :: seen := by
  cases h with
  | invalid base hbase hseen => exact Or.inl rfl
  | skipped base hbase hseen hinvoke hparent => exact Or.inr ⟨base, hbase, rfl⟩
  | redeclaredParentInvoke base super hbase hseen hinvoke hparent hfind hredec =>
    exact Or.inr ⟨base, hbase, rfl⟩
  | redeclaredParent base super ar2 funcs2 hbase hseen hinvoke hparent hfind hredec hcands =>
    exact Or.inr ⟨base, hbase, rfl⟩
  | redeclaredBase base super hbase hseen hinvoke hparent hfind hredec =>
    exact Or.inr ⟨base, hbase, rfl⟩
  | known base super ar2 funcs2 hbase hseen hfollow hfind hredec hcall =>
    exact Or.inr ⟨base, hbase, rfl⟩
  | unknown base hbase hseen hfollow hfind => exact Or.inr ⟨base, hbase, rfl⟩

/-- What the walk of `self` over the indices from `lo` upwards maintains: the
state evolves, the table grows, only `self` and classes of smaller rank change,
the bases below `lo` stay, and the names seen are old ones or bases from `lo`
upwards. -/
theorem walkRange_inv
    (rec : AnalysisResult → ClassId → FuncMap → Option (AnalysisResult × FuncMap))
    (hrecE : RecEvolves rec) (rank : ClassId → Nat) (self : ClassId)
    (hrecF : RecFrame rank (rank self) rec) (hself : 0 < rank self)
    (forInvoke : Bool) (lo n : Nat) (seen : List String) (ar : AnalysisResult)
    (funcs : FuncMap) (seen1 : List String) (ar1 : AnalysisResult) (funcs1 : FuncMap)
    (hR : Ranked ar rank) (hname : (ar.classScopes self).name ∈ seen)
    (h : walkRange rec self forInvoke lo n seen ar funcs = some (seen1, ar1, funcs1)) :
    Evolves ar ar1 ∧ MapLe funcs funcs1 ∧ FrameAbove rank (rank self + 1) ar ar1 ∧
      (ar1.classScopes self).bases.take lo = (ar.classScopes self).bases.take lo ∧
      (∀ s, s ∈ seen1 → s ∈ seen ∨ s ∈ (ar.classScopes self).bases.drop lo) ∧
      (∀ s, s ∈ seen → s ∈ seen1) := by
  induction n generalizing seen ar funcs with
  | zero =>
    simp only [walkRange, Option.some.injEq, Prod.mk.injEq] at h
    obtain ⟨rfl, rfl, rfl⟩ := h
    exact ⟨Evolves.refl _, MapLe.mrefl _, FrameAbove.frefl _ _ _, rfl,
      fun s hs => Or.inl hs, fun s hs => hs⟩
  | succ n ih =>
    simp only [walkRange] at h
    split at h
    · exact absurd h (by simp)
    · rename_i seen2 ar2 funcs2 hstep
      have hws := walkStep_of_walkBase hstep
      obtain ⟨hev, hle⟩ := walkStep_evolves hrecE hws
      have hfr := walkStep_frame hrecE hrecF hself hR hname hws
      have hname2 : (ar2.classScopes self).name ∈ seen2 := by
        rw [hev.name]; exact walkStep_seen hws _ hname
      obtain ⟨hev2, hle2, hfr2, htake2, hseen2, hsub2⟩ :=
        ih _ _ _ (hev.ranked hR) hname2 h
      have hb := walkStep_bases hrecF hself hrecE hR hname hws
      have htake : (ar2.classScopes self).bases.take lo = (ar.classScopes self).bases.take lo := by
        rcases hb with hb | hb
        · rw [hb]
        · rw [hb, take_eraseIdx_of_le _ _ _ (Nat.le_add_right _ _)]
      have hdrop : ∀ s, s ∈ (ar2.classScopes self).bases.drop lo →
          s ∈ (ar.classScopes self).bases.drop lo := by
        intro s hs
        rcases hb with hb | hb
        · rw [hb] at hs; exact hs
        · rw [hb] at hs
          exact ((List.eraseIdx_sublist _ _).drop lo).subset hs
      refine ⟨hev.trans hev2, hle.mtrans hle2, hfr.ftrans hfr2, htake2.trans htake, ?_, ?_⟩
      · intro s hs
        rcases hseen2 s hs with h1 | h1
        · rcases walkStep_seen_cases hws with hc | ⟨base, hbase, hc⟩
          · rw [hc] at h1; exact Or.inl h1
          · rw [hc] at h1
            rcases List.mem_cons.mp h1 with h3 | h3
            · subst h3; exact Or.inr (mem_drop_of_getElem? hbase)
            · exact Or.inl h3
        · exact Or.inr (hdrop s h1)
      · intro s hs
        exact hsub2 s (walkStep_seen hws s hs)

theorem getElem?_zero_of_take_one {α : Type} {l : List α} {p : α} (h : l.take 1 = [p]) :
    l[0]? = some p := by
  cases l with
  | nil => simp at h
  | cons a l => simp at h; simp [h]

/-- The run on a class whose parent heads the base list, is not the class's
own name and is not repeated: the walk reaches index 0 with the parent still
there and not yet seen. -/
theorem collectMethods_parent_last (rank : ClassId → Nat) (fuel : Nat) (ar : AnalysisResult)
    (x : ClassId) (funcs : FuncMap) (collectPrivate forInvoke : Bool) (rest : List String)
    (ar1 : AnalysisResult) (funcs1 : FuncMap)
    (hR : Ranked ar rank) (hrank : 0 < rank x)
    (hbases : (ar.classScopes x).bases = (ar.classScopes x).parent :: rest)
    (hself : (ar.classScopes x).parent ≠ (ar.classScopes x).name)
    (hrest : (ar.classScopes x).parent ∉ rest)
    (h : collectMethods (fuel + 1) ar x funcs collectPrivate forInvoke = some (ar1, funcs1)) :
    ∃ seenP arP funcsP seen1,
      (∃ arO funcsO,
        collectOwn collectPrivate (ar.classScopes x).functions ar funcs = some (arO, funcsO) ∧
        walkRange (fun a c t => collectMethods fuel a c t false forInvoke) x forInvoke 1
          rest.length [(ar.classScopes x).name]
          (markMissing funcsO (ar.classScopes x).missingMethods arO) funcsO =
            some (seenP, arP, funcsP)) ∧
      Evolves ar arP ∧ MapLe funcs funcsP ∧
      (arP.classScopes x).parent ∉ seenP ∧
      (arP.classScopes x).name ∈ seenP ∧
      Ranked arP rank ∧
      WalkStep (fun a c t => collectMethods fuel a c t false forInvoke) x forInvoke 0
        seenP arP funcsP seen1 ar1 funcs1 ∧
      (arP.classScopes x).bases[0]? = some (arP.classScopes x).parent := by
  rw [collectMethods] at h
  split at h
  · exact absurd h (by simp)
  · rename_i ar2 funcs2 hown
    have h2 := collectOwn_classScopes _ _ _ _ _ _ hown
    have h3 := markMissing_classScopes funcs2 (ar2.classScopes x).missingMethods ar2
    have hcs := h3.1.trans h2.1
    have hevM := (collectOwn_evolves _ _ _ _ _ _ hown).1.trans
      (markMissing_evolves funcs2 (ar2.classScopes x).missingMethods ar2)
    have hleM := (collectOwn_evolves _ _ _ _ _ _ hown).2
    have hmiss : (ar2.classScopes x).missingMethods = (ar.classScopes x).missingMethods := by
      rw [h2.1]
    rw [hmiss] at h h3 hcs hevM
    generalize hM : markMissing funcs2 (ar.classScopes x).missingMethods ar2 = arM at *
    simp only [] at h
    rw [walkBases_eq_walkRange, hcs, hbases] at h
    simp only [List.length_cons, Option.map_eq_some', Prod.exists] at h
    obtain ⟨seen1, ar1', funcs1', hwalk, heq⟩ := h
    simp only [Prod.mk.injEq] at heq
    obtain ⟨rfl, rfl⟩ := heq
    obtain ⟨seenP, arP, funcsP, hupper, hstep⟩ :=
      (walkRange_succ_iff _ _ _ _ _ _ _ _ _).mp hwalk
    have hF : RecFrame rank (rank x)
        (fun a d t => collectMethods fuel a d t false forInvoke) := by
      intro a d t a1 t1 hRa hd hdc hcall
      exact (collectMethods_recFrame rank fuel false forInvoke a d t a1 t1 hRa hd hcall).mono hdc
    have hnameM : (arM.classScopes x).name ∈ [(ar.classScopes x).name] := by
      rw [hcs]; exact List.mem_singleton.mpr rfl
    obtain ⟨hev, hle, -, htake, hseen, hsub⟩ := walkRange_inv _
      (collectMethods_recEvolves fuel false forInvoke) rank x hF hrank forInvoke (0 + 1) _ _ _ _
      _ _ _ (hevM.ranked hR) hnameM hupper
    have hevP := hevM.trans hev
    refine ⟨seenP, arP, funcsP, seen1, ⟨ar2, funcs2, hown, hM ▸ hupper⟩, hevP,
      hleM.mtrans hle, ?_, ?_, hevP.ranked hR, walkStep_of_walkBase hstep, ?_⟩
    · rw [hevP.parent]
      intro hmem
      rcases hseen _ hmem with h1 | h1
      · exact hself (List.mem_singleton.mp h1)
      · rw [hcs, hbases] at h1
        simp at h1
        exact hrest h1
    · rw [hevP.name]
      exact hsub _ (List.mem_singleton.mpr rfl)
    · rw [hevP.parent]
      apply getElem?_zero_of_take_one
      rw [htake, hcs, hbases]
      simp

/-! ## Claim C9: an unknown or redeclared parent -/

theorem afterRedeclaredParent_self (ar : AnalysisResult) (self : ClassId) :
    ((afterRedeclaredParent ar self).classScopes self).derivesFromRedeclaring =
        Derivation.DirectFromRedeclared ∧
      ((afterRedeclaredParent ar self).classScopes self).volatile = true ∧
      ((afterRedeclaredParent ar self).classScopes self).variableTable.forcedVariants = true ∧
      ((afterRedeclaredParent ar self).classScopes self).variableTable.needGlobalPointer
        = true := by
  simp [afterRedeclaredParent, setVolatile, setNeedGlobalPointer, forceVariants, setDerives,
    AnalysisResult.updClass]

theorem afterUnknownBase_parent_self (ar : AnalysisResult) (self : ClassId) (base : String)
    (i : Nat) (hparent : base = (ar.classScopes self).parent) :
    ((afterUnknownBase ar self base i).classScopes self).derivesFromRedeclaring =
        Derivation.DirectFromRedeclared ∧
      ((afterUnknownBase ar self base i).classScopes self).volatile = true ∧
      ((afterUnknownBase ar self base i).classScopes self).variableTable.forcedVariants = true ∧
      ((afterUnknownBase ar self base i).classScopes self).variableTable.needGlobalPointer
        = true ∧
      ({ kind := ErrorType.UnknownBaseClass, construct1 := Construct.classStmt self,
         construct2 := Construct.null, data := base } : ErrorRecord) ∈
        (afterUnknownBase ar self base i).codeError := by
  have hp : base = ((record ar ErrorType.UnknownBaseClass self base).classScopes self).parent :=
    hparent
  simp only [afterUnknownBase, if_pos hp]
  simp [setVolatile, setNeedGlobalPointer, forceVariants, setDerives,
    AnalysisResult.updClass, record]

theorem ghostGraph_ranked : Ranked ghostGraph rootRank := by
  intro c base hc hb hne d hd
  match c with
  | 0 =>
    simp [ghostGraph, mkAnalysisResult] at hb
    subst hb
    simp [findClasses, ghostGraph, mkAnalysisResult, toLower] at hd
  | n + 1 => simp [ghostGraph, mkAnalysisResult] at hb

theorem ghostGraph_functionsNonempty : FunctionsNonempty ghostGraph := by
  intro c name vec hm
  match c with
  | 0 => simp [ghostGraph, mkAnalysisResult] at hm
  | n + 1 => simp [ghostGraph, mkAnalysisResult] at hm

/-! ## Claim C8: the candidates of a redeclared parent -/

theorem groupGraph_ranked : Ranked groupGraph rootRank := by
  intro c base hc hb hne d hd
  match c with
  | 0 =>
    simp [groupGraph, mkAnalysisResult] at hb
    subst hb
    simp [findClasses, groupGraph, mkAnalysisResult, toLower] at hd
    rcases hd with rfl | rfl <;> decide
  | n + 1 =>
    match n with
    | 0 => simp [groupGraph, mkAnalysisResult] at hb
    | 1 => simp [groupGraph, mkAnalysisResult] at hb
    | m + 2 => simp [groupGraph, mkAnalysisResult] at hb

theorem groupGraph_functionsNonempty : FunctionsNonempty groupGraph := by
  intro c name vec hm
  match c with
  | 0 =>
    simp [groupGraph, mkAnalysisResult] at hm
    simp [hm.2]
  | 1 =>
    simp [groupGraph, mkAnalysisResult] at hm
    rcases hm with hm | hm <;> simp [hm.2]
  | 2 =>
    simp [groupGraph, mkAnalysisResult] at hm
    rcases hm with hm | hm <;> simp [hm.2]
  | n + 3 => simp [groupGraph, mkAnalysisResult] at hm

/-- The loop over the candidates, unfolded: the runs on the candidates, each
from its own copy of `pristine`, and the table obtained by inserting the
results in turn. -/
theorem collectCandidates_runs
    (rec : AnalysisResult → ClassId → FuncMap → Option (AnalysisResult × FuncMap))
    (pristine : FuncMap) (cands : List ClassId) (ar : AnalysisResult) (funcs : FuncMap)
    (ar1 : AnalysisResult) (funcs1 : FuncMap)
    (h : collectCandidates rec pristine cands ar funcs = some (ar1, funcs1)) :
    ∃ curs, CandidateRuns rec pristine cands ar curs ar1 ∧
      ∀ name, mapFind funcs1 name =
        match mapFind funcs name with
        | some f => some f
        | none => firstFound curs name := by
  induction cands generalizing ar funcs with
  | nil =>
    simp only [collectCandidates, Option.some.injEq, Prod.mk.injEq] at h
    obtain ⟨rfl, rfl⟩ := h
    refine ⟨[], CandidateRuns.nil _, fun name => ?_⟩
    cases mapFind funcs name <;> rfl
  | cons cls rest ih =>
    simp only [collectCandidates] at h
    split at h
    · exact absurd h (by simp)
    · rename_i ar2 cur hcall
      obtain ⟨curs, hruns, hfind⟩ := ih _ _ h
      refine ⟨cur :: curs, CandidateRuns.cons cls rest ar ar2 ar1 cur curs hcall hruns, ?_⟩
      intro name
      rw [hfind name, mapFind_mapInsertAll]
      cases mapFind funcs name with
      | some f => rfl
      | none => simp only [firstFound]

/-- C8 as stated fails for a class of a redeclaration group that names its own
group as parent: the parent name resolves to a redeclared class, the second
candidate of the group contributes `m`, and the table of the class holds no
`m`. -/
theorem self_group_parent_not_merged :
    (findClass selfGroupGraph (selfGroupGraph.classScopes 0).parent).map
      (fun s => (selfGroupGraph.classScopes s).isRedeclaring) = some true ∧
    findClasses selfGroupGraph (selfGroupGraph.classScopes 0).parent = [0, 1] ∧
    (collectMethods 1 selfGroupGraph 1 [] false false).map (fun r => mapFind r.2 "m") =
      some (some 0) ∧
    (collectMethods 1 selfGroupGraph 0 [] true false).map (fun r => mapFind r.2 "m") =
      some none := by
  decide

/-! ## The bases a walk keeps -/

theorem keptRev_append (erase : String → Bool) (p q seen : List String) :
    keptRev erase (p ++ q) seen = keptRev erase p seen ++ keptRev erase q (seenAfter p seen) := by
  induction p generalizing seen with
  | nil => rfl
  | cons b p ih =>
    simp only [List.cons_append, keptRev, seenAfter]
    by_cases hb : b ∈ seen
    · simp only [hb, if_true]; exact ih seen
    · simp only [hb, if_false]
      by_cases he : erase b = true
      · simp only [he, if_true]; exact ih _
      · simp only [he, if_false, Bool.false_eq_true, List.cons_append]
        exact congrArg (List.cons b) (ih _)

theorem keptRev_not_mem (erase : String → Bool) (p seen : List String) (b : String)
    (hb : b ∈ keptRev erase p seen) : b ∉ seen ∧ erase b = false ∧ b ∈ p := by
  induction p generalizing seen with
  | nil => simp [keptRev] at hb
  | cons a p ih =>
    simp only [keptRev] at hb
    by_cases ha : a ∈ seen
    · simp only [ha, if_true] at hb
      obtain ⟨h1, h2, h3⟩ := ih seen hb
      exact ⟨h1, h2, List.mem_cons_of_mem _ h3⟩
    · simp only [ha, if_false] at hb
      by_cases he : erase a = true
      · simp only [he, if_true] at hb
        obtain ⟨h1, h2, h3⟩ := ih _ hb
        exact ⟨fun h => h1 (List.mem_cons_of_mem _ h), h2, List.mem_cons_of_mem _ h3⟩
      · simp only [he, if_false, Bool.false_eq_true] at hb
        rcases List.mem_cons.mp hb with rfl | hb
        · exact ⟨ha, by simpa using he, List.mem_cons_self _ _⟩
        · obtain ⟨h1, h2, h3⟩ := ih _ hb
          exact ⟨fun h => h1 (List.mem_cons_of_mem _ h), h2, List.mem_cons_of_mem _ h3⟩

theorem keptRev_nodup (erase : String → Bool) (p seen : List String) :
    (keptRev erase p seen).Nodup := by
  induction p generalizing seen with
  | nil => simp [keptRev]
  | cons a p ih =>
    simp only [keptRev]
    by_cases ha : a ∈ seen
    · simp only [ha, if_true]; exact ih seen
    · simp only [ha, if_false]
      by_cases he : erase a = true
      · simp only [he, if_true]; exact ih _
      · simp only [he, if_false, Bool.false_eq_true]
        refine List.nodup_cons.mpr ⟨?_, ih _⟩
        intro hmem
        exact (keptRev_not_mem erase p _ a hmem).1 (List.mem_cons_self _ _)

/-- A list of distinct bases, none seen and none erasable, is kept whole. -/
theorem keptRev_eq_self (erase : String → Bool) (q seen : List String)
    (hq : ∀ b, b ∈ q → b ∉ seen ∧ erase b = false) (hnd : q.Nodup) :
    keptRev erase q seen = q := by
  induction q generalizing seen with
  | nil => rfl
  | cons a q ih =>
    obtain ⟨ha, he⟩ := hq a (List.mem_cons_self _ _)
    obtain ⟨hnot, hnd2⟩ := List.nodup_cons.mp hnd
    simp only [keptRev, ha, if_false, he, Bool.false_eq_true]
    rw [ih]
    · intro b hb
      obtain ⟨h1, h2⟩ := hq b (List.mem_cons_of_mem _ hb)
      refine ⟨?_, h2⟩
      intro hmem
      rcases List.mem_cons.mp hmem with rfl | hmem
      · exact hnot hb
      · exact h1 hmem
    · exact hnd2

/-- Walking the kept bases again keeps them all. -/
theorem keptRev_idem (erase : String → Bool) (p seen : List String) :
    keptRev erase (keptRev erase p seen) seen = keptRev erase p seen :=
  keptRev_eq_self erase _ seen
    (fun b hb => ⟨(keptRev_not_mem erase p seen b hb).1, (keptRev_not_mem erase p seen b hb).2.1⟩)
    (keptRev_nodup erase p seen)

/-! ## Marking functions virtual -/

theorem markFuncs_nil (fs : FuncId → FunctionScope) : markFuncs [] fs = fs := by
  funext f; simp [markFuncs]

theorem markFuncs_append (m1 m2 : List FuncId) (fs : FuncId → FunctionScope) :
    markFuncs (m1 ++ m2) fs = markFuncs m1 (markFuncs m2 fs) := by
  funext f
  simp only [markFuncs, List.mem_append]
  by_cases h1 : f ∈ m1 <;> by_cases h2 : f ∈ m2 <;> simp [h1, h2, markedVirtual_idem]

theorem markFuncs_cons (g : FuncId) (m : List FuncId) (fs : FuncId → FunctionScope) :
    markFuncs (g :: m) fs = markFuncs [g] (markFuncs m fs) :=
  markFuncs_append [g] m fs

theorem markFuncs_idem (m : List FuncId) (fs : FuncId → FunctionScope) :
    markFuncs m (markFuncs m fs) = markFuncs m fs := by
  rw [← markFuncs_append]
  funext f
  simp [markFuncs]

theorem setVirtual_functionScopes (ar : AnalysisResult) (g : FuncId) :
    (setVirtual ar g).functionScopes = markFuncs [g] ar.functionScopes := by
  funext f
  by_cases hf : f = g
  · subst hf; simp [setVirtual, AnalysisResult.updFunc, markFuncs, markedVirtual]
  · simp [setVirtual, AnalysisResult.updFunc, markFuncs, Function.update_noteq hf, hf]

theorem markFuncs_isPrivate (m : List FuncId) (fs : FuncId → FunctionScope) (f : FuncId) :
    (markFuncs m fs f).isPrivate = (fs f).isPrivate := by
  simp only [markFuncs]
  split <;> rfl

/-! ## Later states for the reference semantics -/

theorem erasable_congr {ar ar1 : AnalysisResult} (hd : ar1.classDecs = ar.classDecs)
    (x : ClassId) (hp : (ar1.classScopes x).parent = (ar.classScopes x).parent)
    (forInvoke : Bool) : erasable ar1 x forInvoke = erasable ar x forInvoke := by
  funext base
  simp [erasable, findClass_congr hd, hp]

theorem keptBases_congr {ar ar1 : AnalysisResult} (hd : ar1.classDecs = ar.classDecs)
    (x : ClassId) (hx : ar1.classScopes x = ar.classScopes x) (forInvoke : Bool) :
    keptBases ar1 x forInvoke = keptBases ar x forInvoke := by
  simp only [keptBases, erasable_congr hd x (by rw [hx]), hx]

theorem KeptRel.reflKept (rank : ClassId → Nat) (bound : Nat) (forInvoke : Bool)
    (ar : AnalysisResult) : KeptRel rank bound forInvoke ar ar where
  classDecs := rfl
  core := fun _ => rfl
  isPrivate := fun _ => rfl
  kept := fun _ _ _ => rfl

theorem KeptRel.monoKept {rank : ClassId → Nat} {bound bound1 : Nat} {forInvoke : Bool}
    {ar0 ar : AnalysisResult} (h : KeptRel rank bound forInvoke ar0 ar) (hle : bound1 ≤ bound) :
    KeptRel rank bound1 forInvoke ar0 ar where
  classDecs := h.classDecs
  core := h.core
  isPrivate := h.isPrivate
  kept := fun x h0 hb => h.kept x h0 (Nat.lt_of_lt_of_le hb hle)

/-- A later state stays one when the state evolves without touching the class
scopes of positive rank below the bound. -/
theorem KeptRel.step {rank : ClassId → Nat} {bound : Nat} {forInvoke : Bool}
    {ar0 ar ar1 : AnalysisResult} (h : KeptRel rank bound forInvoke ar0 ar)
    (hev : Evolves ar ar1)
    (hsame : ∀ x, 0 < rank x → rank x < bound → ar1.classScopes x = ar.classScopes x) :
    KeptRel rank bound forInvoke ar0 ar1 where
  classDecs := hev.classDecs.trans h.classDecs
  core := fun x => (hev.core x).trans (h.core x)
  isPrivate := fun f => (hev.isPrivate f).trans (h.isPrivate f)
  kept := fun x h0 hb =>
    (keptBases_congr hev.classDecs x (hsame x h0 hb) forInvoke).trans (h.kept x h0 hb)

/-- A later state below `bound1` extends to a larger bound when the classes
in between did not change. -/
theorem KeptRel.extend {rank : ClassId → Nat} {bound bound1 : Nat} {forInvoke : Bool}
    {ar0 ar ar1 : AnalysisResult} (h : KeptRel rank bound forInvoke ar0 ar)
    (h1 : KeptRel rank bound1 forInvoke ar0 ar1)
    (hframe : FrameAbove rank bound1 ar ar1) :
    KeptRel rank bound forInvoke ar0 ar1 where
  classDecs := h1.classDecs
  core := h1.core
  isPrivate := h1.isPrivate
  kept := fun x h0 hb => by
    by_cases hx : rank x < bound1
    · exact h1.kept x h0 hx
    · have hsame := hframe x (fun hc => hx hc.2)
      exact (keptBases_congr (h1.classDecs.trans h.classDecs.symm) x hsame forInvoke).trans
        (h.kept x h0 hb)

theorem KeptRel.parentKept {rank : ClassId → Nat} {bound : Nat} {forInvoke : Bool}
    {ar0 ar : AnalysisResult} (h : KeptRel rank bound forInvoke ar0 ar) (x : ClassId) :
    (ar.classScopes x).parent = (ar0.classScopes x).parent :=
  show (classCore (ar.classScopes x)).parent = (classCore (ar0.classScopes x)).parent from
    congrArg ClassScope.parent (h.core x)

theorem KeptRel.functionsKept {rank : ClassId → Nat} {bound : Nat} {forInvoke : Bool}
    {ar0 ar : AnalysisResult} (h : KeptRel rank bound forInvoke ar0 ar) (x : ClassId) :
    (ar.classScopes x).functions = (ar0.classScopes x).functions :=
  show (classCore (ar.classScopes x)).functions = (classCore (ar0.classScopes x)).functions from
    congrArg ClassScope.functions (h.core x)

theorem KeptRel.missingKept {rank : ClassId → Nat} {bound : Nat} {forInvoke : Bool}
    {ar0 ar : AnalysisResult} (h : KeptRel rank bound forInvoke ar0 ar) (x : ClassId) :
    (ar.classScopes x).missingMethods = (ar0.classScopes x).missingMethods :=
  show (classCore (ar.classScopes x)).missingMethods =
      (classCore (ar0.classScopes x)).missingMethods from
    congrArg ClassScope.missingMethods (h.core x)

theorem KeptRel.nameKept {rank : ClassId → Nat} {bound : Nat} {forInvoke : Bool}
    {ar0 ar : AnalysisResult} (h : KeptRel rank bound forInvoke ar0 ar) (x : ClassId) :
    (ar.classScopes x).name = (ar0.classScopes x).name :=
  show (classCore (ar.classScopes x)).name = (classCore (ar0.classScopes x)).name from
    congrArg ClassScope.name (h.core x)

theorem KeptRel.isRedeclaringKept {rank : ClassId → Nat} {bound : Nat} {forInvoke : Bool}
    {ar0 ar : AnalysisResult} (h : KeptRel rank bound forInvoke ar0 ar) (x : ClassId) :
    (ar.classScopes x).isRedeclaring = (ar0.classScopes x).isRedeclaring := by
  have : (ar.classScopes x).redeclaring = (ar0.classScopes x).redeclaring :=
    show (classCore (ar.classScopes x)).redeclaring =
        (classCore (ar0.classScopes x)).redeclaring from
      congrArg ClassScope.redeclaring (h.core x)
  simp [ClassScope.isRedeclaring, this]

/-! ## The loops agree with the reference semantics -/

theorem collectOwn_refines (ar0 : AnalysisResult) (collectPrivate : Bool)
    (fs : List (String × List FuncId)) (ar : AnalysisResult) (funcs : FuncMap)
    (marks : List FuncId) (ar1 : AnalysisResult) (funcs1 : FuncMap)
    (hpriv : ∀ f, (ar.functionScopes f).isPrivate = (ar0.functionScopes f).isPrivate)
    (h : collectOwn collectPrivate fs ar funcs = some (ar1, funcs1)) :
    ∃ added, pureOwn ar0 collectPrivate fs funcs marks = some (funcs1, added ++ marks) ∧
      ar1.functionScopes = markFuncs added ar.functionScopes := by
  induction fs generalizing ar funcs marks with
  | nil =>
    simp only [collectOwn, Option.some.injEq, Prod.mk.injEq] at h
    obtain ⟨rfl, rfl⟩ := h
    exact ⟨[], rfl, (markFuncs_nil _).symm⟩
  | cons e rest ih =>
    obtain ⟨name, vec⟩ := e
    cases hlast : vec.getLast? with
    | none => simp [collectOwn, hlast] at h
    | some last =>
      simp only [collectOwn, hlast] at h
      simp only [pureOwn, hlast]
      rw [← hpriv last]
      cases hskip : (!collectPrivate && (ar.functionScopes last).isPrivate) with
      | true =>
        simp only [hskip, if_true] at h ⊢
        exact ih _ _ _ hpriv h
      | false =>
        simp only [hskip, if_false, Bool.false_eq_true] at h ⊢
        cases hfind : mapFind funcs name with
        | none =>
          simp only [hfind] at h ⊢
          exact ih _ _ _ hpriv h
        | some existing =>
          simp only [hfind] at h ⊢
          have hpriv2 : ∀ f, ((setVirtual (setVirtual ar existing) last).functionScopes
              f).isPrivate = (ar0.functionScopes f).isPrivate := by
            intro f
            rw [((Evolves_setVirtual _ _).trans (Evolves_setVirtual _ _)).isPrivate]
            exact hpriv f
          obtain ⟨added, h1, h2⟩ := ih _ _ (last :: existing :: marks) hpriv2 h
          refine ⟨added ++ [last, existing], ?_, ?_⟩
          · rw [h1]; simp
          · rw [h2, setVirtual_functionScopes, setVirtual_functionScopes,
              ← markFuncs_append, ← markFuncs_append]
            simp

theorem markMissing_refines (funcs : FuncMap) (miss : List String) (ar : AnalysisResult)
    (marks : List FuncId) :
    ∃ added, pureMissing funcs miss marks = added ++ marks ∧
      (markMissing funcs miss ar).functionScopes = markFuncs added ar.functionScopes := by
  induction miss generalizing ar marks with
  | nil => exact ⟨[], rfl, (markFuncs_nil _).symm⟩
  | cons m rest ih =>
    simp only [markMissing, pureMissing]
    cases hm : mapFind funcs m with
    | none => exact ih _ _
    | some f =>
      obtain ⟨added, h1, h2⟩ := ih (setVirtual ar f) (f :: marks)
      refine ⟨added ++ [f], ?_, ?_⟩
      · simp only []
        rw [h1]; simp
      · simp only []
        rw [h2, setVirtual_functionScopes, ← markFuncs_append]

theorem collectCandidates_refines
    (rank : ClassId → Nat) (bound : Nat) (forInvoke : Bool) (ar0 : AnalysisResult)
    (rec : AnalysisResult → ClassId → FuncMap → Option (AnalysisResult × FuncMap))
    (prec : ClassId → FuncMap → Option (FuncMap × List FuncId))
    (hrecE : RecEvolves rec) (href : RecRefines rank bound forInvoke ar0 rec prec)
    (pristine : FuncMap) (cands : List ClassId)
    (hc : ∀ d, d ∈ cands → 0 < rank d ∧ rank d < bound)
    (ar : AnalysisResult) (funcs : FuncMap)
    (ar1 : AnalysisResult) (funcs1 : FuncMap)
    (hR : Ranked ar rank) (hrel : KeptRel rank bound forInvoke ar0 ar)
    (h : collectCandidates rec pristine cands ar funcs = some (ar1, funcs1)) :
    ∃ added,
      (∀ marks, pureCandidates prec pristine cands funcs marks =
        some (funcs1, added ++ marks)) ∧
      ar1.functionScopes = markFuncs added ar.functionScopes ∧
      KeptRel rank bound forInvoke ar0 ar1 := by
  induction cands generalizing ar funcs with
  | nil =>
    simp only [collectCandidates, Option.some.injEq, Prod.mk.injEq] at h
    obtain ⟨rfl, rfl⟩ := h
    exact ⟨[], fun _ => rfl, (markFuncs_nil _).symm, hrel⟩
  | cons cls rest ih =>
    simp only [collectCandidates] at h
    split at h
    · exact absurd h (by simp)
    · rename_i ar2 cur hcall
      have hcls := hc cls (List.mem_cons_self _ _)
      obtain ⟨m1, hp1, hf1, hrel1⟩ := href _ _ _ _ _ hR hrel hcls.1 hcls.2 hcall
      have hR2 := (hrecE _ _ _ _ _ hcall).1.ranked hR
      obtain ⟨added, hp2, hf2, hrel2⟩ :=
        ih (fun d hd => hc d (List.mem_cons_of_mem _ hd)) _ _ hR2 hrel1 h
      refine ⟨added ++ m1, fun marks => ?_, ?_, hrel2⟩
      · simp only [pureCandidates, hp1]
        rw [hp2]; simp
      · rw [hf2, hf1, ← markFuncs_append]

theorem afterRedeclaredParent_functionScopes (ar : AnalysisResult) (self : ClassId) :
    (afterRedeclaredParent ar self).functionScopes = ar.functionScopes := rfl

theorem afterRedeclaredBase_functionScopes (ar : AnalysisResult) (self : ClassId) :
    (afterRedeclaredBase ar self).functionScopes = ar.functionScopes := by
  unfold afterRedeclaredBase
  split <;> rfl

theorem afterKnownBase_functionScopes (ar : AnalysisResult) (self super : ClassId)
    (base : String) : (afterKnownBase ar self super base).functionScopes = ar.functionScopes := by
  unfold afterKnownBase
  split
  · split
    · rfl
    · split <;> rfl
  · rfl

theorem afterUnknownBase_functionScopes (ar : AnalysisResult) (self : ClassId) (base : String)
    (i : Nat) : (afterUnknownBase ar self base i).functionScopes = ar.functionScopes := by
  unfold afterUnknownBase
  simp only []
  split
  · rfl
  · split <;> rfl

theorem KeptRel.selfUpdate {rank : ClassId → Nat} {self : ClassId} {forInvoke : Bool}
    {ar0 ar ar1 : AnalysisResult} (h : KeptRel rank (rank self) forInvoke ar0 ar)
    (hev : Evolves ar ar1) (honly : OnlySelf self ar ar1) :
    KeptRel rank (rank self) forInvoke ar0 ar1 :=
  h.step hev (fun x _ hb => honly x (fun hx => by subst hx; exact Nat.lt_irrefl _ hb))

/-- One iteration of the walk against the reference semantics: either the base
is dropped (already seen, or erased as unknown) and the table and the functions
stay, or the base is kept and the iteration is the reference visit of it. -/
theorem walkStep_refines
    (rank : ClassId → Nat) (self : ClassId) (forInvoke : Bool) (ar0 : AnalysisResult)
    (rec : AnalysisResult → ClassId → FuncMap → Option (AnalysisResult × FuncMap))
    (prec : ClassId → FuncMap → Option (FuncMap × List FuncId))
    (hrecE : RecEvolves rec) (hrecF : RecFrame rank (rank self) rec)
    (href : RecRefines rank (rank self) forInvoke ar0 rec prec) (hself : 0 < rank self)
    {i : Nat} {seen : List String} {ar : AnalysisResult} {funcs : FuncMap}
    {seen1 : List String} {ar1 : AnalysisResult} {funcs1 : FuncMap}
    (hR : Ranked ar rank) (hrel : KeptRel rank (rank self) forInvoke ar0 ar)
    (hname : (ar.classScopes self).name ∈ seen)
    (h : WalkStep rec self forInvoke i seen ar funcs seen1 ar1 funcs1) :
    KeptRel rank (rank self) forInvoke ar0 ar1 ∧
    ∃ base, (ar.classScopes self).bases[i]? = some base ∧
      ((funcs1 = funcs ∧ ar1.functionScopes = ar.functionScopes ∧
          (ar1.classScopes self).bases = (ar.classScopes self).bases.eraseIdx i ∧
          ((base ∈ seen ∧ seen1 = seen) ∨
            (base ∉ seen ∧ erasable ar0 self forInvoke base = true ∧ seen1 = base :: seen))) ∨
        (base ∉ seen ∧ erasable ar0 self forInvoke base = false ∧ seen1 = base :: seen ∧
          (ar1.classScopes self).bases = (ar.classScopes self).bases ∧
          ∃ added,
            (∀ marks, pureVisit prec ar0 self forInvoke base funcs marks =
              some (funcs1, added ++ marks)) ∧
            ar1.functionScopes = markFuncs added ar.functionScopes)) := by
  have hirr : ¬(0 < rank self ∧ rank self < rank self) := fun hx => Nat.lt_irrefl _ hx.2
  have hpar : (ar.classScopes self).parent = (ar0.classScopes self).parent := hrel.parentKept self
  have hfc : ∀ b, findClass ar b = findClass ar0 b := fun b => findClass_congr hrel.classDecs b
  cases h with
  | invalid base hbase hseen =>
    refine ⟨hrel.selfUpdate ((Evolves_record _ _ _ _).trans (Evolves_eraseBase _ _ _))
      ((OnlySelf_record _ _ _ _ _).otrans (OnlySelf_eraseBase _ _ _)), base, hbase, Or.inl ?_⟩
    exact ⟨rfl, rfl, by rw [eraseBase_bases]; rfl, Or.inl ⟨hseen, rfl⟩⟩
  | skipped base hbase hseen hinvoke hparent =>
    refine ⟨hrel, base, hbase, Or.inr ⟨hseen, ?_, rfl, rfl, [], ?_, (markFuncs_nil _).symm⟩⟩
    · simp [erasable, hinvoke]
    · intro marks
      rw [hpar] at hparent
      simp [pureVisit, hinvoke, hparent]
  | redeclaredParentInvoke base super hbase hseen hinvoke hparent hfind hredec =>
    refine ⟨hrel, base, hbase, Or.inr ⟨hseen, ?_, rfl, rfl, [], ?_, (markFuncs_nil _).symm⟩⟩
    · simp [erasable, hinvoke]
    · intro marks
      rw [hpar] at hparent
      rw [hfc] at hfind
      rw [hrel.isRedeclaringKept] at hredec
      have hskip : (forInvoke && base != (ar0.classScopes self).parent) = false := by
        simp [hparent]
      simp only [pureVisit, hskip, hfind, hredec, if_true, if_pos hparent, hinvoke]
      simp
  | redeclaredParent base super ar2 funcs2 hbase hseen hinvoke hparent hfind hredec hcands =>
    have hlow : ∀ d, d ∈ findClasses ar (ar.classScopes self).parent →
        0 < rank d ∧ rank d < rank self :=
      fun d hd => hR.lower hself hbase hname hseen (hparent ▸ hd)
    obtain ⟨added, hp, hf, hrel2⟩ := collectCandidates_refines rank (rank self) forInvoke ar0
      rec prec hrecE href funcs _ hlow ar funcs _ _ hR hrel hcands
    have hfr := collectCandidates_frame rec hrecE rank (rank self) hrecF _ _ hlow _ _ _ _ hR
      hcands
    refine ⟨hrel2.selfUpdate (Evolves_afterRedeclaredParent _ _)
      (OnlySelf_afterRedeclaredParent _ _), base, hbase,
      Or.inr ⟨hseen, ?_, rfl, ?_, added, ?_, ?_⟩⟩
    · simp [erasable, ← hfc, hfind]
    · rw [afterRedeclaredParent_bases, hfr self hirr]
    · intro marks
      have hskip : (forInvoke && base != (ar0.classScopes self).parent) = false := by
        simp [hinvoke]
      rw [hfc] at hfind
      rw [hrel.isRedeclaringKept] at hredec
      rw [hpar] at hparent
      have hcl : findClasses ar (ar.classScopes self).parent =
          findClasses ar0 (ar0.classScopes self).parent := by
        rw [hpar, findClasses_congr hrel.classDecs]
      rw [hcl] at hp
      simp only [pureVisit, hskip, hfind, hredec, if_true, if_pos hparent, hinvoke]
      exact hp marks
    · rw [afterRedeclaredParent_functionScopes, hf]
  | redeclaredBase base super hbase hseen hinvoke hparent hfind hredec =>
    refine ⟨hrel.selfUpdate (Evolves_afterRedeclaredBase _ _) (OnlySelf_afterRedeclaredBase _ _),
      base, hbase, Or.inr ⟨hseen, ?_, rfl, ?_, [], ?_, ?_⟩⟩
    · simp [erasable, ← hfc, hfind]
    · rw [afterRedeclaredBase_bases]
    · intro marks
      rw [hpar] at hparent
      rw [hfc] at hfind
      rw [hrel.isRedeclaringKept] at hredec
      simp [pureVisit, hinvoke, hparent, hfind, hredec]
    · rw [afterRedeclaredBase_functionScopes, markFuncs_nil]
  | known base super ar2 funcs2 hbase hseen hfollow hfind hredec hcall =>
    have hlow := hR.lower hself hbase hname hseen (findClass_mem hfind)
    obtain ⟨added, hp, hf, hrel2⟩ := href _ _ _ _ _ hR hrel hlow.1 hlow.2 hcall
    have hfr := hrecF _ _ _ _ _ hR hlow.1 hlow.2 hcall
    refine ⟨hrel2.selfUpdate (Evolves_afterKnownBase _ _ _ _) (OnlySelf_afterKnownBase _ _ _ _),
      base, hbase, Or.inr ⟨hseen, ?_, rfl, ?_, added, ?_, ?_⟩⟩
    · simp [erasable, ← hfc, hfind]
    · rw [afterKnownBase_bases, hfr self hirr]
    · intro marks
      have hskip : (forInvoke && base != (ar0.classScopes self).parent) = false := by
        rw [← hpar]
        rcases hfollow with hf | hf <;> simp [hf]
      rw [hfc] at hfind
      rw [hrel.isRedeclaringKept] at hredec
      simp [pureVisit, hskip, hfind, hredec, hp]
    · rw [afterKnownBase_functionScopes, hf]
  | unknown base hbase hseen hfollow hfind =>
    refine ⟨hrel.selfUpdate (Evolves_afterUnknownBase _ _ _ _)
      (OnlySelf_afterUnknownBase _ _ _ _), base, hbase, ?_⟩
    by_cases hparent : base = (ar.classScopes self).parent
    · refine Or.inr ⟨hseen, ?_, rfl, ?_, [], ?_, ?_⟩
      · rw [hpar] at hparent
        simp [erasable, hparent]
      · rw [afterUnknownBase_bases, if_pos hparent]
      · intro marks
        have hskip : (forInvoke && base != (ar0.classScopes self).parent) = false := by
          rw [← hpar]; simp [hparent]
        rw [hfc] at hfind
        simp [pureVisit, hskip, hfind]
      · rw [afterUnknownBase_functionScopes, markFuncs_nil]
    · have hinvoke : forInvoke = false := by
        rcases hfollow with hf | hf
        · exact hf
        · exact absurd hf hparent
      refine Or.inl ⟨rfl, afterUnknownBase_functionScopes _ _ _ _, ?_, Or.inr ⟨hseen, ?_, rfl⟩⟩
      · rw [afterUnknownBase_bases, if_neg hparent]
      · rw [hpar] at hparent
        rw [hfc] at hfind
        simp [erasable, hinvoke, hfind, hparent]

/-! ## Classes of the same rank do not change -/

theorem FrameSelf.srefl (rank : ClassId → Nat) (self : ClassId) (ar : AnalysisResult) :
    FrameSelf rank self ar ar := fun _ _ _ => rfl

theorem FrameSelf.strans {rank : ClassId → Nat} {self : ClassId} {a b c : AnalysisResult}
    (h1 : FrameSelf rank self a b) (h2 : FrameSelf rank self b c) : FrameSelf rank self a c :=
  fun x hx hr => (h2 x hx hr).trans (h1 x hx hr)

theorem OnlySelf.selfFrame {self : ClassId} {a b : AnalysisResult} (h : OnlySelf self a b)
    (rank : ClassId → Nat) : FrameSelf rank self a b := fun x hx _ => h x hx

theorem FrameAbove.aboveSelf {rank : ClassId → Nat} {self : ClassId} {a b : AnalysisResult}
    (h : FrameAbove rank (rank self) a b) : FrameSelf rank self a b := fun x _ hr => h x hr

theorem walkStep_frameSelf
    {rec : AnalysisResult → ClassId → FuncMap → Option (AnalysisResult × FuncMap)}
    (hrecE : RecEvolves rec) {rank : ClassId → Nat} {self : ClassId}
    (hrecF : RecFrame rank (rank self) rec) (hself : 0 < rank self)
    {forInvoke : Bool} {i : Nat} {seen : List String} {ar : AnalysisResult} {funcs : FuncMap}
    {seen1 : List String} {ar1 : AnalysisResult} {funcs1 : FuncMap}
    (hR : Ranked ar rank) (hname : (ar.classScopes self).name ∈ seen)
    (h : WalkStep rec self forInvoke i seen ar funcs seen1 ar1 funcs1) :
    FrameSelf rank self ar ar1 := by
  cases h with
  | invalid base hbase hseen =>
    exact ((OnlySelf_record _ _ _ _ _).otrans (OnlySelf_eraseBase _ _ _)).selfFrame rank
  | skipped base hbase hseen hinvoke hparent => exact FrameSelf.srefl _ _ _
  | redeclaredParentInvoke base super hbase hseen hinvoke hparent hfind hredec =>
    exact FrameSelf.srefl _ _ _
  | redeclaredParent base super ar2 funcs2 hbase hseen hinvoke hparent hfind hredec hcands =>
    have h1 := collectCandidates_frame rec hrecE rank (rank self) hrecF _ _
      (fun d hd => hR.lower hself hbase hname hseen (hparent ▸ hd)) _ _ _ _ hR hcands
    exact h1.aboveSelf.strans ((OnlySelf_afterRedeclaredParent _ _).selfFrame rank)
  | redeclaredBase base super hbase hseen hinvoke hparent hfind hredec =>
    exact (OnlySelf_afterRedeclaredBase _ _).selfFrame rank
  | known base super ar2 funcs2 hbase hseen hfollow hfind hredec hcall =>
    have hlow := hR.lower hself hbase hname hseen (findClass_mem hfind)
    have h1 := hrecF _ _ _ _ _ hR hlow.1 hlow.2 hcall
    exact h1.aboveSelf.strans ((OnlySelf_afterKnownBase _ _ _ _).selfFrame rank)
  | unknown base hbase hseen hfollow hfind =>
    exact (OnlySelf_afterUnknownBase _ _ _ _).selfFrame rank

theorem walkBases_frameSelf
    (rec : AnalysisResult → ClassId → FuncMap → Option (AnalysisResult × FuncMap))
    (hrecE : RecEvolves rec) (rank : ClassId → Nat) (self : ClassId)
    (hrecF : RecFrame rank (rank self) rec) (hself : 0 < rank self)
    (forInvoke : Bool) (k : Nat) (seen : List String) (ar : AnalysisResult) (funcs : FuncMap)
    (ar1 : AnalysisResult) (funcs1 : FuncMap)
    (hR : Ranked ar rank) (hname : (ar.classScopes self).name ∈ seen)
    (h : walkBases rec self forInvoke k seen ar funcs = some (ar1, funcs1)) :
    FrameSelf rank self ar ar1 := by
  induction k generalizing seen ar funcs with
  | zero =>
    simp [walkBases] at h; obtain ⟨rfl, rfl⟩ := h
    exact FrameSelf.srefl _ _ _
  | succ i ih =>
    simp only [walkBases] at h
    split at h
    · exact absurd h (by simp)
    · rename_i seen2 ar2 funcs2 hstep
      have hws := walkStep_of_walkBase hstep
      have hev := (walkStep_evolves hrecE hws).1
      have h1 := walkStep_frameSelf hrecE hrecF hself hR hname hws
      have hname2 : (ar2.classScopes self).name ∈ seen2 := by
        rw [hev.name]; exact walkStep_seen hws _ hname
      exact h1.strans (ih _ _ _ (hev.ranked hR) hname2 h)

theorem RecFrame_collectMethods (rank : ClassId → Nat) (fuel : Nat) (forInvoke : Bool)
    (bound : Nat) :
    RecFrame rank bound (fun a d t => collectMethods fuel a d t false forInvoke) := by
  intro a d t a1 t1 hRa hd hdc hcall
  exact (collectMethods_recFrame rank fuel false forInvoke a d t a1 t1 hRa hd hcall).mono hdc

theorem collectMethods_frameSelf (rank : ClassId → Nat) (fuel : Nat)
    (collectPrivate forInvoke : Bool) (ar : AnalysisResult) (c : ClassId) (funcs : FuncMap)
    (ar1 : AnalysisResult) (funcs1 : FuncMap) (hR : Ranked ar rank) (hc : 0 < rank c)
    (h : collectMethods fuel ar c funcs collectPrivate forInvoke = some (ar1, funcs1)) :
    FrameSelf rank c ar ar1 := by
  cases fuel with
  | zero => simp [collectMethods] at h
  | succ fuel =>
    simp only [collectMethods] at h
    split at h
    · exact absurd h (by simp)
    · rename_i ar2 funcs2 hown
      have hcs := collectOwn_classScopes _ _ _ _ _ _ hown
      have hms := markMissing_classScopes funcs2 (ar2.classScopes c).missingMethods ar2
      have hev := (collectOwn_evolves _ _ _ _ _ _ hown).1.trans
        (markMissing_evolves funcs2 (ar2.classScopes c).missingMethods ar2)
      have hw := walkBases_frameSelf _ (collectMethods_recEvolves fuel false forInvoke) rank c
        (RecFrame_collectMethods rank fuel forInvoke (rank c)) hc
        forInvoke _ _ _ _ _ _ (hev.ranked hR) (List.mem_singleton.mpr rfl) h
      intro x hx hr
      rw [hw x hx hr, hms.1, hcs.1]

/-! ## The walk agrees with the reference semantics -/

theorem take_succ_reverse {α : Type} {l : List α} {k : Nat} {a : α} (h : l[k]? = some a) :
    (l.take (k + 1)).reverse = a :: (l.take k).reverse := by
  rw [List.take_succ, h]
  simp

theorem drop_eq_cons_of_getElem? {α : Type} {l : List α} {k : Nat} {a : α}
    (h : l[k]? = some a) : l.drop k = a :: l.drop (k + 1) := by
  obtain ⟨hk, rfl⟩ := List.getElem?_eq_some.mp h
  exact List.drop_eq_getElem_cons hk

theorem drop_eraseIdx_self {α : Type} (l : List α) (k : Nat) :
    (l.eraseIdx k).drop k = l.drop (k + 1) := by
  induction l generalizing k with
  | nil => simp
  | cons a l ih =>
    cases k with
    | zero => simp
    | succ k => simp [ih]

theorem walkBases_refines
    (rank : ClassId → Nat) (self : ClassId) (forInvoke : Bool) (ar0 : AnalysisResult)
    (rec : AnalysisResult → ClassId → FuncMap → Option (AnalysisResult × FuncMap))
    (prec : ClassId → FuncMap → Option (FuncMap × List FuncId))
    (hrecE : RecEvolves rec) (hrecF : RecFrame rank (rank self) rec)
    (href : RecRefines rank (rank self) forInvoke ar0 rec prec) (hself : 0 < rank self)
    (k : Nat) (seen : List String) (ar : AnalysisResult) (funcs : FuncMap)
    (marks : List FuncId) (ar1 : AnalysisResult) (funcs1 : FuncMap)
    (hR : Ranked ar rank) (hrel : KeptRel rank (rank self) forInvoke ar0 ar)
    (hname : (ar.classScopes self).name ∈ seen)
    (h : walkBases rec self forInvoke k seen ar funcs = some (ar1, funcs1)) :
    ∃ added,
      pureWalk prec ar0 self forInvoke
        (keptRev (erasable ar0 self forInvoke) ((ar.classScopes self).bases.take k).reverse seen)
        funcs marks = some (funcs1, added ++ marks) ∧
      ar1.functionScopes = markFuncs added ar.functionScopes ∧
      KeptRel rank (rank self) forInvoke ar0 ar1 ∧
      (ar1.classScopes self).bases =
        (keptRev (erasable ar0 self forInvoke)
          ((ar.classScopes self).bases.take k).reverse seen).reverse ++
          (ar.classScopes self).bases.drop k := by
  induction k generalizing seen ar funcs marks with
  | zero =>
    simp only [walkBases, Option.some.injEq, Prod.mk.injEq] at h
    obtain ⟨rfl, rfl⟩ := h
    refine ⟨[], ?_, (markFuncs_nil _).symm, hrel, ?_⟩
    · simp [keptRev, pureWalk]
    · simp [keptRev]
  | succ k ih =>
    simp only [walkBases] at h
    split at h
    · exact absurd h (by simp)
    · rename_i seen2 ar2 funcs2 hstep
      have hws := walkStep_of_walkBase hstep
      have hev := (walkStep_evolves hrecE hws).1
      have hname2 : (ar2.classScopes self).name ∈ seen2 := by
        rw [hev.name]; exact walkStep_seen hws _ hname
      obtain ⟨hrel2, base, hbase, hcase⟩ :=
        walkStep_refines rank self forInvoke ar0 rec prec hrecE hrecF href hself hR hrel hname hws
      rw [take_succ_reverse hbase]
      rcases hcase with ⟨hfuncs, hfs, hbases, hdrop⟩ | ⟨hseen, herase, hseen2, hbases, added1,
          hvisit, hfs⟩
      · subst hfuncs
        obtain ⟨added, hp, hf, hrel1, hb1⟩ := ih seen2 ar2 funcs2 marks (hev.ranked hR) hrel2
          hname2 h
        rw [hbases, take_eraseIdx_of_le _ _ _ (Nat.le_refl _)] at hp hb1
        rw [drop_eraseIdx_self] at hb1
        have hkept : keptRev (erasable ar0 self forInvoke)
            (base :: ((ar.classScopes self).bases.take k).reverse) seen =
            keptRev (erasable ar0 self forInvoke)
              ((ar.classScopes self).bases.take k).reverse seen2 := by
          rcases hdrop with ⟨hs, rfl⟩ | ⟨hs, he, rfl⟩
          · simp [keptRev, hs]
          · simp [keptRev, hs, he]
        rw [hkept]
        exact ⟨added, hp, by rw [hf, hfs], hrel1, hb1⟩
      · subst hseen2
        obtain ⟨added, hp, hf, hrel1, hb1⟩ := ih _ ar2 funcs2 (added1 ++ marks)
          (hev.ranked hR) hrel2 hname2 h
        rw [hbases] at hp hb1
        have hkept : keptRev (erasable ar0 self forInvoke)
            (base :: ((ar.classScopes self).bases.take k).reverse) seen =
            base :: keptRev (erasable ar0 self forInvoke)
              ((ar.classScopes self).bases.take k).reverse (base :: seen) := by
          simp [keptRev, hseen, herase]
        rw [hkept]
        refine ⟨added ++ added1, ?_, ?_, hrel1, ?_⟩
        · simp only [pureWalk, hvisit marks]
          rw [hp]; simp
        · rw [hf, hfs, ← markFuncs_append]
        · rw [hb1, drop_eq_cons_of_getElem? hbase]
          simp

/-- `collectMethods` agrees with the reference semantics: run from a later
state of `ar0`, on an acyclic graph, it returns the table `pureCollect` computes
on `ar0`, marks virtual the functions `pureCollect` lists, and leaves a later
state of `ar0`. -/
theorem collectMethods_refines (rank : ClassId → Nat) (fuel : Nat) :
    ∀ (collectPrivate forInvoke : Bool) (ar0 ar : AnalysisResult) (c : ClassId)
      (funcs : FuncMap) (ar1 : AnalysisResult) (funcs1 : FuncMap),
      Ranked ar rank → KeptRel rank (rank c + 1) forInvoke ar0 ar → 0 < rank c →
      collectMethods fuel ar c funcs collectPrivate forInvoke = some (ar1, funcs1) →
      ∃ marks, pureCollect fuel ar0 c funcs collectPrivate forInvoke = some (funcs1, marks) ∧
        ar1.functionScopes = markFuncs marks ar.functionScopes ∧
        KeptRel rank (rank c + 1) forInvoke ar0 ar1 := by
  induction fuel with
  | zero => intro cp fi ar0 ar c funcs ar1 funcs1 _ _ _ h; simp [collectMethods] at h
  | succ fuel ih =>
    intro cp fi ar0 ar c funcs ar1 funcs1 hR hrel hc h
    have hrun := h
    rw [collectMethods] at h
    split at h
    · exact absurd h (by simp)
    · rename_i ar2 funcs2 hown
      have hcs := collectOwn_classScopes _ _ _ _ _ _ hown
      have hms := markMissing_classScopes funcs2 (ar2.classScopes c).missingMethods ar2
      have hev := (collectOwn_evolves _ _ _ _ _ _ hown).1.trans
        (markMissing_evolves funcs2 (ar2.classScopes c).missingMethods ar2)
      obtain ⟨added1, hp1, hf1⟩ := collectOwn_refines ar0 cp _ ar funcs [] ar2 funcs2
        hrel.isPrivate hown
      obtain ⟨added2, hp2, hf2⟩ := markMissing_refines funcs2
        (ar2.classScopes c).missingMethods ar2 (added1 ++ [])
      have hmiss : (ar2.classScopes c).missingMethods = (ar0.classScopes c).missingMethods := by
        rw [hcs.1]; exact hrel.missingKept c
      rw [hmiss] at hp2
      have hcsM : (markMissing funcs2 (ar2.classScopes c).missingMethods ar2).classScopes =
          ar.classScopes := hms.1.trans hcs.1
      generalize markMissing funcs2 (ar2.classScopes c).missingMethods ar2 = arM at *
      have hrelM : KeptRel rank (rank c) fi ar0 arM :=
        (hrel.monoKept (Nat.le_succ _)).step hev (fun x _ _ => by rw [hcsM])
      have href : RecRefines rank (rank c) fi ar0
          (fun a d t => collectMethods fuel a d t false fi)
          (fun d t => pureCollect fuel ar0 d t false fi) := by
        intro a d t a1 t1 hRa hrela hd hdc hcall
        obtain ⟨marks, hp, hf, hrel1⟩ := ih false fi ar0 a d t a1 t1 hRa
          (hrela.monoKept hdc) hd hcall
        exact ⟨marks, hp, hf, hrela.extend hrel1
          (collectMethods_recFrame rank fuel false fi a d t a1 t1 hRa hd hcall)⟩
      have hnameM : (arM.classScopes c).name ∈ [(arM.classScopes c).name] :=
        List.mem_singleton.mpr rfl
      obtain ⟨added3, hp3, hf3, hrel3, hb3⟩ := walkBases_refines rank c fi ar0 _ _
        (collectMethods_recEvolves fuel false fi) (RecFrame_collectMethods rank fuel fi (rank c))
        href hc _ _ arM funcs2 (added2 ++ (added1 ++ [])) ar1 funcs1 (hev.ranked hR) hrelM
        hnameM h
      have hkeptc : keptRev (erasable ar0 c fi) (arM.classScopes c).bases.reverse
          [(arM.classScopes c).name] = keptBases ar0 c fi := by
        have h1 : keptBases ar c fi = keptBases ar0 c fi := hrel.kept c hc (Nat.lt_succ_self _)
        rw [← h1, keptBases, erasable_congr hrel.classDecs c (hrel.parentKept c), hcsM]
      rw [List.take_length, hkeptc] at hp3 hb3
      rw [List.drop_length, List.append_nil] at hb3
      refine ⟨added3 ++ (added2 ++ (added1 ++ [])), ?_, ?_, ?_⟩
      · rw [pureCollect]
        rw [hrel.functionsKept c] at hp1
        simp only [hp1]
        rw [hp2]
        exact hp3
      · rw [hf3, hf2, hf1, ← markFuncs_append, ← markFuncs_append]
        simp
      · have hframe := collectMethods_frameSelf rank (fuel + 1) cp fi ar c funcs ar1 funcs1 hR hc
          hrun
        refine ⟨hrel3.classDecs, hrel3.core, hrel3.isPrivate, ?_⟩
        intro x hx0 hxb
        by_cases hxc : x = c
        · subst hxc
          rw [keptBases, erasable_congr hrel3.classDecs x (hrel3.parentKept x), hb3, hrel3.nameKept,
            List.reverse_reverse]
          exact keptRev_idem _ _ _
        · by_cases hlt : rank x < rank c
          · exact hrel3.kept x hx0 hlt
          · have hsame := hframe x hxc (fun hr => hlt hr.2)
            exact (keptBases_congr (hrel3.classDecs.trans hrel.classDecs.symm) x hsame fi).trans
              (hrel.kept x hx0 hxb)

/-! ## The reference semantics, name by name -/

theorem mapFind_mapAdd_ne (funcs : FuncMap) (key : String) (f : FuncId) (n : String)
    (h : key ≠ n) : mapFind (mapAdd funcs key f) n = mapFind funcs n := by
  rw [mapFind_mapAdd]
  cases mapFind funcs n <;> simp [h]

theorem pureOwn_agree (ar : AnalysisResult) (collectPrivate : Bool) (n : String)
    (l : List (String × List FuncId)) :
    ∀ (funcs1 funcs2 : FuncMap) (marks1 marks2 : List FuncId) (r1 r2 : FuncMap × List FuncId),
      pureOwn ar collectPrivate l funcs1 marks1 = some r1 →
      pureOwn ar collectPrivate l funcs2 marks2 = some r2 →
      mapFind funcs1 n = mapFind funcs2 n → mapFind r1.1 n = mapFind r2.1 n := by
  induction l with
  | nil =>
    intro funcs1 funcs2 marks1 marks2 r1 r2 h1 h2 h
    simp only [pureOwn, Option.some.injEq] at h1 h2
    subst h1; subst h2; exact h
  | cons e rest ih =>
    obtain ⟨name, vec⟩ := e
    intro funcs1 funcs2 marks1 marks2 r1 r2 h1 h2 h
    simp only [pureOwn] at h1 h2
    cases hlast : vec.getLast? with
    | none => simp [hlast] at h1
    | some last =>
      simp only [hlast] at h1 h2
      cases hskip : (!collectPrivate && (ar.functionScopes last).isPrivate) with
      | true =>
        simp only [hskip, if_true] at h1 h2
        exact ih _ _ _ _ _ _ h1 h2 h
      | false =>
        simp only [hskip, Bool.false_eq_true, if_false] at h1 h2
        by_cases hn : name = n
        · subst hn
          cases hf1 : mapFind funcs1 name with
          | none =>
            have hf2 : mapFind funcs2 name = none := by rw [← h, hf1]
            simp only [hf1, hf2] at h1 h2
            refine ih _ _ _ _ _ _ h1 h2 ?_
            rw [mapFind_mapAdd, mapFind_mapAdd, hf1, hf2]
          | some g =>
            have hf2 : mapFind funcs2 name = some g := by rw [← h, hf1]
            simp only [hf1, hf2] at h1 h2
            exact ih _ _ _ _ _ _ h1 h2 h
        · cases hf1 : mapFind funcs1 name <;> cases hf2 : mapFind funcs2 name <;>
            simp only [hf1, hf2] at h1 h2 <;>
            refine ih _ _ _ _ _ _ h1 h2 ?_ <;>
            simp only [mapFind_mapAdd_ne _ _ _ _ hn, h]

theorem pureOwn_undeclared (ar : AnalysisResult) (collectPrivate : Bool) (n : String)
    (l : List (String × List FuncId)) (hl : mapFind l n = none) :
    ∀ (funcs : FuncMap) (marks : List FuncId) (r : FuncMap × List FuncId),
      pureOwn ar collectPrivate l funcs marks = some r → mapFind r.1 n = mapFind funcs n := by
  induction l with
  | nil =>
    intro funcs marks r h
    simp only [pureOwn, Option.some.injEq] at h
    subst h; rfl
  | cons e rest ih =>
    obtain ⟨name, vec⟩ := e
    intro funcs marks r h
    simp only [mapFind] at hl
    have hn : name ≠ n := by
      intro hn; simp [hn] at hl
    simp only [hn, if_false] at hl
    simp only [pureOwn] at h
    cases hlast : vec.getLast? with
    | none => simp [hlast] at h
    | some last =>
      simp only [hlast] at h
      cases hskip : (!collectPrivate && (ar.functionScopes last).isPrivate) with
      | true =>
        simp only [hskip, if_true] at h
        exact ih hl _ _ _ h
      | false =>
        simp only [hskip, Bool.false_eq_true, if_false] at h
        cases hf : mapFind funcs name with
        | none =>
          simp only [hf] at h
          rw [ih hl _ _ _ h, mapFind_mapAdd_ne _ _ _ _ hn]
        | some g =>
          simp only [hf] at h
          exact ih hl _ _ _ h

theorem pureOwn_keeps (ar : AnalysisResult) (collectPrivate : Bool)
    (l : List (String × List FuncId)) :
    ∀ (funcs : FuncMap) (marks : List FuncId) (r : FuncMap × List FuncId),
      pureOwn ar collectPrivate l funcs marks = some r → MapLe funcs r.1 := by
  induction l with
  | nil =>
    intro funcs marks r h
    simp only [pureOwn, Option.some.injEq] at h
    subst h; exact MapLe.mrefl _
  | cons e rest ih =>
    obtain ⟨name, vec⟩ := e
    intro funcs marks r h
    simp only [pureOwn] at h
    cases hlast : vec.getLast? with
    | none => simp [hlast] at h
    | some last =>
      simp only [hlast] at h
      cases hskip : (!collectPrivate && (ar.functionScopes last).isPrivate) with
      | true =>
        simp only [hskip, if_true] at h
        exact ih _ _ _ h
      | false =>
        simp only [hskip, Bool.false_eq_true, if_false] at h
        cases hf : mapFind funcs name with
        | none =>
          simp only [hf] at h
          exact MapLe.mtrans (MapLe_mapAdd _ _ _) (ih _ _ _ h)
        | some g =>
          simp only [hf] at h
          exact ih _ _ _ h

theorem pureCandidates_agree (n : String)
    (rec1 rec2 : ClassId → FuncMap → Option (FuncMap × List FuncId))
    (hrec : RecAgree n rec1 rec2) (pristine1 pristine2 : FuncMap)
    (hp : mapFind pristine1 n = mapFind pristine2 n) (l : List ClassId) :
    ∀ (funcs1 funcs2 : FuncMap) (marks1 marks2 : List FuncId) (r1 r2 : FuncMap × List FuncId),
      pureCandidates rec1 pristine1 l funcs1 marks1 = some r1 →
      pureCandidates rec2 pristine2 l funcs2 marks2 = some r2 →
      mapFind funcs1 n = mapFind funcs2 n → mapFind r1.1 n = mapFind r2.1 n := by
  induction l with
  | nil =>
    intro funcs1 funcs2 marks1 marks2 r1 r2 h1 h2 h
    simp only [pureCandidates, Option.some.injEq] at h1 h2
    subst h1; subst h2; exact h
  | cons cls rest ih =>
    intro funcs1 funcs2 marks1 marks2 r1 r2 h1 h2 h
    simp only [pureCandidates] at h1 h2
    cases hc1 : rec1 cls pristine1 with
    | none => simp [hc1] at h1
    | some q1 =>
      cases hc2 : rec2 cls pristine2 with
      | none => simp [hc2] at h2
      | some q2 =>
        obtain ⟨cur1, m1⟩ := q1
        obtain ⟨cur2, m2⟩ := q2
        simp only [hc1, hc2] at h1 h2
        refine ih _ _ _ _ _ _ h1 h2 ?_
        have := hrec cls pristine1 pristine2 _ _ hc1 hc2 hp
        simp only at this
        rw [mapFind_mapInsertAll, mapFind_mapInsertAll, h, this]

theorem pureCandidates_keeps (rec : ClassId → FuncMap → Option (FuncMap × List FuncId))
    (pristine : FuncMap) (l : List ClassId) :
    ∀ (funcs : FuncMap) (marks : List FuncId) (r : FuncMap × List FuncId),
      pureCandidates rec pristine l funcs marks = some r → MapLe funcs r.1 := by
  induction l with
  | nil =>
    intro funcs marks r h
    simp only [pureCandidates, Option.some.injEq] at h
    subst h; exact MapLe.mrefl _
  | cons cls rest ih =>
    intro funcs marks r h
    simp only [pureCandidates] at h
    cases hc : rec cls pristine with
    | none => simp [hc] at h
    | some q =>
      obtain ⟨cur, m⟩ := q
      simp only [hc] at h
      exact MapLe.mtrans (MapLe_mapInsertAll _ _) (ih _ _ _ h)

theorem pureVisit_agree (n : String)
    (rec1 rec2 : ClassId → FuncMap → Option (FuncMap × List FuncId))
    (hrec : RecAgree n rec1 rec2) (ar : AnalysisResult) (self : ClassId) (forInvoke : Bool)
    (base : String) (funcs1 funcs2 : FuncMap) (marks1 marks2 : List FuncId)
    (r1 r2 : FuncMap × List FuncId)
    (h1 : pureVisit rec1 ar self forInvoke base funcs1 marks1 = some r1)
    (h2 : pureVisit rec2 ar self forInvoke base funcs2 marks2 = some r2)
    (h : mapFind funcs1 n = mapFind funcs2 n) : mapFind r1.1 n = mapFind r2.1 n := by
  unfold pureVisit at h1 h2
  split at h1
  · rename_i hskip
    rw [if_pos hskip] at h2
    simp only [Option.some.injEq] at h1 h2
    subst h1; subst h2; exact h
  · rename_i hskip
    rw [if_neg hskip] at h2
    cases hfind : findClass ar base with
    | none =>
      simp only [hfind, Option.some.injEq] at h1 h2
      subst h1; subst h2; exact h
    | some super =>
      simp only [hfind] at h1 h2
      split at h1
      · rename_i hredec
        rw [if_pos hredec] at h2
        split at h1
        · rename_i hparent
          rw [if_pos hparent] at h2
          split at h1
          · rename_i hinv
            rw [if_pos hinv] at h2
            simp only [Option.some.injEq] at h1 h2
            subst h1; subst h2; exact h
          · rename_i hinv
            rw [if_neg hinv] at h2
            exact pureCandidates_agree n rec1 rec2 hrec funcs1 funcs2 h _ _ _ _ _ _ _ h1 h2 h
        · rename_i hparent
          rw [if_neg hparent] at h2
          simp only [Option.some.injEq] at h1 h2
          subst h1; subst h2; exact h
      · rename_i hredec
        rw [if_neg hredec] at h2
        cases hc1 : rec1 super funcs1 with
        | none => simp [hc1] at h1
        | some q1 =>
          cases hc2 : rec2 super funcs2 with
          | none => simp [hc2] at h2
          | some q2 =>
            obtain ⟨t1, m1⟩ := q1
            obtain ⟨t2, m2⟩ := q2
            simp only [hc1, hc2, Option.some.injEq] at h1 h2
            subst h1; subst h2
            exact hrec super funcs1 funcs2 (t1, m1) (t2, m2) hc1 hc2 h

theorem pureVisit_keeps (rec : ClassId → FuncMap → Option (FuncMap × List FuncId))
    (hrec : RecKeeps rec) (ar : AnalysisResult) (self : ClassId) (forInvoke : Bool)
    (base : String) (funcs : FuncMap) (marks : List FuncId) (r : FuncMap × List FuncId)
    (h : pureVisit rec ar self forInvoke base funcs marks = some r) : MapLe funcs r.1 := by
  unfold pureVisit at h
  split at h
  · simp only [Option.some.injEq] at h
    subst h; exact MapLe.mrefl _
  · cases hfind : findClass ar base with
    | none =>
      simp only [hfind, Option.some.injEq] at h
      subst h; exact MapLe.mrefl _
    | some super =>
      simp only [hfind] at h
      split at h
      · split at h
        · split at h
          · simp only [Option.some.injEq] at h
            subst h; exact MapLe.mrefl _
          · exact pureCandidates_keeps rec _ _ _ _ _ h
        · simp only [Option.some.injEq] at h
          subst h; exact MapLe.mrefl _
      · cases hc : rec super funcs with
        | none => simp [hc] at h
        | some q =>
          obtain ⟨t, m⟩ := q
          simp only [hc, Option.some.injEq] at h
          subst h
          exact hrec super funcs (t, m) hc

theorem pureWalk_agree (n : String)
    (rec1 rec2 : ClassId → FuncMap → Option (FuncMap × List FuncId))
    (hrec : RecAgree n rec1 rec2) (ar : AnalysisResult) (self : ClassId) (forInvoke : Bool)
    (l : List String) :
    ∀ (funcs1 funcs2 : FuncMap) (marks1 marks2 : List FuncId) (r1 r2 : FuncMap × List FuncId),
      pureWalk rec1 ar self forInvoke l funcs1 marks1 = some r1 →
      pureWalk rec2 ar self forInvoke l funcs2 marks2 = some r2 →
      mapFind funcs1 n = mapFind funcs2 n → mapFind r1.1 n = mapFind r2.1 n := by
  induction l with
  | nil =>
    intro funcs1 funcs2 marks1 marks2 r1 r2 h1 h2 h
    simp only [pureWalk, Option.some.injEq] at h1 h2
    subst h1; subst h2; exact h
  | cons base rest ih =>
    intro funcs1 funcs2 marks1 marks2 r1 r2 h1 h2 h
    simp only [pureWalk] at h1 h2
    cases hv1 : pureVisit rec1 ar self forInvoke base funcs1 marks1 with
    | none => simp [hv1] at h1
    | some q1 =>
      cases hv2 : pureVisit rec2 ar self forInvoke base funcs2 marks2 with
      | none => simp [hv2] at h2
      | some q2 =>
        obtain ⟨t1, m1⟩ := q1
        obtain ⟨t2, m2⟩ := q2
        simp only [hv1, hv2] at h1 h2
        exact ih _ _ _ _ _ _ h1 h2
          (pureVisit_agree n rec1 rec2 hrec ar self forInvoke base _ _ _ _ _ _ hv1 hv2 h)

theorem pureWalk_keeps (rec : ClassId → FuncMap → Option (FuncMap × List FuncId))
    (hrec : RecKeeps rec) (ar : AnalysisResult) (self : ClassId) (forInvoke : Bool)
    (l : List String) :
    ∀ (funcs : FuncMap) (marks : List FuncId) (r : FuncMap × List FuncId),
      pureWalk rec ar self forInvoke l funcs marks = some r → MapLe funcs r.1 := by
  induction l with
  | nil =>
    intro funcs marks r h
    simp only [pureWalk, Option.some.injEq] at h
    subst h; exact MapLe.mrefl _
  | cons base rest ih =>
    intro funcs marks r h
    simp only [pureWalk] at h
    cases hv : pureVisit rec ar self forInvoke base funcs marks with
    | none => simp [hv] at h
    | some q =>
      obtain ⟨t, m⟩ := q
      simp only [hv] at h
      exact MapLe.mtrans (pureVisit_keeps rec hrec ar self forInvoke base _ _ _ hv) (ih _ _ _ h)

theorem pureWalk_append (rec : ClassId → FuncMap → Option (FuncMap × List FuncId))
    (ar : AnalysisResult) (self : ClassId) (forInvoke : Bool) (l1 l2 : List String) :
    ∀ (funcs : FuncMap) (marks : List FuncId),
      pureWalk rec ar self forInvoke (l1 ++ l2) funcs marks =
        match pureWalk rec ar self forInvoke l1 funcs marks with
        | none => none
        | some (funcs1, marks1) => pureWalk rec ar self forInvoke l2 funcs1 marks1 := by
  induction l1 with
  | nil => intro funcs marks; rfl
  | cons base rest ih =>
    intro funcs marks
    simp only [List.cons_append, pureWalk]
    cases hv : pureVisit rec ar self forInvoke base funcs marks with
    | none => rfl
    | some q =>
      obtain ⟨t, m⟩ := q
      exact ih t m

theorem pureCollect_agree (ar : AnalysisResult) (n : String) (forInvoke : Bool) (fuel1 : Nat) :
    ∀ (fuel2 : Nat) (collectPrivate : Bool) (c : ClassId) (funcs1 funcs2 : FuncMap)
      (r1 r2 : FuncMap × List FuncId),
      pureCollect fuel1 ar c funcs1 collectPrivate forInvoke = some r1 →
      pureCollect fuel2 ar c funcs2 collectPrivate forInvoke = some r2 →
      mapFind funcs1 n = mapFind funcs2 n → mapFind r1.1 n = mapFind r2.1 n := by
  induction fuel1 with
  | zero =>
    intro fuel2 collectPrivate c funcs1 funcs2 r1 r2 h1
    simp [pureCollect] at h1
  | succ fuel1 ih =>
    intro fuel2 collectPrivate c funcs1 funcs2 r1 r2 h1 h2 h
    cases fuel2 with
    | zero => simp [pureCollect] at h2
    | succ fuel2 =>
      simp only [pureCollect] at h1 h2
      cases ho1 : pureOwn ar collectPrivate (ar.classScopes c).functions funcs1 [] with
      | none => simp [ho1] at h1
      | some q1 =>
        cases ho2 : pureOwn ar collectPrivate (ar.classScopes c).functions funcs2 [] with
        | none => simp [ho2] at h2
        | some q2 =>
          obtain ⟨t1, m1⟩ := q1
          obtain ⟨t2, m2⟩ := q2
          simp only [ho1, ho2] at h1 h2
          refine pureWalk_agree n _ _ ?_ ar c forInvoke _ _ _ _ _ _ _ h1 h2
            (pureOwn_agree ar collectPrivate n _ _ _ _ _ _ _ ho1 ho2 h)
          intro d s1 s2 q1 q2 hq1 hq2 hs
          exact ih fuel2 false d s1 s2 q1 q2 hq1 hq2 hs

theorem pureCollect_keeps (ar : AnalysisResult) (forInvoke : Bool) (fuel : Nat) :
    ∀ (collectPrivate : Bool) (c : ClassId) (funcs : FuncMap) (r : FuncMap × List FuncId),
      pureCollect fuel ar c funcs collectPrivate forInvoke = some r → MapLe funcs r.1 := by
  induction fuel with
  | zero =>
    intro collectPrivate c funcs r h
    simp [pureCollect] at h
  | succ fuel ih =>
    intro collectPrivate c funcs r h
    simp only [pureCollect] at h
    cases ho : pureOwn ar collectPrivate (ar.classScopes c).functions funcs [] with
    | none => simp [ho] at h
    | some q =>
      obtain ⟨t, m⟩ := q
      simp only [ho] at h
      refine MapLe.mtrans (pureOwn_keeps ar collectPrivate _ _ _ _ ho) ?_
      exact pureWalk_keeps _ (fun d s q hq => ih false d s q hq) ar c forInvoke _ _ _ _ h

theorem seenAfter_mem (p seen : List String) (b : String) (h : b ∈ seenAfter p seen) :
    b ∈ p ∨ b ∈ seen := by
  induction p generalizing seen with
  | nil => exact Or.inr h
  | cons a p ih =>
    simp only [seenAfter] at h
    by_cases ha : a ∈ seen
    · simp only [ha, if_true] at h
      rcases ih seen h with h1 | h1
      · exact Or.inl (List.mem_cons_of_mem _ h1)
      · exact Or.inr h1
    · simp only [ha, if_false] at h
      rcases ih _ h with h1 | h1
      · exact Or.inl (List.mem_cons_of_mem _ h1)
      · rcases List.mem_cons.mp h1 with h2 | h2
        · exact Or.inl (h2 ▸ List.mem_cons_self _ _)
        · exact Or.inr h2

theorem pureWalk_none_at (n : String)
    (rec : ClassId → FuncMap → Option (FuncMap × List FuncId))
    (ar : AnalysisResult) (self : ClassId) (forInvoke : Bool) (l : List String)
    (hl : ∀ b, b ∈ l → ∀ (funcs : FuncMap) (marks : List FuncId) (r : FuncMap × List FuncId),
      mapFind funcs n = none → pureVisit rec ar self forInvoke b funcs marks = some r →
      mapFind r.1 n = none) :
    ∀ (funcs : FuncMap) (marks : List FuncId) (r : FuncMap × List FuncId),
      mapFind funcs n = none → pureWalk rec ar self forInvoke l funcs marks = some r →
      mapFind r.1 n = none := by
  induction l with
  | nil =>
    intro funcs marks r h0 h
    simp only [pureWalk, Option.some.injEq] at h
    subst h; exact h0
  | cons base rest ih =>
    intro funcs marks r h0 h
    simp only [pureWalk] at h
    cases hv : pureVisit rec ar self forInvoke base funcs marks with
    | none => simp [hv] at h
    | some q =>
      obtain ⟨t, m⟩ := q
      simp only [hv] at h
      exact ih (fun b hb => hl b (List.mem_cons_of_mem _ hb)) _ _ _
        (hl base (List.mem_cons_self _ _) _ _ _ h0 hv) h

theorem findClass_of_findClasses {ar : AnalysisResult} {base : String} {d : ClassId}
    (h : findClasses ar base = [d]) : findClass ar base = some d := by
  simp [findClass, h]

/-- The visit of a base that resolves to the unique, non-redeclared class `d`
is the reference recursive call on `d`. -/
theorem pureVisit_unique (rec : ClassId → FuncMap → Option (FuncMap × List FuncId))
    (ar : AnalysisResult) (self : ClassId) (base : String) (d : ClassId)
    (hfind : findClasses ar base = [d]) (hredec : (ar.classScopes d).isRedeclaring = false)
    (funcs : FuncMap) (marks : List FuncId) (r : FuncMap × List FuncId)
    (h : pureVisit rec ar self false base funcs marks = some r) :
    ∃ marks1, rec d funcs = some (r.1, marks1) := by
  simp only [pureVisit, Bool.false_and, Bool.false_eq_true, if_false,
    findClass_of_findClasses hfind, hredec] at h
  cases hc : rec d funcs with
  | none => simp [hc] at h
  | some q =>
    obtain ⟨t, m⟩ := q
    simp only [hc, Option.some.injEq] at h
    subst h
    exact ⟨m, rfl⟩

theorem mixedBaseGraph_ranked : Ranked mixedBaseGraph baseRank := by
  intro c base hc hb hne d hd
  match c with
  | 0 =>
    simp [mixedBaseGraph, mkAnalysisResult] at hb
    rcases hb with rfl | rfl | rfl <;>
      simp [findClasses, mixedBaseGraph, mkAnalysisResult, toLower] at hd <;>
      subst hd <;> decide
  | n + 1 =>
    match n with
    | 0 => simp [mixedBaseGraph, mkAnalysisResult] at hb
    | 1 => simp [mixedBaseGraph, mkAnalysisResult] at hb
    | 2 => simp [mixedBaseGraph, mkAnalysisResult] at hb
    | m + 3 => simp [mixedBaseGraph, mkAnalysisResult] at hb

theorem mixedBaseGraph_functionsNonempty : FunctionsNonempty mixedBaseGraph := by
  intro c name vec hm
  match c with
  | 0 => simp [mixedBaseGraph, mkAnalysisResult] at hm
  | 1 =>
    simp [mixedBaseGraph, mkAnalysisResult] at hm
    simp [hm.2]
  | 2 =>
    simp [mixedBaseGraph, mkAnalysisResult] at hm
    simp [hm.2]
  | 3 =>
    simp [mixedBaseGraph, mkAnalysisResult] at hm
    simp [hm.2]
  | n + 4 => simp [mixedBaseGraph, mkAnalysisResult] at hm

/-! ## Claim C3: the order of the walk over the bases -/

/-- Counterexample to C3 as stated: in `threeBaseGraph` the bases `p`, `i1`
and `i2` of class 0 resolve to unique classes that are not redeclared, class 0
does not declare `m`, and the bases at the indices 0 and 1 both contribute a
non-private `m` (the functions 0 and 1); yet the table of class 0 maps `m` to
function 2, the method of the base at index 2, not to the method contributed
through the base at index 1. -/
theorem three_bases_middle_loses :
    (threeBaseGraph.classScopes 0).bases = ["p", "i1", "i2"] ∧
    findClasses threeBaseGraph "p" = [1] ∧ findClasses threeBaseGraph "i1" = [2] ∧
    findClasses threeBaseGraph "i2" = [3] ∧
    (threeBaseGraph.classScopes 1).isRedeclaring = false ∧
    (threeBaseGraph.classScopes 2).isRedeclaring = false ∧
    (threeBaseGraph.classScopes 3).isRedeclaring = false ∧
    mapFind (threeBaseGraph.classScopes 0).functions "m" = none ∧
    (collectMethods 1 threeBaseGraph 1 [] false false).map (fun r => mapFind r.2 "m") =
      some (some 0) ∧
    (collectMethods 1 threeBaseGraph 2 [] false false).map (fun r => mapFind r.2 "m") =
      some (some 1) ∧
    (threeBaseGraph.functionScopes 0).isPrivate = false ∧
    (threeBaseGraph.functionScopes 1).isPrivate = false ∧
    (collectMethods 2 threeBaseGraph 0 [] false false).map (fun r => mapFind r.2 "m") =
      some (some 2) ∧
    (collectMethods 2 threeBaseGraph 0 [] true false).map (fun r => mapFind r.2 "m") =
      some (some 2) := by
  decide

/-- C3, amended: on an acyclic class graph let class `c` not declare `n`, let
the base at index `j` of `c`, not the name of `c` itself, resolve to the
unique class `super`, not redeclared, whose own table (collected from the
empty table with `collectPrivate = false`, `forInvoke = false`) maps `n` to
`f`, and let every base listed after index `j` resolve to a unique class, not
redeclared, whose own table does not hold `n`.  Then `collectMethods` on `c`
with `forInvoke = false` returns and its table maps `n` to `f`: the last base
of the list that contributes `n` decides, whatever the bases listed before
it, the parent included, contribute. -/
theorem collectMethods_last_base_wins (ar : AnalysisResult) (rank : ClassId → Nat)
    (c : ClassId) (collectPrivate : Bool) (n : String) (j : Nat) (base : String)
    (super : ClassId) (fuel : Nat) (arj : AnalysisResult) (funcsj : FuncMap) (f : FuncId)
    (hR : Ranked ar rank) (hN : FunctionsNonempty ar) (hc : 0 < rank c)
    (hown : mapFind (ar.classScopes c).functions n = none)
    (hj : (ar.classScopes c).bases[j]? = some base)
    (hne : base ≠ (ar.classScopes c).name)
    (hfind : findClasses ar base = [super])
    (hredec : (ar.classScopes super).isRedeclaring = false)
    (hrun : collectMethods fuel ar super [] false false = some (arj, funcsj))
    (hf : mapFind funcsj n = some f)
    (hbases : ∀ k b, j < k → (ar.classScopes c).bases[k]? = some b →
      ∃ d, findClasses ar b = [d] ∧ (ar.classScopes d).isRedeclaring = false)
    (hlater : ∀ k b d fuel1 ark funcsk, j < k → (ar.classScopes c).bases[k]? = some b →
      findClasses ar b = [d] →
      collectMethods fuel1 ar d [] false false = some (ark, funcsk) →
      mapFind funcsk n = none) :
    ∃ ar1 funcs1, collectMethods (rank c) ar c [] collectPrivate false = some (ar1, funcs1) ∧
      mapFind funcs1 n = some f := by
  obtain ⟨⟨ar1, funcs1⟩, hrun1⟩ := collectMethods_total rank (rank c) collectPrivate false
    ar c [] hR hN hc (Nat.le_refl _)
  refine ⟨ar1, funcs1, hrun1, ?_⟩
  obtain ⟨marks, hp, -, -⟩ := collectMethods_refines rank (rank c) collectPrivate false
    ar ar c [] ar1 funcs1 hR (KeptRel.reflKept _ _ _ _) hc hrun1
  have hmem : base ∈ (ar.classScopes c).bases := mem_of_getElem?_eq_some hj
  have hsup := hR c base hc hmem hne super (by rw [hfind]; exact List.mem_singleton.mpr rfl)
  obtain ⟨marksj, hpj, -, -⟩ := collectMethods_refines rank fuel false false
    ar ar super [] arj funcsj hR (KeptRel.reflKept _ _ _ _) hsup.1 hrun
  obtain ⟨fuel0, hfuel0⟩ : ∃ m, rank c = m + 1 := ⟨rank c - 1, by omega⟩
  rw [hfuel0] at hp
  simp only [pureCollect] at hp
  cases ho : pureOwn ar collectPrivate (ar.classScopes c).functions [] [] with
  | none => simp [ho] at hp
  | some q0 =>
    obtain ⟨t0, m0⟩ := q0
    simp only [ho] at hp
    have h0 : mapFind t0 n = none := by
      rw [pureOwn_undeclared ar collectPrivate n _ hown _ _ _ ho]; rfl
    -- the bases after `j`, the base at `j`, the bases before `j`
    have hsplit : (ar.classScopes c).bases =
        (ar.classScopes c).bases.take j ++ base :: (ar.classScopes c).bases.drop (j + 1) := by
      rw [← drop_eq_cons_of_getElem? hj, List.take_append_drop]
    have hpost : ∀ b, b ∈ (ar.classScopes c).bases.drop (j + 1) →
        ∃ k, j < k ∧ (ar.classScopes c).bases[k]? = some b := by
      intro b hb
      obtain ⟨k, hk⟩ := List.getElem?_of_mem hb
      rw [List.getElem?_drop] at hk
      exact ⟨j + 1 + k, by omega, hk⟩
    have hnotpost : base ∉ (ar.classScopes c).bases.drop (j + 1) := by
      intro hb
      obtain ⟨k, hk, hbk⟩ := hpost base hb
      have := hlater k base super fuel arj funcsj hk hbk hfind hrun
      rw [hf] at this
      exact Option.noConfusion this
    have herase : erasable ar c false base = false := by
      simp [erasable, findClass_of_findClasses hfind]
    have hkept : keptBases ar c false =
        keptRev (erasable ar c false) ((ar.classScopes c).bases.drop (j + 1)).reverse
          [(ar.classScopes c).name] ++
        base :: keptRev (erasable ar c false) ((ar.classScopes c).bases.take j).reverse
          (base :: seenAfter ((ar.classScopes c).bases.drop (j + 1)).reverse
            [(ar.classScopes c).name]) := by
      have hrev : (ar.classScopes c).bases.reverse =
          ((ar.classScopes c).bases.drop (j + 1)).reverse ++
            base :: ((ar.classScopes c).bases.take j).reverse := by
        conv_lhs => rw [hsplit]
        simp
      unfold keptBases
      rw [hrev, keptRev_append]
      have hns : base ∉ seenAfter ((ar.classScopes c).bases.drop (j + 1)).reverse
          [(ar.classScopes c).name] := by
        intro hb
        rcases seenAfter_mem _ _ _ hb with h1 | h1
        · exact hnotpost (List.mem_reverse.mp h1)
        · exact hne (List.mem_singleton.mp h1)
      simp only [keptRev, hns, if_false, herase, Bool.false_eq_true]
    rw [hkept, pureWalk_append] at hp
    cases hw1 : pureWalk (fun c t => pureCollect fuel0 ar c t false false) ar c false
        (keptRev (erasable ar c false) ((ar.classScopes c).bases.drop (j + 1)).reverse
          [(ar.classScopes c).name]) t0
        (pureMissing t0 (ar.classScopes c).missingMethods m0) with
    | none => simp [hw1] at hp
    | some qa =>
      obtain ⟨ta, ma⟩ := qa
      simp only [hw1, pureWalk] at hp
      have ha : mapFind ta n = none := by
        refine pureWalk_none_at n _ ar c false _ ?_ _ _ _ h0 hw1
        intro b hb funcs marks0 r hfn hv
        obtain ⟨hbs, -, hbp⟩ := keptRev_not_mem _ _ _ _ hb
        obtain ⟨k, hk, hbk⟩ := hpost b (List.mem_reverse.mp hbp)
        obtain ⟨d, hd, hdr⟩ := hbases k b hk hbk
        have hbn : b ≠ (ar.classScopes c).name := fun e => hbs (List.mem_singleton.mpr e)
        have hrd := hR c b hc (mem_of_getElem?_eq_some hbk) hbn d
          (by rw [hd]; exact List.mem_singleton.mpr rfl)
        obtain ⟨⟨ark, tk⟩, hrunk⟩ := collectMethods_total rank (rank d) false false
          ar d [] hR hN hrd.1 (Nat.le_refl _)
        have hnk := hlater k b d (rank d) ark tk hk hbk hd hrunk
        obtain ⟨mk, hpk, -, -⟩ := collectMethods_refines rank (rank d) false false
          ar ar d [] ark tk hR (KeptRel.reflKept _ _ _ _) hrd.1 hrunk
        obtain ⟨mv, hrv⟩ := pureVisit_unique _ ar c b d hd hdr funcs marks0 r hv
        have := pureCollect_agree ar n false fuel0 (rank d) false d funcs [] _ _ hrv hpk
          (by rw [hfn]; rfl)
        simp only at this
        rw [this, hnk]
      cases hvj : pureVisit (fun c t => pureCollect fuel0 ar c t false false) ar c false
          base ta ma with
      | none => simp [hvj] at hp
      | some qb =>
        obtain ⟨tb, mb⟩ := qb
        simp only [hvj] at hp
        obtain ⟨mv, hrv⟩ := pureVisit_unique _ ar c base super hfind hredec ta ma _ hvj
        have hb : mapFind tb n = some f := by
          have := pureCollect_agree ar n false fuel0 fuel false super ta [] _ _ hrv hpj
            (by rw [ha]; rfl)
          simp only at this
          rw [this, hf]
        have hle := pureWalk_keeps _
          (fun d s q hq => pureCollect_keeps ar false fuel0 false d s q hq) ar c false _ _ _ _ hp
        exact hle n f hb


/-- Witness of C3, amended, on `mixedBaseGraph`: the interface `i1` at index 1
is the last base that contributes `m`, and its method wins over that of the
parent `p`. -/
theorem collectMethods_last_base_wins_witness :
    (∃ ar1 funcs1, collectMethods (baseRank 0) mixedBaseGraph 0 [] true false =
        some (ar1, funcs1) ∧ mapFind funcs1 "m" = some 1) ∧
    (collectMethods 1 mixedBaseGraph 1 [] false false).map (fun r => mapFind r.2 "m") =
      some (some 0) := by
  refine ⟨?_, by decide⟩
  have hj : (collectMethods 1 mixedBaseGraph 2 [] false false).map
      (fun r => mapFind r.2 "m") = some (some 1) := by decide
  have hk : (collectMethods 1 mixedBaseGraph 3 [] false false).map
      (fun r => mapFind r.2 "m") = some none := by decide
  cases h2 : collectMethods 1 mixedBaseGraph 2 [] false false with
  | none => simp [h2] at hj
  | some r2 =>
    obtain ⟨arj, funcsj⟩ := r2
    simp only [h2, Option.map_some', Option.some.injEq] at hj
    cases h3 : collectMethods 1 mixedBaseGraph 3 [] false false with
    | none => simp [h3] at hk
    | some r3 =>
      simp only [h3, Option.map_some', Option.some.injEq] at hk
      have hlen : (mixedBaseGraph.classScopes 0).bases = ["p", "i1", "i2"] := rfl
      have hlast : ∀ k b, 1 < k → (mixedBaseGraph.classScopes 0).bases[k]? = some b →
          k = 2 ∧ b = "i2" := by
        intro k b hk1 hb
        rw [hlen] at hb
        match k, hk1, hb with
        | 2, _, hb => exact ⟨rfl, by simpa using hb.symm⟩
        | k + 3, _, hb => simp at hb
      exact collectMethods_last_base_wins mixedBaseGraph baseRank 0 true "m" 1 "i1" 2 1
        arj funcsj 1 mixedBaseGraph_ranked mixedBaseGraph_functionsNonempty (by decide)
        (by decide) (by decide) (by decide) (by decide) (by decide) h2 hj
        (fun k b hk1 hb => by
          obtain ⟨-, rfl⟩ := hlast k b hk1 hb
          exact ⟨3, by decide, by decide⟩)
        (fun k b d fuel1 ark funcsk hk1 hb hd hrun => by
          obtain ⟨-, rfl⟩ := hlast k b hk1 hb
          have hd3 : findClasses mixedBaseGraph "i2" = [3] := by decide
          rw [hd3] at hd
          have hd4 : d = 3 := by simpa using hd.symm
          subst hd4
          have := collectMethods_unique _ _ _ _ _ _ _ hrun h3
          rw [← this] at hk
          exact hk)

/-! ## Two runs from states that differ in one base list -/

theorem SameButBases.srfl (c : ClassScope) : SameButBases c c := rfl

theorem SameButBases.unfolded {c c1 : ClassScope} (h : SameButBases c c1) :
    ({ c1 with bases := [] } : ClassScope) = { c with bases := [] } := h

theorem SameButBases.parentSame {c c1 : ClassScope} (h : SameButBases c c1) :
    c1.parent = c.parent := by
  have h1 := congrArg ClassScope.parent h.unfolded
  exact h1

theorem SameButBases.nameSame {c c1 : ClassScope} (h : SameButBases c c1) : c1.name = c.name := by
  have h1 := congrArg ClassScope.name h.unfolded
  exact h1

theorem SameButBases.isInterfaceSame {c c1 : ClassScope} (h : SameButBases c c1) :
    c1.isInterface = c.isInterface := by
  have : c1.kindOf = c.kindOf := by
    have h1 := congrArg ClassScope.kindOf h.unfolded
    exact h1
  simp [ClassScope.isInterface, this]

theorem SameButBases.functionsSame {c c1 : ClassScope} (h : SameButBases c c1) :
    c1.functions = c.functions := by
  have h1 := congrArg ClassScope.functions h.unfolded
  exact h1

theorem SameButBases.missingSame {c c1 : ClassScope} (h : SameButBases c c1) :
    c1.missingMethods = c.missingMethods := by
  have h1 := congrArg ClassScope.missingMethods h.unfolded
  exact h1

theorem SameButBases.derives {c c1 : ClassScope} (h : SameButBases c c1) :
    c1.derivesFromRedeclaring = c.derivesFromRedeclaring := by
  have h1 := congrArg ClassScope.derivesFromRedeclaring h.unfolded
  exact h1

theorem SameButBases.volatile {c c1 : ClassScope} (h : SameButBases c c1) :
    c1.volatile = c.volatile := by
  have h1 := congrArg ClassScope.volatile h.unfolded
  exact h1

theorem SameButBases.eq_of_bases {c c1 : ClassScope} (h : SameButBases c c1)
    (hb : c1.bases = c.bases) : c1 = c := by
  cases c; cases c1
  simp only [SameButBases, ClassScope.mk.injEq] at h
  simp only [ClassScope.mk.injEq]
  simp only at hb
  simp [h, hb]

theorem SameButBases.withBases {c c1 : ClassScope} (h : SameButBases c c1)
    (l l1 : List String) : SameButBases { c with bases := l } { c1 with bases := l1 } := h

theorem SameButBases.withDerives {c c1 : ClassScope} (h : SameButBases c c1)
    (d : Derivation) :
    SameButBases { c with derivesFromRedeclaring := d } { c1 with derivesFromRedeclaring := d } := by
  have h1 := congrArg (fun z : ClassScope => { z with derivesFromRedeclaring := d }) h.unfolded
  exact h1

theorem SameButBases.withVolatile {c c1 : ClassScope} (h : SameButBases c c1) :
    SameButBases { c with volatile := true } { c1 with volatile := true } := by
  have h1 := congrArg (fun z : ClassScope => { z with volatile := true }) h.unfolded
  exact h1

theorem SameButBases.withForced {c c1 : ClassScope} (h : SameButBases c c1) :
    SameButBases { c with variableTable := { c.variableTable with forcedVariants := true } }
      { c1 with variableTable := { c1.variableTable with forcedVariants := true } } := by
  have h1 := congrArg (fun z : ClassScope =>
    { z with variableTable := { z.variableTable with forcedVariants := true } }) h.unfolded
  exact h1

theorem SameButBases.withNeedGlobal {c c1 : ClassScope} (h : SameButBases c c1) :
    SameButBases { c with variableTable := { c.variableTable with needGlobalPointer := true } }
      { c1 with variableTable := { c1.variableTable with needGlobalPointer := true } } := by
  have h1 := congrArg (fun z : ClassScope =>
    { z with variableTable := { z.variableTable with needGlobalPointer := true } }) h.unfolded
  exact h1

theorem updClass_self (s : AnalysisResult) (c : ClassId) (f : ClassScope → ClassScope) :
    (s.updClass c f).classScopes c = f (s.classScopes c) := by
  simp [AnalysisResult.updClass]

theorem setDerives_agree {s s1 : AnalysisResult} {self : ClassId}
    (h : SameButBases (s.classScopes self) (s1.classScopes self)) (d : Derivation) :
    SameButBases ((setDerives s self d).classScopes self)
      ((setDerives s1 self d).classScopes self) := by
  unfold setDerives
  rw [updClass_self, updClass_self]
  exact h.withDerives d

theorem forceVariants_agree {s s1 : AnalysisResult} {self : ClassId}
    (h : SameButBases (s.classScopes self) (s1.classScopes self)) :
    SameButBases ((forceVariants s self).classScopes self)
      ((forceVariants s1 self).classScopes self) := by
  unfold forceVariants
  rw [updClass_self, updClass_self]
  exact h.withForced

theorem setNeedGlobalPointer_agree {s s1 : AnalysisResult} {self : ClassId}
    (h : SameButBases (s.classScopes self) (s1.classScopes self)) :
    SameButBases ((setNeedGlobalPointer s self).classScopes self)
      ((setNeedGlobalPointer s1 self).classScopes self) := by
  unfold setNeedGlobalPointer
  rw [updClass_self, updClass_self]
  exact h.withNeedGlobal

theorem setVolatile_agree {s s1 : AnalysisResult} {self : ClassId}
    (h : SameButBases (s.classScopes self) (s1.classScopes self)) :
    SameButBases ((setVolatile s self).classScopes self)
      ((setVolatile s1 self).classScopes self) := by
  unfold setVolatile
  rw [updClass_self, updClass_self]
  exact h.withVolatile

theorem eraseBase_agree {s s1 : AnalysisResult} {self : ClassId}
    (h : SameButBases (s.classScopes self) (s1.classScopes self)) (i j : Nat) :
    SameButBases ((eraseBase s self i).classScopes self)
      ((eraseBase s1 self j).classScopes self) := by
  unfold eraseBase
  rw [updClass_self, updClass_self]
  exact h.withBases _ _

theorem record_agree {s s1 : AnalysisResult} {self : ClassId}
    (h : SameButBases (s.classScopes self) (s1.classScopes self)) (kind : ErrorType)
    (c : ClassId) (data : String) :
    SameButBases ((record s kind c data).classScopes self)
      ((record s1 kind c data).classScopes self) := h

theorem afterRedeclaredParent_agree {s s1 : AnalysisResult} {self : ClassId}
    (h : SameButBases (s.classScopes self) (s1.classScopes self)) :
    SameButBases ((afterRedeclaredParent s self).classScopes self)
      ((afterRedeclaredParent s1 self).classScopes self) :=
  setVolatile_agree (setNeedGlobalPointer_agree (forceVariants_agree (setDerives_agree h _)))

theorem afterRedeclaredBase_agree {s s1 : AnalysisResult} {self : ClassId}
    (h : SameButBases (s.classScopes self) (s1.classScopes self)) :
    SameButBases ((afterRedeclaredBase s self).classScopes self)
      ((afterRedeclaredBase s1 self).classScopes self) := by
  unfold afterRedeclaredBase
  rw [h.isInterfaceSame]
  split
  · exact setDerives_agree h _
  · exact h

theorem afterKnownBase_agree {s s1 : AnalysisResult} {self super : ClassId} (base : String)
    (h : SameButBases (s.classScopes self) (s1.classScopes self))
    (hsup : (s1.classScopes super).derivesFromRedeclaring =
      (s.classScopes super).derivesFromRedeclaring) :
    SameButBases ((afterKnownBase s self super base).classScopes self)
      ((afterKnownBase s1 self super base).classScopes self) := by
  unfold afterKnownBase
  rw [hsup, h.parentSame, h.isInterfaceSame]
  split
  · split
    · exact setVolatile_agree (forceVariants_agree (setDerives_agree h _))
    · split
      · exact setDerives_agree h _
      · exact h
  · exact h

theorem afterUnknownBase_agree {s s1 : AnalysisResult} {self : ClassId} (base : String)
    (i j : Nat) (h : SameButBases (s.classScopes self) (s1.classScopes self)) :
    SameButBases ((afterUnknownBase s self base i).classScopes self)
      ((afterUnknownBase s1 self base j).classScopes self) := by
  unfold afterUnknownBase
  simp only []
  have hp : ((record s1 ErrorType.UnknownBaseClass self base).classScopes self).parent =
      ((record s ErrorType.UnknownBaseClass self base).classScopes self).parent := h.parentSame
  have hi : ((record s1 ErrorType.UnknownBaseClass self base).classScopes self).isInterface =
      ((record s ErrorType.UnknownBaseClass self base).classScopes self).isInterface :=
    h.isInterfaceSame
  rw [hp, hi]
  have h0 := record_agree h ErrorType.UnknownBaseClass self base
  split
  · exact setVolatile_agree (forceVariants_agree (setNeedGlobalPointer_agree
      (setDerives_agree h0 _)))
  · split
    · exact eraseBase_agree (setDerives_agree h0 _) i j
    · exact eraseBase_agree h0 i j

theorem AgreeLow.arefl (rank : ClassId → Nat) (bound : Nat) (s : AnalysisResult) :
    AgreeLow rank bound s s := ⟨rfl, rfl, fun _ _ _ => rfl⟩

theorem AgreeLow.monoLow {rank : ClassId → Nat} {bound bound1 : Nat} {s s1 : AnalysisResult}
    (h : AgreeLow rank bound s s1) (hle : bound1 ≤ bound) : AgreeLow rank bound1 s s1 :=
  ⟨h.classDecs, h.functionScopes, fun y h0 hy => h.low y h0 (Nat.lt_of_lt_of_le hy hle)⟩

/-- Updates of the scope of `self` alone keep the agreement below its rank. -/
theorem AgreeLow.after {rank : ClassId → Nat} {self : ClassId} {s s1 t t1 : AnalysisResult}
    (h : AgreeLow rank (rank self) s s1)
    (ht : OnlySelf self s t) (ht1 : OnlySelf self s1 t1)
    (hd : t.classDecs = s.classDecs) (hd1 : t1.classDecs = s1.classDecs)
    (hf : t.functionScopes = s.functionScopes) (hf1 : t1.functionScopes = s1.functionScopes) :
    AgreeLow rank (rank self) t t1 where
  classDecs := by rw [hd1, hd, h.classDecs]
  functionScopes := by rw [hf1, hf, h.functionScopes]
  low := fun y h0 hy => by
    have hne : y ≠ self := fun e => Nat.lt_irrefl _ (e ▸ hy)
    rw [ht1 y hne, ht y hne, h.low y h0 hy]

theorem collectOwn_agree (collectPrivate : Bool) (fs : List (String × List FuncId)) :
    ∀ (s s1 : AnalysisResult) (funcs : FuncMap) (s2 : AnalysisResult) (funcs2 : FuncMap),
      s1.functionScopes = s.functionScopes →
      collectOwn collectPrivate fs s funcs = some (s2, funcs2) →
      ∃ s3, collectOwn collectPrivate fs s1 funcs = some (s3, funcs2) ∧
        s3.functionScopes = s2.functionScopes := by
  induction fs with
  | nil =>
    intro s s1 funcs s2 funcs2 hf h
    simp only [collectOwn, Option.some.injEq, Prod.mk.injEq] at h
    obtain ⟨rfl, rfl⟩ := h
    exact ⟨s1, rfl, hf⟩
  | cons e rest ih =>
    obtain ⟨name, vec⟩ := e
    intro s s1 funcs s2 funcs2 hf h
    simp only [collectOwn] at h ⊢
    cases hlast : vec.getLast? with
    | none => simp [hlast] at h
    | some last =>
      simp only [hlast] at h ⊢
      rw [hf]
      cases hskip : (!collectPrivate && (s.functionScopes last).isPrivate) with
      | true =>
        simp only [hskip, if_true] at h ⊢
        exact ih _ _ _ _ _ hf h
      | false =>
        simp only [hskip, Bool.false_eq_true, if_false] at h ⊢
        cases hfind : mapFind funcs name with
        | none =>
          simp only [hfind] at h ⊢
          exact ih _ _ _ _ _ hf h
        | some existing =>
          simp only [hfind] at h ⊢
          refine ih _ _ _ _ _ ?_ h
          simp [setVirtual, AnalysisResult.updFunc, hf]

theorem markMissing_agree (funcs : FuncMap) (miss : List String) :
    ∀ (s s1 : AnalysisResult), s1.functionScopes = s.functionScopes →
      (markMissing funcs miss s1).functionScopes = (markMissing funcs miss s).functionScopes := by
  induction miss with
  | nil => intro s s1 hf; exact hf
  | cons m rest ih =>
    intro s s1 hf
    simp only [markMissing]
    cases hfind : mapFind funcs m with
    | none => exact ih _ _ hf
    | some f =>
      refine ih _ _ ?_
      simp [setVirtual, AnalysisResult.updFunc, hf]

theorem collectCandidates_agree
    (rec : AnalysisResult → ClassId → FuncMap → Option (AnalysisResult × FuncMap))
    (hrecE : RecEvolves rec) (rank : ClassId → Nat) (bound : Nat)
    (hrecL : RecLocal rank bound rec) (pristine : FuncMap) (cands : List ClassId)
    (hc : ∀ d, d ∈ cands → 0 < rank d ∧ rank d < bound) :
    ∀ (s s1 : AnalysisResult) (funcs : FuncMap) (s2 : AnalysisResult) (funcs2 : FuncMap),
      Ranked s rank → Ranked s1 rank → AgreeLow rank bound s s1 →
      collectCandidates rec pristine cands s funcs = some (s2, funcs2) →
      ∃ s3, collectCandidates rec pristine cands s1 funcs = some (s3, funcs2) ∧
        AgreeLow rank bound s2 s3 := by
  induction cands with
  | nil =>
    intro s s1 funcs s2 funcs2 hR hR1 hA h
    simp only [collectCandidates, Option.some.injEq, Prod.mk.injEq] at h
    obtain ⟨rfl, rfl⟩ := h
    exact ⟨s1, rfl, hA⟩
  | cons cls rest ih =>
    intro s s1 funcs s2 funcs2 hR hR1 hA h
    simp only [collectCandidates] at h
    cases hcall : rec s cls pristine with
    | none => simp [hcall] at h
    | some q =>
      obtain ⟨t, cur⟩ := q
      simp only [hcall] at h
      have hcls := hc cls (List.mem_cons_self _ _)
      obtain ⟨t1, hcall1, hA1⟩ := hrecL s s1 cls pristine t cur hR hR1 hA hcls.1 hcls.2 hcall
      have hRt := (hrecE _ _ _ _ _ hcall).1.ranked hR
      have hRt1 := (hrecE _ _ _ _ _ hcall1).1.ranked hR1
      obtain ⟨s3, h3, hA3⟩ := ih (fun d hd => hc d (List.mem_cons_of_mem _ hd))
        t t1 _ s2 funcs2 hRt hRt1 hA1 h
      refine ⟨s3, ?_, hA3⟩
      simp only [collectCandidates, hcall1]
      exact h3

/-- One iteration of the walk of `self`, made from two states that agree below
the rank of `self` and in the scope of `self` but for its base list, at
indices that hold the same base: the iterations go the same way. -/
theorem walkStep_agree
    {rec : AnalysisResult → ClassId → FuncMap → Option (AnalysisResult × FuncMap)}
    (hrecE : RecEvolves rec) {rank : ClassId → Nat} {self : ClassId}
    (hrecF : RecFrame rank (rank self) rec) (hrecL : RecLocal rank (rank self) rec)
    (hself : 0 < rank self)
    {forInvoke : Bool} {i j : Nat} {seen seen0 : List String} {s s0 : AnalysisResult}
    {funcs : FuncMap} {seen1 : List String} {s1 : AnalysisResult} {funcs1 : FuncMap}
    (hR : Ranked s rank) (hR0 : Ranked s0 rank)
    (hname : (s.classScopes self).name ∈ seen)
    (hA : AgreeLow rank (rank self) s s0)
    (hX : SameButBases (s.classScopes self) (s0.classScopes self))
    (hidx : (s0.classScopes self).bases[j]? = (s.classScopes self).bases[i]?)
    (hseen : ∀ b, (s.classScopes self).bases[i]? = some b → (b ∈ seen ↔ b ∈ seen0))
    (h : WalkStep rec self forInvoke i seen s funcs seen1 s1 funcs1) :
    ∃ seen2 s2, WalkStep rec self forInvoke j seen0 s0 funcs seen2 s2 funcs1 ∧
      AgreeLow rank (rank self) s1 s2 ∧
      SameButBases (s1.classScopes self) (s2.classScopes self) ∧
      (((s1.classScopes self).bases = (s.classScopes self).bases ∧
          (s2.classScopes self).bases = (s0.classScopes self).bases) ∨
        ((s1.classScopes self).bases = (s.classScopes self).bases.eraseIdx i ∧
          (s2.classScopes self).bases = (s0.classScopes self).bases.eraseIdx j)) ∧
      ((seen1 = seen ∧ seen2 = seen0) ∨ ∃ b, seen1 = b :: seen ∧ seen2 = b :: seen0) := by
  have hirr : ¬(0 < rank self ∧ rank self < rank self) := fun hx => Nat.lt_irrefl _ hx.2
  have hpar : (s0.classScopes self).parent = (s.classScopes self).parent := hX.parentSame
  cases h with
  | invalid base hbase hseen1 =>
    refine ⟨seen0, eraseBase (record s0 ErrorType.InvalidDerivation self base) self j,
      WalkStep.invalid base (hidx.trans hbase) ((hseen base hbase).mp hseen1), ?_, ?_, ?_, ?_⟩
    · exact hA.after ((OnlySelf_record _ _ _ _ _).otrans (OnlySelf_eraseBase _ _ _))
        ((OnlySelf_record _ _ _ _ _).otrans (OnlySelf_eraseBase _ _ _)) rfl rfl rfl rfl
    · exact eraseBase_agree (record_agree hX _ _ _) i j
    · exact Or.inr ⟨eraseBase_bases _ _ _, eraseBase_bases _ _ _⟩
    · exact Or.inl ⟨rfl, rfl⟩
  | skipped base hbase hseen1 hinvoke hparent =>
    refine ⟨base :: seen0, s0,
      WalkStep.skipped base (hidx.trans hbase) (fun hm => hseen1 ((hseen base hbase).mpr hm))
        hinvoke (by rw [hpar]; exact hparent), hA, hX, Or.inl ⟨rfl, rfl⟩,
      Or.inr ⟨base, rfl, rfl⟩⟩
  | redeclaredParentInvoke base super hbase hseen1 hinvoke hparent hfind hredec =>
    have hlow := hR.lower hself hbase hname hseen1 (findClass_mem hfind)
    refine ⟨base :: seen0, s0,
      WalkStep.redeclaredParentInvoke base super (hidx.trans hbase)
        (fun hm => hseen1 ((hseen base hbase).mpr hm)) hinvoke (by rw [hpar]; exact hparent)
        (by rw [findClass_congr hA.classDecs]; exact hfind)
        (by rw [hA.low super hlow.1 hlow.2]; exact hredec), hA, hX, Or.inl ⟨rfl, rfl⟩,
      Or.inr ⟨base, rfl, rfl⟩⟩
  | redeclaredParent base super s2 funcs2 hbase hseen1 hinvoke hparent hfind hredec hcands =>
    have hlow := hR.lower hself hbase hname hseen1 (findClass_mem hfind)
    have hcl : ∀ d, d ∈ findClasses s (s.classScopes self).parent →
        0 < rank d ∧ rank d < rank self :=
      fun d hd => hR.lower hself hbase hname hseen1 (hparent ▸ hd)
    obtain ⟨s3, hcands0, hA2⟩ := collectCandidates_agree rec hrecE rank (rank self) hrecL
      funcs _ hcl s s0 funcs s2 _ hR hR0 hA hcands
    have hfr := collectCandidates_frame rec hrecE rank (rank self) hrecF _ _ hcl _ _ _ _ hR
      hcands
    have hfr0 := collectCandidates_frame rec hrecE rank (rank self) hrecF _ _ hcl _ _ _ _ hR0
      hcands0
    have hs2 : s2.classScopes self = s.classScopes self := hfr self hirr
    have hs3 : s3.classScopes self = s0.classScopes self := hfr0 self hirr
    have hX2 : SameButBases (s2.classScopes self) (s3.classScopes self) := by
      rw [hs2, hs3]; exact hX
    refine ⟨base :: seen0, afterRedeclaredParent s3 self,
      WalkStep.redeclaredParent base super s3 _ (hidx.trans hbase)
        (fun hm => hseen1 ((hseen base hbase).mpr hm)) hinvoke (by rw [hpar]; exact hparent)
        (by rw [findClass_congr hA.classDecs]; exact hfind)
        (by rw [hA.low super hlow.1 hlow.2]; exact hredec)
        (by rw [hpar, findClasses_congr hA.classDecs]; exact hcands0), ?_, ?_, ?_, ?_⟩
    · exact hA2.after (OnlySelf_afterRedeclaredParent _ _) (OnlySelf_afterRedeclaredParent _ _)
        (Evolves_afterRedeclaredParent _ _).classDecs
        (Evolves_afterRedeclaredParent _ _).classDecs rfl rfl
    · exact afterRedeclaredParent_agree hX2
    · exact Or.inl ⟨by rw [afterRedeclaredParent_bases, hs2],
        by rw [afterRedeclaredParent_bases, hs3]⟩
    · exact Or.inr ⟨base, rfl, rfl⟩
  | redeclaredBase base super hbase hseen1 hinvoke hparent hfind hredec =>
    have hlow := hR.lower hself hbase hname hseen1 (findClass_mem hfind)
    refine ⟨base :: seen0, afterRedeclaredBase s0 self,
      WalkStep.redeclaredBase base super (hidx.trans hbase)
        (fun hm => hseen1 ((hseen base hbase).mpr hm)) hinvoke (by rw [hpar]; exact hparent)
        (by rw [findClass_congr hA.classDecs]; exact hfind)
        (by rw [hA.low super hlow.1 hlow.2]; exact hredec), ?_, ?_, ?_, ?_⟩
    · exact hA.after (OnlySelf_afterRedeclaredBase _ _) (OnlySelf_afterRedeclaredBase _ _)
        (Evolves_afterRedeclaredBase _ _).classDecs
        (Evolves_afterRedeclaredBase _ _).classDecs
        (afterRedeclaredBase_functionScopes _ _) (afterRedeclaredBase_functionScopes _ _)
    · exact afterRedeclaredBase_agree hX
    · exact Or.inl ⟨afterRedeclaredBase_bases _ _ _, afterRedeclaredBase_bases _ _ _⟩
    · exact Or.inr ⟨base, rfl, rfl⟩
  | known base super s2 funcs2 hbase hseen1 hfollow hfind hredec hcall =>
    have hlow := hR.lower hself hbase hname hseen1 (findClass_mem hfind)
    obtain ⟨s3, hcall0, hA2⟩ := hrecL s s0 super funcs s2 _ hR hR0 hA hlow.1 hlow.2 hcall
    have hfr := hrecF _ _ _ _ _ hR hlow.1 hlow.2 hcall
    have hfr0 := hrecF _ _ _ _ _ hR0 hlow.1 hlow.2 hcall0
    have hs2 : s2.classScopes self = s.classScopes self := hfr self hirr
    have hs3 : s3.classScopes self = s0.classScopes self := hfr0 self hirr
    have hX2 : SameButBases (s2.classScopes self) (s3.classScopes self) := by
      rw [hs2, hs3]; exact hX
    refine ⟨base :: seen0, afterKnownBase s3 self super base,
      WalkStep.known base super s3 _ (hidx.trans hbase)
        (fun hm => hseen1 ((hseen base hbase).mpr hm)) (by rw [hpar]; exact hfollow)
        (by rw [findClass_congr hA.classDecs]; exact hfind)
        (by rw [hA.low super hlow.1 hlow.2]; exact hredec) hcall0, ?_, ?_, ?_, ?_⟩
    · exact hA2.after (OnlySelf_afterKnownBase _ _ _ _) (OnlySelf_afterKnownBase _ _ _ _)
        (Evolves_afterKnownBase _ _ _ _).classDecs
        (Evolves_afterKnownBase _ _ _ _).classDecs
        (afterKnownBase_functionScopes _ _ _ _) (afterKnownBase_functionScopes _ _ _ _)
    · exact afterKnownBase_agree base hX2 (by rw [hA2.low super hlow.1 hlow.2])
    · exact Or.inl ⟨by rw [afterKnownBase_bases, hs2], by rw [afterKnownBase_bases, hs3]⟩
    · exact Or.inr ⟨base, rfl, rfl⟩
  | unknown base hbase hseen1 hfollow hfind =>
    refine ⟨base :: seen0, afterUnknownBase s0 self base j,
      WalkStep.unknown base (hidx.trans hbase)
        (fun hm => hseen1 ((hseen base hbase).mpr hm)) (by rw [hpar]; exact hfollow)
        (by rw [findClass_congr hA.classDecs]; exact hfind), ?_, ?_, ?_, ?_⟩
    · exact hA.after (OnlySelf_afterUnknownBase _ _ _ _) (OnlySelf_afterUnknownBase _ _ _ _)
        (Evolves_afterUnknownBase _ _ _ _).classDecs
        (Evolves_afterUnknownBase _ _ _ _).classDecs
        (afterUnknownBase_functionScopes _ _ _ _) (afterUnknownBase_functionScopes _ _ _ _)
    · exact afterUnknownBase_agree base i j hX
    · rw [afterUnknownBase_bases, afterUnknownBase_bases, hpar]
      by_cases hp : base = (s.classScopes self).parent
      · simp only [hp, if_true]
        exact Or.inl ⟨trivial, trivial⟩
      · simp only [hp, if_false]
        exact Or.inr ⟨trivial, trivial⟩
    · exact Or.inr ⟨base, rfl, rfl⟩

theorem drop_eraseIdx_add {α : Type} (l : List α) (lo n : Nat) :
    (l.eraseIdx (lo + n)).drop lo = (l.drop lo).eraseIdx n := by
  induction l generalizing lo with
  | nil => simp
  | cons a l ih =>
    cases lo with
    | zero => simp
    | succ lo =>
      have : lo + 1 + n = (lo + n) + 1 := by omega
      rw [this]
      simp only [List.eraseIdx_cons_succ, List.drop_succ_cons]
      exact ih lo

/-- The walk of `self` over `n` indices, made from two states that agree
below the rank of `self` and in the scope of `self` but for its base list,
over ranges that hold the same bases: the walks go the same way. -/
theorem walkRange_agree
    (rec : AnalysisResult → ClassId → FuncMap → Option (AnalysisResult × FuncMap))
    (hrecE : RecEvolves rec) (rank : ClassId → Nat) (self : ClassId)
    (hrecF : RecFrame rank (rank self) rec) (hrecL : RecLocal rank (rank self) rec)
    (hself : 0 < rank self) (forInvoke : Bool) (lo lo0 n : Nat) :
    ∀ (seen : List String) (s s0 : AnalysisResult) (funcs : FuncMap) (seen1 : List String)
      (s1 : AnalysisResult) (funcs1 : FuncMap),
      Ranked s rank → Ranked s0 rank → (s.classScopes self).name ∈ seen →
      AgreeLow rank (rank self) s s0 →
      SameButBases (s.classScopes self) (s0.classScopes self) →
      (s0.classScopes self).bases.drop lo0 = (s.classScopes self).bases.drop lo →
      walkRange rec self forInvoke lo n seen s funcs = some (seen1, s1, funcs1) →
      ∃ s2, walkRange rec self forInvoke lo0 n seen s0 funcs = some (seen1, s2, funcs1) ∧
        AgreeLow rank (rank self) s1 s2 ∧
        SameButBases (s1.classScopes self) (s2.classScopes self) ∧
        (s2.classScopes self).bases.drop lo0 = (s1.classScopes self).bases.drop lo := by
  induction n with
  | zero =>
    intro seen s s0 funcs seen1 s1 funcs1 hR hR0 hname hA hX hdrop h
    simp only [walkRange, Option.some.injEq, Prod.mk.injEq] at h
    obtain ⟨rfl, rfl, rfl⟩ := h
    exact ⟨s0, rfl, hA, hX, hdrop⟩
  | succ n ih =>
    intro seen s s0 funcs seen1 s1 funcs1 hR hR0 hname hA hX hdrop h
    simp only [walkRange] at h
    cases hstep : walkBase rec self forInvoke (lo + n) seen s funcs with
    | none => simp [hstep] at h
    | some q =>
      obtain ⟨seen2, s2, funcs2⟩ := q
      simp only [hstep] at h
      have hws := walkStep_of_walkBase hstep
      have hidx : (s0.classScopes self).bases[lo0 + n]? = (s.classScopes self).bases[lo + n]? := by
        rw [← List.getElem?_drop, ← List.getElem?_drop, hdrop]
      obtain ⟨seen3, s3, hws0, hA2, hX2, hb, hs⟩ := walkStep_agree hrecE hrecF hrecL hself
        hR hR0 hname hA hX hidx (fun _ _ => Iff.rfl) hws
      have hseen3 : seen3 = seen2 := by
        rcases hs with ⟨h1, h2⟩ | ⟨b, h1, h2⟩
        · rw [h1, h2]
        · rw [h1, h2]
      subst hseen3
      have hev := (walkStep_evolves hrecE hws).1
      have hev0 := (walkStep_evolves hrecE hws0).1
      have hname2 : (s2.classScopes self).name ∈ seen3 := by
        rw [hev.name]; exact walkStep_seen hws _ hname
      have hdrop2 : (s3.classScopes self).bases.drop lo0 = (s2.classScopes self).bases.drop lo := by
        rcases hb with ⟨h1, h2⟩ | ⟨h1, h2⟩
        · rw [h1, h2, hdrop]
        · rw [h1, h2, drop_eraseIdx_add, drop_eraseIdx_add, hdrop]
      obtain ⟨s4, h4, hA4, hX4, hd4⟩ := ih seen3 s2 s3 funcs2 seen1 s1 funcs1
        (hev.ranked hR) (hev0.ranked hR0) hname2 hA2 hX2 hdrop2 h
      refine ⟨s4, ?_, hA4, hX4, hd4⟩
      simp only [walkRange, walkBase_of_walkStep hws0]
      exact h4

/-- The run on a class of positive rank below `bound` reads and writes class
scopes of positive rank below `bound` only: from two states that agree below
`bound` it returns the same table and leaves states that agree below `bound`. -/
theorem collectMethods_local (rank : ClassId → Nat) (fuel : Nat) :
    ∀ (bound : Nat) (collectPrivate forInvoke : Bool) (s s0 : AnalysisResult) (d : ClassId)
      (funcs : FuncMap) (s1 : AnalysisResult) (funcs1 : FuncMap),
      Ranked s rank → Ranked s0 rank → AgreeLow rank bound s s0 → 0 < rank d →
      rank d < bound →
      collectMethods fuel s d funcs collectPrivate forInvoke = some (s1, funcs1) →
      ∃ s2, collectMethods fuel s0 d funcs collectPrivate forInvoke = some (s2, funcs1) ∧
        AgreeLow rank bound s1 s2 := by
  induction fuel with
  | zero =>
    intro bound collectPrivate forInvoke s s0 d funcs s1 funcs1 hR hR0 hA hd hdb h
    simp [collectMethods] at h
  | succ fuel ih =>
    intro bound collectPrivate forInvoke s s0 d funcs s1 funcs1 hR hR0 hA hd hdb h
    have hrun := h
    have hsd : s0.classScopes d = s.classScopes d := hA.low d hd hdb
    simp only [collectMethods] at h
    cases hown : collectOwn collectPrivate (s.classScopes d).functions s funcs with
    | none => simp [hown] at h
    | some q =>
      obtain ⟨sO, fO⟩ := q
      simp only [hown] at h
      obtain ⟨sO0, hown0, hfO⟩ := collectOwn_agree collectPrivate _ s s0 funcs sO fO
        hA.functionScopes hown
      have hcO := collectOwn_classScopes _ _ _ _ _ _ hown
      have hcO0 := collectOwn_classScopes _ _ _ _ _ _ hown0
      have hmO := markMissing_classScopes fO (sO.classScopes d).missingMethods sO
      have hmO0 := markMissing_classScopes fO (sO0.classScopes d).missingMethods sO0
      have hmiss : (sO0.classScopes d).missingMethods = (sO.classScopes d).missingMethods := by
        rw [hcO0.1, hcO.1, hsd]
      rw [hmiss] at hmO0
      generalize hM : markMissing fO (sO.classScopes d).missingMethods sO = sM at *
      generalize hM0 : markMissing fO (sO.classScopes d).missingMethods sO0 = sM0 at *
      have hfM : sM0.functionScopes = sM.functionScopes := by
        rw [← hM, ← hM0]; exact markMissing_agree fO _ sO sO0 hfO
      have hcM : sM.classScopes = s.classScopes := hmO.1.trans hcO.1
      have hcM0 : sM0.classScopes = s0.classScopes := hmO0.1.trans hcO0.1
      have hAM : AgreeLow rank bound sM sM0 :=
        ⟨by rw [hmO0.2.1, hcO0.2.1, hmO.2.1, hcO.2.1, hA.classDecs], hfM,
          fun y h0 hy => by rw [hcM, hcM0, hA.low y h0 hy]⟩
      have hevM : Evolves s sM := by
        rw [← hM]
        exact (collectOwn_evolves _ _ _ _ _ _ hown).1.trans (markMissing_evolves _ _ _)
      have hevM0 : Evolves s0 sM0 := by
        rw [← hM0]
        exact (collectOwn_evolves _ _ _ _ _ _ hown0).1.trans (markMissing_evolves _ _ _)
      rw [walkBases_eq_walkRange] at h
      simp only [Option.map_eq_some', Prod.exists] at h
      obtain ⟨seen1, s1a, f1a, hwalk, heq⟩ := h
      simp only [Prod.mk.injEq] at heq
      obtain ⟨rfl, rfl⟩ := heq
      have hXM : SameButBases (sM.classScopes d) (sM0.classScopes d) := by
        rw [hcM, hcM0, hsd]; exact SameButBases.srfl _
      obtain ⟨s2, hwalk0, hA2, hX2, hd2⟩ := walkRange_agree
        (fun a c t => collectMethods fuel a c t false forInvoke)
        (collectMethods_recEvolves fuel false forInvoke) rank d
        (RecFrame_collectMethods rank fuel forInvoke (rank d))
        (fun a a0 c t a1 t1 hRa hRa0 hAa hc hcd hcall =>
          ih (rank d) false forInvoke a a0 c t a1 t1 hRa hRa0 hAa hc hcd hcall)
        hd forInvoke 0 0 _ _ sM sM0 fO seen1 s1a f1a (hevM.ranked hR) (hevM0.ranked hR0)
        (List.mem_singleton.mpr rfl) (hAM.monoLow (Nat.le_of_lt hdb)) hXM
        (by rw [hcM, hcM0, hsd]) hwalk
      have hrun0 : collectMethods (fuel + 1) s0 d funcs collectPrivate forInvoke =
          some (s2, f1a) := by
        simp only [collectMethods, hsd, hown0]
        rw [hcO0.1, hsd, ← hcO.1, hM0, walkBases_eq_walkRange]
        have hlen : (sM0.classScopes d).bases.length = (sM.classScopes d).bases.length := by
          rw [hcM, hcM0, hsd]
        have hnm : (sM0.classScopes d).name = (sM.classScopes d).name := by
          rw [hcM, hcM0, hsd]
        rw [hlen, hnm, hwalk0]
        rfl
      refine ⟨s2, hrun0, hA2.classDecs, hA2.functionScopes, ?_⟩
      intro y h0 hy
      by_cases hyd : rank y < rank d
      · exact hA2.low y h0 hyd
      · by_cases hye : y = d
        · subst hye
          exact hX2.eq_of_bases (by simpa using hd2)
        · have hf := collectMethods_frameSelf rank _ _ _ _ _ _ _ _ hR hd hrun
          have hf0 := collectMethods_frameSelf rank _ _ _ _ _ _ _ _ hR0 hd hrun0
          rw [hf0 y hye (fun hx => hyd hx.2), hf y hye (fun hx => hyd hx.2)]
          exact hA.low y h0 hy

/-! ## An unregistered base that is not the parent -/

theorem afterUnknownBase_plain (s : AnalysisResult) (self : ClassId) (u : String) (k : Nat)
    (hpar : u ≠ (s.classScopes self).parent)
    (hint : (s.classScopes self).isInterface = false) :
    afterUnknownBase s self u k =
      eraseBase (record s ErrorType.UnknownBaseClass self u) self k := by
  unfold afterUnknownBase
  simp only []
  have hp : ((record s ErrorType.UnknownBaseClass self u).classScopes self).parent =
      (s.classScopes self).parent := rfl
  have hi : ((record s ErrorType.UnknownBaseClass self u).classScopes self).isInterface =
      (s.classScopes self).isInterface := rfl
  rw [hp, hi, if_neg hpar, hint]
  simp

theorem afterUnknownBase_codeError (s : AnalysisResult) (self : ClassId) (u : String)
    (k : Nat) :
    (afterUnknownBase s self u k).codeError = s.codeError ++ [unknownBaseRecord self u] := by
  unfold afterUnknownBase
  simp only []
  split
  · rfl
  · split <;> rfl

/-- The iteration of the walk at an index that holds an unregistered name `u`
that is not the parent, with `forInvoke = false`: the entry is erased, as a
repeated base when `u` has been seen, as an unknown base otherwise. -/
theorem walkStep_unregistered
    {rec : AnalysisResult → ClassId → FuncMap → Option (AnalysisResult × FuncMap)}
    {self : ClassId} {k : Nat} {seen : List String} {s : AnalysisResult} {funcs : FuncMap}
    {seen1 : List String} {s1 : AnalysisResult} {funcs1 : FuncMap} {u : String}
    (h : WalkStep rec self false k seen s funcs seen1 s1 funcs1)
    (hu : (s.classScopes self).bases[k]? = some u) (hfind : findClass s u = none) :
    funcs1 = funcs ∧
      ((u ∈ seen ∧ seen1 = seen ∧
          s1 = eraseBase (record s ErrorType.InvalidDerivation self u) self k) ∨
        (u ∉ seen ∧ seen1 = u :: seen ∧ s1 = afterUnknownBase s self u k)) := by
  cases h with
  | invalid base hbase hseen1 =>
    obtain rfl : base = u := Option.some.inj (hbase.symm.trans hu)
    exact ⟨rfl, Or.inl ⟨hseen1, rfl, rfl⟩⟩
  | skipped base hbase hseen1 hinvoke hparent => exact absurd hinvoke (by simp)
  | redeclaredParentInvoke base super hbase hseen1 hinvoke hparent hfind1 hredec =>
    exact absurd hinvoke (by simp)
  | redeclaredParent base super s2 funcs2 hbase hseen1 hinvoke hparent hfind1 hredec hcands =>
    obtain rfl : base = u := Option.some.inj (hbase.symm.trans hu)
    rw [hfind] at hfind1
    exact absurd hfind1 (by simp)
  | redeclaredBase base super hbase hseen1 hinvoke hparent hfind1 hredec =>
    obtain rfl : base = u := Option.some.inj (hbase.symm.trans hu)
    rw [hfind] at hfind1
    exact absurd hfind1 (by simp)
  | known base super s2 funcs2 hbase hseen1 hfollow hfind1 hredec hcall =>
    obtain rfl : base = u := Option.some.inj (hbase.symm.trans hu)
    rw [hfind] at hfind1
    exact absurd hfind1 (by simp)
  | unknown base hbase hseen1 hfollow hfind1 =>
    obtain rfl : base = u := Option.some.inj (hbase.symm.trans hu)
    exact ⟨rfl, Or.inr ⟨hseen1, rfl, rfl⟩⟩

theorem walkRange_evolves
    (rec : AnalysisResult → ClassId → FuncMap → Option (AnalysisResult × FuncMap))
    (hrecE : RecEvolves rec) (self : ClassId) (forInvoke : Bool) (lo n : Nat) :
    ∀ (seen : List String) (s : AnalysisResult) (funcs : FuncMap)
      (seen1 : List String) (s1 : AnalysisResult) (funcs1 : FuncMap),
      walkRange rec self forInvoke lo n seen s funcs = some (seen1, s1, funcs1) →
      Evolves s s1 := by
  induction n with
  | zero =>
    intro seen s funcs seen1 s1 funcs1 h
    simp only [walkRange, Option.some.injEq, Prod.mk.injEq] at h
    obtain ⟨rfl, rfl, rfl⟩ := h
    exact Evolves.refl _
  | succ n ih =>
    intro seen s funcs seen1 s1 funcs1 h
    simp only [walkRange] at h
    cases hstep : walkBase rec self forInvoke (lo + n) seen s funcs with
    | none => simp [hstep] at h
    | some q =>
      obtain ⟨seen2, s2, funcs2⟩ := q
      simp only [hstep] at h
      exact (walkStep_evolves hrecE (walkStep_of_walkBase hstep)).1.trans (ih _ _ _ _ _ _ h)

/-- The walk of `self`, made from two states with the same class scopes below
and at `self`, where the first walk has seen the unregistered name `u` and the
second possibly not: the walks produce the same table and the same scope of
`self`. -/
theorem walkRange_agree_seen
    (rec : AnalysisResult → ClassId → FuncMap → Option (AnalysisResult × FuncMap))
    (hrecE : RecEvolves rec) (rank : ClassId → Nat) (self : ClassId)
    (hrecF : RecFrame rank (rank self) rec) (hrecL : RecLocal rank (rank self) rec)
    (hself : 0 < rank self) (u : String) (n : Nat) :
    ∀ (seen seen0 : List String) (s s0 : AnalysisResult) (funcs : FuncMap)
      (seen1 : List String) (s1 : AnalysisResult) (funcs1 : FuncMap),
      Ranked s rank → Ranked s0 rank → (s.classScopes self).name ∈ seen →
      AgreeLow rank (rank self) s s0 → s0.classScopes self = s.classScopes self →
      u ∈ seen → (∀ b, b ≠ u → (b ∈ seen ↔ b ∈ seen0)) →
      findClass s u = none → u ≠ (s.classScopes self).parent →
      (s.classScopes self).isInterface = false →
      walkRange rec self false 0 n seen s funcs = some (seen1, s1, funcs1) →
      ∃ seen2 s2, walkRange rec self false 0 n seen0 s0 funcs = some (seen2, s2, funcs1) ∧
        AgreeLow rank (rank self) s1 s2 ∧ s2.classScopes self = s1.classScopes self := by
  induction n with
  | zero =>
    intro seen seen0 s s0 funcs seen1 s1 funcs1 hR hR0 hname hA hX hu hseen hfind hpar hint h
    simp only [walkRange, Option.some.injEq, Prod.mk.injEq] at h
    obtain ⟨rfl, rfl, rfl⟩ := h
    exact ⟨seen0, s0, rfl, hA, hX⟩
  | succ n ih =>
    intro seen seen0 s s0 funcs seen1 s1 funcs1 hR hR0 hname hA hX hu hseen hfind hpar hint h
    simp only [walkRange, Nat.zero_add] at h
    cases hstep : walkBase rec self false n seen s funcs with
    | none => simp [hstep] at h
    | some q =>
      obtain ⟨seen2, s2, funcs2⟩ := q
      simp only [hstep] at h
      have hws := walkStep_of_walkBase hstep
      have hev := (walkStep_evolves hrecE hws).1
      have hname2 : (s2.classScopes self).name ∈ seen2 := by
        rw [hev.name]; exact walkStep_seen hws _ hname
      have hfind2 : findClass s2 u = none := by rw [hev.findClass]; exact hfind
      have hpar2 : u ≠ (s2.classScopes self).parent := by rw [hev.parent]; exact hpar
      have hint2 : (s2.classScopes self).isInterface = false := by
        rw [hev.isInterface]; exact hint
      by_cases hcase : (s.classScopes self).bases[n]? = some u ∧ u ∉ seen0
      · -- the first walk erases a repeated base, the second an unknown base
        obtain ⟨hbu, hnot⟩ := hcase
        obtain ⟨hf, hst⟩ := walkStep_unregistered hws hbu hfind
        rcases hst with ⟨-, hs1, hs2⟩ | ⟨hn, -, -⟩
        · rw [hf, hs1] at h
          have hws0 : WalkStep rec self false n seen0 s0 funcs (u :: seen0)
              (afterUnknownBase s0 self u n) funcs :=
            WalkStep.unknown u (by rw [hX]; exact hbu) hnot (Or.inl rfl)
              (by rw [findClass_congr hA.classDecs]; exact hfind)
          have hplain := afterUnknownBase_plain s0 self u n (by rw [hX]; exact hpar)
            (by rw [hX]; exact hint)
          have hev0 := (walkStep_evolves hrecE hws0).1
          have hA2 : AgreeLow rank (rank self) s2 (afterUnknownBase s0 self u n) := by
            rw [hs2]
            exact hA.after ((OnlySelf_record _ _ _ _ _).otrans (OnlySelf_eraseBase _ _ _))
              (OnlySelf_afterUnknownBase _ _ _ _) rfl
              (Evolves_afterUnknownBase _ _ _ _).classDecs rfl
              (afterUnknownBase_functionScopes _ _ _ _)
          have hX2 : (afterUnknownBase s0 self u n).classScopes self =
              s2.classScopes self := by
            rw [hplain, hs2]
            simp only [eraseBase, updClass_self]
            show ({ s0.classScopes self with
              bases := (s0.classScopes self).bases.eraseIdx n } : ClassScope) = _
            rw [hX]
            rfl
          obtain ⟨seen3, s3, h3, hA3, hX3⟩ := ih seen (u :: seen0) s2 _ funcs seen1 s1 funcs1
            (hev.ranked hR) (hev0.ranked hR0) (by rw [← hs1]; exact hname2) hA2 hX2 hu
            (fun b hb => by
              rw [hseen b hb]
              constructor
              · intro hm; exact List.mem_cons_of_mem _ hm
              · intro hm
                rcases List.mem_cons.mp hm with h1 | h1
                · exact absurd h1 hb
                · exact h1)
            hfind2 hpar2 hint2 h
          refine ⟨seen3, s3, ?_, hA3, hX3⟩
          simp only [walkRange, Nat.zero_add, walkBase_of_walkStep hws0]
          exact h3
        · exact absurd hu hn
      · have hseenb : ∀ b, (s.classScopes self).bases[n]? = some b →
            (b ∈ seen ↔ b ∈ seen0) := by
          intro b hb
          by_cases hbu : b = u
          · subst hbu
            have : b ∈ seen0 := by
              by_contra hn
              exact hcase ⟨hb, hn⟩
            exact ⟨fun _ => this, fun _ => hu⟩
          · exact hseen b hbu
        obtain ⟨seen3, s3, hws0, hA2, hX2, hb, hs⟩ := walkStep_agree hrecE hrecF hrecL hself
          hR hR0 hname hA (by rw [hX]; exact SameButBases.srfl _) (by rw [hX]) hseenb hws
        have hev0 := (walkStep_evolves hrecE hws0).1
        have hXe : s3.classScopes self = s2.classScopes self := by
          refine hX2.eq_of_bases ?_
          rcases hb with ⟨h1, h2⟩ | ⟨h1, h2⟩
          · rw [h1, h2, hX]
          · rw [h1, h2, hX]
        have hu2 : u ∈ seen2 := walkStep_seen hws _ hu
        have hseen2 : ∀ b, b ≠ u → (b ∈ seen2 ↔ b ∈ seen3) := by
          intro b hbu
          rcases hs with ⟨h1, h2⟩ | ⟨c, h1, h2⟩
          · rw [h1, h2]; exact hseen b hbu
          · rw [h1, h2]
            simp only [List.mem_cons, hseen b hbu]
        obtain ⟨seen4, s4, h4, hA4, hX4⟩ := ih seen2 seen3 s2 s3 funcs2 seen1 s1 funcs1
          (hev.ranked hR) (hev0.ranked hR0) hname2 hA2 hXe hu2 hseen2 hfind2 hpar2 hint2 h
        refine ⟨seen4, s4, ?_, hA4, hX4⟩
        simp only [walkRange, Nat.zero_add, walkBase_of_walkStep hws0]
        exact h4

/-- The walk of `self` with `forInvoke = false` leaves no entry `u` among the
bases it has gone over, when `u` is unregistered and is not the parent. -/
theorem walkRange_erases_unregistered
    (rec : AnalysisResult → ClassId → FuncMap → Option (AnalysisResult × FuncMap))
    (hrecE : RecEvolves rec) (rank : ClassId → Nat) (self : ClassId)
    (hrecF : RecFrame rank (rank self) rec) (hself : 0 < rank self) (u : String)
    (lo n : Nat) :
    ∀ (seen : List String) (s : AnalysisResult) (funcs : FuncMap)
      (seen1 : List String) (s1 : AnalysisResult) (funcs1 : FuncMap),
      Ranked s rank → (s.classScopes self).name ∈ seen →
      findClass s u = none → u ≠ (s.classScopes self).parent →
      (∀ b, b ∈ (s.classScopes self).bases.drop (lo + n) → b ≠ u) →
      walkRange rec self false lo n seen s funcs = some (seen1, s1, funcs1) →
      ∀ b, b ∈ (s1.classScopes self).bases.drop lo → b ≠ u := by
  induction n with
  | zero =>
    intro seen s funcs seen1 s1 funcs1 hR hname hfind hpar hup h
    simp only [walkRange, Option.some.injEq, Prod.mk.injEq] at h
    obtain ⟨rfl, rfl, rfl⟩ := h
    exact hup
  | succ n ih =>
    intro seen s funcs seen1 s1 funcs1 hR hname hfind hpar hup h
    simp only [walkRange] at h
    cases hstep : walkBase rec self false (lo + n) seen s funcs with
    | none => simp [hstep] at h
    | some q =>
      obtain ⟨seen2, s2, funcs2⟩ := q
      simp only [hstep] at h
      have hws := walkStep_of_walkBase hstep
      have hev := (walkStep_evolves hrecE hws).1
      have hname2 : (s2.classScopes self).name ∈ seen2 := by
        rw [hev.name]; exact walkStep_seen hws _ hname
      refine ih seen2 s2 funcs2 seen1 s1 funcs1 (hev.ranked hR) hname2
        (by rw [hev.findClass]; exact hfind) (by rw [hev.parent]; exact hpar) ?_ h
      have herased : (s2.classScopes self).bases = (s.classScopes self).bases.eraseIdx (lo + n) →
          ∀ b, b ∈ (s2.classScopes self).bases.drop (lo + n) → b ≠ u := by
        intro he b hb
        rw [he, drop_eraseIdx_self] at hb
        exact hup b hb
      by_cases hbu : (s.classScopes self).bases[lo + n]? = some u
      · obtain ⟨-, hst⟩ := walkStep_unregistered hws hbu hfind
        refine herased ?_
        rcases hst with ⟨-, -, hs2⟩ | ⟨-, -, hs2⟩
        · rw [hs2]; exact eraseBase_bases _ _ _
        · rw [hs2, afterUnknownBase_bases, if_neg hpar]
      · rcases walkStep_bases hrecF hself hrecE hR hname hws with he | he
        · intro b hb
          rw [he] at hb
          cases hget : (s.classScopes self).bases[lo + n]? with
          | none =>
            have hlen : (s.classScopes self).bases.length ≤ lo + n :=
              List.getElem?_eq_none_iff.mp hget
            rw [List.drop_eq_nil_of_le hlen] at hb
            exact absurd hb (List.not_mem_nil _)
          | some a =>
            rw [drop_eq_cons_of_getElem? hget] at hb
            rcases List.mem_cons.mp hb with h1 | h1
            · intro hbu2
              apply hbu
              rw [hget, ← h1, hbu2]
            · exact hup b h1
        · exact herased he

/-- The walk of `self` with `forInvoke = false` records the diagnostic
`UnknownBaseClass` for the unregistered name `u` when it comes to see `u`. -/
theorem walkRange_records_unregistered
    (rec : AnalysisResult → ClassId → FuncMap → Option (AnalysisResult × FuncMap))
    (hrecE : RecEvolves rec) (self : ClassId) (u : String) (lo n : Nat) :
    ∀ (seen : List String) (s : AnalysisResult) (funcs : FuncMap)
      (seen1 : List String) (s1 : AnalysisResult) (funcs1 : FuncMap),
      findClass s u = none → u ∉ seen → u ∈ seen1 →
      walkRange rec self false lo n seen s funcs = some (seen1, s1, funcs1) →
      ∃ pre post, s1.codeError = s.codeError ++ (pre ++ unknownBaseRecord self u :: post) := by
  induction n with
  | zero =>
    intro seen s funcs seen1 s1 funcs1 hfind hnot hin h
    simp only [walkRange, Option.some.injEq, Prod.mk.injEq] at h
    obtain ⟨rfl, rfl, rfl⟩ := h
    exact absurd hin hnot
  | succ n ih =>
    intro seen s funcs seen1 s1 funcs1 hfind hnot hin h
    simp only [walkRange] at h
    cases hstep : walkBase rec self false (lo + n) seen s funcs with
    | none => simp [hstep] at h
    | some q =>
      obtain ⟨seen2, s2, funcs2⟩ := q
      simp only [hstep] at h
      have hws := walkStep_of_walkBase hstep
      have hev := (walkStep_evolves hrecE hws).1
      obtain ⟨mid, hmid⟩ := hev.codeError
      by_cases hu2 : u ∈ seen2
      · -- this iteration has seen `u`
        have hbu : (s.classScopes self).bases[lo + n]? = some u := by
          rcases walkStep_seen_cases hws with hc | ⟨base, hbase, hc⟩
          · rw [hc] at hu2; exact absurd hu2 hnot
          · rw [hc] at hu2
            rcases List.mem_cons.mp hu2 with h1 | h1
            · rw [h1]; exact hbase
            · exact absurd h1 hnot
        obtain ⟨-, hst⟩ := walkStep_unregistered hws hbu hfind
        rcases hst with ⟨hm, -, -⟩ | ⟨-, -, hs2⟩
        · exact absurd hm hnot
        · have hce : s2.codeError = s.codeError ++ [unknownBaseRecord self u] := by
            rw [hs2]; exact afterUnknownBase_codeError _ _ _ _
          have hrest : ∃ post, s1.codeError = s2.codeError ++ post := by
            obtain ⟨post, hpost⟩ := (walkRange_evolves rec hrecE self false lo n _ _ _ _ _ _ h).codeError
            exact ⟨post, hpost.symm⟩
          obtain ⟨post, hpost⟩ := hrest
          exact ⟨[], post, by rw [hpost, hce]; simp⟩
      · obtain ⟨pre, post, hpp⟩ := ih seen2 s2 funcs2 seen1 s1 funcs1
          (by rw [hev.findClass]; exact hfind) hu2 hin h
        exact ⟨mid ++ pre, post, by rw [hpp, ← hmid]; simp⟩

/-- The walk over `m + n` indices from `lo` is the walk over the upper `n`
indices, then the walk over the lower `m` indices. -/
theorem walkRange_add
    (rec : AnalysisResult → ClassId → FuncMap → Option (AnalysisResult × FuncMap))
    (self : ClassId) (forInvoke : Bool) (lo m n : Nat) :
    ∀ (seen : List String) (s : AnalysisResult) (funcs : FuncMap),
      walkRange rec self forInvoke lo (m + n) seen s funcs =
        match walkRange rec self forInvoke (lo + m) n seen s funcs with
        | none => none
        | some (seen1, s1, funcs1) => walkRange rec self forInvoke lo m seen1 s1 funcs1 := by
  induction n with
  | zero => intro seen s funcs; rfl
  | succ n ih =>
    intro seen s funcs
    have : m + (n + 1) = (m + n) + 1 := rfl
    rw [this]
    simp only [walkRange]
    rw [← Nat.add_assoc]
    cases walkBase rec self forInvoke (lo + m + n) seen s funcs with
    | none => rfl
    | some q =>
      obtain ⟨seen2, s2, funcs2⟩ := q
      exact ih seen2 s2 funcs2

theorem findClass_none_of_mem {ar : AnalysisResult} {name : String} {c : ClassId}
    (h : c ∈ findClasses ar name) : findClass ar name ≠ none := by
  unfold findClass
  cases hl : findClasses ar name with
  | nil => rw [hl] at h; exact absurd h (List.not_mem_nil _)
  | cons a l => simp

/-- The run on a class `x` with an unregistered base `u` at index `i` that is
not the parent, and the run on `x` from the state without that entry: both
return, with the same table and the same scope of `x`; the first records the
diagnostic and leaves no entry `u` among the bases. -/
theorem collectMethods_unregistered_base (ar : AnalysisResult) (rank : ClassId → Nat)
    (x : ClassId) (funcs : FuncMap) (collectPrivate : Bool) (i : Nat) (u : String)
    (hR : Ranked ar rank) (hN : FunctionsNonempty ar) (hx : 0 < rank x)
    (hi : (ar.classScopes x).bases[i]? = some u)
    (hfind : findClass ar u = none)
    (hpar : u ≠ (ar.classScopes x).parent)
    (hname : u ≠ (ar.classScopes x).name)
    (hint : (ar.classScopes x).isInterface = false) :
    ∃ ar1 funcs1 ar2,
      collectMethods (rank x) ar x funcs collectPrivate false = some (ar1, funcs1) ∧
      collectMethods (rank x) (eraseBase ar x i) x funcs collectPrivate false =
        some (ar2, funcs1) ∧
      (∃ pre post, ar1.codeError = ar.codeError ++ (pre ++ unknownBaseRecord x u :: post)) ∧
      u ∉ (ar1.classScopes x).bases ∧
      ar2.classScopes x = ar1.classScopes x := by
  obtain ⟨⟨ar1, funcs1⟩, hrun⟩ := collectMethods_total rank (rank x) collectPrivate false
    ar x funcs hR hN hx (Nat.le_refl _)
  refine ⟨ar1, funcs1, ?_⟩
  obtain ⟨fuel, hfuel⟩ : ∃ m, rank x = m + 1 := ⟨rank x - 1, by omega⟩
  rw [hfuel] at hrun ⊢
  have h := hrun
  simp only [collectMethods] at h
  cases hown : collectOwn collectPrivate (ar.classScopes x).functions ar funcs with
  | none => simp [hown] at h
  | some q =>
    obtain ⟨sO, fO⟩ := q
    simp only [hown] at h
    have hrecE := collectMethods_recEvolves fuel false false
    have hrecF : RecFrame rank (rank x) (fun a c t => collectMethods fuel a c t false false) :=
      RecFrame_collectMethods rank fuel false (rank x)
    have hrecL : RecLocal rank (rank x) (fun a c t => collectMethods fuel a c t false false) :=
      fun a a0 c t a1 t1 hRa hRa0 hAa hc hcd hcall =>
        collectMethods_local rank fuel (rank x) false false a a0 c t a1 t1 hRa hRa0 hAa hc hcd
          hcall
    -- the state without the entry
    have hs0x : (eraseBase ar x i).classScopes x =
        { ar.classScopes x with bases := (ar.classScopes x).bases.eraseIdx i } :=
      updClass_self _ _ _
    have hev0 : Evolves ar (eraseBase ar x i) := Evolves_eraseBase _ _ _
    have hR0 : Ranked (eraseBase ar x i) rank := hev0.ranked hR
    obtain ⟨sO0, hown0, hfO⟩ := collectOwn_agree collectPrivate _ ar (eraseBase ar x i) funcs
      sO fO rfl hown
    have hcO := collectOwn_classScopes _ _ _ _ _ _ hown
    have hcO0 := collectOwn_classScopes _ _ _ _ _ _ hown0
    have hmO := markMissing_classScopes fO (sO.classScopes x).missingMethods sO
    have hmO0 := markMissing_classScopes fO (sO.classScopes x).missingMethods sO0
    have hevM : Evolves ar (markMissing fO (sO.classScopes x).missingMethods sO) :=
      (collectOwn_evolves _ _ _ _ _ _ hown).1.trans (markMissing_evolves _ _ _)
    have hevM0 : Evolves (eraseBase ar x i)
        (markMissing fO (sO.classScopes x).missingMethods sO0) :=
      (collectOwn_evolves _ _ _ _ _ _ hown0).1.trans (markMissing_evolves _ _ _)
    have hfM := markMissing_agree fO (sO.classScopes x).missingMethods sO sO0 hfO
    generalize hM : markMissing fO (sO.classScopes x).missingMethods sO = sM at *
    generalize hM0 : markMissing fO (sO.classScopes x).missingMethods sO0 = sM0 at *
    have hcM : sM.classScopes = ar.classScopes := hmO.1.trans hcO.1
    have hcM0 : sM0.classScopes = (eraseBase ar x i).classScopes := hmO0.1.trans hcO0.1
    have hceM : sM.codeError = ar.codeError := hmO.2.2.trans hcO.2.2
    have hAM : AgreeLow rank (rank x) sM sM0 :=
      ⟨by rw [hmO0.2.1, hcO0.2.1, hmO.2.1, hcO.2.1]; rfl, hfM,
        fun y _ hy => by
          have hne : y ≠ x := fun e => Nat.lt_irrefl _ (e ▸ hy)
          rw [hcM, hcM0]
          exact OnlySelf_eraseBase ar x i y hne⟩
    have hXM : SameButBases (sM.classScopes x) (sM0.classScopes x) := by
      rw [hcM, hcM0, hs0x]; rfl
    have hRM := hevM.ranked hR
    have hRM0 := hevM0.ranked hR0
    have hnameM : (sM.classScopes x).name ∈ [(sM.classScopes x).name] :=
      List.mem_singleton.mpr rfl
    -- the length of the base list
    have hilt : i < (ar.classScopes x).bases.length := (List.getElem?_eq_some.mp hi).1
    obtain ⟨n, hn⟩ : ∃ n, (ar.classScopes x).bases.length = (i + 1) + n :=
      ⟨(ar.classScopes x).bases.length - (i + 1), by omega⟩
    have hlenM : (sM.classScopes x).bases.length = (i + 1) + n := by rw [hcM]; exact hn
    have hlenM0 : (sM0.classScopes x).bases.length = i + n := by
      rw [hcM0, hs0x]
      simp only [List.length_eraseIdx, hilt, if_true]
      omega
    rw [walkBases_eq_walkRange, hlenM, walkRange_add, Nat.zero_add] at h
    simp only [Option.map_eq_some', Prod.exists] at h
    obtain ⟨seenF, ar1a, f1a, hwalk, heq⟩ := h
    simp only [Prod.mk.injEq] at heq
    obtain ⟨rfl, rfl⟩ := heq
    cases hA : walkRange (fun a c t => collectMethods fuel a c t false false) x false
        (i + 1) n [(sM.classScopes x).name] sM fO with
    | none => simp [hA] at hwalk
    | some qa =>
      obtain ⟨seenA, sA, fA⟩ := qa
      simp only [hA] at hwalk
      -- the walk over the entries after `i`, in both runs
      have hdropM : (sM0.classScopes x).bases.drop i =
          (sM.classScopes x).bases.drop (i + 1) := by
        rw [hcM, hcM0, hs0x]
        exact drop_eraseIdx_self _ _
      obtain ⟨sA0, hA0, hAA, hXA, hdropA⟩ := walkRange_agree _ hrecE rank x hrecF hrecL hx false
        (i + 1) i n _ sM sM0 fO seenA sA fA hRM hRM0 hnameM hAM hXM hdropM hA
      obtain ⟨hevA, -, -, htakeA, hseenA, hsubA⟩ := walkRange_inv _ hrecE rank x hrecF hx false
        (i + 1) n _ sM fO seenA sA fA hRM hnameM hA
      have hnameM0 : (sM0.classScopes x).name ∈ [(sM.classScopes x).name] := by
        rw [hXM.nameSame]; exact hnameM
      obtain ⟨hevA0, -, -, htakeA0, -, -⟩ := walkRange_inv _ hrecE rank x hrecF hx false
        i n _ sM0 fO seenA sA0 fA hRM0 hnameM0 hA0
      have hRA := hevA.ranked hRM
      have hRA0 := hevA0.ranked hRM0
      have hevarA : Evolves ar sA := hevM.trans hevA
      have hfindA : findClass sA u = none := by rw [hevarA.findClass]; exact hfind
      have hparA : u ≠ (sA.classScopes x).parent := by rw [hevarA.parent]; exact hpar
      have hintA : (sA.classScopes x).isInterface = false := by
        rw [hevarA.isInterface]; exact hint
      have hnameA : (sA.classScopes x).name ∈ seenA := by
        rw [hevA.name]; exact hsubA _ hnameM
      have hbu : (sA.classScopes x).bases[i]? = some u := by
        have h1 : ((sA.classScopes x).bases.take (i + 1))[i]? = (sA.classScopes x).bases[i]? := by
          rw [List.getElem?_take, if_pos (Nat.lt_succ_self i)]
        have h2 : ((sM.classScopes x).bases.take (i + 1))[i]? = (sM.classScopes x).bases[i]? := by
          rw [List.getElem?_take, if_pos (Nat.lt_succ_self i)]
        rw [← h1, htakeA, h2, hcM]; exact hi
      -- the iteration at `i`
      simp only [walkRange, Nat.zero_add] at hwalk
      cases hstep : walkBase (fun a c t => collectMethods fuel a c t false false) x false i
          seenA sA fA with
      | none => simp [hstep] at hwalk
      | some qu =>
        obtain ⟨seenU, sU, fU⟩ := qu
        simp only [hstep] at hwalk
        have hws := walkStep_of_walkBase hstep
        have hevU := (walkStep_evolves hrecE hws).1
        obtain ⟨hfU, hst⟩ := walkStep_unregistered hws hbu hfindA
        have hplain := afterUnknownBase_plain sA x u i hparA hintA
        have hsU : ∃ kind, sU = eraseBase (record sA kind x u) x i := by
          rcases hst with ⟨-, -, hs⟩ | ⟨-, -, hs⟩
          · exact ⟨_, hs⟩
          · exact ⟨_, hs.trans hplain⟩
        obtain ⟨kind, hsU⟩ := hsU
        have huU : u ∈ seenU := by
          rcases hst with ⟨hm, hs, -⟩ | ⟨-, hs, -⟩
          · rw [hs]; exact hm
          · rw [hs]; exact List.mem_cons_self _ _
        have hseenU : ∀ b, b ≠ u → (b ∈ seenU ↔ b ∈ seenA) := by
          intro b hb
          rcases hst with ⟨-, hs, -⟩ | ⟨-, hs, -⟩
          · rw [hs]
          · rw [hs]
            simp only [List.mem_cons, hb, false_or]
        have hAU : AgreeLow rank (rank x) sU sA0 := by
          rw [hsU]
          exact hAA.after ((OnlySelf_record _ _ _ _ _).otrans (OnlySelf_eraseBase _ _ _))
            (OnlySelf.orefl _ _) rfl rfl rfl rfl
        have hXU : sA0.classScopes x = sU.classScopes x := by
          have hsb : SameButBases (sU.classScopes x) (sA0.classScopes x) := by
            rw [hsU]
            simp only [eraseBase, updClass_self]
            exact hXA
          refine hsb.eq_of_bases ?_
          have hUb : (sU.classScopes x).bases = (sA.classScopes x).bases.eraseIdx i := by
            rw [hsU]; exact eraseBase_bases _ _ _
          have htake0 : (sA0.classScopes x).bases.take i = (ar.classScopes x).bases.take i := by
            rw [htakeA0, hcM0, hs0x]
            exact take_eraseIdx_of_le _ _ _ (Nat.le_refl _)
          have htake1 : (sA.classScopes x).bases.take i = (ar.classScopes x).bases.take i := by
            have := congrArg (List.take i) htakeA
            rw [List.take_take, List.take_take, Nat.min_eq_left (Nat.le_succ i), hcM] at this
            exact this
          rw [hUb, List.eraseIdx_eq_take_drop_succ, htake1, ← htake0, ← hdropA,
            List.take_append_drop]
        have hRU := hevU.ranked hRA
        have hnameU : (sU.classScopes x).name ∈ seenU := by
          rw [hevU.name]; exact walkStep_seen hws _ hnameA
        have hevarU : Evolves ar sU := hevarA.trans hevU
        obtain ⟨seenF0, ar2, hB0, hA2, hX2⟩ := walkRange_agree_seen _ hrecE rank x hrecF hrecL
          hx u i seenU seenA sU sA0 fU seenF ar1a f1a hRU hRA0 hnameU hAU hXU huU hseenU
          (by rw [hevarU.findClass]; exact hfind) (by rw [hevarU.parent]; exact hpar)
          (by rw [hevarU.isInterface]; exact hint) hwalk
        have hevB := walkRange_evolves _ hrecE x false 0 i _ _ _ _ _ _ hwalk
        refine ⟨ar2, hrun, ?_, ?_, ?_, hX2⟩
        · -- the run without the entry
          have hfn : ((eraseBase ar x i).classScopes x).functions =
              (ar.classScopes x).functions := by rw [hs0x]
          have hmiss : (sO0.classScopes x).missingMethods =
              (sO.classScopes x).missingMethods := by
            rw [hcO0.1, hcO.1, hs0x]
          simp only [collectMethods, hfn, hown0]
          rw [hmiss, hM0, walkBases_eq_walkRange, hlenM0, walkRange_add, Nat.zero_add,
            hXM.nameSame, hA0]
          simp only []
          rw [← hfU, hB0]
          rfl
        · -- the diagnostic
          obtain ⟨postB, hpostB⟩ := hevB.codeError
          rcases hst with ⟨hm, -, hs⟩ | ⟨-, -, hs⟩
          · have hnot : u ∉ [(sM.classScopes x).name] := by
              rw [hcM]
              intro hmem
              exact hname (List.mem_singleton.mp hmem)
            obtain ⟨pre, post, hpp⟩ := walkRange_records_unregistered _ hrecE x u
              (i + 1) n _ sM fO seenA sA fA
              (by rw [hevM.findClass]; exact hfind) hnot hm hA
            obtain ⟨postU, hpostU⟩ := hevU.codeError
            refine ⟨pre, post ++ postU ++ postB, ?_⟩
            rw [← hpostB, ← hpostU, hpp, hceM]
            simp
          · obtain ⟨preA, hpreA⟩ := hevarA.codeError
            refine ⟨preA, postB, ?_⟩
            rw [← hpostB, hs, afterUnknownBase_codeError, ← hpreA]
            simp
        · -- no entry `u` is left
          have hall := walkRange_erases_unregistered _ hrecE rank x hrecF hx u 0
            ((i + 1) + n) _ sM fO seenF ar1a f1a hRM hnameM
            (by rw [hevM.findClass]; exact hfind) (by rw [hevM.parent]; exact hpar)
            (by
              intro b hb
              rw [Nat.zero_add, ← hlenM, List.drop_length] at hb
              exact absurd hb (List.not_mem_nil _))
            (by
              rw [walkRange_add, Nat.zero_add, hA]
              simp only [walkRange, Nat.zero_add, hstep]
              exact hwalk)
          intro hmem
          exact hall u (by simpa using hmem) rfl

theorem ghostBaseGraph_ranked : Ranked ghostBaseGraph rootRank := by
  intro c base hc hb hne d hd
  match c with
  | 0 =>
    simp [ghostBaseGraph, mkAnalysisResult] at hb
    rcases hb with rfl | rfl <;>
      simp [findClasses, ghostBaseGraph, mkAnalysisResult, toLower] at hd
    subst hd
    decide
  | n + 1 =>
    match n with
    | 0 => simp [ghostBaseGraph, mkAnalysisResult] at hb
    | m + 1 => simp [ghostBaseGraph, mkAnalysisResult] at hb

theorem ghostBaseGraph_functionsNonempty : FunctionsNonempty ghostBaseGraph := by
  intro c name vec hm
  match c with
  | 0 => simp [ghostBaseGraph, mkAnalysisResult] at hm
  | 1 =>
    simp [ghostBaseGraph, mkAnalysisResult] at hm
    simp [hm.2]
  | n + 2 => simp [ghostBaseGraph, mkAnalysisResult] at hm

/-! ## Claim C10: an unregistered base that is not the parent -/

/-- C10: on an acyclic class graph let `x` be a registered class that is not
an interface and let its base list hold at index `i` the name `u`, which is
unregistered and is not the parent of `x`.  Then `collectMethods` on `x` with
`forInvoke = false` returns, it records the diagnostic `UnknownBaseClass` of
`x` for `u`, the base list of `x` holds no entry `u` afterwards, and the run
from the state without the entry at index `i` returns the same table and
leaves the same derivation tag and the same volatile flag of `x`. -/
theorem collectMethods_unknown_base_dropped (ar : AnalysisResult) (rank : ClassId → Nat)
    (x : ClassId) (funcs : FuncMap) (collectPrivate : Bool) (i : Nat) (u : String)
    (hR : Ranked ar rank) (hN : FunctionsNonempty ar) (hx : 0 < rank x)
    (hreg : x ∈ findClasses ar (ar.classScopes x).name)
    (hi : (ar.classScopes x).bases[i]? = some u)
    (hfind : findClass ar u = none)
    (hpar : u ≠ (ar.classScopes x).parent)
    (hint : (ar.classScopes x).isInterface = false) :
    ∃ ar1 funcs1 ar2,
      collectMethods (rank x) ar x funcs collectPrivate false = some (ar1, funcs1) ∧
      collectMethods (rank x) (eraseBase ar x i) x funcs collectPrivate false =
        some (ar2, funcs1) ∧
      (∃ pre post, ar1.codeError = ar.codeError ++ (pre ++ unknownBaseRecord x u :: post)) ∧
      u ∉ (ar1.classScopes x).bases ∧
      (ar1.classScopes x).derivesFromRedeclaring =
        (ar2.classScopes x).derivesFromRedeclaring ∧
      (ar1.classScopes x).volatile = (ar2.classScopes x).volatile := by
  have hname : u ≠ (ar.classScopes x).name := by
    intro e
    rw [e] at hfind
    exact findClass_none_of_mem hreg hfind
  obtain ⟨ar1, funcs1, ar2, h1, h2, h3, h4, h5⟩ := collectMethods_unregistered_base ar rank x
    funcs collectPrivate i u hR hN hx hi hfind hpar hname hint
  exact ⟨ar1, funcs1, ar2, h1, h2, h3, h4, by rw [h5], by rw [h5]⟩

/-- Witness of C10 on `ghostBaseGraph`: the entry `ghost` at index 1 of class 0
is dropped with a diagnostic; the table, the tag and the flag are those of the
run without it. -/
theorem collectMethods_unknown_base_dropped_witness :
    (∃ ar1 funcs1 ar2,
      collectMethods (rootRank 0) ghostBaseGraph 0 [] true false = some (ar1, funcs1) ∧
      collectMethods (rootRank 0) (eraseBase ghostBaseGraph 0 1) 0 [] true false =
        some (ar2, funcs1) ∧
      (∃ pre post, ar1.codeError =
        ghostBaseGraph.codeError ++ (pre ++ unknownBaseRecord 0 "ghost" :: post)) ∧
      "ghost" ∉ (ar1.classScopes 0).bases ∧
      (ar1.classScopes 0).derivesFromRedeclaring =
        (ar2.classScopes 0).derivesFromRedeclaring ∧
      (ar1.classScopes 0).volatile = (ar2.classScopes 0).volatile) ∧
    (collectMethods (rootRank 0) ghostBaseGraph 0 [] true false).map
      (fun r => (r.2, (r.1.classScopes 0).bases, r.1.codeError,
        (r.1.classScopes 0).derivesFromRedeclaring, (r.1.classScopes 0).volatile)) =
      some ([("m", 0)], ["p"], [unknownBaseRecord 0 "ghost"], Derivation.FromNormal, false) :=
  ⟨collectMethods_unknown_base_dropped ghostBaseGraph rootRank 0 [] true 1 "ghost"
    ghostBaseGraph_ranked ghostBaseGraph_functionsNonempty (by decide) (by decide) (by decide)
    (by decide) (by decide) (by decide), by decide⟩

/-! ## Whether the reference computation returns -/

theorem pureOwn_cons (ar : AnalysisResult) (cp : Bool) (name : String) (vec : List FuncId)
    (rest : List (String × List FuncId)) (funcs : FuncMap) (marks : List FuncId)
    (last : FuncId) (h : vec.getLast? = some last) :
    ∃ t m, pureOwn ar cp ((name, vec) :: rest) funcs marks = pureOwn ar cp rest t m := by
  simp only [pureOwn, h]
  cases hs : (!cp && (ar.functionScopes last).isPrivate) with
  | true => exact ⟨_, _, rfl⟩
  | false =>
    cases hf : mapFind funcs name with
    | none => exact ⟨_, _, rfl⟩
    | some e => exact ⟨_, _, rfl⟩

theorem pureOwn_isSome (ar : AnalysisResult) (cp cp1 : Bool)
    (l : List (String × List FuncId)) :
    ∀ (funcs funcs1 : FuncMap) (marks marks1 : List FuncId),
      (pureOwn ar cp l funcs marks).isSome = (pureOwn ar cp1 l funcs1 marks1).isSome := by
  induction l with
  | nil => intro funcs funcs1 marks marks1; rfl
  | cons e rest ih =>
    obtain ⟨name, vec⟩ := e
    intro funcs funcs1 marks marks1
    cases hlast : vec.getLast? with
    | none => simp [pureOwn, hlast]
    | some last =>
      obtain ⟨t, m, e1⟩ := pureOwn_cons ar cp name vec rest funcs marks last hlast
      obtain ⟨t1, m1, e2⟩ := pureOwn_cons ar cp1 name vec rest funcs1 marks1 last hlast
      rw [e1, e2]
      exact ih t t1 m m1

theorem pureCandidates_isSome
    (prec : ClassId → FuncMap → Option (FuncMap × List FuncId))
    (hrec : ∀ d t t1, (prec d t).isSome = (prec d t1).isSome) (l : List ClassId) :
    ∀ (pristine pristine1 funcs funcs1 : FuncMap) (marks marks1 : List FuncId),
      (pureCandidates prec pristine l funcs marks).isSome =
        (pureCandidates prec pristine1 l funcs1 marks1).isSome := by
  induction l with
  | nil => intro _ _ _ _ _ _; rfl
  | cons cls rest ih =>
    intro pristine pristine1 funcs funcs1 marks marks1
    simp only [pureCandidates]
    have h := hrec cls pristine pristine1
    cases h1 : prec cls pristine with
    | none =>
      rw [h1] at h
      cases h2 : prec cls pristine1 with
      | none => rfl
      | some q => rw [h2] at h; simp at h
    | some q =>
      rw [h1] at h
      cases h2 : prec cls pristine1 with
      | none => rw [h2] at h; simp at h
      | some q1 =>
        obtain ⟨c1, m1⟩ := q
        obtain ⟨c2, m2⟩ := q1
        exact ih _ _ _ _ _ _

theorem pureVisit_isSome
    (prec : ClassId → FuncMap → Option (FuncMap × List FuncId))
    (hrec : ∀ d t t1, (prec d t).isSome = (prec d t1).isSome)
    (ar : AnalysisResult) (self : ClassId) (forInvoke : Bool) (base : String)
    (funcs funcs1 : FuncMap) (marks marks1 : List FuncId) :
    (pureVisit prec ar self forInvoke base funcs marks).isSome =
      (pureVisit prec ar self forInvoke base funcs1 marks1).isSome := by
  unfold pureVisit
  split
  · rfl
  · cases hfind : findClass ar base with
    | none => rfl
    | some super =>
      simp only []
      split
      · split
        · split
          · rfl
          · exact pureCandidates_isSome prec hrec _ _ _ _ _ _ _
        · rfl
      · have h := hrec super funcs funcs1
        cases h1 : prec super funcs with
        | none =>
          rw [h1] at h
          cases h2 : prec super funcs1 with
          | none => rfl
          | some q => rw [h2] at h; simp at h
        | some q =>
          rw [h1] at h
          cases h2 : prec super funcs1 with
          | none => rw [h2] at h; simp at h
          | some q1 => rfl

theorem pureWalk_isSome
    (prec : ClassId → FuncMap → Option (FuncMap × List FuncId))
    (hrec : ∀ d t t1, (prec d t).isSome = (prec d t1).isSome)
    (ar : AnalysisResult) (self : ClassId) (forInvoke : Bool) (l : List String) :
    ∀ (funcs funcs1 : FuncMap) (marks marks1 : List FuncId),
      (pureWalk prec ar self forInvoke l funcs marks).isSome =
        (pureWalk prec ar self forInvoke l funcs1 marks1).isSome := by
  induction l with
  | nil => intro _ _ _ _; rfl
  | cons base rest ih =>
    intro funcs funcs1 marks marks1
    simp only [pureWalk]
    have h := pureVisit_isSome prec hrec ar self forInvoke base funcs funcs1 marks marks1
    cases h1 : pureVisit prec ar self forInvoke base funcs marks with
    | none =>
      rw [h1] at h
      cases h2 : pureVisit prec ar self forInvoke base funcs1 marks1 with
      | none => rfl
      | some q => rw [h2] at h; simp at h
    | some q =>
      rw [h1] at h
      cases h2 : pureVisit prec ar self forInvoke base funcs1 marks1 with
      | none => rw [h2] at h; simp at h
      | some q1 =>
        obtain ⟨c1, m1⟩ := q
        obtain ⟨c2, m2⟩ := q1
        exact ih _ _ _ _

/-- Whether the reference computation returns depends neither on the table nor
on `collectPrivate`. -/
theorem pureCollect_isSome (ar : AnalysisResult) (forInvoke : Bool) (g : Nat) :
    ∀ (cp cp1 : Bool) (c : ClassId) (funcs funcs1 : FuncMap),
      (pureCollect g ar c funcs cp forInvoke).isSome =
        (pureCollect g ar c funcs1 cp1 forInvoke).isSome := by
  induction g with
  | zero => intro _ _ _ _ _; rfl
  | succ g ih =>
    intro cp cp1 c funcs funcs1
    simp only [pureCollect]
    have h := pureOwn_isSome ar cp cp1 (ar.classScopes c).functions funcs funcs1 [] []
    cases h1 : pureOwn ar cp (ar.classScopes c).functions funcs [] with
    | none =>
      rw [h1] at h
      cases h2 : pureOwn ar cp1 (ar.classScopes c).functions funcs1 [] with
      | none => rfl
      | some q => rw [h2] at h; simp at h
    | some q =>
      rw [h1] at h
      cases h2 : pureOwn ar cp1 (ar.classScopes c).functions funcs1 [] with
      | none => rw [h2] at h; simp at h
      | some q1 =>
        obtain ⟨c1, m1⟩ := q
        obtain ⟨c2, m2⟩ := q1
        exact pureWalk_isSome _ (fun d t t1 => ih false false d t t1) ar c forInvoke _ _ _ _ _

theorem returns_of_pureCollect {ar0 : AnalysisResult} {forInvoke : Bool} {g : Nat}
    {c : ClassId} {funcs : FuncMap} {cp : Bool} {r : FuncMap × List FuncId}
    (h : pureCollect g ar0 c funcs cp forInvoke = some r) : Returns ar0 forInvoke g c := by
  unfold Returns
  rw [pureCollect_isSome ar0 forInvoke g false cp c [] funcs, h]
  rfl

theorem pureCollect_of_returns {ar0 : AnalysisResult} {forInvoke : Bool} {g : Nat}
    {c : ClassId} (h : Returns ar0 forInvoke g c) (funcs : FuncMap) (cp : Bool) :
    (pureCollect g ar0 c funcs cp forInvoke).isSome = true := by
  rw [pureCollect_isSome ar0 forInvoke g cp false c funcs []]
  exact h

theorem BelowLe.brefl (ar0 : AnalysisResult) (forInvoke : Bool) (c : ClassId) :
    BelowLe ar0 forInvoke c c := fun g h => ⟨g, Nat.le_refl _, h⟩

/-- A class the computation on `d` goes through is one the computation on `c`
goes through, when the computation on `c` calls the one on `d`. -/
theorem BelowLe.edge {ar0 : AnalysisResult} {forInvoke : Bool} {y d c : ClassId}
    (h : BelowLe ar0 forInvoke y d) (he : Edge ar0 forInvoke c d) :
    BelowLe ar0 forInvoke y c := by
  intro g hg
  cases g with
  | zero => simp [Returns, pureCollect] at hg
  | succ g =>
    obtain ⟨g1, hle, hy⟩ := h g (he g hg)
    exact ⟨g1, Nat.le_succ_of_le hle, hy⟩

/-- The computation on `d` never returns when it is called by the computation
on `c` and goes through `c`. -/
theorem Edge.descent {ar0 : AnalysisResult} {forInvoke : Bool} {c d : ClassId}
    (he : Edge ar0 forInvoke c d) (hb : BelowLe ar0 forInvoke c d) :
    ∀ g, ¬Returns ar0 forInvoke g d := by
  intro g
  induction g using Nat.strong_induction_on with
  | _ g ih =>
    intro hg
    obtain ⟨g1, hle, hc⟩ := hb g hg
    cases g1 with
    | zero => simp [Returns, pureCollect] at hc
    | succ g2 => exact ih g2 (Nat.lt_of_lt_of_le (Nat.lt_succ_self _) hle) (he g2 hc)

theorem pureCandidates_calls
    (prec : ClassId → FuncMap → Option (FuncMap × List FuncId)) (pristine : FuncMap)
    (l : List ClassId) :
    ∀ (funcs : FuncMap) (marks : List FuncId),
      (pureCandidates prec pristine l funcs marks).isSome = true →
      ∀ d, d ∈ l → (prec d pristine).isSome = true := by
  induction l with
  | nil => intro _ _ _ d hd; exact absurd hd (List.not_mem_nil _)
  | cons cls rest ih =>
    intro funcs marks h d hd
    simp only [pureCandidates] at h
    cases h1 : prec cls pristine with
    | none => simp [h1] at h
    | some q =>
      obtain ⟨c1, m1⟩ := q
      simp only [h1] at h
      rcases List.mem_cons.mp hd with rfl | hd1
      · rw [h1]; rfl
      · exact ih _ _ h d hd1

theorem pureWalk_visits
    (prec : ClassId → FuncMap → Option (FuncMap × List FuncId))
    (ar : AnalysisResult) (self : ClassId) (forInvoke : Bool) (l : List String) :
    ∀ (funcs : FuncMap) (marks : List FuncId),
      (pureWalk prec ar self forInvoke l funcs marks).isSome = true →
      ∀ b, b ∈ l → ∃ t m, (pureVisit prec ar self forInvoke b t m).isSome = true := by
  induction l with
  | nil => intro _ _ _ b hb; exact absurd hb (List.not_mem_nil _)
  | cons base rest ih =>
    intro funcs marks h b hb
    simp only [pureWalk] at h
    cases h1 : pureVisit prec ar self forInvoke base funcs marks with
    | none => simp [h1] at h
    | some q =>
      obtain ⟨c1, m1⟩ := q
      simp only [h1] at h
      rcases List.mem_cons.mp hb with rfl | hb1
      · exact ⟨funcs, marks, by rw [h1]; rfl⟩
      · exact ih _ _ h b hb1

theorem mem_keptRev (erase : String → Bool) (p : List String) :
    ∀ (seen : List String) (b : String), b ∈ p → b ∉ seen → erase b = false →
      b ∈ keptRev erase p seen := by
  induction p with
  | nil => intro _ b hb; exact absurd hb (List.not_mem_nil _)
  | cons a p ih =>
    intro seen b hb hs he
    simp only [keptRev]
    by_cases hab : a = b
    · subst hab
      simp [hs, he]
    · have hbp : b ∈ p := by
        rcases List.mem_cons.mp hb with h1 | h1
        · exact absurd h1.symm hab
        · exact h1
      have hs2 : b ∉ a :: seen := by
        intro hm
        rcases List.mem_cons.mp hm with h1 | h1
        · exact hab h1.symm
        · exact hs h1
      by_cases ha : a ∈ seen
      · simp only [ha, if_true]
        exact ih seen b hbp hs he
      · simp only [ha, if_false]
        by_cases hea : erase a = true
        · simp only [hea, if_true]
          exact ih _ b hbp hs2 he
        · simp only [hea, if_false, Bool.false_eq_true]
          exact List.mem_cons_of_mem _ (ih _ b hbp hs2 he)

/-- The reference computation on `c` visits every kept base of `c`. -/
theorem returns_visits {ar0 : AnalysisResult} {forInvoke : Bool} {g : Nat} {c : ClassId}
    (h : Returns ar0 forInvoke (g + 1) c) {b : String} (hb : b ∈ keptBases ar0 c forInvoke) :
    ∃ t m, (pureVisit (fun d t => pureCollect g ar0 d t false forInvoke) ar0 c forInvoke b
      t m).isSome = true := by
  unfold Returns at h
  simp only [pureCollect] at h
  cases h1 : pureOwn ar0 false (ar0.classScopes c).functions [] [] with
  | none => simp [h1] at h
  | some q =>
    obtain ⟨t, m⟩ := q
    simp only [h1] at h
    exact pureWalk_visits _ ar0 c forInvoke _ _ _ h b hb

/-- The reference computation on `c` calls the one on the class found under a
base of `c` that is followed and is not redeclared. -/
theorem Edge.known {ar0 : AnalysisResult} {forInvoke : Bool} {c super : ClassId}
    {base : String} (hkept : base ∈ keptBases ar0 c forInvoke)
    (hfollow : forInvoke = false ∨ base = (ar0.classScopes c).parent)
    (hfind : findClass ar0 base = some super)
    (hredec : (ar0.classScopes super).isRedeclaring = false) :
    Edge ar0 forInvoke c super := by
  intro g hg
  obtain ⟨t, m, hv⟩ := returns_visits hg hkept
  have hskip : (forInvoke && base != (ar0.classScopes c).parent) = false := by
    rcases hfollow with hf | hf <;> simp [hf]
  simp only [pureVisit, hskip, hfind, hredec, Bool.false_eq_true, if_false] at hv
  cases h1 : pureCollect g ar0 super t false forInvoke with
  | none => simp [h1] at hv
  | some q => exact returns_of_pureCollect h1

/-- The reference computation on `c` calls the one on every candidate of a
redeclared parent of `c`. -/
theorem Edge.candidate {ar0 : AnalysisResult} {c super d : ClassId}
    (hkept : (ar0.classScopes c).parent ∈ keptBases ar0 c false)
    (hfind : findClass ar0 (ar0.classScopes c).parent = some super)
    (hredec : (ar0.classScopes super).isRedeclaring = true)
    (hd : d ∈ findClasses ar0 (ar0.classScopes c).parent) :
    Edge ar0 false c d := by
  intro g hg
  obtain ⟨t, m, hv⟩ := returns_visits hg hkept
  simp only [pureVisit, Bool.false_and, hfind, hredec, Bool.false_eq_true, if_false,
    if_true] at hv
  have := pureCandidates_calls _ _ _ _ _ hv d hd
  cases h1 : pureCollect g ar0 d t false false with
  | none => simp [h1] at this
  | some q => exact returns_of_pureCollect h1

/-! ## The bases kept by a walk under way -/

theorem mem_seenAfter (p : List String) :
    ∀ (seen : List String) (b : String), b ∈ p ∨ b ∈ seen → b ∈ seenAfter p seen := by
  induction p with
  | nil =>
    intro seen b h
    rcases h with h | h
    · exact absurd h (List.not_mem_nil _)
    · exact h
  | cons a p ih =>
    intro seen b h
    simp only [seenAfter]
    by_cases ha : a ∈ seen
    · simp only [ha, if_true]
      rcases h with h | h
      · rcases List.mem_cons.mp h with h1 | h1
        · exact ih seen b (Or.inr (h1 ▸ ha))
        · exact ih seen b (Or.inl h1)
      · exact ih seen b (Or.inr h)
    · simp only [ha, if_false]
      rcases h with h | h
      · rcases List.mem_cons.mp h with h1 | h1
        · exact ih _ b (Or.inr (h1 ▸ List.mem_cons_self _ _))
        · exact ih _ b (Or.inl h1)
      · exact ih _ b (Or.inr (List.mem_cons_of_mem _ h))

/-- The bases kept depend on the names seen only through the names that are
not erasable. -/
theorem keptRev_congr_seen (erase : String → Bool) (p : List String) :
    ∀ (s1 s2 : List String), (∀ b, erase b = false → (b ∈ s1 ↔ b ∈ s2)) →
      keptRev erase p s1 = keptRev erase p s2 := by
  induction p with
  | nil => intro _ _ _; rfl
  | cons a p ih =>
    intro s1 s2 h
    simp only [keptRev]
    by_cases hea : erase a = true
    · have hcons : ∀ (t1 t2 : List String), (∀ b, erase b = false → (b ∈ t1 ↔ b ∈ t2)) →
          ∀ b, erase b = false → (b ∈ a :: t1 ↔ b ∈ t2) := by
        intro t1 t2 ht b hb
        have hne : b ≠ a := fun e => by rw [e, hea] at hb; exact absurd hb (by simp)
        simp only [List.mem_cons, hne, false_or]
        exact ht b hb
      by_cases h1 : a ∈ s1 <;> by_cases h2 : a ∈ s2
      · simp only [h1, h2, if_true]; exact ih s1 s2 h
      · simp only [h1, h2, if_true, if_false, hea]
        exact ih s1 (a :: s2) (fun b hb => (hcons s2 s1 (fun c hc => (h c hc).symm) b hb).symm)
      · simp only [h1, h2, if_true, if_false, hea]
        exact ih (a :: s1) s2 (hcons s1 s2 h)
      · simp only [h1, h2, if_false, hea, if_true]
        refine ih (a :: s1) (a :: s2) (fun b hb => ?_)
        simp only [List.mem_cons, h b hb]
    · have hea2 : erase a = false := by simpa using hea
      have hiff := h a hea2
      by_cases h1 : a ∈ s1
      · have h2 := hiff.mp h1
        simp only [h1, h2, if_true]; exact ih s1 s2 h
      · have h2 : a ∉ s2 := fun hm => h1 (hiff.mpr hm)
        simp only [h1, h2, if_false, hea2, Bool.false_eq_true]
        congr 1
        refine ih (a :: s1) (a :: s2) (fun b hb => ?_)
        simp only [List.mem_cons, h b hb]

/-- The bases the whole walk keeps, from the point the walk has reached: the
entries kept so far, then what the walk keeps of the entries to come. -/
theorem keptRev_mid (erase : String → Bool) (nm : String) (k : Nat) (seen l : List String)
    (h : WalkInv erase nm k seen l) :
    keptRev erase l.reverse [nm] =
      (l.drop k).reverse ++ keptRev erase (l.take k).reverse seen := by
  have hl : l.reverse = (l.drop k).reverse ++ (l.take k).reverse := by
    rw [← List.reverse_append, List.take_append_drop]
  rw [hl, keptRev_append]
  have h1 : keptRev erase (l.drop k).reverse [nm] = (l.drop k).reverse := by
    refine keptRev_eq_self erase _ _ ?_ (List.nodup_reverse.mpr h.nodup)
    intro b hb
    obtain ⟨-, he, hn⟩ := h.upper b (List.mem_reverse.mp hb)
    exact ⟨fun hm => hn (List.mem_singleton.mp hm), he⟩
  rw [h1]
  congr 1
  apply keptRev_congr_seen
  intro b hb
  constructor
  · intro hm
    rcases seenAfter_mem _ _ _ hm with h2 | h2
    · exact (h.upper b (List.mem_reverse.mp h2)).1
    · rw [List.mem_singleton.mp h2]; exact h.name
  · intro hm
    rcases h.seen b hm with h2 | h2 | h2
    · exact mem_seenAfter _ _ _ (Or.inr (List.mem_singleton.mpr h2))
    · exact mem_seenAfter _ _ _ (Or.inl (List.mem_reverse.mpr h2))
    · rw [h2] at hb; exact absurd hb (by simp)

theorem WalkInv.start (erase : String → Bool) (nm : String) (l : List String) :
    WalkInv erase nm l.length [nm] l where
  name := List.mem_singleton.mpr rfl
  upper := fun b hb => by rw [List.drop_length] at hb; exact absurd hb (List.not_mem_nil _)
  nodup := by rw [List.drop_length]; exact List.nodup_nil
  seen := fun b hb => Or.inl (List.mem_singleton.mp hb)
  le := Nat.le_refl _

/-- The walk has erased the entry at index `k`, a name already seen. -/
theorem WalkInv.erasedSeen {erase : String → Bool} {nm : String} {k : Nat}
    {seen l : List String} (h : WalkInv erase nm (k + 1) seen l) :
    WalkInv erase nm k seen (l.eraseIdx k) where
  name := h.name
  upper := fun b hb => by rw [drop_eraseIdx_self] at hb; exact h.upper b hb
  nodup := by rw [drop_eraseIdx_self]; exact h.nodup
  seen := fun b hb => by rw [drop_eraseIdx_self]; exact h.seen b hb
  le := by
    have := h.le
    rw [List.length_eraseIdx]
    split <;> omega

/-- The walk has erased the entry at index `k`, an erasable name `b` that it
had not seen. -/
theorem WalkInv.erasedUnknown {erase : String → Bool} {nm : String} {k : Nat}
    {seen l : List String} (h : WalkInv erase nm (k + 1) seen l) {b : String}
    (hb : erase b = true) : WalkInv erase nm k (b :: seen) (l.eraseIdx k) where
  name := List.mem_cons_of_mem _ h.name
  upper := fun c hc => by
    rw [drop_eraseIdx_self] at hc
    obtain ⟨h1, h2, h3⟩ := h.upper c hc
    exact ⟨List.mem_cons_of_mem _ h1, h2, h3⟩
  nodup := by rw [drop_eraseIdx_self]; exact h.nodup
  seen := fun c hc => by
    rw [drop_eraseIdx_self]
    rcases List.mem_cons.mp hc with h1 | h1
    · exact Or.inr (Or.inr (h1 ▸ hb))
    · exact h.seen c h1
  le := by
    have := h.le
    rw [List.length_eraseIdx]
    split <;> omega

/-- The walk has kept the entry `b` at index `k`, which it had not seen. -/
theorem WalkInv.keptEntry {erase : String → Bool} {nm : String} {k : Nat}
    {seen l : List String} (h : WalkInv erase nm (k + 1) seen l) {b : String}
    (hk : l[k]? = some b) (hs : b ∉ seen) (he : erase b = false) :
    WalkInv erase nm k (b :: seen) l where
  name := List.mem_cons_of_mem _ h.name
  upper := fun c hc => by
    rw [drop_eq_cons_of_getElem? hk] at hc
    rcases List.mem_cons.mp hc with h1 | h1
    · rw [h1]
      exact ⟨List.mem_cons_self _ _, he, fun e => hs (e ▸ h.name)⟩
    · obtain ⟨h2, h3, h4⟩ := h.upper c h1
      exact ⟨List.mem_cons_of_mem _ h2, h3, h4⟩
  nodup := by
    rw [drop_eq_cons_of_getElem? hk]
    exact List.nodup_cons.mpr ⟨fun hm => hs (h.upper b hm).1, h.nodup⟩
  seen := fun c hc => by
    rw [drop_eq_cons_of_getElem? hk]
    rcases List.mem_cons.mp hc with h1 | h1
    · exact Or.inr (Or.inl (h1 ▸ List.mem_cons_self _ _))
    · rcases h.seen c h1 with h2 | h2 | h2
      · exact Or.inl h2
      · exact Or.inr (Or.inl (List.mem_cons_of_mem _ h2))
      · exact Or.inr (Or.inr h2)
  le := Nat.le_of_succ_le h.le

theorem classCore_parent {a b : ClassScope} (h : classCore a = classCore b) :
    a.parent = b.parent := by
  have h1 := congrArg ClassScope.parent h
  exact h1

theorem classCore_name {a b : ClassScope} (h : classCore a = classCore b) :
    a.name = b.name := by
  have h1 := congrArg ClassScope.name h
  exact h1

theorem classCore_functions {a b : ClassScope} (h : classCore a = classCore b) :
    a.functions = b.functions := by
  have h1 := congrArg ClassScope.functions h
  exact h1

theorem classCore_missingMethods {a b : ClassScope} (h : classCore a = classCore b) :
    a.missingMethods = b.missingMethods := by
  have h1 := congrArg ClassScope.missingMethods h
  exact h1

theorem classCore_isRedeclaring {a b : ClassScope} (h : classCore a = classCore b) :
    a.isRedeclaring = b.isRedeclaring := by
  have h1 : a.redeclaring = b.redeclaring := by
    have h2 := congrArg ClassScope.redeclaring h
    exact h2
  simp [ClassScope.isRedeclaring, h1]

theorem Later.lrefl (forInvoke : Bool) (ar : AnalysisResult) : Later forInvoke ar ar :=
  ⟨rfl, fun _ => rfl, fun _ => rfl, fun _ => rfl⟩

theorem Later.but {forInvoke : Bool} {ar0 ar : AnalysisResult} (h : Later forInvoke ar0 ar)
    (self : ClassId) : LaterBut self forInvoke ar0 ar :=
  ⟨h.classDecs, h.core, h.isPrivate, fun x _ => h.kept x⟩

/-- A later state but for `self` stays one when only the scope of `self`
changes. -/
theorem LaterBut.selfStep {self : ClassId} {forInvoke : Bool} {ar0 ar ar1 : AnalysisResult}
    (h : LaterBut self forInvoke ar0 ar) (hev : Evolves ar ar1)
    (honly : OnlySelf self ar ar1) : LaterBut self forInvoke ar0 ar1 where
  classDecs := hev.classDecs.trans h.classDecs
  core := fun x => (hev.core x).trans (h.core x)
  isPrivate := fun f => (hev.isPrivate f).trans (h.isPrivate f)
  kept := fun x hx =>
    (keptBases_congr hev.classDecs x (honly x hx) forInvoke).trans (h.kept x hx)

/-- A later state but for `self` is a later state once the bases `self` keeps
are those it keeps in `ar0`. -/
theorem LaterBut.full {self : ClassId} {forInvoke : Bool} {ar0 ar : AnalysisResult}
    (h : LaterBut self forInvoke ar0 ar)
    (hs : keptBases ar self forInvoke = keptBases ar0 self forInvoke) :
    Later forInvoke ar0 ar where
  classDecs := h.classDecs
  core := h.core
  isPrivate := h.isPrivate
  kept := fun x => by
    by_cases hx : x = self
    · rw [hx]; exact hs
    · exact h.kept x hx

theorem mem_keptBases {ar : AnalysisResult} {self : ClassId} {forInvoke : Bool}
    {base : String} (hb : base ∈ (ar.classScopes self).bases)
    (hname : base ≠ (ar.classScopes self).name)
    (he : erasable ar self forInvoke base = false) : base ∈ keptBases ar self forInvoke := by
  unfold keptBases
  exact mem_keptRev _ _ _ _ (List.mem_reverse.mpr hb)
    (fun hm => hname (List.mem_singleton.mp hm)) he

/-! ## The run agrees with the reference semantics on every graph -/

theorem collectCandidates_sim (forInvoke : Bool) (ar0 : AnalysisResult) (g : Nat)
    (hS : RecSim forInvoke ar0 g) (pristine : FuncMap) (cands : List ClassId) :
    ∀ (ar : AnalysisResult) (funcs : FuncMap), Later forInvoke ar0 ar →
      (∀ ar1 funcs1,
        collectCandidates (fun a d t => collectMethods g a d t false forInvoke) pristine cands
          ar funcs = some (ar1, funcs1) →
        ∃ added,
          (∀ marks, pureCandidates (fun d t => pureCollect g ar0 d t false forInvoke) pristine
            cands funcs marks = some (funcs1, added ++ marks)) ∧
          ar1.functionScopes = markFuncs added ar.functionScopes ∧
          Later forInvoke ar0 ar1 ∧
          (∀ d, d ∈ cands → Returns ar0 forInvoke g d) ∧
          (∀ y, (∀ d, d ∈ cands → ¬BelowLe ar0 forInvoke y d) →
            ar1.classScopes y = ar.classScopes y)) ∧
      (∀ marks,
        (pureCandidates (fun d t => pureCollect g ar0 d t false forInvoke) pristine cands
          funcs marks).isSome = true →
        (collectCandidates (fun a d t => collectMethods g a d t false forInvoke) pristine cands
          ar funcs).isSome = true) := by
  induction cands with
  | nil =>
    intro ar funcs hL
    refine ⟨?_, fun _ _ => rfl⟩
    intro ar1 funcs1 h
    simp only [collectCandidates, Option.some.injEq, Prod.mk.injEq] at h
    obtain ⟨rfl, rfl⟩ := h
    exact ⟨[], fun _ => rfl, (markFuncs_nil _).symm, hL,
      fun d hd => absurd hd (List.not_mem_nil _), fun _ _ => rfl⟩
  | cons cls rest ih =>
    intro ar funcs hL
    obtain ⟨hS1, hS2⟩ := hS ar cls pristine hL
    constructor
    · intro ar1 funcs1 h
      simp only [collectCandidates] at h
      cases hcall : collectMethods g ar cls pristine false forInvoke with
      | none => simp [hcall] at h
      | some q =>
        obtain ⟨ar2, cur⟩ := q
        simp only [hcall] at h
        obtain ⟨m1, hp1, hf1, hL2, hfr1⟩ := hS1 ar2 cur hcall
        obtain ⟨added, hp2, hf2, hL3, hret, hfr2⟩ := (ih ar2 _ hL2).1 ar1 funcs1 h
        refine ⟨added ++ m1, fun marks => ?_, ?_, hL3, ?_, ?_⟩
        · simp only [pureCandidates, hp1]
          rw [hp2]; simp
        · rw [hf2, hf1, ← markFuncs_append]
        · intro d hd
          rcases List.mem_cons.mp hd with rfl | hd1
          · exact returns_of_pureCollect hp1
          · exact hret d hd1
        · intro y hy
          rw [hfr2 y (fun d hd => hy d (List.mem_cons_of_mem _ hd)),
            hfr1 y (hy cls (List.mem_cons_self _ _))]
    · intro marks hp
      simp only [pureCandidates] at hp
      cases hpc : pureCollect g ar0 cls pristine false forInvoke with
      | none => simp [hpc] at hp
      | some q =>
        obtain ⟨cur, m1⟩ := q
        simp only [hpc] at hp
        have hsome := hS2 (by rw [hpc]; rfl)
        cases hcall : collectMethods g ar cls pristine false forInvoke with
        | none => rw [hcall] at hsome; simp at hsome
        | some q1 =>
          obtain ⟨ar2, cur1⟩ := q1
          obtain ⟨m2, hp1, -, hL2, -⟩ := hS1 ar2 cur1 hcall
          rw [hpc] at hp1
          simp only [Option.some.injEq, Prod.mk.injEq] at hp1
          obtain ⟨rfl, rfl⟩ := hp1
          simp only [collectCandidates, hcall]
          exact (ih ar2 _ hL2).2 _ hp

/-- One iteration of the walk against the reference semantics, on any graph:
either the base is dropped (already seen, or erased as unknown) and the table
and the functions stay, or the base is kept and the iteration is the reference
visit of it; the scope of `self` changes by the iteration's own updates only. -/
theorem walkStep_sim (forInvoke : Bool) (ar0 : AnalysisResult) (g : Nat) (self : ClassId)
    (hS : RecSim forInvoke ar0 g)
    {i : Nat} {seen : List String} {ar : AnalysisResult} {funcs : FuncMap}
    {seen1 : List String} {ar1 : AnalysisResult} {funcs1 : FuncMap}
    (hrel : Later forInvoke ar0 ar) (hname : (ar.classScopes self).name ∈ seen)
    (h : WalkStep (fun a d t => collectMethods g a d t false forInvoke) self forInvoke i seen
      ar funcs seen1 ar1 funcs1) :
    LaterBut self forInvoke ar0 ar1 ∧
    (∀ y, y ≠ self → ¬BelowLe ar0 forInvoke y self → ar1.classScopes y = ar.classScopes y) ∧
    ∃ base, (ar.classScopes self).bases[i]? = some base ∧
      ((funcs1 = funcs ∧ ar1.functionScopes = ar.functionScopes ∧
          (ar1.classScopes self).bases = (ar.classScopes self).bases.eraseIdx i ∧
          ((base ∈ seen ∧ seen1 = seen) ∨
            (base ∉ seen ∧ erasable ar0 self forInvoke base = true ∧ seen1 = base :: seen))) ∨
        (base ∉ seen ∧ erasable ar0 self forInvoke base = false ∧ seen1 = base :: seen ∧
          (ar1.classScopes self).bases = (ar.classScopes self).bases ∧
          ∃ added,
            (∀ marks, pureVisit (fun d t => pureCollect g ar0 d t false forInvoke) ar0 self
              forInvoke base funcs marks = some (funcs1, added ++ marks)) ∧
            ar1.functionScopes = markFuncs added ar.functionScopes)) := by
  have hpar : (ar.classScopes self).parent = (ar0.classScopes self).parent :=
    classCore_parent (hrel.core self)
  have hfc : ∀ b, findClass ar b = findClass ar0 b := fun b => findClass_congr hrel.classDecs b
  have hrd : ∀ x, (ar.classScopes x).isRedeclaring = (ar0.classScopes x).isRedeclaring :=
    fun x => classCore_isRedeclaring (hrel.core x)
  have hbut := hrel.but self
  have honly : ∀ {t : AnalysisResult}, OnlySelf self ar t →
      ∀ y, y ≠ self → ¬BelowLe ar0 forInvoke y self → t.classScopes y = ar.classScopes y :=
    fun ho y hy _ => ho y hy
  cases h with
  | invalid base hbase hseen =>
    refine ⟨hbut.selfStep ((Evolves_record _ _ _ _).trans (Evolves_eraseBase _ _ _))
      ((OnlySelf_record _ _ _ _ _).otrans (OnlySelf_eraseBase _ _ _)),
      honly ((OnlySelf_record _ _ _ _ _).otrans (OnlySelf_eraseBase _ _ _)),
      base, hbase, Or.inl ?_⟩
    exact ⟨rfl, rfl, by rw [eraseBase_bases]; rfl, Or.inl ⟨hseen, rfl⟩⟩
  | skipped base hbase hseen hinvoke hparent =>
    refine ⟨hbut, fun _ _ _ => rfl, base, hbase,
      Or.inr ⟨hseen, ?_, rfl, rfl, [], ?_, (markFuncs_nil _).symm⟩⟩
    · simp [erasable, hinvoke]
    · intro marks
      rw [hpar] at hparent
      simp [pureVisit, hinvoke, hparent]
  | redeclaredParentInvoke base super hbase hseen hinvoke hparent hfind hredec =>
    refine ⟨hbut, fun _ _ _ => rfl, base, hbase,
      Or.inr ⟨hseen, ?_, rfl, rfl, [], ?_, (markFuncs_nil _).symm⟩⟩
    · simp [erasable, hinvoke]
    · intro marks
      rw [hpar] at hparent
      rw [hfc] at hfind
      rw [hrd] at hredec
      have hskip : (forInvoke && base != (ar0.classScopes self).parent) = false := by
        simp [hparent]
      simp only [pureVisit, hskip, hfind, hredec, if_true, if_pos hparent, hinvoke]
      simp
  | redeclaredParent base super ar2 funcs2 hbase hseen hinvoke hparent hfind hredec hcands =>
    subst hinvoke
    have hfind0 : findClass ar0 base = some super := by rw [← hfc]; exact hfind
    have hredec0 : (ar0.classScopes super).isRedeclaring = true := by rw [← hrd]; exact hredec
    have hparent0 : base = (ar0.classScopes self).parent := by rw [← hpar]; exact hparent
    have hkept : base ∈ keptBases ar0 self false := by
      rw [← hrel.kept self]
      exact mem_keptBases (mem_of_getElem?_eq_some hbase) (fun e => hseen (e ▸ hname))
        (by simp [erasable, hfind])
    have hcl : findClasses ar (ar.classScopes self).parent =
        findClasses ar0 (ar0.classScopes self).parent := by
      rw [hpar, findClasses_congr hrel.classDecs]
    have hedge : ∀ d, d ∈ findClasses ar (ar.classScopes self).parent →
        Edge ar0 false self d := by
      intro d hd
      rw [hcl] at hd
      exact Edge.candidate (hparent0 ▸ hkept) (hparent0 ▸ hfind0) hredec0 hd
    obtain ⟨added, hp, hf, hrel2, hret, hfr⟩ :=
      (collectCandidates_sim false ar0 g hS funcs _ ar funcs hrel).1 _ _ hcands
    have hself : ar2.classScopes self = ar.classScopes self :=
      hfr self (fun d hd hb => (hedge d hd).descent hb g (hret d hd))
    refine ⟨(hrel2.but self).selfStep (Evolves_afterRedeclaredParent _ _)
      (OnlySelf_afterRedeclaredParent _ _), ?_, base, hbase,
      Or.inr ⟨hseen, ?_, rfl, ?_, added, ?_, ?_⟩⟩
    · intro y hy hnb
      rw [OnlySelf_afterRedeclaredParent _ _ y hy]
      exact hfr y (fun d hd hb => hnb (hb.edge (hedge d hd)))
    · simp [erasable, hfind0]
    · rw [afterRedeclaredParent_bases, hself]
    · intro marks
      rw [hcl] at hp
      simp only [pureVisit, Bool.false_and, hfind0, hredec0, if_true, if_pos hparent0,
        Bool.false_eq_true, if_false]
      exact hp marks
    · rw [afterRedeclaredParent_functionScopes, hf]
  | redeclaredBase base super hbase hseen hinvoke hparent hfind hredec =>
    refine ⟨hbut.selfStep (Evolves_afterRedeclaredBase _ _) (OnlySelf_afterRedeclaredBase _ _),
      honly (OnlySelf_afterRedeclaredBase _ _),
      base, hbase, Or.inr ⟨hseen, ?_, rfl, ?_, [], ?_, ?_⟩⟩
    · simp [erasable, ← hfc, hfind]
    · rw [afterRedeclaredBase_bases]
    · intro marks
      rw [hpar] at hparent
      rw [hfc] at hfind
      rw [hrd] at hredec
      simp [pureVisit, hinvoke, hparent, hfind, hredec]
    · rw [afterRedeclaredBase_functionScopes, markFuncs_nil]
  | known base super ar2 funcs2 hbase hseen hfollow hfind hredec hcall =>
    have hfind0 : findClass ar0 base = some super := by rw [← hfc]; exact hfind
    have hredec0 : (ar0.classScopes super).isRedeclaring = false := by rw [← hrd]; exact hredec
    have hfollow0 : forInvoke = false ∨ base = (ar0.classScopes self).parent := by
      rw [← hpar]; exact hfollow
    have hkept : base ∈ keptBases ar0 self forInvoke := by
      rw [← hrel.kept self]
      refine mem_keptBases (mem_of_getElem?_eq_some hbase) (fun e => hseen (e ▸ hname)) ?_
      simp [erasable, hfind]
    have hedge : Edge ar0 forInvoke self super := Edge.known hkept hfollow0 hfind0 hredec0
    obtain ⟨added, hp, hf, hrel2, hfr⟩ := (hS ar super funcs hrel).1 _ _ hcall
    have hret : Returns ar0 forInvoke g super := returns_of_pureCollect hp
    have hself : ar2.classScopes self = ar.classScopes self :=
      hfr self (fun hb => hedge.descent hb g hret)
    refine ⟨(hrel2.but self).selfStep (Evolves_afterKnownBase _ _ _ _)
      (OnlySelf_afterKnownBase _ _ _ _), ?_, base, hbase,
      Or.inr ⟨hseen, ?_, rfl, ?_, added, ?_, ?_⟩⟩
    · intro y hy hnb
      rw [OnlySelf_afterKnownBase _ _ _ _ y hy]
      exact hfr y (fun hb => hnb (hb.edge hedge))
    · simp [erasable, hfind0]
    · rw [afterKnownBase_bases, hself]
    · intro marks
      have hskip : (forInvoke && base != (ar0.classScopes self).parent) = false := by
        rcases hfollow0 with hf | hf <;> simp [hf]
      simp [pureVisit, hskip, hfind0, hredec0, hp]
    · rw [afterKnownBase_functionScopes, hf]
  | unknown base hbase hseen hfollow hfind =>
    refine ⟨hbut.selfStep (Evolves_afterUnknownBase _ _ _ _)
      (OnlySelf_afterUnknownBase _ _ _ _), honly (OnlySelf_afterUnknownBase _ _ _ _),
      base, hbase, ?_⟩
    by_cases hparent : base = (ar.classScopes self).parent
    · refine Or.inr ⟨hseen, ?_, rfl, ?_, [], ?_, ?_⟩
      · rw [hpar] at hparent
        simp [erasable, hparent]
      · rw [afterUnknownBase_bases, if_pos hparent]
      · intro marks
        have hskip : (forInvoke && base != (ar0.classScopes self).parent) = false := by
          rw [← hpar]; simp [hparent]
        rw [hfc] at hfind
        simp [pureVisit, hskip, hfind]
      · rw [afterUnknownBase_functionScopes, markFuncs_nil]
    · have hinvoke : forInvoke = false := by
        rcases hfollow with hf | hf
        · exact hf
        · exact absurd hf hparent
      refine Or.inl ⟨rfl, afterUnknownBase_functionScopes _ _ _ _, ?_, Or.inr ⟨hseen, ?_, rfl⟩⟩
      · rw [afterUnknownBase_bases, if_neg hparent]
      · rw [hpar] at hparent
        rw [hfc] at hfind
        simp [erasable, hinvoke, hfind, hparent]

theorem walkBase_isSome
    (rec : AnalysisResult → ClassId → FuncMap → Option (AnalysisResult × FuncMap))
    (self : ClassId) (forInvoke : Bool) (i : Nat) (seen : List String) (ar : AnalysisResult)
    (funcs : FuncMap) (base : String) (hbase : (ar.classScopes self).bases[i]? = some base)
    (hrec : ∀ super, base ∉ seen → (forInvoke = false ∨ base = (ar.classScopes self).parent) →
      findClass ar base = some super → (ar.classScopes super).isRedeclaring = false →
      (rec ar super funcs).isSome = true)
    (hcands : ∀ super, base ∉ seen → forInvoke = false →
      base = (ar.classScopes self).parent → findClass ar base = some super →
      (ar.classScopes super).isRedeclaring = true →
      (collectCandidates rec funcs (findClasses ar (ar.classScopes self).parent) ar
        funcs).isSome = true) :
    (walkBase rec self forInvoke i seen ar funcs).isSome = true := by
  unfold walkBase
  simp only [hbase]
  by_cases hseen : base ∈ seen
  · simp [hseen]
  · simp only [hseen, if_false]
    cases hskip : (forInvoke && base != (ar.classScopes self).parent) with
    | true => simp
    | false =>
      simp only [Bool.false_eq_true, if_false]
      have hfollow : forInvoke = false ∨ base = (ar.classScopes self).parent := by
        cases forInvoke with
        | false => exact Or.inl rfl
        | true => right; simpa using hskip
      cases hfind : findClass ar base with
      | none =>
        simp only []
        split
        · rfl
        · split <;> rfl
      | some super =>
        simp only []
        cases hredec : (ar.classScopes super).isRedeclaring with
        | true =>
          simp only [if_true]
          by_cases hparent : base = (ar.classScopes self).parent
          · simp only [if_pos hparent]
            cases hinv : forInvoke with
            | true => simp
            | false =>
              simp only [Bool.false_eq_true, if_false]
              have := hcands super hseen hinv hparent hfind hredec
              cases hc : collectCandidates rec funcs
                  (findClasses ar (ar.classScopes self).parent) ar funcs with
              | none => rw [hc] at this; simp at this
              | some q =>
                obtain ⟨a1, t1⟩ := q
                rfl
          · simp only [if_neg hparent]
            split <;> rfl
        | false =>
          simp only [Bool.false_eq_true, if_false]
          have := hrec super hseen hfollow hfind hredec
          cases hc : rec ar super funcs with
          | none => rw [hc] at this; simp at this
          | some q =>
            obtain ⟨a1, t1⟩ := q
            simp only []
            split
            · split
              · rfl
              · split <;> rfl
            · rfl

/-- The bases `self` keeps, from the point its walk has reached. -/
theorem keptBases_of_inv {ar0 ar : AnalysisResult} {self : ClassId} {forInvoke : Bool}
    (hd : ar.classDecs = ar0.classDecs)
    (hc : classCore (ar.classScopes self) = classCore (ar0.classScopes self))
    {k : Nat} {seen : List String}
    (hinv : WalkInv (erasable ar0 self forInvoke) (ar0.classScopes self).name k seen
      (ar.classScopes self).bases) :
    keptBases ar self forInvoke =
      ((ar.classScopes self).bases.drop k).reverse ++
        keptRev (erasable ar0 self forInvoke) ((ar.classScopes self).bases.take k).reverse
          seen := by
  rw [keptBases, erasable_congr hd self (classCore_parent hc), classCore_name hc]
  exact keptRev_mid _ _ _ _ _ hinv

/-- One iteration of the walk, on any graph, hands over to the next: the state
is a later state of `ar0`, the walk has kept what the reference walk keeps, and
the iteration was the reference visit of the base, if the base is kept. -/
theorem walkStep_next (forInvoke : Bool) (ar0 : AnalysisResult) (g : Nat) (self : ClassId)
    (hS : RecSim forInvoke ar0 g)
    {k : Nat} {seen : List String} {ar : AnalysisResult} {funcs : FuncMap}
    {seen2 : List String} {ar2 : AnalysisResult} {funcs2 : FuncMap}
    (hrel : Later forInvoke ar0 ar)
    (hinv : WalkInv (erasable ar0 self forInvoke) (ar0.classScopes self).name (k + 1) seen
      (ar.classScopes self).bases)
    (h : WalkStep (fun a d t => collectMethods g a d t false forInvoke) self forInvoke k seen
      ar funcs seen2 ar2 funcs2) :
    Later forInvoke ar0 ar2 ∧
    WalkInv (erasable ar0 self forInvoke) (ar0.classScopes self).name k seen2
      (ar2.classScopes self).bases ∧
    (∀ y, y ≠ self → ¬BelowLe ar0 forInvoke y self → ar2.classScopes y = ar.classScopes y) ∧
    ((funcs2 = funcs ∧ ar2.functionScopes = ar.functionScopes ∧
        keptRev (erasable ar0 self forInvoke) ((ar.classScopes self).bases.take (k + 1)).reverse
            seen =
          keptRev (erasable ar0 self forInvoke) ((ar2.classScopes self).bases.take k).reverse
            seen2) ∨
      ∃ base added,
        keptRev (erasable ar0 self forInvoke) ((ar.classScopes self).bases.take (k + 1)).reverse
            seen =
          base :: keptRev (erasable ar0 self forInvoke)
            ((ar2.classScopes self).bases.take k).reverse seen2 ∧
        (∀ marks, pureVisit (fun d t => pureCollect g ar0 d t false forInvoke) ar0 self
          forInvoke base funcs marks = some (funcs2, added ++ marks)) ∧
        ar2.functionScopes = markFuncs added ar.functionScopes) := by
  have hname : (ar.classScopes self).name ∈ seen := by
    rw [classCore_name (hrel.core self)]; exact hinv.name
  obtain ⟨hbut, hframe, base, hbase, hcase⟩ := walkStep_sim forInvoke ar0 g self hS hrel hname h
  have hold := keptBases_of_inv hrel.classDecs (hrel.core self) hinv
  rw [hrel.kept self, take_succ_reverse hbase] at hold
  rw [take_succ_reverse hbase]
  rcases hcase with ⟨hfuncs, hfs, hbases, hdrop⟩ | ⟨hseen, herase, hseen2, hbases, added1,
      hvisit, hfs⟩
  · have hkept : keptRev (erasable ar0 self forInvoke)
        (base :: ((ar.classScopes self).bases.take k).reverse) seen =
        keptRev (erasable ar0 self forInvoke)
          ((ar.classScopes self).bases.take k).reverse seen2 := by
      rcases hdrop with ⟨hs, rfl⟩ | ⟨hs, he, rfl⟩
      · simp [keptRev, hs]
      · simp [keptRev, hs, he]
    have hinv2 : WalkInv (erasable ar0 self forInvoke) (ar0.classScopes self).name k seen2
        (ar2.classScopes self).bases := by
      rw [hbases]
      rcases hdrop with ⟨hs, rfl⟩ | ⟨hs, he, rfl⟩
      · exact hinv.erasedSeen
      · exact hinv.erasedUnknown he
    have htake : (ar2.classScopes self).bases.take k = (ar.classScopes self).bases.take k := by
      rw [hbases, take_eraseIdx_of_le _ _ _ (Nat.le_refl _)]
    refine ⟨hbut.full ?_, hinv2, hframe, Or.inl ⟨hfuncs, hfs, by rw [htake]; exact hkept⟩⟩
    rw [keptBases_of_inv hbut.classDecs (hbut.core self) hinv2, htake, hold, hkept, hbases,
      drop_eraseIdx_self]
  · have hkept : keptRev (erasable ar0 self forInvoke)
        (base :: ((ar.classScopes self).bases.take k).reverse) seen =
        base :: keptRev (erasable ar0 self forInvoke)
          ((ar.classScopes self).bases.take k).reverse (base :: seen) := by
      simp [keptRev, hseen, herase]
    have hinv2 : WalkInv (erasable ar0 self forInvoke) (ar0.classScopes self).name k seen2
        (ar2.classScopes self).bases := by
      rw [hbases, hseen2]
      exact hinv.keptEntry hbase hseen herase
    refine ⟨hbut.full ?_, hinv2, hframe,
      Or.inr ⟨base, added1, by rw [hbases, hseen2]; exact hkept, hvisit, hfs⟩⟩
    rw [keptBases_of_inv hbut.classDecs (hbut.core self) hinv2, hbases, hold, hkept, hseen2,
      drop_eq_cons_of_getElem? hbase]
    simp

/-- The walk over the bases against the reference walk, on any graph: a walk
that returns gives what the reference walk over the kept bases gives, and the
walk returns whenever the reference walk does. -/
theorem walkBases_sim (forInvoke : Bool) (ar0 : AnalysisResult) (g : Nat) (self : ClassId)
    (hS : RecSim forInvoke ar0 g) (k : Nat) :
    ∀ (seen : List String) (ar : AnalysisResult) (funcs : FuncMap) (marks : List FuncId),
      Later forInvoke ar0 ar →
      WalkInv (erasable ar0 self forInvoke) (ar0.classScopes self).name k seen
        (ar.classScopes self).bases →
      (∀ ar1 funcs1,
        walkBases (fun a d t => collectMethods g a d t false forInvoke) self forInvoke k seen
          ar funcs = some (ar1, funcs1) →
        ∃ added,
          pureWalk (fun d t => pureCollect g ar0 d t false forInvoke) ar0 self forInvoke
            (keptRev (erasable ar0 self forInvoke)
              ((ar.classScopes self).bases.take k).reverse seen) funcs marks =
            some (funcs1, added ++ marks) ∧
          ar1.functionScopes = markFuncs added ar.functionScopes ∧
          Later forInvoke ar0 ar1 ∧
          (∀ y, y ≠ self → ¬BelowLe ar0 forInvoke y self →
            ar1.classScopes y = ar.classScopes y)) ∧
      ((pureWalk (fun d t => pureCollect g ar0 d t false forInvoke) ar0 self forInvoke
          (keptRev (erasable ar0 self forInvoke)
            ((ar.classScopes self).bases.take k).reverse seen) funcs marks).isSome = true →
        (walkBases (fun a d t => collectMethods g a d t false forInvoke) self forInvoke k seen
          ar funcs).isSome = true) := by
  induction k with
  | zero =>
    intro seen ar funcs marks hrel hinv
    constructor
    · intro ar1 funcs1 h
      simp only [walkBases, Option.some.injEq, Prod.mk.injEq] at h
      obtain ⟨rfl, rfl⟩ := h
      exact ⟨[], by simp [keptRev, pureWalk], (markFuncs_nil _).symm, hrel, fun _ _ _ => rfl⟩
    · intro _; rfl
  | succ k ih =>
    intro seen ar funcs marks hrel hinv
    constructor
    · intro ar1 funcs1 h
      simp only [walkBases] at h
      cases hstep : walkBase (fun a d t => collectMethods g a d t false forInvoke) self
          forInvoke k seen ar funcs with
      | none => simp [hstep] at h
      | some q =>
        obtain ⟨seen2, ar2, funcs2⟩ := q
        simp only [hstep] at h
        obtain ⟨hrel2, hinv2, hframe, hcase⟩ := walkStep_next forInvoke ar0 g self hS hrel hinv
          (walkStep_of_walkBase hstep)
        rcases hcase with ⟨hfuncs, hfs, hlist⟩ | ⟨base, added1, hlist, hvisit, hfs⟩
        · obtain ⟨added, hp, hf, hrel1, hfr1⟩ := (ih seen2 ar2 funcs2 marks hrel2 hinv2).1 _ _ h
          rw [hlist, ← hfuncs]
          refine ⟨added, hp, by rw [hf, hfs], hrel1, ?_⟩
          intro y hy hnb
          rw [hfr1 y hy hnb, hframe y hy hnb]
        · obtain ⟨added, hp, hf, hrel1, hfr1⟩ :=
            (ih seen2 ar2 funcs2 (added1 ++ marks) hrel2 hinv2).1 _ _ h
          rw [hlist]
          refine ⟨added ++ added1, ?_, ?_, hrel1, ?_⟩
          · simp only [pureWalk, hvisit marks]
            rw [hp]; simp
          · rw [hf, hfs, ← markFuncs_append]
          · intro y hy hnb
            rw [hfr1 y hy hnb, hframe y hy hnb]
    · intro hp
      have hk : k < (ar.classScopes self).bases.length := hinv.le
      obtain ⟨base, hbase⟩ : ∃ base, (ar.classScopes self).bases[k]? = some base :=
        ⟨_, List.getElem?_eq_getElem hk⟩
      have hpar : (ar.classScopes self).parent = (ar0.classScopes self).parent :=
        classCore_parent (hrel.core self)
      have hfc : ∀ b, findClass ar b = findClass ar0 b :=
        fun b => findClass_congr hrel.classDecs b
      have hrd : ∀ x, (ar.classScopes x).isRedeclaring = (ar0.classScopes x).isRedeclaring :=
        fun x => classCore_isRedeclaring (hrel.core x)
      -- the reference visit of a base that the walk follows
      have hvis : ∀ super, base ∉ seen → findClass ar base = some super →
          (pureVisit (fun d t => pureCollect g ar0 d t false forInvoke) ar0 self forInvoke base
            funcs marks).isSome = true := by
        intro super hseen hfind
        have herase : erasable ar0 self forInvoke base = false := by
          simp [erasable, ← hfc, hfind]
        rw [take_succ_reverse hbase] at hp
        simp only [keptRev, hseen, if_false, herase, Bool.false_eq_true, pureWalk] at hp
        cases hv : pureVisit (fun d t => pureCollect g ar0 d t false forInvoke) ar0 self
            forInvoke base funcs marks with
        | none => simp [hv] at hp
        | some q => rfl
      have hsome := walkBase_isSome (fun a d t => collectMethods g a d t false forInvoke) self
        forInvoke k seen ar funcs base hbase
        (by
          intro super hseen hfollow hfind hredec
          have hv := hvis super hseen hfind
          have hskip : (forInvoke && base != (ar0.classScopes self).parent) = false := by
            rw [← hpar]
            rcases hfollow with hf | hf <;> simp [hf]
          rw [hfc] at hfind
          rw [hrd] at hredec
          simp only [pureVisit, hskip, hfind, hredec, Bool.false_eq_true, if_false] at hv
          refine (hS ar super funcs hrel).2 ?_
          cases hc : pureCollect g ar0 super funcs false forInvoke with
          | none => simp [hc] at hv
          | some q => rfl)
        (by
          intro super hseen hinvoke hparent hfind hredec
          subst hinvoke
          have hv := hvis super hseen hfind
          have hcl : findClasses ar (ar.classScopes self).parent =
              findClasses ar0 (ar0.classScopes self).parent := by
            rw [hpar, findClasses_congr hrel.classDecs]
          rw [hfc] at hfind
          rw [hrd] at hredec
          rw [hpar] at hparent
          simp only [pureVisit, Bool.false_and, hfind, hredec, if_true, if_pos hparent,
            Bool.false_eq_true, if_false] at hv
          rw [hcl]
          exact (collectCandidates_sim false ar0 g hS funcs _ ar funcs hrel).2 marks hv)
      cases hstep : walkBase (fun a d t => collectMethods g a d t false forInvoke) self
          forInvoke k seen ar funcs with
      | none => rw [hstep] at hsome; simp at hsome
      | some q =>
        obtain ⟨seen2, ar2, funcs2⟩ := q
        simp only [walkBases, hstep]
        obtain ⟨hrel2, hinv2, -, hcase⟩ := walkStep_next forInvoke ar0 g self hS hrel hinv
          (walkStep_of_walkBase hstep)
        rcases hcase with ⟨hfuncs, -, hlist⟩ | ⟨base1, added1, hlist, hvisit, -⟩
        · rw [hlist, ← hfuncs] at hp
          exact (ih seen2 ar2 funcs2 marks hrel2 hinv2).2 hp
        · rw [hlist] at hp
          simp only [pureWalk, hvisit marks] at hp
          exact (ih seen2 ar2 funcs2 (added1 ++ marks) hrel2 hinv2).2 hp

theorem collectOwn_cons (cp : Bool) (name : String) (vec : List FuncId)
    (rest : List (String × List FuncId)) (ar : AnalysisResult) (funcs : FuncMap)
    (last : FuncId) (h : vec.getLast? = some last) :
    ∃ a t, collectOwn cp ((name, vec) :: rest) ar funcs = collectOwn cp rest a t := by
  simp only [collectOwn, h]
  cases hs : (!cp && (ar.functionScopes last).isPrivate) with
  | true => exact ⟨_, _, rfl⟩
  | false =>
    cases hf : mapFind funcs name with
    | none => exact ⟨_, _, rfl⟩
    | some e => exact ⟨_, _, rfl⟩

/-- The first loop returns whenever the reference loop does. -/
theorem collectOwn_isSome (ar0 : AnalysisResult) (cp : Bool)
    (l : List (String × List FuncId)) :
    ∀ (funcs funcs1 : FuncMap) (marks : List FuncId) (ar : AnalysisResult),
      (pureOwn ar0 cp l funcs marks).isSome = true →
      (collectOwn cp l ar funcs1).isSome = true := by
  induction l with
  | nil => intro _ _ _ _ _; rfl
  | cons e rest ih =>
    obtain ⟨name, vec⟩ := e
    intro funcs funcs1 marks ar h
    cases hlast : vec.getLast? with
    | none => simp [pureOwn, hlast] at h
    | some last =>
      obtain ⟨t, m, e1⟩ := pureOwn_cons ar0 cp name vec rest funcs marks last hlast
      obtain ⟨a, t1, e2⟩ := collectOwn_cons cp name vec rest ar funcs1 last hlast
      rw [e1] at h
      rw [e2]
      exact ih t t1 m a h

/-- `collectMethods` agrees with the reference semantics on every graph: run
from a later state of `ar0`, a run that returns gives the table `pureCollect`
computes on `ar0`, marks virtual the functions `pureCollect` lists, leaves a
later state of `ar0` and changes only classes the reference computation goes
through; and the run returns whenever `pureCollect` does. -/
theorem collectMethods_sim (forInvoke : Bool) (ar0 : AnalysisResult) (g : Nat) :
    ∀ (cp : Bool) (a : AnalysisResult) (d : ClassId) (t : FuncMap), Later forInvoke ar0 a →
      (∀ a1 t1, collectMethods g a d t cp forInvoke = some (a1, t1) →
        ∃ marks, pureCollect g ar0 d t cp forInvoke = some (t1, marks) ∧
          a1.functionScopes = markFuncs marks a.functionScopes ∧ Later forInvoke ar0 a1 ∧
          ∀ y, ¬BelowLe ar0 forInvoke y d → a1.classScopes y = a.classScopes y) ∧
      ((pureCollect g ar0 d t cp forInvoke).isSome = true →
        (collectMethods g a d t cp forInvoke).isSome = true) := by
  induction g with
  | zero =>
    intro cp a d t _
    constructor
    · intro a1 t1 h; simp [collectMethods] at h
    · intro h; simp [pureCollect] at h
  | succ g ih =>
    intro cp a d t hL
    have hS : RecSim forInvoke ar0 g := fun a1 d1 t1 hL1 => ih false a1 d1 t1 hL1
    have hfn : (a.classScopes d).functions = (ar0.classScopes d).functions :=
      classCore_functions (hL.core d)
    -- what the first two loops establish
    have hloops : ∀ a2 t2,
        collectOwn cp (a.classScopes d).functions a t = some (a2, t2) →
        ∃ added1 added2,
          pureOwn ar0 cp (ar0.classScopes d).functions t [] = some (t2, added1 ++ []) ∧
          pureMissing t2 (ar0.classScopes d).missingMethods (added1 ++ []) =
            added2 ++ (added1 ++ []) ∧
          (markMissing t2 (a2.classScopes d).missingMethods a2).functionScopes =
            markFuncs (added2 ++ (added1 ++ [])) a.functionScopes ∧
          (markMissing t2 (a2.classScopes d).missingMethods a2).classScopes = a.classScopes ∧
          Later forInvoke ar0 (markMissing t2 (a2.classScopes d).missingMethods a2) := by
      intro a2 t2 hown
      have hcs := collectOwn_classScopes _ _ _ _ _ _ hown
      have hms := markMissing_classScopes t2 (a2.classScopes d).missingMethods a2
      have hev := (collectOwn_evolves _ _ _ _ _ _ hown).1.trans
        (markMissing_evolves t2 (a2.classScopes d).missingMethods a2)
      obtain ⟨added1, hp1, hf1⟩ := collectOwn_refines ar0 cp _ a t [] a2 t2 hL.isPrivate hown
      obtain ⟨added2, hp2, hf2⟩ := markMissing_refines t2
        (a2.classScopes d).missingMethods a2 (added1 ++ [])
      have hmiss : (a2.classScopes d).missingMethods = (ar0.classScopes d).missingMethods := by
        rw [hcs.1]; exact classCore_missingMethods (hL.core d)
      rw [hfn] at hp1
      have hcsM := hms.1.trans hcs.1
      refine ⟨added1, added2, hp1, by rw [← hmiss]; exact hp2, ?_, hcsM, ?_⟩
      · rw [hf2, hf1, ← markFuncs_append]; simp
      · exact ⟨hev.classDecs.trans hL.classDecs, fun x => by rw [hcsM]; exact hL.core x,
          fun f => (hev.isPrivate f).trans (hL.isPrivate f),
          fun x => (keptBases_congr hev.classDecs x (by rw [hcsM]) forInvoke).trans (hL.kept x)⟩
    -- the list the reference walk goes over
    have hlist : ∀ aM : AnalysisResult, aM.classScopes = a.classScopes →
        keptRev (erasable ar0 d forInvoke)
          ((aM.classScopes d).bases.take (aM.classScopes d).bases.length).reverse
          [(ar0.classScopes d).name] = keptBases ar0 d forInvoke := by
      intro aM hcsM
      rw [List.take_length, hcsM, ← hL.kept d, keptBases,
        erasable_congr hL.classDecs d (classCore_parent (hL.core d)),
        classCore_name (hL.core d)]
    constructor
    · intro a1 t1 h
      rw [collectMethods] at h
      split at h
      · exact absurd h (by simp)
      · rename_i a2 t2 hown
        obtain ⟨added1, added2, hp1, hp2, hfM, hcsM, hLM⟩ := hloops a2 t2 hown
        generalize markMissing t2 (a2.classScopes d).missingMethods a2 = aM at *
        have hnm : (aM.classScopes d).name = (ar0.classScopes d).name :=
          classCore_name (hLM.core d)
        simp only [] at h
        rw [hnm] at h
        obtain ⟨added3, hp3, hf3, hL1, hfr⟩ := (walkBases_sim forInvoke ar0 g d hS _ _ aM t2
          (added2 ++ (added1 ++ [])) hLM (WalkInv.start _ _ _)).1 a1 t1 h
        rw [hlist aM hcsM] at hp3
        refine ⟨added3 ++ (added2 ++ (added1 ++ [])), ?_, ?_, hL1, ?_⟩
        · rw [pureCollect]
          simp only [hp1]
          rw [hp2]
          exact hp3
        · rw [hf3, hfM, ← markFuncs_append]
        · intro y hnb
          have hyd : y ≠ d := fun e => hnb (e ▸ BelowLe.brefl ar0 forInvoke d)
          rw [hfr y hyd hnb, hcsM]
    · intro hp
      rw [pureCollect] at hp
      cases hpo : pureOwn ar0 cp (ar0.classScopes d).functions t [] with
      | none => simp [hpo] at hp
      | some q =>
        obtain ⟨t2p, m1⟩ := q
        simp only [hpo] at hp
        have hso := collectOwn_isSome ar0 cp _ t t [] a (by rw [hpo]; rfl)
        rw [← hfn] at hso
        cases hown : collectOwn cp (a.classScopes d).functions a t with
        | none => rw [hown] at hso; simp at hso
        | some q2 =>
          obtain ⟨a2, t2⟩ := q2
          obtain ⟨added1, added2, hp1, hp2, hfM, hcsM, hLM⟩ := hloops a2 t2 hown
          rw [hpo] at hp1
          simp only [Option.some.injEq, Prod.mk.injEq] at hp1
          obtain ⟨rfl, rfl⟩ := hp1
          rw [collectMethods]
          simp only [hown]
          generalize markMissing t2p (a2.classScopes d).missingMethods a2 = aM at *
          have hnm : (aM.classScopes d).name = (ar0.classScopes d).name :=
            classCore_name (hLM.core d)
          rw [hnm]
          refine (walkBases_sim forInvoke ar0 g d hS _ _ aM t2p
            (pureMissing t2p (ar0.classScopes d).missingMethods (added1 ++ [])) hLM
            (WalkInv.start _ _ _)).2 ?_
          rw [hlist aM hcsM]
          exact hp

/-! ## Claim C7: a second run -/

/-- C7: whenever `collectMethods` on class `c` returns, on any class graph, a
second run on the state left by the first, from the same table and with the
same flags, returns too, with the same table, and changes no function scope:
the mapping from names to methods is the same and no further method is marked
virtual. -/
theorem collectMethods_idempotent (fuel : Nat) (ar : AnalysisResult) (c : ClassId)
    (funcs : FuncMap) (collectPrivate forInvoke : Bool) (ar1 : AnalysisResult)
    (funcs1 : FuncMap)
    (h : collectMethods fuel ar c funcs collectPrivate forInvoke = some (ar1, funcs1)) :
    ∃ ar2, collectMethods fuel ar1 c funcs collectPrivate forInvoke = some (ar2, funcs1) ∧
      ar2.functionScopes = ar1.functionScopes := by
  obtain ⟨marks, hp, hf, hL, -⟩ := (collectMethods_sim forInvoke ar fuel collectPrivate ar c
    funcs (Later.lrefl forInvoke ar)).1 ar1 funcs1 h
  obtain ⟨hsim1, hsim2⟩ := collectMethods_sim forInvoke ar fuel collectPrivate ar1 c funcs hL
  have hsome := hsim2 (by rw [hp]; rfl)
  cases hrun : collectMethods fuel ar1 c funcs collectPrivate forInvoke with
  | none => rw [hrun] at hsome; simp at hsome
  | some q =>
    obtain ⟨ar2, funcs2⟩ := q
    obtain ⟨marks2, hp2, hf2, -, -⟩ := hsim1 ar2 funcs2 hrun
    rw [hp] at hp2
    simp only [Option.some.injEq, Prod.mk.injEq] at hp2
    obtain ⟨rfl, rfl⟩ := hp2
    exact ⟨ar2, rfl, by rw [hf2, hf, markFuncs_idem]⟩

/-- Witness of C7 on the chain `a` extends `b` extends `c`, run on `a`. -/
theorem collectMethods_idempotent_witness :
    ∃ ar1 funcs1 ar2,
      collectMethods 3 chainGraph 0 [] true false = some (ar1, funcs1) ∧
      collectMethods 3 ar1 0 [] true false = some (ar2, funcs1) ∧
      ar2.functionScopes = ar1.functionScopes ∧
      funcs1 = [("foo", 0), ("bar", 2)] := by
  have hsome : (collectMethods 3 chainGraph 0 [] true false).map (fun r => r.2) =
      some [("foo", 0), ("bar", 2)] := by decide
  cases hrun : collectMethods 3 chainGraph 0 [] true false with
  | none => rw [hrun] at hsome; simp at hsome
  | some q =>
    obtain ⟨ar1, funcs1⟩ := q
    rw [hrun] at hsome
    simp only [Option.map_some', Option.some.injEq] at hsome
    obtain ⟨ar2, h2, h3⟩ := collectMethods_idempotent 3 chainGraph 0 [] true false ar1 funcs1
      hrun
    exact ⟨ar1, funcs1, ar2, rfl, h2, h3, hsome⟩

/-! ## Claim C11: the walk with `forInvoke = true` -/

theorem walkStep_forInvoke
    {rec : AnalysisResult → ClassId → FuncMap → Option (AnalysisResult × FuncMap)}
    {self : ClassId} {i : Nat} {seen : List String} {ar : AnalysisResult} {funcs : FuncMap}
    {seen1 : List String} {ar1 : AnalysisResult} {funcs1 : FuncMap} :
    WalkStep rec self true i seen ar funcs seen1 ar1 funcs1 ↔
      WalkStep (parentCallOnly self rec) self true i seen ar funcs seen1 ar1 funcs1 := by
  constructor
  · intro h
    cases h with
    | invalid base hbase hseen => exact WalkStep.invalid base hbase hseen
    | skipped base hbase hseen hinvoke hparent =>
      exact WalkStep.skipped base hbase hseen hinvoke hparent
    | redeclaredParentInvoke base super hbase hseen hinvoke hparent hfind hredec =>
      exact WalkStep.redeclaredParentInvoke base super hbase hseen hinvoke hparent hfind hredec
    | redeclaredParent base super ar2 funcs2 hbase hseen hinvoke hparent hfind hredec hcands =>
      exact absurd hinvoke (by simp)
    | redeclaredBase base super hbase hseen hinvoke hparent hfind hredec =>
      exact absurd hinvoke (by simp)
    | known base super ar2 funcs2 hbase hseen hfollow hfind hredec hcall =>
      have hp : base = (ar.classScopes self).parent := by
        rcases hfollow with h | h
        · exact absurd h (by simp)
        · exact h
      refine WalkStep.known base super ar2 _ hbase hseen hfollow hfind hredec ?_
      simp only [parentCallOnly]
      rw [if_pos ⟨hp ▸ hfind, hredec⟩]
      exact hcall
    | unknown base hbase hseen hfollow hfind =>
      exact WalkStep.unknown base hbase hseen hfollow hfind
  · intro h
    cases h with
    | invalid base hbase hseen => exact WalkStep.invalid base hbase hseen
    | skipped base hbase hseen hinvoke hparent =>
      exact WalkStep.skipped base hbase hseen hinvoke hparent
    | redeclaredParentInvoke base super hbase hseen hinvoke hparent hfind hredec =>
      exact WalkStep.redeclaredParentInvoke base super hbase hseen hinvoke hparent hfind hredec
    | redeclaredParent base super ar2 funcs2 hbase hseen hinvoke hparent hfind hredec hcands =>
      exact absurd hinvoke (by simp)
    | redeclaredBase base super hbase hseen hinvoke hparent hfind hredec =>
      exact absurd hinvoke (by simp)
    | known base super ar2 funcs2 hbase hseen hfollow hfind hredec hcall =>
      have hp : base = (ar.classScopes self).parent := by
        rcases hfollow with h | h
        · exact absurd h (by simp)
        · exact h
      refine WalkStep.known base super ar2 _ hbase hseen hfollow hfind hredec ?_
      simp only [parentCallOnly] at hcall
      rw [if_pos ⟨hp ▸ hfind, hredec⟩] at hcall
      exact hcall
    | unknown base hbase hseen hfollow hfind =>
      exact WalkStep.unknown base hbase hseen hfollow hfind

theorem walkBase_forInvoke
    (rec : AnalysisResult → ClassId → FuncMap → Option (AnalysisResult × FuncMap))
    (self : ClassId) (i : Nat) (seen : List String) (ar : AnalysisResult) (funcs : FuncMap) :
    walkBase rec self true i seen ar funcs =
      walkBase (parentCallOnly self rec) self true i seen ar funcs := by
  apply Option.ext
  intro r
  obtain ⟨seen1, ar1, funcs1⟩ := r
  exact ⟨fun h => walkBase_of_walkStep (walkStep_forInvoke.mp (walkStep_of_walkBase h)),
    fun h => walkBase_of_walkStep (walkStep_forInvoke.mpr (walkStep_of_walkBase h))⟩

theorem walkBases_forInvoke
    (rec : AnalysisResult → ClassId → FuncMap → Option (AnalysisResult × FuncMap))
    (self : ClassId) (k : Nat) : ∀ (seen : List String) (ar : AnalysisResult) (funcs : FuncMap),
    walkBases rec self true k seen ar funcs =
      walkBases (parentCallOnly self rec) self true k seen ar funcs := by
  induction k with
  | zero => intro seen ar funcs; rfl
  | succ n ih =>
    intro seen ar funcs
    simp only [walkBases]
    rw [← walkBase_forInvoke]
    cases walkBase rec self true n seen ar funcs with
    | none => rfl
    | some r =>
      obtain ⟨seen1, ar1, funcs1⟩ := r
      exact ih seen1 ar1 funcs1

/-- With `forInvoke = true` and a parent name that resolves to a redeclared
class, no iteration of the walk makes a recursive call: the walk returns the
table unchanged, whatever `rec` is. -/
theorem walkBases_forInvoke_redeclared
    (rec : AnalysisResult → ClassId → FuncMap → Option (AnalysisResult × FuncMap))
    (self : ClassId) (ar0 : AnalysisResult) (p : ClassId)
    (hfind : findClass ar0 (ar0.classScopes self).parent = some p)
    (hredec : (ar0.classScopes p).isRedeclaring = true) (k : Nat) :
    ∀ (seen : List String) (ar : AnalysisResult) (funcs : FuncMap), Evolves ar0 ar →
      k ≤ (ar.classScopes self).bases.length →
      ∃ ar1, walkBases rec self true k seen ar funcs = some (ar1, funcs) := by
  induction k with
  | zero => intro seen ar funcs _ _; exact ⟨ar, rfl⟩
  | succ n ih =>
    intro seen ar funcs hev hk
    have hlt : n < (ar.classScopes self).bases.length := hk
    have hb : (ar.classScopes self).bases[n]? = some ((ar.classScopes self).bases[n]) :=
      List.getElem?_eq_getElem hlt
    generalize (ar.classScopes self).bases[n] = base at hb
    simp only [walkBases]
    by_cases hs : base ∈ seen
    · rw [walkBase_of_walkStep (WalkStep.invalid base hb hs)]
      refine ih _ _ _ (hev.trans ((Evolves_record _ _ _ _).trans (Evolves_eraseBase _ _ _))) ?_
      simp [eraseBase, record, AnalysisResult.updClass, List.length_eraseIdx, hlt]
      omega
    · by_cases hp : base = (ar.classScopes self).parent
      · have hf : findClass ar base = some p := by
          rw [hp, hev.findClass, hev.parent]; exact hfind
        have hr : (ar.classScopes p).isRedeclaring = true := by
          rw [hev.isRedeclaring]; exact hredec
        rw [walkBase_of_walkStep (WalkStep.redeclaredParentInvoke base p hb hs rfl hp hf hr)]
        exact ih _ _ _ hev (Nat.le_of_lt hlt)
      · rw [walkBase_of_walkStep (WalkStep.skipped base hb hs rfl hp)]
        exact ih _ _ _ hev (Nat.le_of_lt hlt)

/-- C11 as stated fails: with `forInvoke = true` the candidates of a redeclared
parent are not expanded.  The parent `p` of `child` resolves to a redeclared
class whose first candidate declares the public method `m`, and the table
collected for `child` holds the method of `child` only. -/
theorem forInvoke_group_not_expanded :
    (findClass groupGraph (groupGraph.classScopes 0).parent).map
      (fun s => (groupGraph.classScopes s).isRedeclaring) = some true ∧
    mapFind (groupGraph.classScopes 1).functions "m" = some [1] ∧
    (groupGraph.functionScopes 1).isPrivate = false ∧
    (collectMethods 2 groupGraph 0 [] true true).map (fun r => r.2) = some [("own", 0)] := by
  decide

/-- C11, amended: with `forInvoke = true`, `collectMethods` follows only the
parent edge.  The run is the one in which every recursive call but the call on
the non-redeclared class found under the parent name never returns, so that no
other base is followed and no redeclared class is expanded; and when the parent
name resolves to a redeclared class the run makes no recursive call at all: it
returns with a call stack of depth one, and the table is the one left by the
loop over the methods of the class itself. -/
theorem collectMethods_forInvoke_parent_only (fuel : Nat) (ar : AnalysisResult) (c : ClassId)
    (funcs : FuncMap) (collectPrivate : Bool) :
    (collectMethods (fuel + 1) ar c funcs collectPrivate true =
      match collectOwn collectPrivate (ar.classScopes c).functions ar funcs with
      | none => none
      | some (ar1, funcs1) =>
        walkBases (parentCallOnly c (fun a d t => collectMethods fuel a d t false true)) c true
          (ar1.classScopes c).bases.length [(ar1.classScopes c).name]
          (markMissing funcs1 (ar1.classScopes c).missingMethods ar1) funcs1) ∧
    (∀ p ar0 funcs0, findClass ar (ar.classScopes c).parent = some p →
      (ar.classScopes p).isRedeclaring = true →
      collectOwn collectPrivate (ar.classScopes c).functions ar funcs = some (ar0, funcs0) →
      ∃ ar1, collectMethods 1 ar c funcs collectPrivate true = some (ar1, funcs0)) := by
  constructor
  · rw [collectMethods]
    cases hown : collectOwn collectPrivate (ar.classScopes c).functions ar funcs with
    | none => rfl
    | some r =>
      obtain ⟨ar1, funcs1⟩ := r
      simp only []
      rw [walkBases_forInvoke]
      rw [(markMissing_classScopes funcs1 (ar1.classScopes c).missingMethods ar1).1]
  · intro p ar0 funcs0 hfind hredec hown
    rw [collectMethods, hown]
    simp only []
    have hev : Evolves ar (markMissing funcs0 (ar0.classScopes c).missingMethods ar0) :=
      (collectOwn_evolves _ _ _ _ _ _ hown).1.trans (markMissing_evolves _ _ _)
    exact walkBases_forInvoke_redeclared _ c ar p hfind hredec _ _ _ _ hev (Nat.le_refl _)

/-- Witness of C11 (amended): `child`, whose parent `p` is a redeclaration
group. -/
theorem collectMethods_forInvoke_parent_only_witness :
    ∃ ar1, collectMethods 1 groupGraph 0 [] true true = some (ar1, [("own", 0)]) :=
  (collectMethods_forInvoke_parent_only 0 groupGraph 0 [] true).2 1 groupGraph [("own", 0)]
    (by decide) (by decide) rfl

/-! ## Claim C12: a base that derives from a redeclared class -/

/-- When the first entry `b` of the base list of `x` is not the name of `x`
and is not repeated, the walk of `x` visits it last, as a name not seen
before. -/
theorem collectMethods_head_last (rank : ClassId → Nat) (fuel : Nat) (ar : AnalysisResult)
    (x : ClassId) (funcs : FuncMap) (collectPrivate forInvoke : Bool) (b : String)
    (rest : List String) (ar1 : AnalysisResult) (funcs1 : FuncMap)
    (hR : Ranked ar rank) (hrank : 0 < rank x)
    (hbases : (ar.classScopes x).bases = b :: rest)
    (hself : b ≠ (ar.classScopes x).name)
    (hrest : b ∉ rest)
    (h : collectMethods (fuel + 1) ar x funcs collectPrivate forInvoke = some (ar1, funcs1)) :
    ∃ seenP arP funcsP seen1 arM funcsO,
      arM.classScopes = ar.classScopes ∧ Ranked arM rank ∧
      walkRange (fun a c t => collectMethods fuel a c t false forInvoke) x forInvoke 1
        rest.length [(ar.classScopes x).name] arM funcsO = some (seenP, arP, funcsP) ∧
      Evolves ar arP ∧ b ∉ seenP ∧ (arP.classScopes x).name ∈ seenP ∧ Ranked arP rank ∧
      WalkStep (fun a c t => collectMethods fuel a c t false forInvoke) x forInvoke 0
        seenP arP funcsP seen1 ar1 funcs1 ∧
      (arP.classScopes x).bases[0]? = some b := by
  rw [collectMethods] at h
  split at h
  · exact absurd h (by simp)
  · rename_i ar2 funcs2 hown
    have h2 := collectOwn_classScopes _ _ _ _ _ _ hown
    have h3 := markMissing_classScopes funcs2 (ar2.classScopes x).missingMethods ar2
    have hcs := h3.1.trans h2.1
    have hevM := (collectOwn_evolves _ _ _ _ _ _ hown).1.trans
      (markMissing_evolves funcs2 (ar2.classScopes x).missingMethods ar2)
    generalize markMissing funcs2 (ar2.classScopes x).missingMethods ar2 = arM at *
    simp only [] at h
    rw [walkBases_eq_walkRange, hcs, hbases] at h
    simp only [List.length_cons, Option.map_eq_some', Prod.exists] at h
    obtain ⟨seen1, ar1', funcs1', hwalk, heq⟩ := h
    simp only [Prod.mk.injEq] at heq
    obtain ⟨rfl, rfl⟩ := heq
    obtain ⟨seenP, arP, funcsP, hupper, hstep⟩ :=
      (walkRange_succ_iff _ _ _ _ _ _ _ _ _).mp hwalk
    have hF : RecFrame rank (rank x)
        (fun a d t => collectMethods fuel a d t false forInvoke) := by
      intro a d t a1 t1 hRa hd hdc hcall
      exact (collectMethods_recFrame rank fuel false forInvoke a d t a1 t1 hRa hd hcall).mono hdc
    have hnameM : (arM.classScopes x).name ∈ [(ar.classScopes x).name] := by
      rw [hcs]; exact List.mem_singleton.mpr rfl
    obtain ⟨hev, -, -, htake, hseen, hsub⟩ := walkRange_inv _
      (collectMethods_recEvolves fuel false forInvoke) rank x hF hrank forInvoke (0 + 1) _ _ _ _
      _ _ _ (hevM.ranked hR) hnameM hupper
    have hevP := hevM.trans hev
    refine ⟨seenP, arP, funcsP, seen1, arM, funcs2, hcs, hevM.ranked hR, hupper, hevP,
      ?_, ?_, hevP.ranked hR, walkStep_of_walkBase hstep, ?_⟩
    · intro hmem
      rcases hseen _ hmem with h1 | h1
      · exact hself (List.mem_singleton.mp h1)
      · rw [hcs, hbases] at h1
        simp at h1
        exact hrest h1
    · rw [hevP.name]
      exact hsub _ (List.mem_singleton.mpr rfl)
    · apply getElem?_zero_of_take_one
      rw [htake, hcs, hbases]
      simp

theorem taggedParentGraph_ranked : Ranked taggedParentGraph rootRank := by
  intro c base hc hb hne d hd
  match c with
  | 0 =>
    simp [taggedParentGraph, mkAnalysisResult] at hb
    subst hb
    simp [findClasses, taggedParentGraph, mkAnalysisResult, toLower] at hd
    subst hd
    decide
  | 1 =>
    simp [taggedParentGraph, mkAnalysisResult] at hb
    subst hb
    simp [findClasses, taggedParentGraph, mkAnalysisResult, toLower] at hd
  | n + 2 => simp [taggedParentGraph, mkAnalysisResult] at hb

theorem taggedParentGraph_functionsNonempty : FunctionsNonempty taggedParentGraph := by
  intro c name vec hm
  match c with
  | 0 => simp [taggedParentGraph, mkAnalysisResult] at hm
  | 1 => simp [taggedParentGraph, mkAnalysisResult] at hm
  | n + 2 => simp [taggedParentGraph, mkAnalysisResult] at hm

theorem taggedInterfaceGraph_ranked : Ranked taggedInterfaceGraph rootRank := by
  intro c base hc hb hne d hd
  match c with
  | 0 =>
    simp [taggedInterfaceGraph, mkAnalysisResult] at hb
    subst hb
    simp [findClasses, taggedInterfaceGraph, mkAnalysisResult, toLower] at hd
    subst hd
    decide
  | 1 =>
    simp [taggedInterfaceGraph, mkAnalysisResult] at hb
    subst hb
    simp [findClasses, taggedInterfaceGraph, mkAnalysisResult, toLower] at hd
  | n + 2 => simp [taggedInterfaceGraph, mkAnalysisResult] at hb

theorem taggedInterfaceGraph_functionsNonempty : FunctionsNonempty taggedInterfaceGraph := by
  intro c name vec hm
  match c with
  | 0 => simp [taggedInterfaceGraph, mkAnalysisResult] at hm
  | 1 => simp [taggedInterfaceGraph, mkAnalysisResult] at hm
  | n + 2 => simp [taggedInterfaceGraph, mkAnalysisResult] at hm

/-! ## Claim C13: methods declared twice -/

theorem mapFind_mapSet {β : Type} (l : List (String × β)) (key : String) (v : β)
    (m : String) :
    mapFind (mapSet l key v) m = if key = m then some v else mapFind l m := by
  induction l with
  | nil => simp [mapSet, mapFind]
  | cons e rest ih =>
    obtain ⟨k, w⟩ := e
    simp only [mapSet]
    by_cases hk : k = key
    · subst hk
      simp only [if_pos rfl, mapFind]
      by_cases hm : k = m <;> simp [hm]
    · simp only [if_neg hk, mapFind, ih]
      by_cases hm : k = m
      · subst hm
        simp [hk, Ne.symm hk]
      · simp [hm]

theorem namedIn_append (ar : AnalysisResult) (done : List FuncId) (f : FuncId) (m : String) :
    namedIn ar (done ++ [f]) m =
      namedIn ar done m ++ (if (ar.functionScopes f).name = m then [f] else []) := by
  simp only [namedIn, List.filter_append, List.filter_cons, List.filter_nil]
  by_cases h : (ar.functionScopes f).name = m <;> simp [h]

theorem mem_namedIn {ar : AnalysisResult} {done : List FuncId} {m : String} {g : FuncId}
    (h : g ∈ namedIn ar done m) : g ∈ done ∧ (ar.functionScopes g).name = m := by
  simpa [namedIn] using h

/-- The state after `addFunction`, given the vector `v` found under the name of
the declaration. -/
theorem addFunction_of_vec (a : AnalysisResult) (c : ClassId) (f : FuncId) (v : List FuncId)
    (hv : (mapFind (a.classScopes c).functions (a.functionScopes f).name).getD [] = v) :
    (addFunction a c f).1 =
      setFunctions (addMarks a f v) c (a.functionScopes f).name (v ++ [f]) := by
  simp only [addFunction, hv, setFunctions]
  rcases v with _ | ⟨first, _ | ⟨second, tl⟩⟩ <;> simp [addMarks]

theorem addMarks_classScopes (a : AnalysisResult) (f : FuncId) (v : List FuncId) :
    (addMarks a f v).classScopes = a.classScopes := by
  rcases v with _ | ⟨first, _ | ⟨second, tl⟩⟩ <;> rfl

theorem AddInv.astart (ar : AnalysisResult) (c : ClassId)
    (hfresh : (ar.classScopes c).functions = []) : AddInv ar c [] ar where
  functions := fun m => by simp [hfresh, namedIn, mapFind]
  names := fun _ => rfl
  indices := fun m h => by simp [namedIn] at h
  errors := ⟨[], by simp, fun m => by simp [namedIn]⟩

theorem AddInv.vec {ar : AnalysisResult} {c : ClassId} {done : List FuncId}
    {a : AnalysisResult} (h : AddInv ar c done a) (f : FuncId) :
    (mapFind (a.classScopes c).functions (a.functionScopes f).name).getD [] =
      namedIn ar done (ar.functionScopes f).name := by
  rw [h.names f, h.functions]
  by_cases hv : namedIn ar done (ar.functionScopes f).name = []
  · simp [hv]
  · simp [hv]

/-- Adding one more declaration, not added before, keeps `AddInv`. -/
theorem AddInv.astep {ar : AnalysisResult} {c : ClassId} {done : List FuncId}
    {a : AnalysisResult} (h : AddInv ar c done a) (f : FuncId) (hf : f ∉ done) :
    AddInv ar c (done ++ [f]) (addFunction a c f).1 := by
  have hvec := h.vec f
  have hst := addFunction_of_vec a c f _ hvec
  have hnm := h.names f
  obtain ⟨news, hnews, hfilter⟩ := h.errors
  generalize hv : namedIn ar done (ar.functionScopes f).name = v at hst hvec
  have hmemv : ∀ g, g ∈ v → g ≠ f ∧ (ar.functionScopes g).name = (ar.functionScopes f).name := by
    intro g hg
    rw [← hv] at hg
    have := mem_namedIn hg
    exact ⟨fun e => hf (e ▸ this.1), this.2⟩
  have hother : ∀ m g, (ar.functionScopes f).name ≠ m → g ∈ namedIn ar done m →
      g ≠ f ∧ ∀ g1, g1 ∈ v → g ≠ g1 := by
    intro m g hm hg
    have hgm := mem_namedIn hg
    refine ⟨fun e => hf (e ▸ hgm.1), fun g1 hg1 e => hm ?_⟩
    rw [← (hmemv g1 hg1).2, ← e, hgm.2]
  rw [hst, hnm]
  refine ⟨?_, ?_, ?_, ?_⟩
  · -- functions
    intro m
    rw [namedIn_append]
    have hcs : mapFind ((setFunctions (addMarks a f v) c (ar.functionScopes f).name
          (v ++ [f])).classScopes c).functions m
        = if (ar.functionScopes f).name = m then some (v ++ [f])
          else mapFind (a.classScopes c).functions m := by
      simp [setFunctions, AnalysisResult.updClass, addMarks_classScopes, mapFind_mapSet]
    rw [hcs]
    by_cases hm : (ar.functionScopes f).name = m
    · subst hm
      simp [hv]
    · simp [hm, h.functions m]
  · -- names
    intro g
    rcases v with _ | ⟨first, _ | ⟨second, tl⟩⟩
    · exact h.names g
    · simp only [setFunctions, addMarks, AnalysisResult.updClass, setFuncRedeclaring, recordTwice,
        AnalysisResult.updFunc]
      by_cases h1 : g = f
      · subst h1; simp [Function.update, h.names]
        split <;> first | exact hnm | exact (hmemv _ (List.mem_singleton.mpr rfl)).2
      · by_cases h2 : g = first
        · subst h2; simp [Function.update, h1, h.names]
        · simp [Function.update, h1, h2, h.names]
    · simp only [setFunctions, addMarks, AnalysisResult.updClass, setFuncRedeclaring, AnalysisResult.updFunc]
      by_cases h1 : g = f
      · subst h1; simp [Function.update, h.names]
      · simp [Function.update, h1, h.names]
  · -- indices
    intro m hlen j g hj
    rw [namedIn_append] at hlen hj
    by_cases hm : (ar.functionScopes f).name = m
    · subst hm
      rw [if_pos rfl, hv] at hlen hj
      rcases v with _ | ⟨first, _ | ⟨second, tl⟩⟩
      · simp at hlen
      · have hff := (hmemv first (List.mem_singleton.mpr rfl)).1
        match j with
        | 0 =>
          simp at hj; subst hj
          simp [setFunctions, addMarks, AnalysisResult.updClass, setFuncRedeclaring, recordTwice,
            AnalysisResult.updFunc, Function.update, hff]
        | 1 =>
          simp at hj; subst hj
          simp [setFunctions, addMarks, AnalysisResult.updClass, setFuncRedeclaring, recordTwice,
            AnalysisResult.updFunc, Function.update]
        | j + 2 => simp at hj
      · by_cases hjl : j < (first :: second :: tl).length
        · rw [List.getElem?_append_left hjl] at hj
          have hg := (hmemv g (mem_of_getElem?_eq_some hj)).1
          have := h.indices _ (by rw [hv]; simp) j g (by rw [hv]; exact hj)
          simp [setFunctions, addMarks, AnalysisResult.updClass, setFuncRedeclaring,
            AnalysisResult.updFunc, Function.update, hg, this]
        · rw [List.getElem?_append_right (Nat.le_of_not_lt hjl)] at hj
          have hj0 : j - (first :: second :: tl).length = 0 := by
            by_contra hne
            rw [List.getElem?_eq_none (by simp only [List.length_singleton]; omega)] at hj
            exact absurd hj (by simp)
          rw [hj0] at hj
          simp at hj
          subst hj
          have : j = (first :: second :: tl).length := by omega
          subst this
          simp [setFunctions, addMarks, AnalysisResult.updClass, setFuncRedeclaring,
            AnalysisResult.updFunc, Function.update]
    · rw [if_neg hm, List.append_nil] at hlen hj
      have hg := hother m g hm (mem_of_getElem?_eq_some hj)
      have hidx := h.indices m hlen j g hj
      rcases v with _ | ⟨first, _ | ⟨second, tl⟩⟩
      · exact hidx
      · have h2 := hg.2 first (List.mem_singleton.mpr rfl)
        simp [setFunctions, addMarks, AnalysisResult.updClass, setFuncRedeclaring, recordTwice,
          AnalysisResult.updFunc, Function.update, hg.1, h2, hidx]
      · simp [setFunctions, addMarks, AnalysisResult.updClass, setFuncRedeclaring,
          AnalysisResult.updFunc, Function.update, hg.1, hidx]
  · -- errors
    rcases v with _ | ⟨first, _ | ⟨second, tl⟩⟩
    · refine ⟨news, hnews, fun m => ?_⟩
      rw [hfilter m, namedIn_append]
      by_cases hm : (ar.functionScopes f).name = m
      · subst hm; simp [hv]
      · simp [hm]
    · refine ⟨news ++ [declaredTwiceRecord f first], ?_, fun m => ?_⟩
      · simp [setFunctions, addMarks, AnalysisResult.updClass, setFuncRedeclaring, recordTwice,
          AnalysisResult.updFunc, hnews]
      · rw [List.filter_append, hfilter m, namedIn_append]
        by_cases hm : (ar.functionScopes f).name = m
        · subst hm
          simp [hv, declaredTwiceFor, declaredTwiceRecord]
        · simp [hm, declaredTwiceFor, declaredTwiceRecord]
    · refine ⟨news, ?_, fun m => ?_⟩
      · simp [setFunctions, addMarks, AnalysisResult.updClass, setFuncRedeclaring, AnalysisResult.updFunc, hnews]
      · rw [hfilter m, namedIn_append]
        by_cases hm : (ar.functionScopes f).name = m
        · subst hm; simp [hv]
        · simp [hm]

/-- Once the declarations `adds`, all different, have been added in turn to a
class without methods, `AddInv` holds. -/
theorem addFunction_foldl_inv (ar : AnalysisResult) (c : ClassId)
    (hfresh : (ar.classScopes c).functions = []) (adds : List FuncId) (hnodup : adds.Nodup) :
    AddInv ar c adds (adds.foldl (fun a f => (addFunction a c f).1) ar) := by
  induction adds using List.reverseRecOn with
  | nil => exact AddInv.astart ar c hfresh
  | append_singleton l f ih =>
    rw [List.foldl_append]
    have hn := List.nodup_append.mp hnodup
    refine (ih hn.1).astep f ?_
    intro hf
    exact hn.2.2 hf (List.mem_singleton.mpr rfl)

/-- C13: let the declarations `adds`, all different, be added in turn with
`addFunction` to a class `c` that had no method, and let `fs` list those named
`n`, in the order they were added, with at least two of them.  Then every
declaration of `fs` is marked redeclaring with its position in `fs` as index,
of the diagnostics recorded by the additions exactly one is a
`DeclaredFunctionTwice` for a declaration named `n` (recorded for the second
declaration against the first), and `findFunction` on `c` and the lower-case
name `n` returns the declaration added last. -/
theorem addFunction_declared_twice (ar ar1 : AnalysisResult) (c : ClassId)
    (adds : List FuncId) (n : String) (fs : List FuncId)
    (hfresh : (ar.classScopes c).functions = []) (hnodup : adds.Nodup)
    (hrun : adds.foldl (fun a f => (addFunction a c f).1) ar = ar1)
    (hfs : namedIn ar adds n = fs) (hk : 2 ≤ fs.length) (hlower : toLower n = n) :
    (∀ (j : Nat) f, fs[j]? = some f →
      (ar1.functionScopes f).redeclaring = j ∧ 0 ≤ (ar1.functionScopes f).redeclaring) ∧
    (∃ news first second rest, ar1.codeError = ar.codeError ++ news ∧
      fs = first :: second :: rest ∧
      news.filter (declaredTwiceFor ar n) = [declaredTwiceRecord second first]) ∧
    (∀ fuel recursive exclIntfBase,
      findFunction (fuel + 1) ar1 c n recursive exclIntfBase = some (ar1, fs.getLast?)) := by
  have hinv := addFunction_foldl_inv ar c hfresh adds hnodup
  rw [hrun] at hinv
  subst hfs
  refine ⟨?_, ?_, ?_⟩
  · intro j f hj
    have := hinv.indices n hk j f hj
    rw [this]
    exact ⟨rfl, Int.natCast_nonneg j⟩
  · obtain ⟨news, hnews, hfilter⟩ := hinv.errors
    have hf := hfilter n
    rcases hv : namedIn ar adds n with _ | ⟨first, _ | ⟨second, tl⟩⟩
    · rw [hv] at hk; simp at hk
    · rw [hv] at hk; simp at hk
    · rw [hv] at hf
      exact ⟨news, first, second, tl, hnews, rfl, hf⟩
  · intro fuel recursive excl
    have hfun := hinv.functions n
    have hne : namedIn ar adds n ≠ [] := by
      intro e; rw [e] at hk; simp at hk
    rw [if_neg hne] at hfun
    obtain ⟨last, hlast⟩ : ∃ last, (namedIn ar adds n).getLast? = some last := by
      cases hl : (namedIn ar adds n).getLast? with
      | none => exact absurd (List.getLast?_eq_none_iff.mp hl) hne
      | some last => exact ⟨last, rfl⟩
    simp [findFunction, hlower, hfun, hlast]

/-- Witness of C13: the functions 0, 1, 2 and 3 are added to the class `k`;
the declarations named `bar` are 0, 2 and 3. -/
theorem addFunction_declared_twice_witness :
    ((∀ (j : Nat) f, [0, 2, 3][j]? = some f →
      (([0, 1, 2, 3].foldl (fun a f => (addFunction a 0 f).1)
        emptyClassGraph).functionScopes f).redeclaring = j ∧
      0 ≤ (([0, 1, 2, 3].foldl (fun a f => (addFunction a 0 f).1)
        emptyClassGraph).functionScopes f).redeclaring) ∧
    (∃ news first second rest,
      ([0, 1, 2, 3].foldl (fun a f => (addFunction a 0 f).1) emptyClassGraph).codeError =
        emptyClassGraph.codeError ++ news ∧
      [0, 2, 3] = first :: second :: rest ∧
      news.filter (declaredTwiceFor emptyClassGraph "bar") =
        [declaredTwiceRecord second first]) ∧
    (∀ fuel recursive exclIntfBase,
      findFunction (fuel + 1)
        ([0, 1, 2, 3].foldl (fun a f => (addFunction a 0 f).1) emptyClassGraph) 0 "bar"
        recursive exclIntfBase =
      some ([0, 1, 2, 3].foldl (fun a f => (addFunction a 0 f).1) emptyClassGraph,
        [0, 2, 3].getLast?))) ∧
    ([0, 1, 2, 3].foldl (fun a f => (addFunction a 0 f).1) emptyClassGraph).codeError =
      [declaredTwiceRecord 2 0] ∧
    [0, 1, 2, 3].map (fun f => (([0, 1, 2, 3].foldl (fun a f => (addFunction a 0 f).1)
      emptyClassGraph).functionScopes f).redeclaring) = [0, -1, 1, 2] :=
  ⟨addFunction_declared_twice emptyClassGraph _ 0 [0, 1, 2, 3] "bar" [0, 2, 3]
    (by decide) (by decide) rfl (by decide) (by decide) (by decide), by decide, by decide⟩

/-! ## Facts about `setDynamic` -/

theorem markedDynamic_idem (fs : FunctionScope) :
    markedDynamic (markedDynamic fs) = markedDynamic fs := rfl

theorem Flagged.flrefl (ar : AnalysisResult) : Flagged ar ar :=
  ⟨rfl, fun _ => Or.inl rfl, fun _ => Or.inl rfl, rfl⟩

theorem Flagged.fltrans {a b c : AnalysisResult} (h1 : Flagged a b) (h2 : Flagged b c) :
    Flagged a c where
  classDecs := h2.classDecs.trans h1.classDecs
  scopes := fun x => by
    rcases h1.scopes x with e1 | e1 <;> rcases h2.scopes x with e2 | e2
    · exact Or.inl (e2.trans e1)
    · exact Or.inr (by rw [e2, e1])
    · exact Or.inr (by rw [e2, e1])
    · exact Or.inr (by rw [e2, e1])
  funcs := fun f => by
    rcases h1.funcs f with e1 | e1 <;> rcases h2.funcs f with e2 | e2
    · exact Or.inl (e2.trans e1)
    · exact Or.inr (by rw [e2, e1])
    · exact Or.inr (by rw [e2, e1])
    · exact Or.inr (by rw [e2, e1, markedDynamic_idem])
  codeError := h2.codeError.trans h1.codeError

theorem Flagged.basesEq {ar ar1 : AnalysisResult} (h : Flagged ar ar1) (c : ClassId) :
    (ar1.classScopes c).bases = (ar.classScopes c).bases := by
  rcases h.scopes c with e | e <;> rw [e]

theorem Flagged.parentEq {ar ar1 : AnalysisResult} (h : Flagged ar ar1) (c : ClassId) :
    (ar1.classScopes c).parent = (ar.classScopes c).parent := by
  rcases h.scopes c with e | e <;> rw [e]

theorem Flagged.functionsEq {ar ar1 : AnalysisResult} (h : Flagged ar ar1) (c : ClassId) :
    (ar1.classScopes c).functions = (ar.classScopes c).functions := by
  rcases h.scopes c with e | e <;> rw [e]

theorem Flagged.isInterfaceEq {ar ar1 : AnalysisResult} (h : Flagged ar ar1) (c : ClassId) :
    (ar1.classScopes c).isInterface = (ar.classScopes c).isInterface := by
  rcases h.scopes c with e | e <;> rw [e]
  rfl

theorem Flagged.isRedeclaringEq {ar ar1 : AnalysisResult} (h : Flagged ar ar1) (c : ClassId) :
    (ar1.classScopes c).isRedeclaring = (ar.classScopes c).isRedeclaring := by
  rcases h.scopes c with e | e <;> rw [e]
  rfl

theorem Flagged.direct {ar ar1 : AnalysisResult} (h : Flagged ar ar1) (c : ClassId)
    (hd : (ar.classScopes c).derivesFromRedeclaring = Derivation.DirectFromRedeclared) :
    (ar1.classScopes c).derivesFromRedeclaring = Derivation.DirectFromRedeclared := by
  rcases h.scopes c with e | e <;> rw [e]
  exact hd

theorem Flagged.dynamic {ar ar1 : AnalysisResult} (h : Flagged ar ar1) (f : FuncId)
    (hd : (ar.functionScopes f).dynamic = true) : (ar1.functionScopes f).dynamic = true := by
  rcases h.funcs f with e | e <;> rw [e]
  · exact hd
  · rfl

theorem Flagged.findClassesEq {ar ar1 : AnalysisResult} (h : Flagged ar ar1) (name : String) :
    findClasses ar1 name = findClasses ar name :=
  findClasses_congr h.classDecs name

theorem Flagged.findClassEq {ar ar1 : AnalysisResult} (h : Flagged ar ar1) (name : String) :
    findClass ar1 name = findClass ar name :=
  findClass_congr h.classDecs name

theorem Flagged.acyclic {ar ar1 : AnalysisResult} (h : Flagged ar ar1) {rank : ClassId → Nat}
    (hA : Acyclic ar rank) : Acyclic ar1 rank := by
  intro c base hc hb d hd
  rw [h.parentEq, h.basesEq] at hb
  rw [h.findClassesEq] at hd
  exact hA c base hc hb d hd

theorem Flagged.nonempty {ar ar1 : AnalysisResult} (h : Flagged ar ar1)
    (hN : FunctionsNonempty ar) : FunctionsNonempty ar1 := by
  intro c name vec hm
  rw [h.functionsEq] at hm
  exact hN c name vec hm

theorem Acyclic.congr {ar ar1 : AnalysisResult} {rank : ClassId → Nat} (hA : Acyclic ar rank)
    (hcs : ar1.classScopes = ar.classScopes) (hcd : ar1.classDecs = ar.classDecs) :
    Acyclic ar1 rank := by
  intro c base hc hb d hd
  rw [hcs] at hb
  rw [findClasses_congr hcd] at hd
  exact hA c base hc hb d hd

/-- The loop `BOOST_FOREACH(fs, iter->second) fs->setDynamic()` flags the
functions of the vector and nothing else. -/
theorem foldl_setFuncDynamic (vec : List FuncId) (a : AnalysisResult) :
    (vec.foldl setFuncDynamic a).classScopes = a.classScopes ∧
    (vec.foldl setFuncDynamic a).classDecs = a.classDecs ∧
    (vec.foldl setFuncDynamic a).codeError = a.codeError ∧
    ∀ f, (vec.foldl setFuncDynamic a).functionScopes f =
      if f ∈ vec then markedDynamic (a.functionScopes f) else a.functionScopes f := by
  induction vec generalizing a with
  | nil => simp
  | cons x xs ih =>
    simp only [List.foldl_cons]
    obtain ⟨h1, h2, h3, h4⟩ := ih (setFuncDynamic a x)
    refine ⟨h1, h2, h3, fun f => ?_⟩
    rw [h4]
    by_cases hx : f = x
    · subst hx
      by_cases hm : f ∈ xs
      · simp [hm, setFuncDynamic, AnalysisResult.updFunc, markedDynamic]
      · simp [hm, setFuncDynamic, AnalysisResult.updFunc, markedDynamic]
    · by_cases hm : f ∈ xs
      · simp [hm, hx, setFuncDynamic, AnalysisResult.updFunc, Function.update]
      · simp [hm, hx, setFuncDynamic, AnalysisResult.updFunc, Function.update]

/-- What `setDynamic` keeps: the recursive call handed to the loop over the
candidates changes no class scope and only flags functions. -/
theorem forEachClass_flagged (rec : AnalysisResult → ClassId → Option AnalysisResult)
    (hrec : ∀ a c a1, rec a c = some a1 → a1.classScopes = a.classScopes ∧ Flagged a a1)
    (cands : List ClassId) (a a1 : AnalysisResult)
    (h : forEachClass rec cands a = some a1) :
    a1.classScopes = a.classScopes ∧ Flagged a a1 := by
  induction cands generalizing a with
  | nil =>
    simp only [forEachClass, Option.some.injEq] at h
    subst h
    exact ⟨rfl, Flagged.flrefl _⟩
  | cons cl rest ih =>
    simp only [forEachClass] at h
    split at h
    · exact absurd h (by simp)
    · rename_i a2 hcall
      obtain ⟨h1, h2⟩ := hrec _ _ _ hcall
      obtain ⟨h3, h4⟩ := ih _ h
      exact ⟨h3.trans h1, h2.fltrans h4⟩

theorem setDynamic_flagged (fuel : Nat) : ∀ (a : AnalysisResult) (c : ClassId) (n : String)
    (a1 : AnalysisResult), setDynamic fuel a c n = some a1 →
    a1.classScopes = a.classScopes ∧ Flagged a a1 := by
  induction fuel with
  | zero => intro a c n a1 h; exact absurd h (by simp [setDynamic])
  | succ fuel ih =>
    intro a c n a1 h
    simp only [setDynamic] at h
    split at h
    · rename_i vec hvec
      simp only [Option.some.injEq] at h
      subst h
      obtain ⟨h1, h2, h3, h4⟩ := foldl_setFuncDynamic vec a
      refine ⟨h1, h2, fun x => Or.inl (by rw [h1]), fun f => ?_, h3⟩
      rw [h4]
      by_cases hm : f ∈ vec
      · exact Or.inr (by simp [hm])
      · exact Or.inl (by simp [hm])
    · split at h
      · split at h
        · exact forEachClass_flagged _ (fun a c a1 hh => ih a c n a1 hh) _ _ _ h
        · split at h
          · exact ih _ _ _ _ h
          · simp only [Option.some.injEq] at h
            subst h
            exact ⟨rfl, Flagged.flrefl _⟩
      · simp only [Option.some.injEq] at h
        subst h
        exact ⟨rfl, Flagged.flrefl _⟩

theorem forEachClass_total (rec : AnalysisResult → ClassId → Option AnalysisResult)
    (P : AnalysisResult → Prop)
    (hP : ∀ a c a1, P a → rec a c = some a1 → P a1)
    (cands : List ClassId)
    (hrec : ∀ a c, P a → c ∈ cands → ∃ a1, rec a c = some a1)
    (a : AnalysisResult) (ha : P a) : ∃ a1, forEachClass rec cands a = some a1 := by
  induction cands generalizing a with
  | nil => exact ⟨a, rfl⟩
  | cons cl rest ih =>
    obtain ⟨a2, hcall⟩ := hrec a cl ha (List.mem_cons_self _ _)
    simp only [forEachClass, hcall]
    exact ih (fun a c hpa hc => hrec a c hpa (List.mem_cons_of_mem _ hc)) a2 (hP _ _ _ ha hcall)

/-- On an acyclic graph `setDynamic` returns. -/
theorem setDynamic_total (rank : ClassId → Nat) (n : String) (fuel : Nat) :
    ∀ (a : AnalysisResult) (c : ClassId), Acyclic a rank → 0 < rank c → rank c ≤ fuel →
      ∃ a1, setDynamic fuel a c n = some a1 := by
  induction fuel with
  | zero => intro a c _ hc hle; omega
  | succ fuel ih =>
    intro a c hA hc hle
    simp only [setDynamic]
    split
    · exact ⟨_, rfl⟩
    · split
      · split
        · refine forEachClass_total _ (fun x => Acyclic x rank ∧ x.classDecs = a.classDecs)
            (fun x d x1 hx hcall => ?_) _ (fun x d hx hd => ?_) a ⟨hA, rfl⟩
          · obtain ⟨h1, h2⟩ := setDynamic_flagged _ _ _ _ _ hcall
            exact ⟨h2.acyclic hx.1, h2.classDecs.trans hx.2⟩
          · have hlow := hA c _ hc (Or.inl rfl) d hd
            exact ih x d hx.1 hlow.1 (by omega)
        · split
          · rename_i p hfind
            have hlow := hA c _ hc (Or.inl rfl) p (findClass_mem hfind)
            exact ih a p hA hlow.1 (by omega)
          · exact ⟨_, rfl⟩
      · exact ⟨_, rfl⟩

/-! ## Claim C17: the escalation of `setDynamic` -/

/-- C17 as stated fails: the parent name `p` of class `c` is registered for a
redeclaration group of two classes, of which the second declares `m`, but `c`
is not tagged `DirectFromRedeclared`: `setDynamic` on `c` and `m` goes to the
first class of the group only and flags nothing; once `c` is tagged, the
declaration of the second candidate is flagged. -/
theorem setDynamic_untagged_group :
    findClasses untaggedGroupGraph (untaggedGroupGraph.classScopes 0).parent = [1, 2] ∧
    (untaggedGroupGraph.classScopes 1).isRedeclaring = true ∧
    (untaggedGroupGraph.classScopes 2).isRedeclaring = true ∧
    mapFind (untaggedGroupGraph.classScopes 2).functions "m" = some [0] ∧
    (setDynamic 2 untaggedGroupGraph 0 "m").map (fun a => (a.functionScopes 0).dynamic) =
      some false ∧
    (setDynamic 2 taggedGroupGraph 0 "m").map (fun a => (a.functionScopes 0).dynamic) =
      some true := by
  decide

/-- C17, amended: `setDynamic` on `c` and `n` flags every declaration of `n`
in `c` when `c` declares `n`, and changes nothing else; when `c` does not
declare `n` and has no parent name it changes nothing; when `c` does not
declare `n` and has a parent name, it calls `setDynamic` on every class
registered under the parent name, in turn, if `c` is tagged
`DirectFromRedeclared`, and otherwise on the class found under the parent name,
if there is one; on an acyclic class graph the call returns, and it changes
function scopes only, and these by `setDynamic()` only. -/
theorem setDynamic_escalates (ar : AnalysisResult) (c : ClassId) (n : String) :
    (∀ vec, mapFind (ar.classScopes c).functions n = some vec → ∀ fuel, ∃ ar1,
      setDynamic (fuel + 1) ar c n = some ar1 ∧ ar1.classScopes = ar.classScopes ∧
      ar1.classDecs = ar.classDecs ∧ ar1.codeError = ar.codeError ∧
      ∀ f, ar1.functionScopes f =
        if f ∈ vec then markedDynamic (ar.functionScopes f) else ar.functionScopes f) ∧
    (mapFind (ar.classScopes c).functions n = none →
      ((ar.classScopes c).parent = "" → ∀ fuel, setDynamic (fuel + 1) ar c n = some ar) ∧
      ((ar.classScopes c).parent ≠ "" →
        ((ar.classScopes c).derivesFromRedeclaring = Derivation.DirectFromRedeclared →
          ∀ fuel, setDynamic (fuel + 1) ar c n =
            forEachClass (fun a cl => setDynamic fuel a cl n)
              (findClasses ar (ar.classScopes c).parent) ar) ∧
        ((ar.classScopes c).derivesFromRedeclaring ≠ Derivation.DirectFromRedeclared →
          (∀ p, findClass ar (ar.classScopes c).parent = some p →
            ∀ fuel, setDynamic (fuel + 1) ar c n = setDynamic fuel ar p n) ∧
          (findClass ar (ar.classScopes c).parent = none →
            ∀ fuel, setDynamic (fuel + 1) ar c n = some ar)))) ∧
    (∀ rank, Acyclic ar rank → 0 < rank c →
      ∃ ar1, setDynamic (rank c) ar c n = some ar1 ∧ ar1.classScopes = ar.classScopes ∧
        Flagged ar ar1) := by
  refine ⟨?_, ?_, ?_⟩
  · intro vec hvec fuel
    obtain ⟨h1, h2, h3, h4⟩ := foldl_setFuncDynamic vec ar
    exact ⟨_, by simp only [setDynamic, hvec], h1, h2, h3, h4⟩
  · intro hnone
    refine ⟨?_, ?_⟩
    · intro hp fuel
      simp [setDynamic, hnone, hp]
    · intro hp
      refine ⟨?_, ?_⟩
      · intro ht fuel
        simp [setDynamic, hnone, hp, ht]
      · intro ht
        refine ⟨?_, ?_⟩
        · intro p hfind fuel
          simp [setDynamic, hnone, hp, ht, hfind]
        · intro hfind fuel
          simp [setDynamic, hnone, hp, ht, hfind]
  · intro rank hA hc
    obtain ⟨ar1, hrun⟩ := setDynamic_total rank n (rank c) ar c hA hc (Nat.le_refl _)
    obtain ⟨h1, h2⟩ := setDynamic_flagged _ _ _ _ _ hrun
    exact ⟨ar1, hrun, h1, h2⟩

theorem taggedGroupGraph_acyclic : Acyclic taggedGroupGraph rootRank := by
  intro c base hc hb d hd
  match c with
  | 0 =>
    have hb2 : base = "p" := by
      rcases hb with h | h
      · exact h
      · simpa [taggedGroupGraph, untaggedGroupGraph, setDerives, AnalysisResult.updClass,
          mkAnalysisResult] using h
    subst hb2
    simp [findClasses, taggedGroupGraph, untaggedGroupGraph, setDerives,
      AnalysisResult.updClass, mkAnalysisResult, toLower] at hd
    rcases hd with rfl | rfl <;> decide
  | 1 =>
    have hb2 : base = "" := by
      rcases hb with h | h
      · exact h
      · simp [taggedGroupGraph, untaggedGroupGraph, setDerives, AnalysisResult.updClass,
          mkAnalysisResult] at h
    subst hb2
    simp [findClasses, taggedGroupGraph, untaggedGroupGraph, setDerives,
      AnalysisResult.updClass, mkAnalysisResult, toLower] at hd
  | 2 =>
    have hb2 : base = "" := by
      rcases hb with h | h
      · exact h
      · simp [taggedGroupGraph, untaggedGroupGraph, setDerives, AnalysisResult.updClass,
          mkAnalysisResult] at h
    subst hb2
    simp [findClasses, taggedGroupGraph, untaggedGroupGraph, setDerives,
      AnalysisResult.updClass, mkAnalysisResult, toLower] at hd
  | n + 3 => exact absurd hc (by simp [rootRank])

/-- Witness of C17 (amended): on the tagged class `c` of `taggedGroupGraph`
the call goes to both classes registered under `p` and returns. -/
theorem setDynamic_escalates_witness :
    (setDynamic 2 taggedGroupGraph 0 "m" =
      forEachClass (fun a cl => setDynamic 1 a cl "m") [1, 2] taggedGroupGraph) ∧
    (∃ ar1, setDynamic (rootRank 0) taggedGroupGraph 0 "m" = some ar1 ∧
      ar1.classScopes = taggedGroupGraph.classScopes ∧ Flagged taggedGroupGraph ar1) ∧
    (setDynamic 2 taggedGroupGraph 0 "m").map (fun a => (a.functionScopes 0).dynamic) =
      some true :=
  ⟨((setDynamic_escalates taggedGroupGraph 0 "m").2.1 (by decide)).2 (by decide) |>.1
      (by decide) 1,
    (setDynamic_escalates taggedGroupGraph 0 "m").2.2 rootRank taggedGroupGraph_acyclic
      (by decide),
    by decide⟩

/-! ## Facts about `findFunction` -/

theorem Flagged_setDirect (a : AnalysisResult) (self : ClassId) :
    Flagged a (setDerives a self Derivation.DirectFromRedeclared) where
  classDecs := rfl
  scopes := fun c => by
    by_cases hc : c = self
    · subst hc
      exact Or.inr (by simp [setDerives, AnalysisResult.updClass])
    · exact Or.inl (by simp [setDerives, AnalysisResult.updClass, Function.update, hc])
  funcs := fun _ => Or.inl rfl
  codeError := rfl

theorem findFunctionBases_flagged
    (rec : AnalysisResult → ClassId → Option (AnalysisResult × Option FuncId))
    (hrec : ∀ a c a1 r, rec a c = some (a1, r) → Flagged a a1)
    (self : ClassId) (excl : Bool) (s k : Nat) :
    ∀ (a a1 : AnalysisResult) (r : Option FuncId),
      findFunctionBases rec self excl s k a = some (a1, r) → Flagged a a1 := by
  induction k with
  | zero =>
    intro a a1 r h
    simp only [findFunctionBases, Option.some.injEq, Prod.mk.injEq] at h
    rw [← h.1]
    exact Flagged.flrefl _
  | succ k ih =>
    intro a a1 r h
    simp only [findFunctionBases] at h
    split at h
    · exact absurd h (by simp)
    · split at h
      · exact ih _ _ _ h
      · split at h
        · simp only [Option.some.injEq, Prod.mk.injEq] at h
          rw [← h.1]
          exact Flagged.flrefl _
        · split at h
          · split at h
            · simp only [Option.some.injEq, Prod.mk.injEq] at h
              rw [← h.1]
              exact Flagged_setDirect _ _
            · exact ih _ _ _ h
          · split at h
            · exact absurd h (by simp)
            · rename_i a2 func hcall
              simp only [Option.some.injEq, Prod.mk.injEq] at h
              rw [← h.1]
              exact hrec _ _ _ _ hcall
            · rename_i a2 hcall
              exact (hrec _ _ _ _ hcall).fltrans (ih _ _ _ h)

theorem findFunction_flagged (fuel : Nat) :
    ∀ (a : AnalysisResult) (c : ClassId) (n : String) (recursive excl : Bool)
      (a1 : AnalysisResult) (r : Option FuncId),
      findFunction fuel a c n recursive excl = some (a1, r) → Flagged a a1 := by
  induction fuel with
  | zero => intro a c n recursive excl a1 r h; exact absurd h (by simp [findFunction])
  | succ fuel ih =>
    intro a c n recursive excl a1 r h
    simp only [findFunction] at h
    split at h
    · exact absurd h (by simp)
    · split at h
      · split at h
        · exact absurd h (by simp)
        · simp only [Option.some.injEq, Prod.mk.injEq] at h
          rw [← h.1]
          exact Flagged.flrefl _
      · have hw : ∀ a2 r2,
            (if recursive = true then
              findFunctionBases (fun a c => findFunction fuel a c n true excl) c excl
                (a.classScopes c).bases.length (a.classScopes c).bases.length a
            else some (a, none)) = some (a2, r2) → Flagged a a2 := by
          intro a2 r2 hh
          split at hh
          · exact findFunctionBases_flagged _ (fun x d x1 r1 hc => ih x d n true excl x1 r1 hc)
              _ _ _ _ _ _ _ hh
          · simp only [Option.some.injEq, Prod.mk.injEq] at hh
            rw [← hh.1]
            exact Flagged.flrefl _
        split at h
        · exact absurd h (by simp)
        · rename_i a2 func hwalk
          simp only [Option.some.injEq, Prod.mk.injEq] at h
          rw [← h.1]
          exact hw _ _ hwalk
        · rename_i a2 hwalk
          split at h
          · split at h
            · exact absurd h (by simp)
            · rename_i a3 hdyn
              simp only [Option.some.injEq, Prod.mk.injEq] at h
              rw [← h.1]
              exact (hw _ _ hwalk).fltrans (setDynamic_flagged _ _ _ _ _ hdyn).2
          · simp only [Option.some.injEq, Prod.mk.injEq] at h
            rw [← h.1]
            exact hw _ _ hwalk

theorem findFunctionBases_total
    (rec : AnalysisResult → ClassId → Option (AnalysisResult × Option FuncId))
    (rank : ClassId → Nat) (self : ClassId) (a0 : AnalysisResult)
    (hA : Acyclic a0 rank) (hself : 0 < rank self)
    (hrecF : ∀ a c a1 r, rec a c = some (a1, r) → Flagged a a1)
    (hrecT : ∀ a d, Flagged a0 a → 0 < rank d → rank d < rank self → ∃ r, rec a d = some r)
    (excl : Bool) (k : Nat) :
    ∀ a, Flagged a0 a → k ≤ (a0.classScopes self).bases.length →
      ∃ r, findFunctionBases rec self excl (a0.classScopes self).bases.length k a = some r := by
  induction k with
  | zero => intro a _ _; exact ⟨_, rfl⟩
  | succ k ih =>
    intro a hfl hk
    have hlt : (a0.classScopes self).bases.length - (k + 1) < (a0.classScopes self).bases.length :=
      by omega
    have hb : (a.classScopes self).bases[(a0.classScopes self).bases.length - (k + 1)]? =
        some ((a0.classScopes self).bases[(a0.classScopes self).bases.length - (k + 1)]) := by
      rw [hfl.basesEq]; exact List.getElem?_eq_getElem hlt
    have hmem := List.getElem_mem hlt
    generalize (a0.classScopes self).bases[(a0.classScopes self).bases.length - (k + 1)] = base
      at hb hmem
    simp only [findFunctionBases, hb]
    cases hfind : findClass a base with
    | none => exact ih a hfl (by omega)
    | some super =>
      simp only []
      split
      · exact ⟨_, rfl⟩
      · split
        · split
          · exact ⟨_, rfl⟩
          · exact ih a hfl (by omega)
        · rw [hfl.findClassEq] at hfind
          have hlow := hA self base hself (Or.inr hmem) super (findClass_mem hfind)
          obtain ⟨⟨a1, r⟩, hcall⟩ := hrecT a super hfl hlow.1 hlow.2
          rw [hcall]
          cases r with
          | some func => exact ⟨_, rfl⟩
          | none => exact ih a1 (hfl.fltrans (hrecF _ _ _ _ hcall)) (by omega)

/-- On an acyclic class graph whose function vectors are non-empty,
`findFunction` returns for every lower-case name. -/
theorem findFunction_total (rank : ClassId → Nat) (n : String) (hlower : toLower n = n)
    (excl : Bool) (fuel : Nat) :
    ∀ (a : AnalysisResult) (c : ClassId) (recursive : Bool), Acyclic a rank →
      FunctionsNonempty a → 0 < rank c → rank c ≤ fuel →
      ∃ r, findFunction fuel a c n recursive excl = some r := by
  induction fuel with
  | zero => intro a c _ _ _ hc hle; omega
  | succ fuel ih =>
    intro a c recursive hA hN hc hle
    simp only [findFunction, hlower, ne_eq, not_true_eq_false, if_false]
    cases hown : mapFind (a.classScopes c).functions n with
    | some vec =>
      simp only []
      have hne := hN c n vec (mapFind_mem _ _ _ hown)
      cases hl : vec.getLast? with
      | none => exact absurd (List.getLast?_eq_none_iff.mp hl) hne
      | some last => exact ⟨_, rfl⟩
    | none =>
      simp only []
      have hw : ∃ r, (if recursive = true then
            findFunctionBases (fun a c => findFunction fuel a c n true excl) c excl
              (a.classScopes c).bases.length (a.classScopes c).bases.length a
          else some (a, none)) = some r ∧ Flagged a r.1 := by
        split
        · obtain ⟨r, hr⟩ := findFunctionBases_total
            (fun a c => findFunction fuel a c n true excl) rank c a hA hc
            (fun x d x1 r1 hh => findFunction_flagged fuel x d n true excl x1 r1 hh)
            (fun x d hfl hd hdc => ih x d true (hfl.acyclic hA) (hfl.nonempty hN) hd
              (by omega))
            excl _ a (Flagged.flrefl a) (Nat.le_refl _)
          exact ⟨r, hr, findFunctionBases_flagged _
            (fun x d x1 r1 hh => findFunction_flagged fuel x d n true excl x1 r1 hh)
            _ _ _ _ _ _ _ hr⟩
        · exact ⟨_, rfl, Flagged.flrefl a⟩
      obtain ⟨⟨a1, r⟩, hwalk, hfl⟩ := hw
      rw [hwalk]
      cases r with
      | some func => exact ⟨_, rfl⟩
      | none =>
        simp only []
        split
        · obtain ⟨a2, hd⟩ := setDynamic_total rank n (fuel + 1) a1 c (hfl.acyclic hA) hc hle
          rw [hd]
          exact ⟨_, rfl⟩
        · exact ⟨_, rfl⟩

/-- Once the walk of `findFunction` over the bases of `self` is at an index not
beyond `i`, where the bases before `i` are passed over and the base at `i`
resolves to a redeclared class that is not an interface, the walk ends at `i`:
it returns no function and `self` is tagged `DirectFromRedeclared`. -/
theorem findFunctionBases_reaches (rank : ClassId → Nat) (self : ClassId)
    (a0 : AnalysisResult) (n : String) (excl : Bool) (fuel i : Nat) (base : String)
    (super : ClassId)
    (hA : Acyclic a0 rank) (hself : 0 < rank self)
    (hrecT : ∀ a d, Flagged a0 a → 0 < rank d → rank d < rank self →
      ∃ r, findFunction fuel a d n true excl = some r)
    (hbase : (a0.classScopes self).bases[i]? = some base)
    (hfind : findClass a0 base = some super)
    (hredec : (a0.classScopes super).isRedeclaring = true)
    (hclass : (a0.classScopes super).isInterface = false)
    (hearly : ∀ j b, j < i → (a0.classScopes self).bases[j]? = some b →
      PassedOver a0 n excl b) (k : Nat) :
    ∀ a, Flagged a0 a → k + 1 ≤ (a0.classScopes self).bases.length →
      (a0.classScopes self).bases.length - (k + 1) ≤ i →
      ∃ a1, findFunctionBases (fun a c => findFunction fuel a c n true excl) self excl
          (a0.classScopes self).bases.length (k + 1) a = some (a1, none) ∧
        Flagged a0 a1 ∧
        (a1.classScopes self).derivesFromRedeclaring = Derivation.DirectFromRedeclared := by
  have hi : i < (a0.classScopes self).bases.length := (List.getElem?_eq_some.mp hbase).1
  have hit : ∀ k a, Flagged a0 a → (a0.classScopes self).bases.length - (k + 1) = i →
      ∃ a1, findFunctionBases (fun a c => findFunction fuel a c n true excl) self excl
          (a0.classScopes self).bases.length (k + 1) a = some (a1, none) ∧
        Flagged a0 a1 ∧
        (a1.classScopes self).derivesFromRedeclaring = Derivation.DirectFromRedeclared := by
    intro k a hfl hidx
    refine ⟨setDerives a self Derivation.DirectFromRedeclared, ?_,
      hfl.fltrans (Flagged_setDirect a self), by simp [setDerives, AnalysisResult.updClass]⟩
    simp only [findFunctionBases, hidx, hfl.basesEq, hbase, hfl.findClassEq, hfind,
      hfl.isInterfaceEq, hclass, hfl.isRedeclaringEq, hredec]
    simp
  induction k with
  | zero =>
    intro a hfl hk hidx
    exact hit 0 a hfl (by omega)
  | succ k ih =>
    intro a hfl hk hidx
    by_cases hji : (a0.classScopes self).bases.length - (k + 1 + 1) = i
    · exact hit (k + 1) a hfl hji
    · have hj : (a0.classScopes self).bases.length - (k + 1 + 1) < i := by omega
      have hlt : (a0.classScopes self).bases.length - (k + 1 + 1) <
          (a0.classScopes self).bases.length := by omega
      have hb : (a0.classScopes self).bases[(a0.classScopes self).bases.length - (k + 1 + 1)]? =
          some ((a0.classScopes self).bases[(a0.classScopes self).bases.length - (k + 1 + 1)]) :=
        List.getElem?_eq_getElem hlt
      have hmem := List.getElem_mem hlt
      generalize (a0.classScopes self).bases[(a0.classScopes self).bases.length - (k + 1 + 1)]
        = bj at hb hmem
      have hpass := hearly _ bj hj hb
      rw [findFunctionBases]
      simp only [hfl.basesEq, hb, hfl.findClassEq]
      cases hfj : findClass a0 bj with
      | none => exact ih a hfl (by omega) (by omega)
      | some sj =>
        obtain ⟨h1, h2, h3⟩ := hpass sj hfj
        have hex : (excl && (a.classScopes sj).isInterface) = false := by
          rw [hfl.isInterfaceEq]
          cases excl with
          | false => rfl
          | true => simp [h1 rfl]
        simp only [hex, Bool.false_eq_true, if_false]
        cases hr : (a0.classScopes sj).isRedeclaring with
        | true =>
          simp only [hfl.isRedeclaringEq, hr, if_true, hfl.isInterfaceEq, h2 hr]
          simp only [Bool.not_true, Bool.false_eq_true, if_false]
          exact ih a hfl (by omega) (by omega)
        | false =>
          simp only [hfl.isRedeclaringEq, hr, Bool.false_eq_true, if_false]
          have hlow := hA self bj hself (Or.inr hmem) sj (findClass_mem hfj)
          obtain ⟨⟨a1, r⟩, hcall⟩ := hrecT a sj hfl hlow.1 hlow.2
          have hnone := h3 hr fuel a a1 r hfl hcall
          subst hnone
          rw [hcall]
          exact ih a1 (hfl.fltrans (findFunction_flagged _ _ _ _ _ _ _ _ hcall)) (by omega)
            (by omega)

/-- The loop of `setDynamic` over the candidates flags every declaration of
`n` in every candidate that declares `n`. -/
theorem forEachClass_setDynamic_flags (fuel : Nat) (n : String) (cands : List ClassId) :
    ∀ (a a1 : AnalysisResult),
      forEachClass (fun a cl => setDynamic fuel a cl n) cands a = some a1 →
      ∀ cl, cl ∈ cands → ∀ vec, mapFind (a.classScopes cl).functions n = some vec →
        ∀ f, f ∈ vec → (a1.functionScopes f).dynamic = true := by
  induction cands with
  | nil => intro a a1 _ cl hcl; exact absurd hcl (List.not_mem_nil _)
  | cons d rest ih =>
    intro a a1 h cl hcl vec hvec f hf
    simp only [forEachClass] at h
    split at h
    · exact absurd h (by simp)
    · rename_i a2 hcall
      have hfl2 := forEachClass_flagged (fun a cl => setDynamic fuel a cl n)
        (fun x c x1 hh => setDynamic_flagged fuel x c n x1 hh) rest a2 a1 h
      have hcs := (setDynamic_flagged fuel a d n a2 hcall).1
      by_cases hd : cl = d
      · subst hd
        apply hfl2.2.dynamic
        cases fuel with
        | zero => exact absurd hcall (by simp [setDynamic])
        | succ fuel =>
          simp only [setDynamic, hvec, Option.some.injEq] at hcall
          subst hcall
          rw [(foldl_setFuncDynamic vec a).2.2.2 f, if_pos hf]
          rfl
      · rcases List.mem_cons.mp hcl with h1 | h1
        · exact absurd h1 hd
        · exact ih a2 a1 h cl h1 vec (by rw [hcs]; exact hvec) f hf

/-- A class that does not declare `n` and has no bases: `n` is not found in
it. -/
theorem notFoundIn_of_leaf (ar : AnalysisResult) (n : String) (excl : Bool) (s : ClassId)
    (hown : mapFind (ar.classScopes s).functions n = none)
    (hbases : (ar.classScopes s).bases = []) : NotFoundIn ar n excl s := by
  intro fuel a a1 r hfl h
  cases fuel with
  | zero => exact absurd h (by simp [findFunction])
  | succ fuel =>
    simp only [findFunction, hfl.functionsEq, hown, hfl.basesEq, hbases, List.length_nil,
      findFunctionBases, ite_self] at h
    split at h
    · exact absurd h (by simp)
    · split at h
      · split at h
        · exact absurd h (by simp)
        · simp only [Option.some.injEq, Prod.mk.injEq] at h
          exact h.2.symm
      · simp only [Option.some.injEq, Prod.mk.injEq] at h
        exact h.2.symm

/-! ## Claim C14: a lookup that meets a redeclared base -/

/-- C14: on an acyclic class graph, let `c` have a parent name and not declare
the lower-case name `n`, let the base at index `i` of `c` resolve to a
redeclared class that is not an interface, and let the walk pass over every
base before `i`.  Then `findFunction` on `c` and `n` with `recursive = true`
returns no function, whatever the bases after `i` are, and afterwards `c` is
tagged `DirectFromRedeclared` and every declaration of `n` in every class
registered under the parent name of `c` is dynamic.  And whenever a call of
`findFunction` returns no function and leaves the class tagged
`DirectFromRedeclared`, the state it returns is the one left by `setDynamic`,
called on that class and name at the end of the call. -/
theorem findFunction_redeclared_base (ar : AnalysisResult) (rank : ClassId → Nat)
    (c : ClassId) (n : String) (exclIntfBase : Bool) (i : Nat) (base : String)
    (super : ClassId)
    (hA : Acyclic ar rank) (hN : FunctionsNonempty ar) (hrank : 0 < rank c)
    (hlower : toLower n = n)
    (hown : mapFind (ar.classScopes c).functions n = none)
    (hpar : (ar.classScopes c).parent ≠ "")
    (hbase : (ar.classScopes c).bases[i]? = some base)
    (hfind : findClass ar base = some super)
    (hredec : (ar.classScopes super).isRedeclaring = true)
    (hclass : (ar.classScopes super).isInterface = false)
    (hearly : ∀ j b, j < i → (ar.classScopes c).bases[j]? = some b →
      PassedOver ar n exclIntfBase b) :
    (∃ ar1, findFunction (rank c) ar c n true exclIntfBase = some (ar1, none) ∧
      (ar1.classScopes c).derivesFromRedeclaring = Derivation.DirectFromRedeclared ∧
      ∀ cl, cl ∈ findClasses ar (ar.classScopes c).parent →
        ∀ vec, mapFind (ar.classScopes cl).functions n = some vec →
          ∀ f, f ∈ vec → (ar1.functionScopes f).dynamic = true) ∧
    (∀ fuel (a0 : AnalysisResult) (c0 : ClassId) (n0 : String) (recursive excl : Bool)
      (a1 : AnalysisResult),
      findFunction fuel a0 c0 n0 recursive excl = some (a1, none) →
      (a1.classScopes c0).derivesFromRedeclaring = Derivation.DirectFromRedeclared →
      ∃ a, Flagged a0 a ∧ setDynamic fuel a c0 n0 = some a1) := by
  constructor
  · cases hf : rank c with
    | zero => omega
    | succ fuel =>
      have hi : i < (ar.classScopes c).bases.length := (List.getElem?_eq_some.mp hbase).1
      obtain ⟨k, hk⟩ : ∃ k, (ar.classScopes c).bases.length = k + 1 :=
        ⟨(ar.classScopes c).bases.length - 1, by omega⟩
      obtain ⟨a1, hwalk, hfl, htag⟩ := findFunctionBases_reaches rank c ar n exclIntfBase fuel
        i base super hA hrank
        (fun a d hfl hd hdc => findFunction_total rank n hlower exclIntfBase fuel a d true
          (hfl.acyclic hA) (hfl.nonempty hN) hd (by omega))
        hbase hfind hredec hclass hearly k ar (Flagged.flrefl ar) (by omega) (by omega)
      obtain ⟨a2, hdyn⟩ := setDynamic_total rank n (fuel + 1) a1 c (hfl.acyclic hA) hrank
        (by omega)
      have hcs := (setDynamic_flagged _ _ _ _ _ hdyn).1
      refine ⟨a2, ?_, by rw [hcs]; exact htag, ?_⟩
      · rw [← hk] at hwalk
        simp only [findFunction, hlower, ne_eq, not_true_eq_false, if_false, hown, if_true,
          hwalk, htag, hdyn]
      · intro cl hcl vec hvec f hfv
        simp only [setDynamic, hfl.functionsEq, hown, hfl.parentEq, ne_eq, hpar, not_false_eq_true,
          if_true, htag, hfl.findClassesEq] at hdyn
        exact forEachClass_setDynamic_flags fuel n _ a1 a2 hdyn cl hcl vec
          (by rw [hfl.functionsEq]; exact hvec) f hfv
  · intro fuel a0 c0 n0 recursive excl a1 h htag
    cases fuel with
    | zero => exact absurd h (by simp [findFunction])
    | succ fuel =>
      simp only [findFunction] at h
      split at h
      · exact absurd h (by simp)
      · split at h
        · split at h
          · exact absurd h (by simp)
          · simp at h
        · have hw : ∀ a2 r2,
              (if recursive = true then
                findFunctionBases (fun a c => findFunction fuel a c n0 true excl) c0 excl
                  (a0.classScopes c0).bases.length (a0.classScopes c0).bases.length a0
              else some (a0, none)) = some (a2, r2) → Flagged a0 a2 := by
            intro a2 r2 hh
            split at hh
            · exact findFunctionBases_flagged _
                (fun x d x1 r1 hc => findFunction_flagged fuel x d n0 true excl x1 r1 hc)
                _ _ _ _ _ _ _ hh
            · simp only [Option.some.injEq, Prod.mk.injEq] at hh
              rw [← hh.1]
              exact Flagged.flrefl _
          split at h
          · exact absurd h (by simp)
          · simp at h
          · rename_i a2 hwalk
            split at h
            · split at h
              · exact absurd h (by simp)
              · rename_i a3 hdyn
                simp only [Option.some.injEq, Prod.mk.injEq, and_true] at h
                subst h
                exact ⟨a2, hw _ _ hwalk, hdyn⟩
            · rename_i hnot
              simp only [Option.some.injEq, Prod.mk.injEq, and_true] at h
              subst h
              exact absurd htag hnot

theorem lookupGraph_acyclic : Acyclic lookupGraph lookupRank := by
  intro c base hc hb d hd
  match c with
  | 0 =>
    have hb2 : base = "p" ∨ base = "ghost" ∨ base = "i" ∨ base = "q" := by
      rcases hb with h | h
      · exact Or.inl h
      · simp [lookupGraph, mkAnalysisResult] at h
        rcases h with h | h | h | h
        · exact Or.inr (Or.inl h)
        · exact Or.inr (Or.inr (Or.inl h))
        · exact Or.inl h
        · exact Or.inr (Or.inr (Or.inr h))
    rcases hb2 with rfl | rfl | rfl | rfl
    · simp [findClasses, lookupGraph, mkAnalysisResult, toLower] at hd
      rcases hd with rfl | rfl <;> decide
    · simp [findClasses, lookupGraph, mkAnalysisResult, toLower] at hd
    · simp [findClasses, lookupGraph, mkAnalysisResult, toLower] at hd
      subst hd; decide
    · simp [findClasses, lookupGraph, mkAnalysisResult, toLower] at hd
      subst hd; decide
  | 1 | 2 | 3 | 4 =>
    have hb2 : base = "" := by
      rcases hb with h | h
      · exact h
      · simp [lookupGraph, mkAnalysisResult] at h
    subst hb2
    simp [findClasses, lookupGraph, mkAnalysisResult, toLower] at hd
  | n + 5 => exact absurd hc (by simp [lookupRank])

theorem lookupGraph_functionsNonempty : FunctionsNonempty lookupGraph := by
  intro c name vec hm
  match c with
  | 0 | 1 => simp [lookupGraph, mkAnalysisResult] at hm
  | 2 | 3 | 4 =>
    simp [lookupGraph, mkAnalysisResult] at hm
    rw [hm.2]; simp
  | n + 5 => simp [lookupGraph, mkAnalysisResult] at hm

/-- Witness of C14 on `lookupGraph`: the walk passes over the unregistered
`ghost` and the interface `i`, ends at the redeclared `p` and never looks into
`q`, which declares `m`; both declarations of `m` in the group of `p` are
flagged dynamic, that of `q` is not. -/
theorem findFunction_redeclared_base_witness :
    (∃ ar1, findFunction (lookupRank 0) lookupGraph 0 "m" true false = some (ar1, none) ∧
      (ar1.classScopes 0).derivesFromRedeclaring = Derivation.DirectFromRedeclared ∧
      ∀ cl, cl ∈ findClasses lookupGraph (lookupGraph.classScopes 0).parent →
        ∀ vec, mapFind (lookupGraph.classScopes cl).functions "m" = some vec →
          ∀ f, f ∈ vec → (ar1.functionScopes f).dynamic = true) ∧
    (findFunction 2 lookupGraph 0 "m" true false).map
      (fun r => (r.2, (r.1.classScopes 0).derivesFromRedeclaring,
        (r.1.functionScopes 0).dynamic, (r.1.functionScopes 1).dynamic,
        (r.1.functionScopes 2).dynamic)) =
      some (none, Derivation.DirectFromRedeclared, true, true, false) :=
  ⟨(findFunction_redeclared_base lookupGraph lookupRank 0 "m" false 2 "p" 2
    lookupGraph_acyclic lookupGraph_functionsNonempty (by decide) (by decide) (by decide)
    (by decide) (by decide) (by decide) (by decide) (by decide)
    (fun j b hj hb => by
      match j with
      | 0 =>
        have : b = "ghost" := by simpa [lookupGraph, mkAnalysisResult] using hb.symm
        subst this
        intro s hs
        have h0 : findClass lookupGraph "ghost" = none := by decide
        rw [h0] at hs
        exact absurd hs (by simp)
      | 1 =>
        have : b = "i" := by simpa [lookupGraph, mkAnalysisResult] using hb.symm
        subst this
        intro s hs
        have : s = 1 := by
          have h1 : findClass lookupGraph "i" = some 1 := by decide
          rw [h1] at hs
          exact (Option.some.inj hs).symm
        subst this
        exact ⟨fun h => absurd h (by decide), fun h => absurd h (by decide),
          fun _ => notFoundIn_of_leaf lookupGraph "m" false 1 (by decide) (by decide)⟩
      | j + 2 => omega)).1, by decide⟩

/-! ## Claim C15: the name `findConstructor` looks up -/

theorem derivesDirectlyFrom_iff (ar : AnalysisResult) (self : ClassId) (base : String) :
    derivesDirectlyFrom ar self base = true ↔ base ∈ (ar.classScopes self).bases := by
  simp [derivesDirectlyFrom, List.any_eq_true]

/-- What the loop of `derivesFrom` returns when the recursive call returns on
the classes found under the bases. -/
theorem derivesFromBases_spec (rec : ClassId → Option Bool) (ar : AnalysisResult)
    (strict deflt : Bool) (l : List String)
    (hrec : ∀ base_i cl, base_i ∈ l → findClass ar base_i = some cl → ∃ r, rec cl = some r) :
    ∃ r, derivesFromBases rec ar strict deflt l = some r ∧
      (r = true ↔ ∃ base_i cl, base_i ∈ l ∧ findClass ar base_i = some cl ∧
        ((strict = true ∧ (ar.classScopes cl).isRedeclaring = true ∧ deflt = true) ∨
          (¬(strict = true ∧ (ar.classScopes cl).isRedeclaring = true) ∧
            rec cl = some true))) := by
  induction l with
  | nil => exact ⟨false, rfl, by simp⟩
  | cons b rest ih =>
    obtain ⟨r, hr, hiff⟩ := ih (fun base_i cl hm hf => hrec base_i cl (List.mem_cons_of_mem _ hm) hf)
    simp only [derivesFromBases]
    cases hf : findClass ar b with
    | none =>
      refine ⟨r, hr, hiff.trans ⟨?_, ?_⟩⟩
      · rintro ⟨bi, cl, hm, hfc, h⟩
        exact ⟨bi, cl, List.mem_cons_of_mem _ hm, hfc, h⟩
      · rintro ⟨bi, cl, hm, hfc, h⟩
        rcases List.mem_cons.mp hm with rfl | hm
        · rw [hf] at hfc; exact absurd hfc (by simp)
        · exact ⟨bi, cl, hm, hfc, h⟩
    | some cl =>
      simp only []
      have hgo : ∀ (hskip : ¬((strict = true ∧ (ar.classScopes cl).isRedeclaring = true ∧
            deflt = true) ∨
          (¬(strict = true ∧ (ar.classScopes cl).isRedeclaring = true) ∧ rec cl = some true))),
          (r = true ↔ ∃ base_i cl, base_i ∈ b :: rest ∧ findClass ar base_i = some cl ∧
            ((strict = true ∧ (ar.classScopes cl).isRedeclaring = true ∧ deflt = true) ∨
              (¬(strict = true ∧ (ar.classScopes cl).isRedeclaring = true) ∧
                rec cl = some true))) := by
        intro hskip
        refine hiff.trans ⟨?_, ?_⟩
        · rintro ⟨bi, cl1, hm, hfc, h⟩
          exact ⟨bi, cl1, List.mem_cons_of_mem _ hm, hfc, h⟩
        · rintro ⟨bi, cl1, hm, hfc, h⟩
          rcases List.mem_cons.mp hm with rfl | hm
          · rw [hf] at hfc
            obtain rfl := Option.some.inj hfc
            exact absurd h hskip
          · exact ⟨bi, cl1, hm, hfc, h⟩
      have hhit : ((strict = true ∧ (ar.classScopes cl).isRedeclaring = true ∧
            deflt = true) ∨
          (¬(strict = true ∧ (ar.classScopes cl).isRedeclaring = true) ∧ rec cl = some true)) →
          (true = true ↔ ∃ base_i cl, base_i ∈ b :: rest ∧ findClass ar base_i = some cl ∧
            ((strict = true ∧ (ar.classScopes cl).isRedeclaring = true ∧ deflt = true) ∨
              (¬(strict = true ∧ (ar.classScopes cl).isRedeclaring = true) ∧
                rec cl = some true))) := by
        intro h
        exact ⟨fun _ => ⟨b, cl, List.mem_cons_self _ _, hf, h⟩, fun _ => rfl⟩
      by_cases hs : strict = true ∧ (ar.classScopes cl).isRedeclaring = true
      · have hsb : (strict && (ar.classScopes cl).isRedeclaring) = true := by
          simp [hs.1, hs.2]
        rw [if_pos hsb]
        by_cases hd : deflt = true
        · rw [if_pos hd]
          exact ⟨true, rfl, hhit (Or.inl ⟨hs.1, hs.2, hd⟩)⟩
        · rw [if_neg hd]
          refine ⟨r, hr, hgo ?_⟩
          rintro (⟨-, -, h⟩ | ⟨h, -⟩)
          · exact hd h
          · exact h hs
      · have hsb : ¬((strict && (ar.classScopes cl).isRedeclaring) = true) := by
          simpa using hs
        rw [if_neg hsb]
        obtain ⟨rc, hrc⟩ := hrec b cl (List.mem_cons_self _ _) hf
        rw [hrc]
        cases rc with
        | true => exact ⟨true, rfl, hhit (Or.inr ⟨hs, hrc⟩)⟩
        | false =>
          refine ⟨r, hr, hgo ?_⟩
          rintro (⟨h1, h2, -⟩ | ⟨-, h⟩)
          · exact hs ⟨h1, h2⟩
          · rw [hrc] at h; exact absurd h (by simp)

theorem derivesFromBases_mono (rec1 rec2 : ClassId → Option Bool)
    (hle : ∀ cl r, rec1 cl = some r → rec2 cl = some r) (ar : AnalysisResult)
    (strict deflt : Bool) (l : List String) (r : Bool)
    (h : derivesFromBases rec1 ar strict deflt l = some r) :
    derivesFromBases rec2 ar strict deflt l = some r := by
  induction l with
  | nil => exact h
  | cons b rest ih =>
    simp only [derivesFromBases] at h ⊢
    cases hf : findClass ar b with
    | none => rw [hf] at h; exact ih h
    | some cl =>
      rw [hf] at h
      simp only [] at h ⊢
      split
      · rename_i hs
        rw [if_pos hs] at h
        split
        · rename_i hd; rw [if_pos hd] at h; exact h
        · rename_i hd; rw [if_neg hd] at h; exact ih h
      · rename_i hs
        rw [if_neg hs] at h
        cases hr : rec1 cl with
        | none => rw [hr] at h; exact absurd h (by simp)
        | some rc =>
          rw [hr] at h
          rw [hle cl rc hr]
          cases rc with
          | true => exact h
          | false => exact ih h

theorem derivesFrom_succ (ar : AnalysisResult) (base : String) (strict deflt : Bool)
    (fuel : Nat) : ∀ (c : ClassId) (r : Bool),
    derivesFrom fuel ar c base strict deflt = some r →
      derivesFrom (fuel + 1) ar c base strict deflt = some r := by
  induction fuel with
  | zero => intro c r h; exact absurd h (by simp [derivesFrom])
  | succ fuel ih =>
    intro c r h
    rw [derivesFrom] at h ⊢
    split
    · rename_i hd; rw [if_pos hd] at h; exact h
    · rename_i hd
      rw [if_neg hd] at h
      exact derivesFromBases_mono _ _ (fun cl rc hh => ih cl rc hh) _ _ _ _ _ h

theorem derivesFrom_mono (ar : AnalysisResult) (base : String) (strict deflt : Bool)
    {fuel fuel1 : Nat} (hle : fuel ≤ fuel1) (c : ClassId) (r : Bool)
    (h : derivesFrom fuel ar c base strict deflt = some r) :
    derivesFrom fuel1 ar c base strict deflt = some r := by
  induction hle with
  | refl => exact h
  | step _ ih => exact derivesFrom_succ _ _ _ _ _ _ _ ih

/-- On an acyclic class graph `derivesFrom` returns. -/
theorem derivesFrom_total (ar : AnalysisResult) (rank : ClassId → Nat) (hA : Acyclic ar rank)
    (base : String) (strict deflt : Bool) (fuel : Nat) :
    ∀ c, 0 < rank c → rank c ≤ fuel → ∃ r, derivesFrom fuel ar c base strict deflt = some r := by
  induction fuel with
  | zero => intro c hc hle; omega
  | succ fuel ih =>
    intro c hc hle
    rw [derivesFrom]
    split
    · exact ⟨true, rfl⟩
    · obtain ⟨r, hr, -⟩ := derivesFromBases_spec
        (fun cl => derivesFrom fuel ar cl base strict deflt) ar strict deflt
        (ar.classScopes c).bases (fun base_i cl hm hf => by
          have hlow := hA c base_i hc (Or.inr hm) cl (findClass_mem hf)
          exact ih cl hlow.1 (by omega))
      exact ⟨r, hr⟩

/-- The loop of `derivesFrom` never uses the recursive call on a class that is
redeclared when `strict` is set. -/
theorem derivesFromBases_strictCall (rec : ClassId → Option Bool) (ar : AnalysisResult)
    (strict deflt : Bool) (l : List String) :
    derivesFromBases rec ar strict deflt l =
      derivesFromBases (strictCallOnly ar strict rec) ar strict deflt l := by
  induction l with
  | nil => rfl
  | cons b rest ih =>
    simp only [derivesFromBases]
    cases hf : findClass ar b with
    | none => exact ih
    | some cl =>
      simp only []
      split
      · rw [ih]
      · rename_i hs
        simp only [strictCallOnly, if_neg hs]
        rw [ih]

/-- C16: on an acyclic class graph `derivesFrom` on `c` returns, and it
returns `true` exactly when `b` occurs in the base list of `c`, or some base of
`c` resolves to a class `K` such that either `strict` is set, `K` is redeclared
and `deflt` is `true`, or it is not the case that `strict` is set and `K` is
redeclared, and `derivesFrom` on `K` returns `true`.  A redeclared base under
`strict` is never recursed into: the run is the same when the recursive call on
such a class is replaced by one that does not return. -/
theorem derivesFrom_iff (ar : AnalysisResult) (rank : ClassId → Nat) (c : ClassId)
    (b : String) (strict deflt : Bool) (hA : Acyclic ar rank) (hc : 0 < rank c) :
    ∃ r, derivesFrom (rank c) ar c b strict deflt = some r ∧
      (r = true ↔ b ∈ (ar.classScopes c).bases ∨
        ∃ base_i K, base_i ∈ (ar.classScopes c).bases ∧ findClass ar base_i = some K ∧
          ((strict = true ∧ (ar.classScopes K).isRedeclaring = true ∧ deflt = true) ∨
            (¬(strict = true ∧ (ar.classScopes K).isRedeclaring = true) ∧
              derivesFrom (rank K) ar K b strict deflt = some true))) ∧
      derivesFrom (rank c) ar c b strict deflt =
        (if derivesDirectlyFrom ar c b then some true
        else
          derivesFromBases
            (strictCallOnly ar strict (fun cl => derivesFrom (rank c - 1) ar cl b strict deflt))
            ar strict deflt (ar.classScopes c).bases) := by
  cases hf : rank c with
  | zero => omega
  | succ fuel =>
    have hconv : ∀ base_i K, base_i ∈ (ar.classScopes c).bases → findClass ar base_i = some K →
        (derivesFrom fuel ar K b strict deflt = some true ↔
          derivesFrom (rank K) ar K b strict deflt = some true) := by
      intro base_i K hm hfc
      have hlow := hA c base_i hc (Or.inr hm) K (findClass_mem hfc)
      have hle : rank K ≤ fuel := by omega
      obtain ⟨rk, hrk⟩ := derivesFrom_total ar rank hA b strict deflt (rank K) K hlow.1
        (Nat.le_refl _)
      have hrk2 := derivesFrom_mono ar b strict deflt hle K rk hrk
      rw [hrk, hrk2]
    have heq : derivesFrom (fuel + 1) ar c b strict deflt =
        (if derivesDirectlyFrom ar c b then some true
        else
          derivesFromBases
            (strictCallOnly ar strict (fun cl => derivesFrom fuel ar cl b strict deflt))
            ar strict deflt (ar.classScopes c).bases) := by
      rw [derivesFrom, ← derivesFromBases_strictCall]
    rw [Nat.add_sub_cancel]
    by_cases hd : derivesDirectlyFrom ar c b = true
    · refine ⟨true, by rw [derivesFrom, if_pos hd], ?_, heq⟩
      exact ⟨fun _ => Or.inl ((derivesDirectlyFrom_iff ar c b).mp hd), fun _ => rfl⟩
    · obtain ⟨r, hr, hiff⟩ := derivesFromBases_spec
        (fun cl => derivesFrom fuel ar cl b strict deflt) ar strict deflt
        (ar.classScopes c).bases (fun base_i cl hm hfc => by
          have hlow := hA c base_i hc (Or.inr hm) cl (findClass_mem hfc)
          exact derivesFrom_total ar rank hA b strict deflt fuel cl hlow.1 (by omega))
      refine ⟨r, by rw [derivesFrom, if_neg hd]; exact hr, ?_, heq⟩
      rw [hiff]
      constructor
      · rintro ⟨base_i, K, hm, hfc, h⟩
        refine Or.inr ⟨base_i, K, hm, hfc, ?_⟩
        rcases h with h | ⟨h1, h2⟩
        · exact Or.inl h
        · exact Or.inr ⟨h1, (hconv base_i K hm hfc).mp h2⟩
      · rintro (h | ⟨base_i, K, hm, hfc, h⟩)
        · exact absurd ((derivesDirectlyFrom_iff ar c b).mpr h) hd
        · refine ⟨base_i, K, hm, hfc, ?_⟩
          rcases h with h | ⟨h1, h2⟩
          · exact Or.inl h
          · exact Or.inr ⟨h1, (hconv base_i K hm hfc).mpr h2⟩

theorem chainGraph_acyclic : Acyclic chainGraph chainRank := by
  intro c base hc hb d hd
  match c with
  | 0 =>
    have hb2 : base = "b" := by
      rcases hb with h | h
      · exact h
      · simpa [chainGraph, mkAnalysisResult] using h
    subst hb2
    simp [findClasses, chainGraph, mkAnalysisResult, toLower] at hd
    subst hd; decide
  | 1 =>
    have hb2 : base = "c" := by
      rcases hb with h | h
      · exact h
      · simpa [chainGraph, mkAnalysisResult] using h
    subst hb2
    simp [findClasses, chainGraph, mkAnalysisResult, toLower] at hd
    subst hd; decide
  | 2 =>
    have hb2 : base = "" := by
      rcases hb with h | h
      · exact h
      · simp [chainGraph, mkAnalysisResult] at h
    subst hb2
    simp [findClasses, chainGraph, mkAnalysisResult, toLower] at hd
  | n + 3 => exact absurd hc (by simp [chainRank])

/-- Witness of C16 on the chain `a` extends `b` extends `c`: `a` derives from
`c` through `b`, and does not derive from `a`. -/
theorem derivesFrom_iff_witness :
    (∃ r, derivesFrom (chainRank 0) chainGraph 0 "c" true false = some r ∧
      (r = true ↔ "c" ∈ (chainGraph.classScopes 0).bases ∨
        ∃ base_i K, base_i ∈ (chainGraph.classScopes 0).bases ∧
          findClass chainGraph base_i = some K ∧
          ((true = true ∧ (chainGraph.classScopes K).isRedeclaring = true ∧ false = true) ∨
            (¬(true = true ∧ (chainGraph.classScopes K).isRedeclaring = true) ∧
              derivesFrom (chainRank K) chainGraph K "c" true false = some true))) ∧
      derivesFrom (chainRank 0) chainGraph 0 "c" true false =
        (if derivesDirectlyFrom chainGraph 0 "c" then some true
        else
          derivesFromBases
            (strictCallOnly chainGraph true
              (fun cl => derivesFrom (chainRank 0 - 1) chainGraph cl "c" true false))
            chainGraph true false (chainGraph.classScopes 0).bases)) ∧
    derivesFrom 3 chainGraph 0 "c" true false = some true ∧
    derivesFrom 3 chainGraph 0 "a" true false = some false :=
  ⟨derivesFrom_iff chainGraph chainRank 0 "c" true false chainGraph_acyclic (by decide),
    by decide, by decide⟩

/-! ## Claim C18: `needsInvokeParent` -/

/-- C18 as stated fails.  The class `c` of `chainGraph` has no parent and no
private method, and `needsInvokeParent` returns `false` on it although its
parent is absent; the class `k` of `privateFirstGraph` has a private method,
which is not the last declaration of its name, and `needsInvokeParent` with
`considerSelf` set returns `false` on it. -/
theorem needsInvokeParent_no_parent_false :
    (chainGraph.classScopes 2).parent = "" ∧
    needsInvokeParent 1 chainGraph 2 true = some false ∧
    needsInvokeParent 1 chainGraph 2 false = some false ∧
    mapFind (privateFirstGraph.classScopes 0).functions "m" = some [0, 1] ∧
    (privateFirstGraph.functionScopes 0).isPrivate = true ∧
    needsInvokeParent 1 privateFirstGraph 0 true = some false := by
  decide

theorem anyLastPrivate_spec (ar : AnalysisResult) (l : List (String × List FuncId))
    (hne : ∀ name vec, (name, vec) ∈ l → vec ≠ []) :
    ∃ r, anyLastPrivate ar l = some r ∧
      (r = true ↔ ∃ name vec last, (name, vec) ∈ l ∧ vec.getLast? = some last ∧
        (ar.functionScopes last).isPrivate = true) := by
  induction l with
  | nil => exact ⟨false, rfl, by simp⟩
  | cons e rest ih =>
    obtain ⟨name, vec⟩ := e
    obtain ⟨r, hr, hiff⟩ := ih (fun n v hm => hne n v (List.mem_cons_of_mem _ hm))
    have hv := hne name vec (List.mem_cons_self _ _)
    simp only [anyLastPrivate]
    cases hl : vec.getLast? with
    | none => exact absurd (List.getLast?_eq_none_iff.mp hl) hv
    | some last =>
      simp only []
      by_cases hp : (ar.functionScopes last).isPrivate = true
      · rw [if_pos hp]
        exact ⟨true, rfl, fun _ => ⟨name, vec, last, List.mem_cons_self _ _, hl, hp⟩,
          fun _ => rfl⟩
      · rw [if_neg hp]
        refine ⟨r, hr, hiff.trans ⟨?_, ?_⟩⟩
        · rintro ⟨n, v, la, hm, h1, h2⟩
          exact ⟨n, v, la, List.mem_cons_of_mem _ hm, h1, h2⟩
        · rintro ⟨n, v, la, hm, h1, h2⟩
          rcases List.mem_cons.mp hm with he | hm
          · simp only [Prod.mk.injEq] at he
            obtain ⟨rfl, rfl⟩ := he
            rw [hl] at h1
            obtain rfl := Option.some.inj h1
            exact absurd h2 hp
          · exact ⟨n, v, la, hm, h1, h2⟩

theorem needsInvokeParent_succ (ar : AnalysisResult) (fuel : Nat) :
    ∀ (c : ClassId) (cs r : Bool), needsInvokeParent fuel ar c cs = some r →
      needsInvokeParent (fuel + 1) ar c cs = some r := by
  induction fuel with
  | zero => intro c cs r h; exact absurd h (by simp [needsInvokeParent])
  | succ fuel ih =>
    intro c cs r h
    rw [needsInvokeParent] at h ⊢
    split
    · rename_i hh; rw [hh] at h; exact absurd h (by simp)
    · rename_i hh; rw [hh] at h; exact h
    · rename_i hh
      rw [hh] at h
      simp only [] at h
      split
      · rename_i hp
        rw [if_pos hp] at h
        split
        · rename_i hf; rw [hf] at h; exact h
        · rename_i super hf
          rw [hf] at h
          simp only [] at h
          split
          · rename_i hr; rw [if_pos hr] at h; exact h
          · rename_i hr; rw [if_neg hr] at h; exact ih _ _ _ h
      · rename_i hp
        rw [if_neg hp] at h
        exact h

theorem needsInvokeParent_mono (ar : AnalysisResult) {fuel fuel1 : Nat} (hle : fuel ≤ fuel1)
    (c : ClassId) (cs r : Bool) (h : needsInvokeParent fuel ar c cs = some r) :
    needsInvokeParent fuel1 ar c cs = some r := by
  induction hle with
  | refl => exact h
  | step _ ih => exact needsInvokeParent_succ _ _ _ _ _ ih

/-- What `needsInvokeParent` returns, given that the call on the parent class
returns. -/
theorem needsInvokeParent_step (ar : AnalysisResult) (hN : FunctionsNonempty ar) (fuel : Nat)
    (c : ClassId) (cs : Bool)
    (hrec : ∀ super, findClass ar (ar.classScopes c).parent = some super →
      ∃ r, needsInvokeParent fuel ar super true = some r) :
    ∃ r, needsInvokeParent (fuel + 1) ar c cs = some r ∧
      (r = true ↔
        (cs = true ∧ ∃ name vec last, (name, vec) ∈ (ar.classScopes c).functions ∧
          vec.getLast? = some last ∧ (ar.functionScopes last).isPrivate = true) ∨
        ((ar.classScopes c).parent ≠ "" ∧
          (findClass ar (ar.classScopes c).parent = none ∨
            ∃ super, findClass ar (ar.classScopes c).parent = some super ∧
              ((ar.classScopes super).isRedeclaring = true ∨
                needsInvokeParent fuel ar super true = some true)))) := by
  obtain ⟨rp, hrp, hiffp⟩ := anyLastPrivate_spec ar (ar.classScopes c).functions (hN c)
  have hself : ∃ rs, (if cs = true then anyLastPrivate ar (ar.classScopes c).functions
        else some false) = some rs ∧
      (rs = true ↔ cs = true ∧ ∃ name vec last, (name, vec) ∈ (ar.classScopes c).functions ∧
          vec.getLast? = some last ∧ (ar.functionScopes last).isPrivate = true) := by
    by_cases hcs : cs = true
    · rw [if_pos hcs]
      exact ⟨rp, hrp, hiffp.trans ⟨fun h => ⟨hcs, h⟩, fun h => h.2⟩⟩
    · rw [if_neg hcs]
      exact ⟨false, rfl, ⟨fun h => absurd h (by simp), fun h => absurd h.1 hcs⟩⟩
  obtain ⟨rs, hrs, hiffs⟩ := hself
  rw [needsInvokeParent, hrs]
  cases rs with
  | true => exact ⟨true, rfl, fun _ => Or.inl (hiffs.mp rfl), fun _ => rfl⟩
  | false =>
    have hns : ¬(cs = true ∧ ∃ name vec last, (name, vec) ∈ (ar.classScopes c).functions ∧
          vec.getLast? = some last ∧ (ar.functionScopes last).isPrivate = true) :=
      fun h => absurd (hiffs.mpr h) (by simp)
    simp only []
    by_cases hp : (ar.classScopes c).parent ≠ ""
    · rw [if_pos hp]
      cases hf : findClass ar (ar.classScopes c).parent with
      | none => exact ⟨true, rfl, fun _ => Or.inr ⟨hp, Or.inl rfl⟩, fun _ => rfl⟩
      | some super =>
        simp only []
        by_cases hr : (ar.classScopes super).isRedeclaring = true
        · rw [if_pos hr]
          exact ⟨true, rfl, fun _ => Or.inr ⟨hp, Or.inr ⟨super, rfl, Or.inl hr⟩⟩, fun _ => rfl⟩
        · rw [if_neg hr]
          obtain ⟨r, hcall⟩ := hrec super hf
          refine ⟨r, hcall, ?_, ?_⟩
          · intro h
            subst h
            exact Or.inr ⟨hp, Or.inr ⟨super, rfl, Or.inr hcall⟩⟩
          · rintro (h | ⟨-, h | ⟨s, hs, h | h⟩⟩)
            · exact absurd h hns
            · exact absurd h (by simp)
            · obtain rfl := Option.some.inj hs
              exact absurd h hr
            · obtain rfl := Option.some.inj hs
              rw [hcall] at h
              exact Option.some.inj h
    · rw [if_neg hp]
      refine ⟨false, rfl, fun h => absurd h (by simp), ?_⟩
      rintro (h | ⟨h, -⟩)
      · exact absurd h hns
      · exact absurd h hp

/-- On an acyclic class graph whose function vectors are non-empty,
`needsInvokeParent` returns. -/
theorem needsInvokeParent_total (ar : AnalysisResult) (rank : ClassId → Nat)
    (hA : Acyclic ar rank) (hN : FunctionsNonempty ar) (fuel : Nat) :
    ∀ c cs, 0 < rank c → rank c ≤ fuel → ∃ r, needsInvokeParent fuel ar c cs = some r := by
  induction fuel with
  | zero => intro c cs hc hle; omega
  | succ fuel ih =>
    intro c cs hc hle
    obtain ⟨r, hr, -⟩ := needsInvokeParent_step ar hN fuel c cs (fun super hf => by
      have hlow := hA c _ hc (Or.inl rfl) super (findClass_mem hf)
      exact ih super true hlow.1 (by omega))
    exact ⟨r, hr⟩

/-- C18, amended: on an acyclic class graph whose function vectors are
non-empty `needsInvokeParent` returns, and it returns `true` exactly when
`considerSelf` is set and the last declaration of some method name of the class
is private, or the class has a parent name that is unregistered, or resolves to
a redeclared class, or resolves to a class on which `needsInvokeParent` (with
`considerSelf` set) returns `true`.  A class without a parent name and without
such a private declaration gives `false`. -/
theorem needsInvokeParent_iff (ar : AnalysisResult) (rank : ClassId → Nat) (c : ClassId)
    (considerSelf : Bool) (hA : Acyclic ar rank) (hN : FunctionsNonempty ar)
    (hc : 0 < rank c) :
    ∃ r, needsInvokeParent (rank c) ar c considerSelf = some r ∧
      (r = true ↔
        (considerSelf = true ∧
          ∃ name vec last, (name, vec) ∈ (ar.classScopes c).functions ∧
            vec.getLast? = some last ∧ (ar.functionScopes last).isPrivate = true) ∨
        ((ar.classScopes c).parent ≠ "" ∧
          (findClass ar (ar.classScopes c).parent = none ∨
            ∃ super, findClass ar (ar.classScopes c).parent = some super ∧
              ((ar.classScopes super).isRedeclaring = true ∨
                needsInvokeParent (rank super) ar super true = some true)))) := by
  cases hf : rank c with
  | zero => omega
  | succ fuel =>
    have htot : ∀ super, findClass ar (ar.classScopes c).parent = some super →
        0 < rank super ∧ rank super ≤ fuel := by
      intro super hfs
      have hlow := hA c _ hc (Or.inl rfl) super (findClass_mem hfs)
      exact ⟨hlow.1, by omega⟩
    obtain ⟨r, hr, hiff⟩ := needsInvokeParent_step ar hN fuel c considerSelf
      (fun super hfs => needsInvokeParent_total ar rank hA hN fuel super true (htot super hfs).1
        (htot super hfs).2)
    refine ⟨r, hr, hiff.trans ?_⟩
    have hconv : ∀ super, findClass ar (ar.classScopes c).parent = some super →
        (needsInvokeParent fuel ar super true = some true ↔
          needsInvokeParent (rank super) ar super true = some true) := by
      intro super hfs
      obtain ⟨rk, hrk⟩ := needsInvokeParent_total ar rank hA hN (rank super) super true
        (htot super hfs).1 (Nat.le_refl _)
      rw [hrk, needsInvokeParent_mono ar (htot super hfs).2 super true rk hrk]
    constructor
    · rintro (h | ⟨hp, h | ⟨s, hs, h | h⟩⟩)
      · exact Or.inl h
      · exact Or.inr ⟨hp, Or.inl h⟩
      · exact Or.inr ⟨hp, Or.inr ⟨s, hs, Or.inl h⟩⟩
      · exact Or.inr ⟨hp, Or.inr ⟨s, hs, Or.inr ((hconv s hs).mp h)⟩⟩
    · rintro (h | ⟨hp, h | ⟨s, hs, h | h⟩⟩)
      · exact Or.inl h
      · exact Or.inr ⟨hp, Or.inl h⟩
      · exact Or.inr ⟨hp, Or.inr ⟨s, hs, Or.inl h⟩⟩
      · exact Or.inr ⟨hp, Or.inr ⟨s, hs, Or.inr ((hconv s hs).mpr h)⟩⟩

theorem taggedParentGraph_acyclic : Acyclic taggedParentGraph rootRank := by
  intro c base hc hb d hd
  match c with
  | 0 =>
    have hb2 : base = "p" := by
      rcases hb with h | h
      · exact h
      · simpa [taggedParentGraph, mkAnalysisResult] using h
    subst hb2
    simp [findClasses, taggedParentGraph, mkAnalysisResult, toLower] at hd
    subst hd; decide
  | 1 =>
    have hb2 : base = "ghost" := by
      rcases hb with h | h
      · exact h
      · simpa [taggedParentGraph, mkAnalysisResult] using h
    subst hb2
    simp [findClasses, taggedParentGraph, mkAnalysisResult, toLower] at hd
  | 2 =>
    have hb2 : base = "" := by
      rcases hb with h | h
      · exact h
      · simp [taggedParentGraph, mkAnalysisResult] at h
    subst hb2
    simp [findClasses, taggedParentGraph, mkAnalysisResult, toLower] at hd
  | n + 3 => exact absurd hc (by simp [rootRank])

/-- Witness of C18 (amended) on `taggedParentGraph`: the parent `p` of `c` is
a single class whose own parent `ghost` is unregistered, and the call on `c`
returns `true`. -/
theorem needsInvokeParent_iff_witness :
    (∃ r, needsInvokeParent (rootRank 0) taggedParentGraph 0 true = some r ∧
      (r = true ↔
        (true = true ∧
          ∃ name vec last, (name, vec) ∈ (taggedParentGraph.classScopes 0).functions ∧
            vec.getLast? = some last ∧
            (taggedParentGraph.functionScopes last).isPrivate = true) ∨
        ((taggedParentGraph.classScopes 0).parent ≠ "" ∧
          (findClass taggedParentGraph (taggedParentGraph.classScopes 0).parent = none ∨
            ∃ super,
              findClass taggedParentGraph (taggedParentGraph.classScopes 0).parent =
                some super ∧
              ((taggedParentGraph.classScopes super).isRedeclaring = true ∨
                needsInvokeParent (rootRank super) taggedParentGraph super true =
                  some true))))) ∧
    needsInvokeParent 2 taggedParentGraph 0 true = some true ∧
    needsInvokeParent 1 taggedParentGraph 1 false = some true :=
  ⟨needsInvokeParent_iff taggedParentGraph rootRank 0 true taggedParentGraph_acyclic
    taggedParentGraph_functionsNonempty (by decide), by decide, by decide⟩

/-! ## Claim C19: the local check of the capability queries -/

/-- C19 (what the code does): the test `if (strcasecmp(...))` of the local
check holds when the names differ.  On classes without a parent,
`implementsArrayAccess` returns 1 for `plain`, whose only base is `countable`,
and 0 for `access`, whose base is `arrayaccess`; `implementsAccessor` for
`__get` returns 1 for `plain`, which declares `foo` only, and 0 for `getter`,
which declares `__get`. -/
theorem implements_local_check_inverted :
    (capabilityGraph.classScopes 0).parent = "" ∧
    (capabilityGraph.classScopes 0).bases = ["countable"] ∧
    (implementsArrayAccess 1 capabilityGraph 0).map (fun r => r.2) = some 1 ∧
    (capabilityGraph.classScopes 1).bases = ["arrayaccess"] ∧
    (implementsArrayAccess 1 capabilityGraph 1).map (fun r => r.2) = some 0 ∧
    (implementsAccessor 1 capabilityGraph 0 "__get").map (fun r => r.2) = some 1 ∧
    (implementsAccessor 1 capabilityGraph 2 "__get").map (fun r => r.2) = some 0 := by
  decide

/-! ## The capability queries and their cache -/

theorem implementsArrayAccess_eq (fuel : Nat) : ∀ (ar : AnalysisResult) (c : ClassId),
    implementsArrayAccess fuel ar c = implementsWith "arrayaccess" localArrayAccess fuel ar c := by
  induction fuel with
  | zero => intro ar c; rfl
  | succ fuel ih =>
    intro ar c
    have hrec : (fun a cls => implementsArrayAccess fuel a cls) =
        (fun a cls => implementsWith "arrayaccess" localArrayAccess fuel a cls) := by
      funext a cls; exact ih a cls
    simp only [implementsArrayAccess, implementsWith, hrec, localArrayAccess]
    cases cacheFind (ar.classScopes c).implemented "arrayaccess" with
    | some v => rfl
    | none =>
      by_cases hp : (ar.classScopes c).parent = ""
      · simp [hp]
      · simp [hp]

theorem implementsAccessor_eq (name : String) (fuel : Nat) :
    ∀ (ar : AnalysisResult) (c : ClassId),
    implementsAccessor fuel ar c name = implementsWith name (localAccessor name) fuel ar c := by
  induction fuel with
  | zero => intro ar c; rfl
  | succ fuel ih =>
    intro ar c
    have hrec : (fun a cls => implementsAccessor fuel a cls name) =
        (fun a cls => implementsWith name (localAccessor name) fuel a cls) := by
      funext a cls; exact ih a cls
    simp only [implementsAccessor, implementsWith, hrec, localAccessor]

theorem localArrayAccess_ok : LocalOk localArrayAccess := by
  intro c c1 h
  have h1 : c1.bases = c.bases := by
    have := congrArg ClassScope.bases h
    exact this
  have h2 : c1.parent = c.parent := by
    have := congrArg ClassScope.parent h
    exact this
  simp only [localArrayAccess, h1, h2]

theorem localAccessor_ok (name : String) : LocalOk (localAccessor name) := by
  intro c c1 h
  have h1 : c1.functions = c.functions := by
    have := congrArg ClassScope.functions h
    exact this
  simp only [localAccessor, h1]

theorem cacheFind_cacheSet (m : List (String × Int)) (key : String) (v : Int) :
    cacheFind (cacheSet m key v) key = some v := by
  induction m with
  | nil => simp [cacheSet, cacheFind]
  | cons e rest ih =>
    obtain ⟨k, w⟩ := e
    simp only [cacheSet]
    by_cases hk : toLower k = toLower key
    · simp [hk, cacheFind]
    · rw [if_neg hk]
      simp only [cacheFind, List.find?_cons, hk, decide_False] at ih ⊢
      exact ih

theorem Cached.crefl (key : String) (localCheck : ClassScope → Int) (ar : AnalysisResult) :
    Cached key localCheck ar ar where
  classDecs := rfl
  scopes := fun _ => rfl
  miss := fun _ h => h
  entries := fun c v h => ⟨1, by simp [pureImplements, h]⟩

theorem Cached.cparent {key : String} {localCheck : ClassScope → Int} {ar0 ar : AnalysisResult}
    (h : Cached key localCheck ar0 ar) (c : ClassId) :
    (ar.classScopes c).parent = (ar0.classScopes c).parent := by
  have := congrArg ClassScope.parent (h.scopes c)
  exact this

theorem Cached.cbases {key : String} {localCheck : ClassScope → Int} {ar0 ar : AnalysisResult}
    (h : Cached key localCheck ar0 ar) (c : ClassId) :
    (ar.classScopes c).bases = (ar0.classScopes c).bases := by
  have := congrArg ClassScope.bases (h.scopes c)
  exact this

theorem Cached.cfindClasses {key : String} {localCheck : ClassScope → Int}
    {ar0 ar : AnalysisResult} (h : Cached key localCheck ar0 ar) (name : String) :
    findClasses ar name = findClasses ar0 name :=
  findClasses_congr h.classDecs name

theorem Cached.set {key : String} {localCheck : ClassScope → Int} {ar0 ar : AnalysisResult}
    (h : Cached key localCheck ar0 ar) (self : ClassId) (v : Int)
    (hv : ∃ fuel, pureImplements key localCheck fuel ar0 self = some v) :
    Cached key localCheck ar0 (setImplemented ar self key v) where
  classDecs := h.classDecs
  scopes := fun c => by
    by_cases hc : c = self
    · subst hc
      simpa [setImplemented, AnalysisResult.updClass] using h.scopes c
    · simpa [setImplemented, AnalysisResult.updClass, Function.update, hc] using h.scopes c
  miss := fun c hm => by
    by_cases hc : c = self
    · subst hc
      simp [setImplemented, AnalysisResult.updClass, cacheFind_cacheSet] at hm
    · apply h.miss
      simpa [setImplemented, AnalysisResult.updClass, Function.update, hc] using hm
  entries := fun c w hw => by
    by_cases hc : c = self
    · subst hc
      simp only [setImplemented, AnalysisResult.updClass, Function.update_same,
        cacheFind_cacheSet, Option.some.injEq] at hw
      subst hw
      exact hv
    · apply h.entries
      simpa [setImplemented, AnalysisResult.updClass, Function.update, hc] using hw

theorem pollValues_mono (rec1 rec2 : ClassId → Option Int)
    (hle : ∀ cl v, rec1 cl = some v → rec2 cl = some v) (l : List ClassId) :
    ∀ (yes no : Nat) (r : Nat × Nat), pollValues rec1 l yes no = some r →
      pollValues rec2 l yes no = some r := by
  induction l with
  | nil => intro yes no r h; exact h
  | cons cl rest ih =>
    intro yes no r h
    simp only [pollValues] at h ⊢
    cases hr : rec1 cl with
    | none => rw [hr] at h; exact absurd h (by simp)
    | some a =>
      rw [hr] at h
      rw [hle cl a hr]
      simp only [] at h ⊢
      split
      · rename_i hneg; rw [if_pos hneg] at h; exact h
      · rename_i hneg
        rw [if_neg hneg] at h
        split
        · rename_i hpos; rw [if_pos hpos] at h; exact ih _ _ _ h
        · rename_i hpos; rw [if_neg hpos] at h; exact ih _ _ _ h

theorem pureImplements_succ (key : String) (localCheck : ClassScope → Int)
    (ar : AnalysisResult) (fuel : Nat) : ∀ (c : ClassId) (v : Int),
    pureImplements key localCheck fuel ar c = some v →
      pureImplements key localCheck (fuel + 1) ar c = some v := by
  induction fuel with
  | zero => intro c v h; exact absurd h (by simp [pureImplements])
  | succ fuel ih =>
    intro c v h
    rw [pureImplements] at h ⊢
    cases hc : cacheFind (ar.classScopes c).implemented key with
    | some w => rw [hc] at h; exact h
    | none =>
      rw [hc] at h
      simp only [] at h ⊢
      split
      · rename_i hp
        rw [if_pos hp] at h
        cases hpoll : pollValues (fun cls => pureImplements key localCheck fuel ar cls)
            (findClasses ar (ar.classScopes c).parent) 0 0 with
        | none => rw [hpoll] at h; exact absurd h (by simp)
        | some r =>
          rw [hpoll] at h
          rw [pollValues_mono _ _ (fun cl w hh => ih cl w hh) _ _ _ _ hpoll]
          exact h
      · rename_i hp
        rw [if_neg hp] at h
        exact h

theorem pureImplements_mono (key : String) (localCheck : ClassScope → Int)
    (ar : AnalysisResult) {fuel fuel1 : Nat} (hle : fuel ≤ fuel1) (c : ClassId) (v : Int)
    (h : pureImplements key localCheck fuel ar c = some v) :
    pureImplements key localCheck fuel1 ar c = some v := by
  induction hle with
  | refl => exact h
  | step _ ih => exact pureImplements_succ _ _ _ _ _ _ ih

theorem pureImplements_unique (key : String) (localCheck : ClassScope → Int)
    (ar : AnalysisResult) {fuel fuel1 : Nat} (c : ClassId) (v v1 : Int)
    (h : pureImplements key localCheck fuel ar c = some v)
    (h1 : pureImplements key localCheck fuel1 ar c = some v1) : v = v1 := by
  have a := pureImplements_mono key localCheck ar (Nat.le_max_left fuel fuel1) c v h
  have b := pureImplements_mono key localCheck ar (Nat.le_max_right fuel fuel1) c v1 h1
  rw [a] at b
  exact Option.some.inj b

/-- The loop over the candidates agrees with the loop on the counters, when
the recursive call agrees with the computation on `ar0`. -/
theorem pollCandidates_refines (key : String) (localCheck : ClassScope → Int)
    (ar0 : AnalysisResult)
    (rec : AnalysisResult → ClassId → Option (AnalysisResult × Int))
    (hrec : ∀ a cl a1 v, Cached key localCheck ar0 a → rec a cl = some (a1, v) →
      (∃ F, pureImplements key localCheck F ar0 cl = some v) ∧ Cached key localCheck ar0 a1)
    (cands : List ClassId) :
    ∀ (a : AnalysisResult) (yes no : Nat) (a1 : AnalysisResult) (yes1 no1 : Nat),
      Cached key localCheck ar0 a →
      pollCandidates rec cands a yes no = some (a1, yes1, no1) →
      (∃ F, pollValues (fun cl => pureImplements key localCheck F ar0 cl) cands yes no =
        some (yes1, no1)) ∧ Cached key localCheck ar0 a1 := by
  induction cands with
  | nil =>
    intro a yes no a1 yes1 no1 hC h
    simp only [pollCandidates, Option.some.injEq, Prod.mk.injEq] at h
    obtain ⟨rfl, rfl, rfl⟩ := h
    exact ⟨⟨0, rfl⟩, hC⟩
  | cons cl rest ih =>
    intro a yes no a1 yes1 no1 hC h
    simp only [pollCandidates] at h
    cases hcall : rec a cl with
    | none => rw [hcall] at h; exact absurd h (by simp)
    | some q =>
      obtain ⟨a2, v⟩ := q
      rw [hcall] at h
      simp only [] at h
      obtain ⟨⟨F1, hF1⟩, hC2⟩ := hrec a cl a2 v hC hcall
      by_cases hneg : v < 0
      · rw [if_pos hneg] at h
        simp only [Option.some.injEq, Prod.mk.injEq] at h
        obtain ⟨rfl, rfl, rfl⟩ := h
        exact ⟨⟨F1, by simp only [pollValues, hF1, if_pos hneg]⟩, hC2⟩
      · rw [if_neg hneg] at h
        by_cases hpos : v > 0
        · rw [if_pos hpos] at h
          obtain ⟨⟨F2, hF2⟩, hC3⟩ := ih a2 _ _ a1 yes1 no1 hC2 h
          refine ⟨⟨max F1 F2, ?_⟩, hC3⟩
          simp only [pollValues,
            pureImplements_mono key localCheck ar0 (Nat.le_max_left F1 F2) cl v hF1,
            if_neg hneg, if_pos hpos]
          exact pollValues_mono _ _
            (fun d w hh => pureImplements_mono key localCheck ar0 (Nat.le_max_right F1 F2) d w hh)
            _ _ _ _ hF2
        · rw [if_neg hpos] at h
          obtain ⟨⟨F2, hF2⟩, hC3⟩ := ih a2 _ _ a1 yes1 no1 hC2 h
          refine ⟨⟨max F1 F2, ?_⟩, hC3⟩
          simp only [pollValues,
            pureImplements_mono key localCheck ar0 (Nat.le_max_left F1 F2) cl v hF1,
            if_neg hneg, if_neg hpos]
          exact pollValues_mono _ _
            (fun d w hh => pureImplements_mono key localCheck ar0 (Nat.le_max_right F1 F2) d w hh)
            _ _ _ _ hF2

/-- A capability query run from a later state of `ar0` returns the result
computed on `ar0` and leaves a later state of `ar0`. -/
theorem implementsWith_refines (key : String) (localCheck : ClassScope → Int)
    (hlocal : LocalOk localCheck) (ar0 : AnalysisResult) (fuel : Nat) :
    ∀ (a : AnalysisResult) (c : ClassId) (a1 : AnalysisResult) (v : Int),
      Cached key localCheck ar0 a → implementsWith key localCheck fuel a c = some (a1, v) →
      (∃ F, pureImplements key localCheck F ar0 c = some v) ∧ Cached key localCheck ar0 a1 := by
  induction fuel with
  | zero => intro a c a1 v _ h; exact absurd h (by simp [implementsWith])
  | succ fuel ih =>
    intro a c a1 v hC h
    rw [implementsWith] at h
    cases hc : cacheFind (a.classScopes c).implemented key with
    | some w =>
      rw [hc] at h
      simp only [Option.some.injEq, Prod.mk.injEq] at h
      obtain ⟨rfl, rfl⟩ := h
      exact ⟨hC.entries c w hc, hC⟩
    | none =>
      rw [hc] at h
      simp only [] at h
      have hmiss0 := hC.miss c hc
      have hloc : localCheck (a.classScopes c) = localCheck (ar0.classScopes c) :=
        hlocal _ _ (hC.scopes c)
      have hpure : ∀ F, pureImplements key localCheck (F + 1) ar0 c =
          if (ar0.classScopes c).parent ≠ "" ∧ localCheck (ar0.classScopes c) = 0 then
            match pollValues (fun cls => pureImplements key localCheck F ar0 cls)
                (findClasses ar0 (ar0.classScopes c).parent) 0 0 with
            | none => none
            | some (yes, no) => some (pollResult (localCheck (ar0.classScopes c)) yes no)
          else some (localCheck (ar0.classScopes c)) := by
        intro F
        rw [pureImplements, hmiss0]
      rw [hloc, hC.cparent, hC.cfindClasses] at h
      by_cases hp : (ar0.classScopes c).parent ≠ "" ∧ localCheck (ar0.classScopes c) = 0
      · rw [if_pos hp] at h
        cases hpoll : pollCandidates (fun a cls => implementsWith key localCheck fuel a cls)
            (findClasses ar0 (ar0.classScopes c).parent) a 0 0 with
        | none => rw [hpoll] at h; exact absurd h (by simp)
        | some q =>
          obtain ⟨a2, yes, no⟩ := q
          rw [hpoll] at h
          simp only [Option.some.injEq, Prod.mk.injEq] at h
          obtain ⟨rfl, rfl⟩ := h
          obtain ⟨⟨F, hF⟩, hC2⟩ := pollCandidates_refines key localCheck ar0 _
            (fun x d x1 w hx hh => ih x d x1 w hx hh) _ a 0 0 a2 yes no hC hpoll
          have hval : ∃ F, pureImplements key localCheck F ar0 c =
              some (pollResult (localCheck (ar0.classScopes c)) yes no) :=
            ⟨F + 1, by rw [hpure, if_pos hp, hF]⟩
          exact ⟨hval, hC2.set c _ hval⟩
      · rw [if_neg hp] at h
        simp only [Option.some.injEq, Prod.mk.injEq] at h
        obtain ⟨rfl, rfl⟩ := h
        have hval : ∃ F, pureImplements key localCheck F ar0 c =
            some (localCheck (ar0.classScopes c)) :=
          ⟨1, by rw [hpure, if_neg hp]⟩
        exact ⟨hval, hC.set c _ hval⟩

theorem pollCandidates_total
    (rec : AnalysisResult → ClassId → Option (AnalysisResult × Int))
    (P : AnalysisResult → Prop)
    (hP : ∀ a cl a1 v, P a → rec a cl = some (a1, v) → P a1) (cands : List ClassId)
    (hrec : ∀ a cl, P a → cl ∈ cands → ∃ r, rec a cl = some r) :
    ∀ (a : AnalysisResult) (yes no : Nat), P a →
      ∃ r, pollCandidates rec cands a yes no = some r := by
  induction cands with
  | nil => intro a yes no _; exact ⟨_, rfl⟩
  | cons cl rest ih =>
    intro a yes no ha
    obtain ⟨⟨a1, v⟩, hcall⟩ := hrec a cl ha (List.mem_cons_self _ _)
    have ih2 := ih (fun x d hx hd => hrec x d hx (List.mem_cons_of_mem _ hd))
    simp only [pollCandidates, hcall]
    split
    · exact ⟨_, rfl⟩
    · split
      · exact ih2 a1 _ _ (hP _ _ _ _ ha hcall)
      · exact ih2 a1 _ _ (hP _ _ _ _ ha hcall)

/-- On an acyclic class graph a capability query returns. -/
theorem implementsWith_total (key : String) (localCheck : ClassScope → Int)
    (hlocal : LocalOk localCheck) (ar0 : AnalysisResult) (rank : ClassId → Nat)
    (hA : Acyclic ar0 rank) (fuel : Nat) :
    ∀ (a : AnalysisResult) (c : ClassId), Cached key localCheck ar0 a → 0 < rank c →
      rank c ≤ fuel → ∃ r, implementsWith key localCheck fuel a c = some r := by
  induction fuel with
  | zero => intro a c _ hc hle; omega
  | succ fuel ih =>
    intro a c hC hc hle
    rw [implementsWith]
    cases hcf : cacheFind (a.classScopes c).implemented key with
    | some w => exact ⟨_, rfl⟩
    | none =>
      simp only []
      have hpolled : ∃ q,
          (if (a.classScopes c).parent ≠ "" ∧ localCheck (a.classScopes c) = 0 then
            match pollCandidates (fun a cls => implementsWith key localCheck fuel a cls)
                (findClasses a (a.classScopes c).parent) a 0 0 with
            | none => none
            | some (ar1, yes, no) =>
              some (ar1, pollResult (localCheck (a.classScopes c)) yes no)
          else some (a, localCheck (a.classScopes c))) = some q := by
        split
        · obtain ⟨⟨a1, yes, no⟩, hpoll⟩ := pollCandidates_total
            (fun a cls => implementsWith key localCheck fuel a cls)
            (Cached key localCheck ar0)
            (fun x d x1 w hx hh =>
              (implementsWith_refines key localCheck hlocal ar0 fuel x d x1 w hx hh).2)
            (findClasses a (a.classScopes c).parent)
            (fun x d hx hd => by
              rw [hC.cfindClasses, hC.cparent] at hd
              have hlow := hA c _ hc (Or.inl rfl) d hd
              exact ih x d hx hlow.1 (by omega))
            a 0 0 hC
          rw [hpoll]
          exact ⟨_, rfl⟩
        · exact ⟨_, rfl⟩
      obtain ⟨⟨a1, r1⟩, hq⟩ := hpolled
      rw [hq]
      exact ⟨_, rfl⟩

theorem pollValues_join (rec : ClassId → Option Int) (cands : List ClassId) (vals : List Int)
    (hvals : List.Forall₂ (fun cl v => ∀ w, rec cl = some w → w = v) cands vals) :
    ∀ (yes no y1 n1 : Nat), pollValues rec cands yes no = some (y1, n1) →
      pollResult 0 y1 n1 = joinFrom (decide (yes ≠ 0)) (decide (no ≠ 0)) vals := by
  induction hvals with
  | nil =>
    intro yes no y1 n1 h
    simp only [pollValues, Option.some.injEq, Prod.mk.injEq] at h
    obtain ⟨rfl, rfl⟩ := h
    simp [pollResult, joinFrom]
  | @cons cl v rest vs hv _ ih =>
    intro yes no y1 n1 h
    simp only [pollValues] at h
    cases hr : rec cl with
    | none => rw [hr] at h; exact absurd h (by simp)
    | some w =>
      rw [hr] at h
      obtain rfl := hv w hr
      simp only [] at h
      by_cases hneg : w < 0
      · rw [if_pos hneg] at h
        simp only [Option.some.injEq, Prod.mk.injEq] at h
        obtain ⟨rfl, rfl⟩ := h
        simp [pollResult, joinFrom, hneg]
      · rw [if_neg hneg] at h
        by_cases hpos : w > 0
        · rw [if_pos hpos] at h
          rw [ih _ _ _ _ h]
          have hz : ¬(w = 0) := by omega
          have hpos2 : 0 < w := hpos
          simp [joinFrom, hneg, hpos2, hz]
        · rw [if_neg hpos] at h
          rw [ih _ _ _ _ h]
          have hz : w = 0 := by omega
          subst hz
          simp [joinFrom]

theorem isEmpty_trichotomy (vals : List Int) :
    vals.isEmpty = !(vals.any (fun a => decide (a < 0)) ||
      vals.any (fun a => decide (0 < a)) || vals.any (fun a => decide (a = 0))) := by
  cases vals with
  | nil => rfl
  | cons x xs =>
    rcases lt_trichotomy x 0 with h | h | h
    · simp [h]
    · simp [h]
    · simp [h]

theorem all_pos_trichotomy (vals : List Int) :
    vals.all (fun a => decide (0 < a)) = !(vals.any (fun a => decide (a < 0)) ||
      vals.any (fun a => decide (a = 0))) := by
  induction vals with
  | nil => rfl
  | cons x xs ih =>
    simp only [List.all_cons, List.any_cons, ih]
    rcases lt_trichotomy x 0 with h | h | h
    · have h2 : ¬(0 < x) := by omega
      simp [h, h2]
    · simp [h]
    · have h2 : ¬(x < 0) := by omega
      have h3 : ¬(x = 0) := by omega
      simp [h, h2, h3]

/-- The value left by the loop that starts with both counters at zero is the
join of the results, as the specification words it. -/
theorem joinResults_eq_joinFrom (vals : List Int) :
    joinResults vals = joinFrom false false vals := by
  simp only [joinResults, joinFrom, isEmpty_trichotomy vals, all_pos_trichotomy vals,
    Bool.false_or]
  cases vals.any (fun a => decide (a < 0)) <;> cases vals.any (fun a => decide (0 < a)) <;>
    cases vals.any (fun a => decide (a = 0)) <;> rfl

theorem any_perm {l1 l2 : List Int} (h : l1.Perm l2) (p : Int → Bool) :
    l1.any p = l2.any p := by
  rw [Bool.eq_iff_iff]
  simp only [List.any_eq_true]
  exact ⟨fun ⟨x, hx, hp⟩ => ⟨x, h.mem_iff.mp hx, hp⟩, fun ⟨x, hx, hp⟩ => ⟨x, h.mem_iff.mpr hx, hp⟩⟩

/-- The join does not depend on the order of the results. -/
theorem joinResults_perm {l1 l2 : List Int} (h : l1.Perm l2) :
    joinResults l1 = joinResults l2 := by
  simp only [joinResults_eq_joinFrom, joinFrom, any_perm h]

theorem joinResults_single (v : Int) (hv : v = -1 ∨ v = 0 ∨ v = 1) : joinResults [v] = v := by
  rcases hv with rfl | rfl | rfl <;> decide

theorem forall2_of_forall {α β : Type} (P : α → β → Prop) (l : List α)
    (h : ∀ x, x ∈ l → ∃ y, P x y) : ∃ ys, List.Forall₂ P l ys := by
  induction l with
  | nil => exact ⟨[], List.Forall₂.nil⟩
  | cons x xs ih =>
    obtain ⟨y, hy⟩ := h x (List.mem_cons_self _ _)
    obtain ⟨ys, hys⟩ := ih (fun z hz => h z (List.mem_cons_of_mem _ hz))
    exact ⟨y :: ys, List.Forall₂.cons hy hys⟩

/-- The result of a capability query on a class whose local check says No and
that has a parent name is the join of the results of the query on the classes
registered under the parent name. -/
theorem implementsWith_join (key : String) (localCheck : ClassScope → Int)
    (hlocal : LocalOk localCheck) (ar : AnalysisResult) (rank : ClassId → Nat) (c : ClassId)
    (hA : Acyclic ar rank) (hc : 0 < rank c)
    (hmiss : cacheFind (ar.classScopes c).implemented key = none)
    (hno : localCheck (ar.classScopes c) = 0)
    (hpar : (ar.classScopes c).parent ≠ "") :
    ∃ ar1 vals, implementsWith key localCheck (rank c) ar c = some (ar1, joinResults vals) ∧
      List.Forall₂ (fun cl v => ∃ a, implementsWith key localCheck (rank cl) ar cl = some (a, v))
        (findClasses ar (ar.classScopes c).parent) vals := by
  have hC := Cached.crefl key localCheck ar
  obtain ⟨vals, hvals⟩ := forall2_of_forall
    (fun cl v => ∃ a, implementsWith key localCheck (rank cl) ar cl = some (a, v))
    (findClasses ar (ar.classScopes c).parent) (fun cl hcl => by
      have hlow := hA c _ hc (Or.inl rfl) cl hcl
      obtain ⟨⟨a, v⟩, hr⟩ := implementsWith_total key localCheck hlocal ar rank hA (rank cl) ar cl
        hC hlow.1 (Nat.le_refl _)
      exact ⟨v, a, hr⟩)
  obtain ⟨⟨ar1, v⟩, hrun⟩ := implementsWith_total key localCheck hlocal ar rank hA (rank c) ar c
    hC hc (Nat.le_refl _)
  obtain ⟨⟨F, hF⟩, -⟩ := implementsWith_refines key localCheck hlocal ar (rank c) ar c ar1 v hC
    hrun
  refine ⟨ar1, vals, ?_, hvals⟩
  rw [hrun]
  cases F with
  | zero => exact absurd hF (by simp [pureImplements])
  | succ F =>
    rw [pureImplements, hmiss] at hF
    simp only [] at hF
    rw [if_pos ⟨hpar, hno⟩] at hF
    cases hpoll : pollValues (fun cls => pureImplements key localCheck F ar cls)
        (findClasses ar (ar.classScopes c).parent) 0 0 with
    | none => rw [hpoll] at hF; exact absurd hF (by simp)
    | some q =>
      obtain ⟨y, n⟩ := q
      rw [hpoll] at hF
      simp only [Option.some.injEq] at hF
      rw [hno] at hF
      have hj := pollValues_join (fun cls => pureImplements key localCheck F ar cls) _ vals
        (hvals.imp (fun {cl} {w} hclw u hu => by
          obtain ⟨a, ha⟩ := hclw
          obtain ⟨⟨F2, hF2⟩, -⟩ := implementsWith_refines key localCheck hlocal ar (rank cl) ar
            cl a w hC ha
          exact pureImplements_unique key localCheck ar cl u w hu hF2)) 0 0 y n hpoll
      rw [← hF, hj, joinResults_eq_joinFrom]
      simp

theorem joinsCandidates_of_join
    (query : Nat → AnalysisResult → ClassId → Option (AnalysisResult × Int))
    (ar : AnalysisResult) (rank : ClassId → Nat) (c : ClassId)
    (h : ∃ ar1 vals, query (rank c) ar c = some (ar1, joinResults vals) ∧
      List.Forall₂ (fun cl v => ∃ a, query (rank cl) ar cl = some (a, v))
        (findClasses ar (ar.classScopes c).parent) vals) :
    JoinsCandidates query ar rank c := by
  obtain ⟨ar1, vals, hrun, hvals⟩ := h
  refine ⟨ar1, vals, hrun, hvals, fun vals1 hp => joinResults_perm hp, ?_⟩
  intro p a v hsingle hp hv
  rw [hsingle] at hvals
  cases hvals with
  | cons h1 h2 =>
    cases h2
    obtain ⟨a2, ha2⟩ := h1
    rw [hp] at ha2
    simp only [Option.some.injEq, Prod.mk.injEq] at ha2
    rw [← ha2.2, joinResults_single v hv] at hrun
    exact ⟨ar1, hrun⟩

/-! ## Claim C20: the join over the classes registered under the parent name -/

/-- C20: on an acyclic class graph, let `c` have a parent name.  If
`implementsArrayAccess` has no cached result for `c` and its local check says
No, its result on `c` is the join of its results on the classes registered
under the parent name; and so for `implementsAccessor` and every name.  The
join is the one the specification words: Ambiguous if a result is Ambiguous or
if a result is Yes and another is No, Yes if there is a result and all are Yes,
No otherwise; it is the same for every order of the results, and with a single
class registered under the parent name it is that class's result. -/
theorem implements_parent_join (ar : AnalysisResult) (rank : ClassId → Nat) (c : ClassId)
    (hA : Acyclic ar rank) (hc : 0 < rank c) (hpar : (ar.classScopes c).parent ≠ "") :
    (cacheFind (ar.classScopes c).implemented "arrayaccess" = none →
      localArrayAccess (ar.classScopes c) = 0 →
      JoinsCandidates implementsArrayAccess ar rank c) ∧
    (∀ name, cacheFind (ar.classScopes c).implemented name = none →
      localAccessor name (ar.classScopes c) = 0 →
      JoinsCandidates (fun fuel a d => implementsAccessor fuel a d name) ar rank c) := by
  constructor
  · intro hmiss hno
    apply joinsCandidates_of_join
    have h := implementsWith_join "arrayaccess" localArrayAccess localArrayAccess_ok ar rank c
      hA hc hmiss hno hpar
    simpa only [← implementsArrayAccess_eq] using h
  · intro name hmiss hno
    apply joinsCandidates_of_join
    have h := implementsWith_join name (localAccessor name) (localAccessor_ok name) ar rank c
      hA hc hmiss hno hpar
    simpa only [← implementsAccessor_eq] using h

theorem capabilityGroupGraph_acyclic : Acyclic capabilityGroupGraph rootRank := by
  intro c base hc hb d hd
  match c with
  | 0 =>
    have hb2 : base = "p" := by
      rcases hb with h | h
      · exact h
      · simpa [capabilityGroupGraph, mkAnalysisResult] using h
    subst hb2
    simp [findClasses, capabilityGroupGraph, mkAnalysisResult, toLower] at hd
    rcases hd with rfl | rfl <;> decide
  | 1 =>
    have hb2 : base = "" ∨ base = "countable" := by
      rcases hb with h | h
      · exact Or.inl h
      · exact Or.inr (by simpa [capabilityGroupGraph, mkAnalysisResult] using h)
    rcases hb2 with rfl | rfl
    · simp [findClasses, capabilityGroupGraph, mkAnalysisResult, toLower] at hd
    · simp [findClasses, capabilityGroupGraph, mkAnalysisResult, toLower] at hd
  | 2 =>
    have hb2 : base = "" := by
      rcases hb with h | h
      · exact h
      · simp [capabilityGroupGraph, mkAnalysisResult] at h
    subst hb2
    simp [findClasses, capabilityGroupGraph, mkAnalysisResult, toLower] at hd
  | n + 3 => exact absurd hc (by simp [rootRank])

/-- Witness of C20 on `capabilityGroupGraph`: of the two classes registered
under the parent name of `child` one yields Yes and one yields No, and both
queries yield Ambiguous on `child`. -/
theorem implements_parent_join_witness :
    JoinsCandidates implementsArrayAccess capabilityGroupGraph rootRank 0 ∧
    JoinsCandidates (fun fuel a d => implementsAccessor fuel a d "__get")
      capabilityGroupGraph rootRank 0 ∧
    (implementsArrayAccess 2 capabilityGroupGraph 0).map (fun r => r.2) = some (-1) ∧
    (implementsAccessor 2 capabilityGroupGraph 0 "__get").map (fun r => r.2) = some (-1) ∧
    (implementsArrayAccess 1 capabilityGroupGraph 1).map (fun r => r.2) = some 1 ∧
    (implementsArrayAccess 1 capabilityGroupGraph 2).map (fun r => r.2) = some 0 :=
  ⟨(implements_parent_join capabilityGroupGraph rootRank 0 capabilityGroupGraph_acyclic
      (by decide) (by decide)).1 (by decide) (by decide),
    (implements_parent_join capabilityGroupGraph rootRank 0 capabilityGroupGraph_acyclic
      (by decide) (by decide)).2 "__get" (by decide) (by decide),
    by decide, by decide, by decide, by decide⟩

/-! ## Claim C29: the ambiguity policy of `derivesFrom` -/

/-- When `strict` is not set the loop of `derivesFrom` does not read `deflt`. -/
theorem derivesFromBases_loose (rec1 rec2 : ClassId → Option Bool) (ar : AnalysisResult)
    (d1 d2 : Bool) (heq : ∀ cl, rec1 cl = rec2 cl) (l : List String) :
    derivesFromBases rec1 ar false d1 l = derivesFromBases rec2 ar false d2 l := by
  induction l with
  | nil => rfl
  | cons b rest ih =>
    simp only [derivesFromBases]
    cases hf : findClass ar b with
    | none => exact ih
    | some cl =>
      simp only [Bool.false_and, Bool.false_eq_true, if_false]
      rw [heq cl, ih]

/-- When `strict` is not set `derivesFrom` does not depend on `deflt`. -/
theorem derivesFrom_loose (ar : AnalysisResult) (b : String) (d1 d2 : Bool) (fuel : Nat) :
    ∀ c, derivesFrom fuel ar c b false d1 = derivesFrom fuel ar c b false d2 := by
  induction fuel with
  | zero => intro c; rfl
  | succ fuel ih =>
    intro c
    rw [derivesFrom, derivesFrom]
    rw [derivesFromBases_loose _ _ ar d1 d2 (fun cl => ih cl)]

/-- On an acyclic class graph a `true` of the strict run with `deflt = false`
is a `true` of the run that is not strict, and a `true` of that run is a `true`
of the strict run with `deflt = true`. -/
theorem derivesFrom_policy_le (ar : AnalysisResult) (rank : ClassId → Nat)
    (hA : Acyclic ar rank) (b : String) (deflt : Bool) (fuel : Nat) :
    ∀ c, 0 < rank c → rank c ≤ fuel →
      (derivesFrom fuel ar c b true false = some true →
        derivesFrom fuel ar c b false deflt = some true) ∧
      (derivesFrom fuel ar c b false deflt = some true →
        derivesFrom fuel ar c b true true = some true) := by
  induction fuel with
  | zero => intro c hc hle; omega
  | succ fuel ih =>
    intro c hc hle
    have htot : ∀ (strict d : Bool) base_i cl, base_i ∈ (ar.classScopes c).bases →
        findClass ar base_i = some cl → ∃ r, derivesFrom fuel ar cl b strict d = some r := by
      intro strict d base_i cl hm hf
      have hlow := hA c base_i hc (Or.inr hm) cl (findClass_mem hf)
      exact derivesFrom_total ar rank hA b strict d fuel cl hlow.1 (by omega)
    have hih : ∀ base_i cl, base_i ∈ (ar.classScopes c).bases →
        findClass ar base_i = some cl →
        (derivesFrom fuel ar cl b true false = some true →
          derivesFrom fuel ar cl b false deflt = some true) ∧
        (derivesFrom fuel ar cl b false deflt = some true →
          derivesFrom fuel ar cl b true true = some true) := by
      intro base_i cl hm hf
      have hlow := hA c base_i hc (Or.inr hm) cl (findClass_mem hf)
      exact ih cl hlow.1 (by omega)
    rw [derivesFrom, derivesFrom, derivesFrom]
    by_cases hd : derivesDirectlyFrom ar c b = true
    · simp only [if_pos hd]
      exact ⟨fun _ => trivial, fun _ => trivial⟩
    · simp only [if_neg hd]
      obtain ⟨r1, hr1, hiff1⟩ := derivesFromBases_spec
        (fun cl => derivesFrom fuel ar cl b true false) ar true false
        (ar.classScopes c).bases (htot true false)
      obtain ⟨r2, hr2, hiff2⟩ := derivesFromBases_spec
        (fun cl => derivesFrom fuel ar cl b false deflt) ar false deflt
        (ar.classScopes c).bases (htot false deflt)
      obtain ⟨r3, hr3, hiff3⟩ := derivesFromBases_spec
        (fun cl => derivesFrom fuel ar cl b true true) ar true true
        (ar.classScopes c).bases (htot true true)
      rw [hr1, hr2, hr3]
      constructor
      · intro h
        have h1 : r1 = true := by simpa using h
        obtain ⟨base_i, cl, hm, hf, hcase⟩ := hiff1.mp h1
        have h2 : r2 = true := by
          refine hiff2.mpr ⟨base_i, cl, hm, hf, Or.inr ⟨by simp, ?_⟩⟩
          rcases hcase with ⟨-, -, hff⟩ | ⟨-, hrec⟩
          · exact absurd hff (by simp)
          · exact (hih base_i cl hm hf).1 hrec
        rw [h2]
      · intro h
        have h2 : r2 = true := by simpa using h
        obtain ⟨base_i, cl, hm, hf, hcase⟩ := hiff2.mp h2
        have h3 : r3 = true := by
          refine hiff3.mpr ⟨base_i, cl, hm, hf, ?_⟩
          rcases hcase with ⟨hff, -, -⟩ | ⟨-, hrec⟩
          · exact absurd hff (by simp)
          · by_cases hred : (ar.classScopes cl).isRedeclaring = true
            · exact Or.inl ⟨rfl, hred, rfl⟩
            · exact Or.inr ⟨fun hh => hred hh.2, (hih base_i cl hm hf).2 hrec⟩
        rw [h3]

/-- C29: on an acyclic class graph the three runs of `derivesFrom` on a class
`c` and a name `b` return: the strict run with `deflt = false`, the run that is
not strict, whose result is the same for both values of `deflt`, and the strict
run with `deflt = true`.  A `true` of the first is a `true` of the second, and
a `true` of the second is a `true` of the third.  On every graph and with any
fuel the run that is not strict does not depend on `deflt`. -/
theorem derivesFrom_policy_monotone (ar : AnalysisResult) (rank : ClassId → Nat) (c : ClassId)
    (b : String) (hA : Acyclic ar rank) (hc : 0 < rank c) :
    (∃ strictNo loose strictYes : Bool,
      derivesFrom (rank c) ar c b true false = some strictNo ∧
      (∀ deflt, derivesFrom (rank c) ar c b false deflt = some loose) ∧
      derivesFrom (rank c) ar c b true true = some strictYes ∧
      (strictNo = true → loose = true) ∧ (loose = true → strictYes = true)) ∧
    (∀ fuel d1 d2, derivesFrom fuel ar c b false d1 = derivesFrom fuel ar c b false d2) := by
  refine ⟨?_, fun fuel d1 d2 => derivesFrom_loose ar b d1 d2 fuel c⟩
  obtain ⟨r1, hr1⟩ := derivesFrom_total ar rank hA b true false (rank c) c hc (Nat.le_refl _)
  obtain ⟨r2, hr2⟩ := derivesFrom_total ar rank hA b false false (rank c) c hc (Nat.le_refl _)
  obtain ⟨r3, hr3⟩ := derivesFrom_total ar rank hA b true true (rank c) c hc (Nat.le_refl _)
  have hle := derivesFrom_policy_le ar rank hA b false (rank c) c hc (Nat.le_refl _)
  refine ⟨r1, r2, r3, hr1, ?_, hr3, ?_, ?_⟩
  · intro deflt
    rw [derivesFrom_loose ar b deflt false (rank c) c]
    exact hr2
  · intro h
    subst h
    have := hle.1 hr1
    rw [hr2] at this
    simpa using this
  · intro h
    subst h
    have := hle.2 hr2
    rw [hr3] at this
    simpa using this

/-- Witness of C29 on `capabilityGroupGraph`, where the parent name of `child`
is registered for a redeclaration group whose first class lists `countable`:
for the name `countable` the strict run with `deflt = false` returns `false`,
the run that is not strict returns `true`, and so does the strict run with
`deflt = true`. -/
theorem derivesFrom_policy_monotone_witness :
    ((∃ strictNo loose strictYes : Bool,
      derivesFrom (rootRank 0) capabilityGroupGraph 0 "countable" true false = some strictNo ∧
      (∀ deflt,
        derivesFrom (rootRank 0) capabilityGroupGraph 0 "countable" false deflt = some loose) ∧
      derivesFrom (rootRank 0) capabilityGroupGraph 0 "countable" true true = some strictYes ∧
      (strictNo = true → loose = true) ∧ (loose = true → strictYes = true)) ∧
    (∀ fuel d1 d2, derivesFrom fuel capabilityGroupGraph 0 "countable" false d1 =
      derivesFrom fuel capabilityGroupGraph 0 "countable" false d2)) ∧
    derivesFrom 2 capabilityGroupGraph 0 "countable" true false = some false ∧
    derivesFrom 2 capabilityGroupGraph 0 "countable" false false = some true ∧
    derivesFrom 2 capabilityGroupGraph 0 "countable" true true = some true :=
  ⟨derivesFrom_policy_monotone capabilityGroupGraph rootRank 0 "countable"
      capabilityGroupGraph_acyclic (by decide),
    by decide, by decide, by decide⟩

/-! ## Claim C21: a redeclared parent of which one class implements `ArrayAccess` -/

/-- C21 (what the code does): on `ambiguityGraph` the parent name of `child`
resolves to the group of the classes 1 and 2, both without a parent; class 1
lists `arrayaccess` among its bases, class 2 and `child` do not.  The query
`implementsArrayAccess` returns 0 (No) on class 1, because the test
`if (strcasecmp(...))` of the local check holds when the names differ, 0 on
class 2, and so 0 (No) on `child`, not -1 (Ambiguous): every run on `child`
that returns, returns 0. -/
theorem implementsArrayAccess_group_not_ambiguous :
    findClasses ambiguityGraph (ambiguityGraph.classScopes 0).parent = [1, 2] ∧
    (ambiguityGraph.classScopes 1).parent = "" ∧
    (ambiguityGraph.classScopes 2).parent = "" ∧
    "arrayaccess" ∈ (ambiguityGraph.classScopes 1).bases ∧
    "arrayaccess" ∉ (ambiguityGraph.classScopes 2).bases ∧
    "arrayaccess" ∉ (ambiguityGraph.classScopes 0).bases ∧
    (implementsArrayAccess 1 ambiguityGraph 1).map (fun r => r.2) = some 0 ∧
    (implementsArrayAccess 1 ambiguityGraph 2).map (fun r => r.2) = some 0 ∧
    (implementsArrayAccess 2 ambiguityGraph 0).map (fun r => r.2) = some 0 ∧
    (∀ fuel a r, implementsArrayAccess fuel ambiguityGraph 0 = some (a, r) → r = 0) := by
  refine ⟨by decide, by decide, by decide, by decide, by decide, by decide, by decide,
    by decide, by decide, ?_⟩
  intro fuel a r h
  rw [implementsArrayAccess_eq] at h
  obtain ⟨⟨F, hF⟩, -⟩ := implementsWith_refines "arrayaccess" localArrayAccess
    localArrayAccess_ok ambiguityGraph fuel ambiguityGraph 0 a r
    (Cached.crefl "arrayaccess" localArrayAccess ambiguityGraph) h
  have h2 : pureImplements "arrayaccess" localArrayAccess 2 ambiguityGraph 0 = some 0 := by
    decide
  exact pureImplements_unique "arrayaccess" localArrayAccess ambiguityGraph 0 r 0 hF h2

/-! ## Claim C22: cached capability results -/

theorem cacheFind_congr (m : List (String × Int)) (k1 k2 : String)
    (h : toLower k1 = toLower k2) : cacheFind m k1 = cacheFind m k2 := by
  simp only [cacheFind, h]

theorem cacheFind_cacheSet_ne (m : List (String × Int)) (key key1 : String) (v : Int)
    (hne : toLower key1 ≠ toLower key) :
    cacheFind (cacheSet m key v) key1 = cacheFind m key1 := by
  induction m with
  | nil =>
    have hne2 : ¬ toLower key = toLower key1 := fun h => hne h.symm
    simp [cacheSet, cacheFind, hne2]
  | cons e rest ih =>
    obtain ⟨k, w⟩ := e
    simp only [cacheSet]
    by_cases hk : toLower k = toLower key
    · rw [if_pos hk]
      have hk1 : ¬ toLower k = toLower key1 := fun h => hne (h.symm.trans hk)
      simp [cacheFind, List.find?_cons, hk1]
    · rw [if_neg hk]
      by_cases hk1 : toLower k = toLower key1
      · simp [cacheFind, List.find?_cons, hk1]
      · simp only [cacheFind, List.find?_cons, hk1, decide_False] at ih ⊢
        exact ih

theorem CacheKept.keptRefl (c : ClassId) (ar : AnalysisResult) : CacheKept c ar ar :=
  fun _ _ h => h

theorem CacheKept.keptTrans {c : ClassId} {ar1 ar2 ar3 : AnalysisResult}
    (h12 : CacheKept c ar1 ar2) (h23 : CacheKept c ar2 ar3) : CacheKept c ar1 ar3 :=
  fun key v h => h23 key v (h12 key v h)

theorem CacheKept.of_implemented_eq {c : ClassId} {ar1 ar2 : AnalysisResult}
    (h : (ar2.classScopes c).implemented = (ar1.classScopes c).implemented) :
    CacheKept c ar1 ar2 := by
  intro key v hv
  rw [h]; exact hv

/-- Writing the result of a key that the cache of `self` does not hold keeps
the entries of every cache. -/
theorem CacheKept.setMiss (ar : AnalysisResult) (self : ClassId) (key : String) (v : Int)
    (hmiss : cacheFind (ar.classScopes self).implemented key = none) (c : ClassId) :
    CacheKept c ar (setImplemented ar self key v) := by
  intro key1 w hw
  by_cases hc : c = self
  · subst hc
    simp only [setImplemented, AnalysisResult.updClass, Function.update_same]
    by_cases hk : toLower key1 = toLower key
    · rw [cacheFind_congr _ _ _ hk, hmiss] at hw
      exact absurd hw (by simp)
    · rw [cacheFind_cacheSet_ne _ _ _ _ hk]
      exact hw
  · simpa [setImplemented, AnalysisResult.updClass, Function.update, hc] using hw

/-- A capability query that finds the key in the cache returns the cached
value and leaves the state as it is, whatever the class graph is. -/
theorem implementsWith_hit (key : String) (localCheck : ClassScope → Int) (fuel : Nat)
    (ar : AnalysisResult) (c : ClassId) (r : Int)
    (h : cacheFind (ar.classScopes c).implemented key = some r) :
    implementsWith key localCheck (fuel + 1) ar c = some (ar, r) := by
  rw [implementsWith, h]

/-- The shape of a capability query that misses the cache and returns: the
result is written into the cache of the class, in the state left by the loop
over the candidates or, when the loop is not run, in the state of the call. -/
theorem implementsWith_miss (key : String) (localCheck : ClassScope → Int) (fuel : Nat)
    (ar : AnalysisResult) (c : ClassId) (ar1 : AnalysisResult) (r : Int)
    (hmiss : cacheFind (ar.classScopes c).implemented key = none)
    (h : implementsWith key localCheck (fuel + 1) ar c = some (ar1, r)) :
    ∃ ar2, ar1 = setImplemented ar2 c key r ∧
      (ar2 = ar ∨ ∃ yes no,
        pollCandidates (fun a cls => implementsWith key localCheck fuel a cls)
          (findClasses ar (ar.classScopes c).parent) ar 0 0 = some (ar2, yes, no)) := by
  rw [implementsWith, hmiss] at h
  simp only [] at h
  by_cases hp : (ar.classScopes c).parent ≠ "" ∧ localCheck (ar.classScopes c) = 0
  · rw [if_pos hp] at h
    cases hpoll : pollCandidates (fun a cls => implementsWith key localCheck fuel a cls)
        (findClasses ar (ar.classScopes c).parent) ar 0 0 with
    | none => rw [hpoll] at h; exact absurd h (by simp)
    | some q =>
      obtain ⟨a2, yes, no⟩ := q
      rw [hpoll] at h
      simp only [Option.some.injEq, Prod.mk.injEq] at h
      obtain ⟨rfl, rfl⟩ := h
      exact ⟨a2, rfl, Or.inr ⟨yes, no, rfl⟩⟩
  · rw [if_neg hp] at h
    simp only [Option.some.injEq, Prod.mk.injEq] at h
    obtain ⟨rfl, rfl⟩ := h
    exact ⟨ar, rfl, Or.inl rfl⟩

/-- A capability query that returns leaves its result in the cache of the
class. -/
theorem implementsWith_cached (key : String) (localCheck : ClassScope → Int) (fuel : Nat)
    (ar : AnalysisResult) (c : ClassId) (ar1 : AnalysisResult) (r : Int)
    (h : implementsWith key localCheck fuel ar c = some (ar1, r)) :
    cacheFind (ar1.classScopes c).implemented key = some r := by
  cases fuel with
  | zero => exact absurd h (by simp [implementsWith])
  | succ fuel =>
    cases hc : cacheFind (ar.classScopes c).implemented key with
    | some w =>
      rw [implementsWith_hit key localCheck fuel ar c w hc] at h
      simp only [Option.some.injEq, Prod.mk.injEq] at h
      obtain ⟨rfl, rfl⟩ := h
      exact hc
    | none =>
      obtain ⟨ar2, rfl, -⟩ := implementsWith_miss key localCheck fuel ar c ar1 r hc h
      simp only [setImplemented, AnalysisResult.updClass, Function.update_same]
      exact cacheFind_cacheSet _ _ _

/-- The loop over the candidates keeps what each recursive call keeps. -/
theorem pollCandidates_keeps
    (rec : AnalysisResult → ClassId → Option (AnalysisResult × Int))
    (P : AnalysisResult → Prop) (R : AnalysisResult → AnalysisResult → Prop)
    (hrefl : ∀ a, R a a) (htrans : ∀ a b d, R a b → R b d → R a d)
    (cands : List ClassId)
    (hrec : ∀ a cl a1 v, P a → cl ∈ cands → rec a cl = some (a1, v) → P a1 ∧ R a a1) :
    ∀ (a : AnalysisResult) (yes no : Nat) (a1 : AnalysisResult) (yes1 no1 : Nat), P a →
      pollCandidates rec cands a yes no = some (a1, yes1, no1) → P a1 ∧ R a a1 := by
  induction cands with
  | nil =>
    intro a yes no a1 yes1 no1 hP h
    simp only [pollCandidates, Option.some.injEq, Prod.mk.injEq] at h
    obtain ⟨rfl, -, -⟩ := h
    exact ⟨hP, hrefl _⟩
  | cons cl rest ih =>
    intro a yes no a1 yes1 no1 hP h
    simp only [pollCandidates] at h
    cases hcall : rec a cl with
    | none => rw [hcall] at h; exact absurd h (by simp)
    | some q =>
      obtain ⟨a2, v⟩ := q
      rw [hcall] at h
      simp only [] at h
      obtain ⟨hP2, hR2⟩ := hrec a cl a2 v hP (List.mem_cons_self _ _) hcall
      have ih2 := ih (fun x d x1 w hx hd hh => hrec x d x1 w hx (List.mem_cons_of_mem _ hd) hh)
      by_cases hneg : v < 0
      · rw [if_pos hneg] at h
        simp only [Option.some.injEq, Prod.mk.injEq] at h
        obtain ⟨rfl, -, -⟩ := h
        exact ⟨hP2, hR2⟩
      · rw [if_neg hneg] at h
        by_cases hpos : v > 0
        · rw [if_pos hpos] at h
          obtain ⟨hP3, hR3⟩ := ih2 a2 _ _ a1 yes1 no1 hP2 h
          exact ⟨hP3, htrans _ _ _ hR2 hR3⟩
        · rw [if_neg hpos] at h
          obtain ⟨hP3, hR3⟩ := ih2 a2 _ _ a1 yes1 no1 hP2 h
          exact ⟨hP3, htrans _ _ _ hR2 hR3⟩

/-- On an acyclic class graph a capability query that returns leaves the class
scopes of the classes of the same or a higher rank as they are, the class
queried apart, and keeps the entries of every cache. -/
theorem implementsWith_keeps (key : String) (localCheck : ClassScope → Int)
    (hlocal : LocalOk localCheck) (ar0 : AnalysisResult) (rank : ClassId → Nat)
    (hA : Acyclic ar0 rank) (fuel : Nat) :
    ∀ (a : AnalysisResult) (c : ClassId) (a1 : AnalysisResult) (v : Int),
      Cached key localCheck ar0 a → 0 < rank c →
      implementsWith key localCheck fuel a c = some (a1, v) →
      (∀ d, d ≠ c → rank c ≤ rank d → a1.classScopes d = a.classScopes d) ∧
      (∀ d, CacheKept d a a1) := by
  induction fuel with
  | zero => intro a c a1 v _ _ h; exact absurd h (by simp [implementsWith])
  | succ fuel ih =>
    intro a c a1 v hC hc h
    cases hcf : cacheFind (a.classScopes c).implemented key with
    | some w =>
      rw [implementsWith_hit key localCheck fuel a c w hcf] at h
      simp only [Option.some.injEq, Prod.mk.injEq] at h
      obtain ⟨rfl, rfl⟩ := h
      exact ⟨fun _ _ _ => rfl, fun d => CacheKept.keptRefl d _⟩
    | none =>
      obtain ⟨a2, rfl, hcase⟩ := implementsWith_miss key localCheck fuel a c a1 v hcf h
      have hpoll : (∀ d, rank c ≤ rank d → a2.classScopes d = a.classScopes d) ∧
          (∀ d, CacheKept d a a2) := by
        rcases hcase with rfl | ⟨yes, no, hp⟩
        · exact ⟨fun _ _ => rfl, fun d => CacheKept.keptRefl d _⟩
        · have hk := pollCandidates_keeps
            (fun x cls => implementsWith key localCheck fuel x cls)
            (fun x => Cached key localCheck ar0 x)
            (fun x y => (∀ d, rank c ≤ rank d → y.classScopes d = x.classScopes d) ∧
              (∀ d, CacheKept d x y))
            (fun x => ⟨fun _ _ => rfl, fun d => CacheKept.keptRefl d _⟩)
            (fun x y z hxy hyz => ⟨fun d hd => (hyz.1 d hd).trans (hxy.1 d hd),
              fun d => (hxy.2 d).keptTrans (hyz.2 d)⟩)
            (findClasses a (a.classScopes c).parent)
            (fun x cl x1 w hx hcl hh => by
              rw [hC.cfindClasses, hC.cparent] at hcl
              have hlow := hA c _ hc (Or.inl rfl) cl hcl
              have hk := ih x cl x1 w hx hlow.1 hh
              have hC1 := (implementsWith_refines key localCheck hlocal ar0 fuel x cl x1 w
                hx hh).2
              refine ⟨hC1, fun d hd => hk.1 d ?_ (by omega), hk.2⟩
              intro hdc
              rw [hdc] at hd
              omega)
            a 0 0 a2 yes no hC hp
          exact hk.2
      have hmiss2 : cacheFind (a2.classScopes c).implemented key = none := by
        rw [hpoll.1 c (Nat.le_refl _)]
        exact hcf
      refine ⟨fun d hdc hd => ?_, fun d => (hpoll.2 d).keptTrans
        (CacheKept.setMiss a2 c key v hmiss2 d)⟩
      simp only [setImplemented, AnalysisResult.updClass, Function.update, hdc, dite_false]
      exact hpoll.1 d hd

/-- C22: the result of a capability query is kept in the cache of the class,
and a later query with the same token, in any letter case, returns it.  After
`implementsArrayAccess` on `c` has returned `r`, leaving the state `ar1`, in
every state `ar2` in which the cache of `c` still holds the entries it has in
`ar1`, whatever else has changed, `implementsArrayAccess` on `c` returns `r`
and leaves `ar2` as it is, and so does `implementsAccessor` for a name equal
to `arrayaccess` up to case (the two queries share the cache); the same holds
after `implementsAccessor` for `name`, for every later name equal to `name` up
to case.  The queries themselves keep the entries of the caches: a query on a
class `d` of an acyclic class graph that returns keeps the entries of the
cache of `c`. -/
theorem implements_memoized (c : ClassId) :
    (∀ fuel ar ar1 r, implementsArrayAccess fuel ar c = some (ar1, r) →
      ∀ ar2, CacheKept c ar1 ar2 → ∀ fuel2,
        implementsArrayAccess (fuel2 + 1) ar2 c = some (ar2, r) ∧
        ∀ name2, toLower name2 = toLower "arrayaccess" →
          implementsAccessor (fuel2 + 1) ar2 c name2 = some (ar2, r)) ∧
    (∀ fuel ar ar1 r name, implementsAccessor fuel ar c name = some (ar1, r) →
      ∀ ar2, CacheKept c ar1 ar2 → ∀ name2, toLower name2 = toLower name → ∀ fuel2,
        implementsAccessor (fuel2 + 1) ar2 c name2 = some (ar2, r)) ∧
    (∀ (rank : ClassId → Nat) d fuel a a1 v, Acyclic a rank → 0 < rank d →
      (implementsArrayAccess fuel a d = some (a1, v) ∨
        ∃ name, implementsAccessor fuel a d name = some (a1, v)) →
      CacheKept c a a1) := by
  refine ⟨?_, ?_, ?_⟩
  · intro fuel ar ar1 r h ar2 hk fuel2
    rw [implementsArrayAccess_eq] at h
    have hc := hk _ _ (implementsWith_cached _ _ _ _ _ _ _ h)
    refine ⟨?_, fun name2 hn => ?_⟩
    · rw [implementsArrayAccess_eq]
      exact implementsWith_hit _ _ _ _ _ _ hc
    · rw [implementsAccessor_eq]
      exact implementsWith_hit _ _ _ _ _ _ (by rw [cacheFind_congr _ _ _ hn]; exact hc)
  · intro fuel ar ar1 r name h ar2 hk name2 hn fuel2
    rw [implementsAccessor_eq] at h
    have hc := hk _ _ (implementsWith_cached _ _ _ _ _ _ _ h)
    rw [implementsAccessor_eq]
    exact implementsWith_hit _ _ _ _ _ _ (by rw [cacheFind_congr _ _ _ hn]; exact hc)
  · intro rank d fuel a a1 v hA hd h
    rcases h with h | ⟨name, h⟩
    · rw [implementsArrayAccess_eq] at h
      exact (implementsWith_keeps "arrayaccess" localArrayAccess localArrayAccess_ok a rank hA
        fuel a d a1 v (Cached.crefl _ _ a) hd h).2 c
    · rw [implementsAccessor_eq] at h
      exact (implementsWith_keeps name (localAccessor name) (localAccessor_ok name) a rank hA
        fuel a d a1 v (Cached.crefl _ _ a) hd h).2 c

/-- Witness of C22 on `capabilityGraph`: the first query for `arrayaccess` on
`access` returns 0 and caches it; after the class graph has changed, the later
queries on `access`, also with the token in another letter case, return 0,
although the same query on the changed graph without the cached result returns
1. -/
theorem implements_memoized_witness :
    implementsArrayAccess 1 capabilityGraph 1 =
      some (setImplemented capabilityGraph 1 "arrayaccess" 0, 0) ∧
    CacheKept 1 (setImplemented capabilityGraph 1 "arrayaccess" 0) changedCapabilityGraph ∧
    (implementsArrayAccess 1 changedCapabilityGraph 1 = some (changedCapabilityGraph, 0) ∧
      ∀ name2, toLower name2 = toLower "arrayaccess" →
        implementsAccessor 1 changedCapabilityGraph 1 name2 =
          some (changedCapabilityGraph, 0)) ∧
    toLower "ArrayAccess" = toLower "arrayaccess" ∧
    (implementsArrayAccess 2
      (changedCapabilityGraph.updClass 1 (fun c => { c with implemented := [] })) 1).map
        (fun r => r.2) = some 1 :=
  ⟨rfl, CacheKept.of_implemented_eq rfl,
    (implements_memoized 1).1 1 capabilityGraph _ 0 rfl changedCapabilityGraph
      (CacheKept.of_implemented_eq rfl) 0,
    by decide, by decide⟩

/-! ## Claim C28: no private method is inherited -/

theorem mem_mapInsertAll (cur funcs : FuncMap) (e : String × FuncId)
    (h : e ∈ mapInsertAll funcs cur) : e ∈ funcs ∨ e ∈ cur := by
  induction cur generalizing funcs with
  | nil => exact Or.inl h
  | cons x rest ih =>
    obtain ⟨k, v⟩ := x
    simp only [mapInsertAll] at h
    split at h
    · rcases ih _ h with h1 | h1
      · simp only [mapAdd, List.mem_append, List.mem_singleton] at h1
        rcases h1 with h1 | h1
        · exact Or.inl h1
        · exact Or.inr (by rw [h1]; exact List.mem_cons_self _ _)
      · exact Or.inr (List.mem_cons_of_mem _ h1)
    · rcases ih _ h with h1 | h1
      · exact Or.inl h1
      · exact Or.inr (List.mem_cons_of_mem _ h1)

/-- Every entry that the first loop adds is the last declaration of a name of
the class, and is not private when private methods are not collected. -/
theorem collectOwn_mem (collectPrivate : Bool) (fs : List (String × List FuncId))
    (ar : AnalysisResult) (funcs : FuncMap) (ar1 : AnalysisResult) (funcs1 : FuncMap)
    (h : collectOwn collectPrivate fs ar funcs = some (ar1, funcs1)) :
    ∀ e, e ∈ funcs1 → e ∈ funcs ∨
      ((∃ vec, (e.1, vec) ∈ fs ∧ vec.getLast? = some e.2) ∧
        (collectPrivate = false → (ar.functionScopes e.2).isPrivate = false)) := by
  induction fs generalizing ar funcs with
  | nil =>
    simp [collectOwn] at h; obtain ⟨rfl, rfl⟩ := h
    intro e he; exact Or.inl he
  | cons x rest ih =>
    obtain ⟨name, vec⟩ := x
    simp only [collectOwn] at h
    split at h
    · exact absurd h (by simp)
    · rename_i last hlast
      have lift : ∀ (a : AnalysisResult) (t : FuncMap), Evolves ar a →
          collectOwn collectPrivate rest a t = some (ar1, funcs1) →
          ∀ e, e ∈ funcs1 → e ∈ t ∨
            ((∃ vec1, (e.1, vec1) ∈ (name, vec) :: rest ∧ vec1.getLast? = some e.2) ∧
              (collectPrivate = false → (ar.functionScopes e.2).isPrivate = false)) := by
        intro a t hev hrun e he
        rcases ih a t hrun e he with h1 | ⟨⟨vec1, hm, hl⟩, hp⟩
        · exact Or.inl h1
        · refine Or.inr ⟨⟨vec1, List.mem_cons_of_mem _ hm, hl⟩, fun hc => ?_⟩
          rw [← hev.isPrivate]; exact hp hc
      split at h
      · exact lift _ _ (Evolves.refl _) h
      · rename_i hskip
        split at h
        · intro e he
          rcases lift _ _ (Evolves.refl _) h e he with h1 | h1
          · simp only [mapAdd, List.mem_append, List.mem_singleton] at h1
            rcases h1 with h1 | h1
            · exact Or.inl h1
            · subst h1
              refine Or.inr ⟨⟨vec, List.mem_cons_self _ _, hlast⟩, fun hc => ?_⟩
              subst hc
              simpa using hskip
          · exact Or.inr h1
        · exact lift _ _ ((Evolves_setVirtual _ _).trans (Evolves_setVirtual _ _)) h

/-- The loop over the candidates of a redeclared parent adds only entries that
a candidate's run added to the pristine table. -/
theorem collectCandidates_public
    (rec : AnalysisResult → ClassId → FuncMap → Option (AnalysisResult × FuncMap))
    (hrecE : RecEvolves rec) (hrec : RecPublic rec) (pristine : FuncMap) (cands : List ClassId)
    (ar : AnalysisResult) (funcs : FuncMap) (ar1 : AnalysisResult) (funcs1 : FuncMap)
    (h : collectCandidates rec pristine cands ar funcs = some (ar1, funcs1)) :
    ∀ e, e ∈ funcs1 → e ∈ funcs ∨ e ∈ pristine ∨ (ar.functionScopes e.2).isPrivate = false := by
  induction cands generalizing ar funcs with
  | nil =>
    simp [collectCandidates] at h; obtain ⟨rfl, rfl⟩ := h
    intro e he; exact Or.inl he
  | cons cls rest ih =>
    simp only [collectCandidates] at h
    split at h
    · exact absurd h (by simp)
    · rename_i ar2 cur hcall
      intro e he
      have hev := (hrecE _ _ _ _ _ hcall).1
      rcases ih _ _ h e he with h1 | h1 | h1
      · rcases mem_mapInsertAll _ _ _ h1 with h2 | h2
        · exact Or.inl h2
        · rcases hrec _ _ _ _ _ hcall e h2 with h3 | h3
          · exact Or.inr (Or.inl h3)
          · exact Or.inr (Or.inr h3)
      · exact Or.inr (Or.inl h1)
      · exact Or.inr (Or.inr (by rw [← hev.isPrivate]; exact h1))

theorem walkStep_public
    {rec : AnalysisResult → ClassId → FuncMap → Option (AnalysisResult × FuncMap)}
    (hrecE : RecEvolves rec) (hrec : RecPublic rec) {self : ClassId}
    {forInvoke : Bool} {i : Nat} {seen : List String} {ar : AnalysisResult} {funcs : FuncMap}
    {seen1 : List String} {ar1 : AnalysisResult} {funcs1 : FuncMap}
    (h : WalkStep rec self forInvoke i seen ar funcs seen1 ar1 funcs1) :
    ∀ e, e ∈ funcs1 → e ∈ funcs ∨ (ar.functionScopes e.2).isPrivate = false := by
  intro e he
  cases h with
  | invalid base hbase hseen => exact Or.inl he
  | skipped base hbase hseen hinvoke hparent => exact Or.inl he
  | redeclaredParentInvoke base super hbase hseen hinvoke hparent hfind hredec =>
    exact Or.inl he
  | redeclaredParent base super ar2 funcs2 hbase hseen hinvoke hparent hfind hredec hcands =>
    rcases collectCandidates_public rec hrecE hrec _ _ _ _ _ _ hcands e he with h1 | h1 | h1
    · exact Or.inl h1
    · exact Or.inl h1
    · exact Or.inr h1
  | redeclaredBase base super hbase hseen hinvoke hparent hfind hredec => exact Or.inl he
  | known base super ar2 funcs2 hbase hseen hfollow hfind hredec hcall =>
    exact hrec _ _ _ _ _ hcall e he
  | unknown base hbase hseen hfollow hfind => exact Or.inl he

theorem walkBases_public
    (rec : AnalysisResult → ClassId → FuncMap → Option (AnalysisResult × FuncMap))
    (hrecE : RecEvolves rec) (hrec : RecPublic rec) (self : ClassId) (forInvoke : Bool)
    (k : Nat) (seen : List String) (ar : AnalysisResult) (funcs : FuncMap)
    (ar1 : AnalysisResult) (funcs1 : FuncMap)
    (h : walkBases rec self forInvoke k seen ar funcs = some (ar1, funcs1)) :
    ∀ e, e ∈ funcs1 → e ∈ funcs ∨ (ar.functionScopes e.2).isPrivate = false := by
  induction k generalizing seen ar funcs with
  | zero =>
    simp [walkBases] at h; obtain ⟨rfl, rfl⟩ := h
    intro e he; exact Or.inl he
  | succ i ih =>
    simp only [walkBases] at h
    split at h
    · exact absurd h (by simp)
    · rename_i seen2 ar2 funcs2 hstep
      have hs := walkStep_of_walkBase hstep
      have hev := (walkStep_evolves hrecE hs).1
      intro e he
      rcases ih _ _ _ h e he with h1 | h1
      · exact walkStep_public hrecE hrec hs e h1
      · exact Or.inr (by rw [← hev.isPrivate]; exact h1)

/-- Every entry that a run of `collectMethods` adds to the table is either the
last declaration of a name of the class visited, or not private; with
`collectPrivate = false` it is not private in both cases. -/
theorem collectMethods_mem (fuel : Nat) (forInvoke : Bool) :
    ∀ (collectPrivate : Bool) (ar : AnalysisResult) (c : ClassId) (funcs : FuncMap)
      (ar1 : AnalysisResult) (funcs1 : FuncMap),
      collectMethods fuel ar c funcs collectPrivate forInvoke = some (ar1, funcs1) →
      ∀ e, e ∈ funcs1 → e ∈ funcs ∨
        ((∃ vec, (e.1, vec) ∈ (ar.classScopes c).functions ∧ vec.getLast? = some e.2) ∧
          (collectPrivate = false → (ar.functionScopes e.2).isPrivate = false)) ∨
        (ar.functionScopes e.2).isPrivate = false := by
  induction fuel with
  | zero => intro cp ar c funcs ar1 funcs1 h; simp [collectMethods] at h
  | succ fuel ih =>
    intro cp ar c funcs ar1 funcs1 h
    simp only [collectMethods] at h
    split at h
    · exact absurd h (by simp)
    · rename_i ar2 funcs2 hown
      have hev : Evolves ar (markMissing funcs2 (ar2.classScopes c).missingMethods ar2) :=
        (collectOwn_evolves _ _ _ _ _ _ hown).1.trans (markMissing_evolves _ _ _)
      have hrec : RecPublic (fun a c t => collectMethods fuel a c t false forInvoke) := by
        intro a d t a1 t1 hrun e he
        rcases ih false a d t a1 t1 hrun e he with h1 | ⟨-, h1⟩ | h1
        · exact Or.inl h1
        · exact Or.inr (h1 rfl)
        · exact Or.inr h1
      intro e he
      rcases walkBases_public _ (collectMethods_recEvolves fuel false forInvoke) hrec
        _ _ _ _ _ _ _ _ h e he with h1 | h1
      · rcases collectOwn_mem _ _ _ _ _ _ hown e h1 with h2 | h2
        · exact Or.inl h2
        · exact Or.inr (Or.inl h2)
      · exact Or.inr (Or.inr (by rw [← hev.isPrivate]; exact h1))

/-- C28: in every run of `collectMethods` on a class `c` that starts from the
empty table and returns, an entry of the merged table is the last declaration
of its name in `c` itself, or its method is not private; so every entry whose
method is not a declaration of `c` is not private, before and after the run. -/
theorem collectMethods_inherits_no_private (fuel : Nat) (ar : AnalysisResult) (c : ClassId)
    (collectPrivate forInvoke : Bool) (ar1 : AnalysisResult) (funcs1 : FuncMap)
    (h : collectMethods fuel ar c [] collectPrivate forInvoke = some (ar1, funcs1)) :
    (∀ n f, (n, f) ∈ funcs1 →
      (∃ vec, (n, vec) ∈ (ar.classScopes c).functions ∧ vec.getLast? = some f) ∨
      (ar.functionScopes f).isPrivate = false) ∧
    (∀ n f, (n, f) ∈ funcs1 → ¬ DeclaredBy ar c f →
      (ar.functionScopes f).isPrivate = false ∧ (ar1.functionScopes f).isPrivate = false) := by
  have hmain : ∀ n f, (n, f) ∈ funcs1 →
      (∃ vec, (n, vec) ∈ (ar.classScopes c).functions ∧ vec.getLast? = some f) ∨
      (ar.functionScopes f).isPrivate = false := by
    intro n f hm
    rcases collectMethods_mem fuel forInvoke collectPrivate ar c [] ar1 funcs1 h (n, f) hm
      with h1 | ⟨h1, -⟩ | h1
    · exact absurd h1 (List.not_mem_nil _)
    · exact Or.inl h1
    · exact Or.inr h1
  refine ⟨hmain, ?_⟩
  intro n f hm hnot
  have hev := (collectMethods_evolves fuel ar c [] collectPrivate forInvoke ar1 funcs1 h).1
  rcases hmain n f hm with ⟨vec, hv, hl⟩ | h1
  · exact absurd ⟨n, vec, hv, List.mem_of_mem_getLast? hl⟩ hnot
  · exact ⟨h1, by rw [hev.isPrivate]; exact h1⟩

/-- Witness of C28 on `privateChainGraph`: the run on `a`, which declares
nothing, returns a table whose only entry is the public `foo` of `c`
(function 1); the private `foo` of `b` (function 0) is not in it. -/
theorem collectMethods_inherits_no_private_witness :
    (collectMethods 3 privateChainGraph 0 [] true false).map Prod.snd = some [("foo", 1)] ∧
    (privateChainGraph.functionScopes 0).isPrivate = true ∧
    ((∀ n f, (n, f) ∈ [("foo", 1)] →
      (∃ vec, (n, vec) ∈ (privateChainGraph.classScopes 0).functions ∧
        vec.getLast? = some f) ∨
      (privateChainGraph.functionScopes f).isPrivate = false) ∧
    (∀ n f, (n, f) ∈ [("foo", 1)] → ¬ DeclaredBy privateChainGraph 0 f →
      (privateChainGraph.functionScopes f).isPrivate = false ∧
      (privateChainGraph.functionScopes f).isPrivate = false)) :=
  ⟨by decide, by decide,
    collectMethods_inherits_no_private 3 privateChainGraph 0 true false
      privateChainGraph [("foo", 1)] rfl⟩

/-! ## Claim C27: a base name seen before -/

/-- An iteration of the walk has seen the base at its index afterwards. -/
theorem walkStep_sees
    {rec : AnalysisResult → ClassId → FuncMap → Option (AnalysisResult × FuncMap)}
    {self : ClassId}
    {forInvoke : Bool} {i : Nat} {seen : List String} {ar : AnalysisResult} {funcs : FuncMap}
    {seen1 : List String} {ar1 : AnalysisResult} {funcs1 : FuncMap}
    (h : WalkStep rec self forInvoke i seen ar funcs seen1 ar1 funcs1) :
    ∀ b, (ar.classScopes self).bases[i]? = some b → b ∈ seen1 := by
  intro b hb
  cases h with
  | invalid base hbase hseen =>
    rw [hbase] at hb; cases hb; exact hseen
  | skipped base hbase hseen hinvoke hparent =>
    rw [hbase] at hb; cases hb; exact List.mem_cons_self _ _
  | redeclaredParentInvoke base super hbase hseen hinvoke hparent hfind hredec =>
    rw [hbase] at hb; cases hb; exact List.mem_cons_self _ _
  | redeclaredParent base super ar2 funcs2 hbase hseen hinvoke hparent hfind hredec hcands =>
    rw [hbase] at hb; cases hb; exact List.mem_cons_self _ _
  | redeclaredBase base super hbase hseen hinvoke hparent hfind hredec =>
    rw [hbase] at hb; cases hb; exact List.mem_cons_self _ _
  | known base super ar2 funcs2 hbase hseen hfollow hfind hredec hcall =>
    rw [hbase] at hb; cases hb; exact List.mem_cons_self _ _
  | unknown base hbase hseen hfollow hfind =>
    rw [hbase] at hb; cases hb; exact List.mem_cons_self _ _

theorem getElem?_of_take_eq {α : Type} {l1 l2 : List α} {k j : Nat}
    (h : l1.take k = l2.take k) (hj : j < k) : l1[j]? = l2[j]? := by
  have h1 : (l1.take k)[j]? = l1[j]? := by rw [List.getElem?_take, if_pos hj]
  have h2 : (l2.take k)[j]? = l2[j]? := by rw [List.getElem?_take, if_pos hj]
  rw [← h1, ← h2, h]

/-- The walk of `self` over the indices from `lo` upwards has seen every base
that stood at one of these indices when it began. -/
theorem walkRange_sees
    (rec : AnalysisResult → ClassId → FuncMap → Option (AnalysisResult × FuncMap))
    (hrecE : RecEvolves rec) (rank : ClassId → Nat) (self : ClassId)
    (hrecF : RecFrame rank (rank self) rec) (hself : 0 < rank self)
    (forInvoke : Bool) (lo n : Nat) (seen : List String) (ar : AnalysisResult)
    (funcs : FuncMap) (seen1 : List String) (ar1 : AnalysisResult) (funcs1 : FuncMap)
    (hR : Ranked ar rank) (hname : (ar.classScopes self).name ∈ seen)
    (h : walkRange rec self forInvoke lo n seen ar funcs = some (seen1, ar1, funcs1)) :
    ∀ j b, lo ≤ j → j < lo + n → (ar.classScopes self).bases[j]? = some b → b ∈ seen1 := by
  induction n generalizing seen ar funcs with
  | zero => intro j b h1 h2; omega
  | succ n ih =>
    simp only [walkRange] at h
    split at h
    · exact absurd h (by simp)
    · rename_i seen2 ar2 funcs2 hstep
      have hws := walkStep_of_walkBase hstep
      obtain ⟨hev, -⟩ := walkStep_evolves hrecE hws
      have hname2 : (ar2.classScopes self).name ∈ seen2 := by
        rw [hev.name]; exact walkStep_seen hws _ hname
      have hinv := walkRange_inv rec hrecE rank self hrecF hself forInvoke lo n seen2 ar2
        funcs2 seen1 ar1 funcs1 (hev.ranked hR) hname2 h
      have hb := walkStep_bases hrecF hself hrecE hR hname hws
      have htake : (ar2.classScopes self).bases.take (lo + n) =
          (ar.classScopes self).bases.take (lo + n) := by
        rcases hb with hb | hb
        · rw [hb]
        · rw [hb, take_eraseIdx_of_le _ _ _ (Nat.le_refl _)]
      intro j b hlo hj hjb
      by_cases hjn : j = lo + n
      · subst hjn
        exact hinv.2.2.2.2.2 b (walkStep_sees hws b hjb)
      · have hlt : j < lo + n := by omega
        refine ih seen2 ar2 funcs2 (hev.ranked hR) hname2 h j b hlo hlt ?_
        rw [getElem?_of_take_eq htake hlt]; exact hjb

/-- The iteration of the walk at an index whose base has been seen: whatever
the recursive call and the registry are, it records the diagnostic and erases
the entry; the names seen and the table stay. -/
theorem walkBase_seen
    (rec : AnalysisResult → ClassId → FuncMap → Option (AnalysisResult × FuncMap))
    (self : ClassId) (forInvoke : Bool) (i : Nat) (seen : List String) (ar : AnalysisResult)
    (funcs : FuncMap) (b : String)
    (hb : (ar.classScopes self).bases[i]? = some b) (hseen : b ∈ seen) :
    walkBase rec self forInvoke i seen ar funcs =
      some (seen, eraseBase (record ar ErrorType.InvalidDerivation self b) self i, funcs) := by
  simp [walkBase, hb, hseen]

/-- The run on a class `x` of an acyclic graph whose base list holds at index
`i` a name `b` that is the name of `x` or stands at a higher index too. -/
theorem collectMethods_seen_base (ar : AnalysisResult) (rank : ClassId → Nat)
    (x : ClassId) (funcs : FuncMap) (collectPrivate forInvoke : Bool) (i : Nat) (b : String)
    (hR : Ranked ar rank) (hN : FunctionsNonempty ar) (hx : 0 < rank x)
    (hi : (ar.classScopes x).bases[i]? = some b)
    (hdup : b = (ar.classScopes x).name ∨
      ∃ j, i < j ∧ (ar.classScopes x).bases[j]? = some b) :
    ∃ ar1 funcs1 sO fO seenA sA fA seenF,
      collectMethods (rank x) ar x funcs collectPrivate forInvoke = some (ar1, funcs1) ∧
      collectOwn collectPrivate (ar.classScopes x).functions ar funcs = some (sO, fO) ∧
      walkRange (fun a c t => collectMethods (rank x - 1) a c t false forInvoke) x forInvoke
        (i + 1) ((ar.classScopes x).bases.length - (i + 1)) [(ar.classScopes x).name]
        (markMissing fO (sO.classScopes x).missingMethods sO) fO = some (seenA, sA, fA) ∧
      b ∈ seenA ∧ (sA.classScopes x).bases[i]? = some b ∧
      walkRange (fun a c t => collectMethods (rank x - 1) a c t false forInvoke) x forInvoke
        0 i seenA (eraseBase (record sA ErrorType.InvalidDerivation x b) x i) fA =
          some (seenF, ar1, funcs1) ∧
      (∃ pre post, ar1.codeError = ar.codeError ++ (pre ++ invalidDerivationRecord x b :: post)) ∧
      (ar1.classScopes x).bases.Sublist ((ar.classScopes x).bases.eraseIdx i) := by
  obtain ⟨⟨ar1, funcs1⟩, hrun⟩ := collectMethods_total rank (rank x) collectPrivate forInvoke
    ar x funcs hR hN hx (Nat.le_refl _)
  obtain ⟨fuel, hfuel⟩ : ∃ m, rank x = m + 1 := ⟨rank x - 1, by omega⟩
  have hfuel1 : rank x - 1 = fuel := by omega
  rw [hfuel1]
  have h := hrun
  rw [hfuel] at h
  simp only [collectMethods] at h
  cases hown : collectOwn collectPrivate (ar.classScopes x).functions ar funcs with
  | none => simp [hown] at h
  | some q =>
    obtain ⟨sO, fO⟩ := q
    simp only [hown] at h
    have hrecE := collectMethods_recEvolves fuel false forInvoke
    have hrecF : RecFrame rank (rank x)
        (fun a c t => collectMethods fuel a c t false forInvoke) :=
      RecFrame_collectMethods rank fuel forInvoke (rank x)
    have hcO := collectOwn_classScopes _ _ _ _ _ _ hown
    have hmO := markMissing_classScopes fO (sO.classScopes x).missingMethods sO
    have hevM : Evolves ar (markMissing fO (sO.classScopes x).missingMethods sO) :=
      (collectOwn_evolves _ _ _ _ _ _ hown).1.trans (markMissing_evolves _ _ _)
    generalize hM : markMissing fO (sO.classScopes x).missingMethods sO = sM at *
    have hcM : sM.classScopes = ar.classScopes := hmO.1.trans hcO.1
    have hceM : sM.codeError = ar.codeError := hmO.2.2.trans hcO.2.2
    have hRM := hevM.ranked hR
    have hnameM : (sM.classScopes x).name ∈ [(sM.classScopes x).name] :=
      List.mem_singleton.mpr rfl
    have hilt : i < (ar.classScopes x).bases.length := (List.getElem?_eq_some.mp hi).1
    obtain ⟨n, hn⟩ : ∃ n, (ar.classScopes x).bases.length = (i + 1) + n :=
      ⟨(ar.classScopes x).bases.length - (i + 1), by omega⟩
    have hn1 : (ar.classScopes x).bases.length - (i + 1) = n := by omega
    have hlenM : (sM.classScopes x).bases.length = (i + 1) + n := by rw [hcM]; exact hn
    rw [walkBases_eq_walkRange, hlenM, walkRange_add, Nat.zero_add] at h
    simp only [Option.map_eq_some', Prod.exists] at h
    obtain ⟨seenF, ar1a, f1a, hwalk, heq⟩ := h
    simp only [Prod.mk.injEq] at heq
    obtain ⟨rfl, rfl⟩ := heq
    cases hA : walkRange (fun a c t => collectMethods fuel a c t false forInvoke) x forInvoke
        (i + 1) n [(sM.classScopes x).name] sM fO with
    | none => simp [hA] at hwalk
    | some qa =>
      obtain ⟨seenA, sA, fA⟩ := qa
      simp only [hA] at hwalk
      obtain ⟨hevA, -, -, htakeA, -, hsubA⟩ := walkRange_inv _ hrecE rank x hrecF hx forInvoke
        (i + 1) n _ sM fO seenA sA fA hRM hnameM hA
      have hsees := walkRange_sees _ hrecE rank x hrecF hx forInvoke
        (i + 1) n _ sM fO seenA sA fA hRM hnameM hA
      have hbA : (sA.classScopes x).bases[i]? = some b := by
        rw [getElem?_of_take_eq htakeA (Nat.lt_succ_self i), hcM]; exact hi
      have hseenA : b ∈ seenA := by
        rcases hdup with hnm | ⟨j, hij, hj⟩
        · apply hsubA
          rw [hcM, ← hnm]; exact List.mem_singleton.mpr rfl
        · have hjlt : j < (ar.classScopes x).bases.length := (List.getElem?_eq_some.mp hj).1
          exact hsees j b (by omega) (by omega) (by rw [hcM]; exact hj)
      simp only [walkRange, Nat.zero_add] at hwalk
      rw [walkBase_seen _ x forInvoke i seenA sA fA b hbA hseenA] at hwalk
      simp only [] at hwalk
      have hevB := walkRange_evolves _ hrecE x forInvoke 0 i _ _ _ _ _ _ hwalk
      refine ⟨ar1a, f1a, sO, fO, seenA, sA, fA, seenF, hrun, rfl, ?_, hseenA, hbA, hwalk, ?_, ?_⟩
      · rw [hn1, ← hcM, hM]; exact hA
      · obtain ⟨mid, hmid⟩ := hevA.codeError
        obtain ⟨post, hpost⟩ := hevB.codeError
        have hB : (eraseBase (record sA ErrorType.InvalidDerivation x b) x i).codeError =
            sA.codeError ++ [invalidDerivationRecord x b] := rfl
        refine ⟨mid, post, ?_⟩
        rw [← hpost, hB, ← hmid, hceM]
        simp
      · refine (hevB.bases x).trans ?_
        rw [eraseBase_bases]
        have hrec : ((record sA ErrorType.InvalidDerivation x b).classScopes x).bases =
            (sA.classScopes x).bases := rfl
        rw [hrec, List.eraseIdx_eq_take_drop_succ, List.eraseIdx_eq_take_drop_succ]
        have ht : (sA.classScopes x).bases.take i = (ar.classScopes x).bases.take i := by
          have := congrArg (List.take i) htakeA
          rw [List.take_take, List.take_take, Nat.min_eq_left (Nat.le_succ i), hcM] at this
          exact this
        rw [ht]
        have hd : ((sA.classScopes x).bases.drop (i + 1)).Sublist
            ((ar.classScopes x).bases.drop (i + 1)) := by
          have := (hevA.bases x).drop (i + 1)
          rw [hcM] at this
          exact this
        exact List.Sublist.append (List.Sublist.refl _) hd

/-- C27: on an acyclic class graph let the base list of class `x` hold at
index `i` a name `b` that is the name of `x` itself or stands at a higher
index as well.  Then `collectMethods` on `x` returns; its walk arrives at the
index `i` with `b` among the names seen and `b` still at that index; the
iteration there, whatever the recursive call and the class registry are,
records the diagnostic and erases the entry without changing the table or the
names seen; the diagnostic `InvalidDerivation` of `x` for `b` is among the
diagnostics afterwards, and the base list afterwards is a sublist of the list
without the entry at index `i`. -/
theorem collectMethods_invalid_derivation (ar : AnalysisResult) (rank : ClassId → Nat)
    (x : ClassId) (funcs : FuncMap) (collectPrivate forInvoke : Bool) (i : Nat) (b : String)
    (hR : Ranked ar rank) (hN : FunctionsNonempty ar) (hx : 0 < rank x)
    (hi : (ar.classScopes x).bases[i]? = some b)
    (hdup : b = (ar.classScopes x).name ∨
      ∃ j, i < j ∧ (ar.classScopes x).bases[j]? = some b) :
    ∃ ar1 funcs1 sO fO seenA sA fA seenF,
      collectMethods (rank x) ar x funcs collectPrivate forInvoke = some (ar1, funcs1) ∧
      collectOwn collectPrivate (ar.classScopes x).functions ar funcs = some (sO, fO) ∧
      walkRange (fun a c t => collectMethods (rank x - 1) a c t false forInvoke) x forInvoke
        (i + 1) ((ar.classScopes x).bases.length - (i + 1)) [(ar.classScopes x).name]
        (markMissing fO (sO.classScopes x).missingMethods sO) fO = some (seenA, sA, fA) ∧
      b ∈ seenA ∧ (sA.classScopes x).bases[i]? = some b ∧
      (∀ (rec2 : AnalysisResult → ClassId → FuncMap → Option (AnalysisResult × FuncMap))
          (decs : List (String × List ClassId)),
        walkBase rec2 x forInvoke i seenA { sA with classDecs := decs } fA =
          some (seenA,
            eraseBase (record { sA with classDecs := decs } ErrorType.InvalidDerivation x b) x i,
            fA)) ∧
      walkRange (fun a c t => collectMethods (rank x - 1) a c t false forInvoke) x forInvoke
        0 i seenA (eraseBase (record sA ErrorType.InvalidDerivation x b) x i) fA =
          some (seenF, ar1, funcs1) ∧
      (∃ pre post, ar1.codeError = ar.codeError ++ (pre ++ invalidDerivationRecord x b :: post)) ∧
      (ar1.classScopes x).bases.Sublist ((ar.classScopes x).bases.eraseIdx i) := by
  obtain ⟨ar1, funcs1, sO, fO, seenA, sA, fA, seenF, h1, h2, h3, h4, h5, h6, h7, h8⟩ :=
    collectMethods_seen_base ar rank x funcs collectPrivate forInvoke i b hR hN hx hi hdup
  exact ⟨ar1, funcs1, sO, fO, seenA, sA, fA, seenF, h1, h2, h3, h4, h5,
    fun rec2 decs => walkBase_seen rec2 x forInvoke i seenA _ fA b h5 h4, h6, h7, h8⟩

theorem repeatedBaseGraph_ranked : Ranked repeatedBaseGraph repeatedRank := by
  intro c base hc hb hne d hd
  match c with
  | 0 =>
    simp [repeatedBaseGraph, mkAnalysisResult] at hb
    rcases hb with hb | hb | hb
    · rw [hb] at hd
      have : d = 1 := by
        simpa [findClasses, repeatedBaseGraph, mkAnalysisResult, toLower] using hd
      subst this
      decide
    · rw [hb] at hd
      have : d = 2 := by
        simpa [findClasses, repeatedBaseGraph, mkAnalysisResult, toLower] using hd
      subst this
      decide
    · rw [hb] at hd
      have : d = 1 := by
        simpa [findClasses, repeatedBaseGraph, mkAnalysisResult, toLower] using hd
      subst this
      decide
  | 1 => simp [repeatedBaseGraph, mkAnalysisResult] at hb
  | 2 => simp [repeatedBaseGraph, mkAnalysisResult] at hb
  | 3 =>
    simp [repeatedBaseGraph, mkAnalysisResult] at hb
    rcases hb with hb | hb
    · subst hb
      have : d = 0 := by
        simpa [findClasses, repeatedBaseGraph, mkAnalysisResult, toLower] using hd
      subst this
      decide
    · subst hb
      exact absurd rfl hne
  | n + 4 => simp [repeatedBaseGraph, mkAnalysisResult] at hb

theorem repeatedBaseGraph_functionsNonempty : FunctionsNonempty repeatedBaseGraph := by
  intro c name vec hm
  match c with
  | 0 => simp [repeatedBaseGraph, mkAnalysisResult] at hm
  | 1 => simp [repeatedBaseGraph, mkAnalysisResult] at hm
  | 2 => simp [repeatedBaseGraph, mkAnalysisResult] at hm
  | 3 => simp [repeatedBaseGraph, mkAnalysisResult] at hm
  | n + 4 => simp [repeatedBaseGraph, mkAnalysisResult] at hm

/-- Witness of C27 on `repeatedBaseGraph`: class `c` lists `i` at the indices
0 and 2; the run records the diagnostic for `i` and leaves the bases `j`, `i`,
the entry at index 0 being the one removed.  Class `d` lists its own name: the
run records the diagnostic for `d` and leaves the base `c`. -/
theorem collectMethods_invalid_derivation_witness :
    (∃ ar1 funcs1 sO fO seenA sA fA seenF,
      collectMethods (repeatedRank 0) repeatedBaseGraph 0 [] true false = some (ar1, funcs1) ∧
      collectOwn true (repeatedBaseGraph.classScopes 0).functions repeatedBaseGraph [] =
        some (sO, fO) ∧
      walkRange (fun a c t => collectMethods (repeatedRank 0 - 1) a c t false false) 0 false
        (0 + 1) ((repeatedBaseGraph.classScopes 0).bases.length - (0 + 1))
        [(repeatedBaseGraph.classScopes 0).name]
        (markMissing fO (sO.classScopes 0).missingMethods sO) fO = some (seenA, sA, fA) ∧
      "i" ∈ seenA ∧ (sA.classScopes 0).bases[0]? = some "i" ∧
      (∀ (rec2 : AnalysisResult → ClassId → FuncMap → Option (AnalysisResult × FuncMap))
          (decs : List (String × List ClassId)),
        walkBase rec2 0 false 0 seenA { sA with classDecs := decs } fA =
          some (seenA,
            eraseBase (record { sA with classDecs := decs } ErrorType.InvalidDerivation 0 "i") 0 0,
            fA)) ∧
      walkRange (fun a c t => collectMethods (repeatedRank 0 - 1) a c t false false) 0 false
        0 0 seenA (eraseBase (record sA ErrorType.InvalidDerivation 0 "i") 0 0) fA =
          some (seenF, ar1, funcs1) ∧
      (∃ pre post, ar1.codeError =
        repeatedBaseGraph.codeError ++ (pre ++ invalidDerivationRecord 0 "i" :: post)) ∧
      (ar1.classScopes 0).bases.Sublist ((repeatedBaseGraph.classScopes 0).bases.eraseIdx 0)) ∧
    (collectMethods 2 repeatedBaseGraph 0 [] true false).map
        (fun r => ((r.1.classScopes 0).bases, r.1.codeError)) =
      some (["j", "i"], [invalidDerivationRecord 0 "i"]) ∧
    (collectMethods 3 repeatedBaseGraph 3 [] true false).map
        (fun r => ((r.1.classScopes 3).bases, r.1.codeError)) =
      some (["c"], [invalidDerivationRecord 3 "d", invalidDerivationRecord 0 "i"]) :=
  ⟨collectMethods_invalid_derivation repeatedBaseGraph repeatedRank 0 [] true false 0 "i"
      repeatedBaseGraph_ranked repeatedBaseGraph_functionsNonempty (by decide) (by decide)
      (Or.inr ⟨2, by decide, by decide⟩),
    by decide, by decide⟩

/-! ## Claim C26: which operations only widen the state -/

theorem Widens.wrefl (ar : AnalysisResult) : Widens ar ar :=
  ⟨fun _ h => h, fun _ _ h => h, fun _ h => h, fun _ h => h, fun _ h => h⟩

theorem Widens.wtrans {a b c : AnalysisResult} (h1 : Widens a b) (h2 : Widens b c) :
    Widens a c :=
  ⟨fun x h => h2.volatileKept x (h1.volatileKept x h),
    fun x m h => h2.attrsKept x m (h1.attrsKept x m h),
    fun x h => h2.tagKept x (h1.tagKept x h),
    fun f h => h2.dynamicKept f (h1.dynamicKept f h),
    fun f h => h2.virtualKept f (h1.virtualKept f h)⟩

/-- A later state in a run of `collectMethods` is a wider state. -/
theorem Evolves.evolvesWidens {ar ar1 : AnalysisResult} (h : Evolves ar ar1) : Widens ar ar1 where
  volatileKept := h.volatile
  attrsKept := fun c attr ha => by
    have hc := congrArg ClassScope.attrs (h.core c)
    simp only [classCore] at hc
    unfold ClassScope.getAttribute at ha ⊢
    rw [hc]; exact ha
  tagKept := h.derives
  dynamicKept := fun f hd => by
    rcases h.funcs f with e | e <;> rw [e]
    · exact hd
    · exact hd
  virtualKept := h.virtual

/-- A later state in a run of `findFunction` or `setDynamic` is a wider
state. -/
theorem Flagged.flaggedWidens {ar ar1 : AnalysisResult} (h : Flagged ar ar1) : Widens ar ar1 where
  volatileKept := fun c hv => by
    rcases h.scopes c with e | e <;> rw [e] <;> exact hv
  attrsKept := fun c attr ha => by
    rcases h.scopes c with e | e <;> rw [e] <;> exact ha
  tagKept := fun c ht => by
    rcases h.scopes c with e | e <;> rw [e]
    · exact ht
    · simp
  dynamicKept := h.dynamic
  virtualKept := fun f hv => by
    rcases h.funcs f with e | e <;> rw [e] <;> exact hv

/-- A run of `findConstructor` leaves a later state in the sense of
`findFunction`: it changes nothing but dynamic flags of functions. -/
theorem findConstructor_flagged (classNameConstructor fuel : Nat) :
    ∀ (a : AnalysisResult) (c : ClassId) (recursive : Bool)
      (a1 : AnalysisResult) (r : Option FuncId),
      findConstructor classNameConstructor fuel a c recursive = some (a1, r) →
      a1.classScopes = a.classScopes ∧ Flagged a a1 := by
  induction fuel with
  | zero => intro a c recursive a1 r h; exact absurd h (by simp [findConstructor])
  | succ fuel ih =>
    intro a c recursive a1 r h
    simp only [findConstructor] at h
    split at h
    · split at h
      · exact absurd h (by simp)
      · simp only [Option.some.injEq, Prod.mk.injEq] at h
        obtain ⟨rfl, -⟩ := h
        exact ⟨rfl, Flagged.flrefl _⟩
    · have hwalk : ∀ w, (if (recursive &&
            (a.classScopes c).derivesFromRedeclaring != Derivation.DirectFromRedeclared) = true
          then
            match findClass a (a.classScopes c).parent with
            | some super => findConstructor classNameConstructor fuel a super true
            | none => some (a, none)
          else some (a, none)) = some w → w.1.classScopes = a.classScopes ∧ Flagged a w.1 := by
        intro w hw
        split at hw
        · split at hw
          · exact ih _ _ _ _ _ hw
          · simp only [Option.some.injEq] at hw
            subst hw
            exact ⟨rfl, Flagged.flrefl _⟩
        · simp only [Option.some.injEq] at hw
          subst hw
          exact ⟨rfl, Flagged.flrefl _⟩
      split at h
      · exact absurd h (by simp)
      · rename_i a2 func hw
        simp only [Option.some.injEq, Prod.mk.injEq] at h
        obtain ⟨rfl, -⟩ := h
        exact hwalk _ hw
      · rename_i a2 hw
        obtain ⟨hw1, hw2⟩ := hwalk _ hw
        split at h
        · split at h
          · exact absurd h (by simp)
          · rename_i a3 hset
            simp only [Option.some.injEq, Prod.mk.injEq] at h
            obtain ⟨rfl, -⟩ := h
            obtain ⟨hs1, hs2⟩ := setDynamic_flagged _ _ _ _ _ hset
            exact ⟨hs1.trans hw1, hw2.fltrans hs2⟩
        · simp only [Option.some.injEq, Prod.mk.injEq] at h
          obtain ⟨rfl, -⟩ := h
          exact ⟨hw1, hw2⟩

theorem setStaticVec_flagged (vec : List FuncId) (a : AnalysisResult) :
    (setStaticVec vec a).classScopes = a.classScopes ∧ Flagged a (setStaticVec vec a) := by
  induction vec generalizing a with
  | nil => exact ⟨rfl, Flagged.flrefl _⟩
  | cons x xs ih =>
    simp only [setStaticVec]
    have hstep : (if (a.functionScopes x).isStatic = true then setFuncDynamic a x else a).classScopes
        = a.classScopes ∧
        Flagged a (if (a.functionScopes x).isStatic = true then setFuncDynamic a x else a) := by
      split
      · obtain ⟨h1, h2, h3, h4⟩ := foldl_setFuncDynamic [x] a
        simp only [List.foldl_cons, List.foldl_nil] at h1 h2 h3 h4
        refine ⟨h1, h2, fun y => Or.inl (by rw [h1]), fun f => ?_, h3⟩
        rw [h4]
        by_cases hm : f ∈ [x]
        · exact Or.inr (by rw [if_pos hm])
        · exact Or.inl (by rw [if_neg hm])
      · exact ⟨rfl, Flagged.flrefl _⟩
    obtain ⟨h1, h2⟩ := ih (if (a.functionScopes x).isStatic = true then setFuncDynamic a x else a)
    exact ⟨h1.trans hstep.1, hstep.2.fltrans h2⟩

theorem setStaticOwn_flagged (fs : List (String × List FuncId)) (a : AnalysisResult) :
    (setStaticOwn fs a).classScopes = a.classScopes ∧ Flagged a (setStaticOwn fs a) := by
  induction fs generalizing a with
  | nil => exact ⟨rfl, Flagged.flrefl _⟩
  | cons e rest ih =>
    obtain ⟨name, vec⟩ := e
    simp only [setStaticOwn]
    obtain ⟨h1, h2⟩ := setStaticVec_flagged vec a
    obtain ⟨h3, h4⟩ := ih (setStaticVec vec a)
    exact ⟨h3.trans h1, h2.fltrans h4⟩

/-- A run of `setStaticDynamic` changes nothing but dynamic flags of
functions. -/
theorem setStaticDynamic_flagged (fuel : Nat) : ∀ (a : AnalysisResult) (c : ClassId)
    (a1 : AnalysisResult), setStaticDynamic fuel a c = some a1 →
    a1.classScopes = a.classScopes ∧ Flagged a a1 := by
  induction fuel with
  | zero => intro a c a1 h; exact absurd h (by simp [setStaticDynamic])
  | succ fuel ih =>
    intro a c a1 h
    simp only [setStaticDynamic] at h
    obtain ⟨h1, h2⟩ := setStaticOwn_flagged (a.classScopes c).functions a
    have hrest : a1.classScopes = (setStaticOwn (a.classScopes c).functions a).classScopes ∧
        Flagged (setStaticOwn (a.classScopes c).functions a) a1 := by
      split at h
      · split at h
        · exact forEachClass_flagged _ (fun a c a1 hh => ih a c a1 hh) _ _ _ h
        · split at h
          · exact ih _ _ _ h
          · simp only [Option.some.injEq] at h
            subst h
            exact ⟨rfl, Flagged.flrefl _⟩
      · simp only [Option.some.injEq] at h
        subst h
        exact ⟨rfl, Flagged.flrefl _⟩
    exact ⟨hrest.1.trans h1, h2.fltrans hrest.2⟩

theorem setDynamicOwn_flagged (fs : List (String × List FuncId)) (a : AnalysisResult) :
    (setDynamicOwn fs a).classScopes = a.classScopes ∧ Flagged a (setDynamicOwn fs a) := by
  induction fs generalizing a with
  | nil => exact ⟨rfl, Flagged.flrefl _⟩
  | cons e rest ih =>
    obtain ⟨name, vec⟩ := e
    simp only [setDynamicOwn]
    obtain ⟨h1, h2, h3, h4⟩ := foldl_setFuncDynamic vec a
    have hstep : Flagged a (vec.foldl setFuncDynamic a) := by
      refine ⟨h2, fun y => Or.inl (by rw [h1]), fun f => ?_, h3⟩
      rw [h4]
      by_cases hm : f ∈ vec
      · exact Or.inr (by simp [hm])
      · exact Or.inl (by simp [hm])
    obtain ⟨h5, h6⟩ := ih (vec.foldl setFuncDynamic a)
    exact ⟨h5.trans h1, hstep.fltrans h6⟩

/-- An update of one class scope that keeps the volatile flag when it is set,
the attribute bits and the tag widens the state. -/
theorem Widens_updClass (ar : AnalysisResult) (c : ClassId) (g : ClassScope → ClassScope)
    (hv : (ar.classScopes c).volatile = true → (g (ar.classScopes c)).volatile = true)
    (ha : ∀ attr, (ar.classScopes c).getAttribute attr = true →
      (g (ar.classScopes c)).getAttribute attr = true)
    (ht : (ar.classScopes c).derivesFromRedeclaring ≠ Derivation.FromNormal →
      (g (ar.classScopes c)).derivesFromRedeclaring ≠ Derivation.FromNormal) :
    Widens ar (ar.updClass c g) where
  volatileKept := fun x h => by
    by_cases hx : x = c
    · subst hx; simp only [AnalysisResult.updClass, Function.update_same]; exact hv h
    · simp only [AnalysisResult.updClass, Function.update_noteq hx]; exact h
  attrsKept := fun x attr h => by
    by_cases hx : x = c
    · subst hx; simp only [AnalysisResult.updClass, Function.update_same]; exact ha attr h
    · simp only [AnalysisResult.updClass, Function.update_noteq hx]; exact h
  tagKept := fun x h => by
    by_cases hx : x = c
    · subst hx; simp only [AnalysisResult.updClass, Function.update_same]; exact ht h
    · simp only [AnalysisResult.updClass, Function.update_noteq hx]; exact h
  dynamicKept := fun _ h => h
  virtualKept := fun _ h => h

/-- An update of one function scope that keeps the dynamic and the virtual
flag widens the state. -/
theorem Widens_updFunc (ar : AnalysisResult) (f : FuncId) (g : FunctionScope → FunctionScope)
    (hd : (g (ar.functionScopes f)).dynamic = (ar.functionScopes f).dynamic)
    (hv : (g (ar.functionScopes f)).virtual = (ar.functionScopes f).virtual) :
    Widens ar (ar.updFunc f g) where
  volatileKept := fun _ h => h
  attrsKept := fun _ _ h => h
  tagKept := fun _ h => h
  dynamicKept := fun x h => by
    by_cases hx : x = f
    · subst hx; simp only [AnalysisResult.updFunc, Function.update_same]; rw [hd]; exact h
    · simp only [AnalysisResult.updFunc, Function.update_noteq hx]; exact h
  virtualKept := fun x h => by
    by_cases hx : x = f
    · subst hx; simp only [AnalysisResult.updFunc, Function.update_same]; rw [hv]; exact h
    · simp only [AnalysisResult.updFunc, Function.update_noteq hx]; exact h

/-- The method `setRedeclaring` only widens the state. -/
theorem setRedeclaring_widens (ar : AnalysisResult) (c : ClassId) (redecId : Int) :
    Widens ar (setRedeclaring ar c redecId) := by
  have h1 : Widens ar (ar.updClass c (fun cs => { cs with redeclaring := redecId })) :=
    Widens_updClass ar c _ (fun h => h) (fun _ h => h) (fun h => h)
  have h2 : ∀ a : AnalysisResult, Widens a (setVolatile a c) :=
    fun a => Widens_updClass a c _ (fun _ => rfl) (fun _ h => h) (fun h => h)
  have h3 : ∀ a : AnalysisResult, Widens a (forceVariants a c) :=
    fun a => Widens_updClass a c _ (fun h => h) (fun _ h => h) (fun h => h)
  exact (h1.wtrans (h2 _)).wtrans
    (Widens.wtrans (setDynamicOwn_flagged _ _).2.flaggedWidens (h3 _))

/-- The method `addFunction` only widens the state. -/
theorem addFunction_widens (ar : AnalysisResult) (c : ClassId) (f : FuncId) :
    Widens ar (addFunction ar c f).1 := by
  have hred : ∀ (a : AnalysisResult) (g : FuncId) (i : Int),
      Widens a (setFuncRedeclaring a g i) :=
    fun a g i => Widens_updFunc a g _ rfl rfl
  have htwice : ∀ (a : AnalysisResult) (g1 g2 : FuncId), Widens a (recordTwice a g1 g2) :=
    fun a g1 g2 => ⟨fun _ h => h, fun _ _ h => h, fun _ h => h, fun _ h => h, fun _ h => h⟩
  have hmatch : ∀ (v : List FuncId), Widens ar
      (match v with
        | [first] => recordTwice (setFuncRedeclaring ar first 0) f first
        | _ => ar) := by
    intro v
    split
    · exact (hred _ _ _).wtrans (htwice _ _ _)
    · exact Widens.wrefl _
  have hif : ∀ (a : AnalysisResult) (n : Nat),
      Widens a (if 0 < n then setFuncRedeclaring a f n else a) := by
    intro a n
    split
    · exact hred _ _ _
    · exact Widens.wrefl _
  have hupd : ∀ (a : AnalysisResult) (fs : List (String × List FuncId) → List (String × List FuncId)),
      Widens a (a.updClass c (fun cs => { cs with functions := fs cs.functions })) :=
    fun a fs => Widens_updClass a c _ (fun h => h) (fun _ h => h) (fun h => h)
  exact ((hmatch _).wtrans (hif _ _)).wtrans
    (hupd _ (fun l => mapSet l (ar.functionScopes f).name
      ((mapFind (ar.classScopes c).functions (ar.functionScopes f).name).getD [] ++ [f])))

theorem and_or_ne_zero (a s m : Nat) (h : a &&& m ≠ 0) : (a ||| s) &&& m ≠ 0 := by
  intro h0
  apply h
  apply Nat.eq_of_testBit_eq
  intro i
  have hi := congrArg (fun n => Nat.testBit n i) h0
  simp only [Nat.testBit_and, Nat.testBit_or, Nat.zero_testBit] at hi ⊢
  cases ha : a.testBit i <;> simp_all

theorem setSystemOwn_funcs (fs : List (String × List FuncId)) (a a1 : AnalysisResult)
    (h : setSystemOwn fs a = some a1) :
    a1.classScopes = a.classScopes ∧
    ∀ f, (a1.functionScopes f).dynamic = (a.functionScopes f).dynamic ∧
      (a1.functionScopes f).virtual = (a.functionScopes f).virtual := by
  induction fs generalizing a with
  | nil =>
    simp only [setSystemOwn, Option.some.injEq] at h
    subst h
    exact ⟨rfl, fun _ => ⟨rfl, rfl⟩⟩
  | cons e rest ih =>
    obtain ⟨name, vec⟩ := e
    simp only [setSystemOwn] at h
    split at h
    · exact absurd h (by simp)
    · rename_i g hg
      obtain ⟨h1, h2⟩ := ih _ h
      refine ⟨h1, fun f => ?_⟩
      rw [(h2 f).1, (h2 f).2]
      by_cases hx : f = g
      · subst hx
        simp [setFuncSystem, AnalysisResult.updFunc]
      · simp [setFuncSystem, AnalysisResult.updFunc, Function.update_noteq hx]

/-- What `setSystem` does to the flags: the class is not volatile afterwards,
its attribute bits stay and those of `system` are added, the tags and the
other classes stay, and no function changes its dynamic or virtual flag. -/
theorem setSystem_flags (system : Nat) (ar ar1 : AnalysisResult) (c : ClassId)
    (h : setSystem system ar c = some ar1) :
    (ar1.classScopes c).volatile = false ∧
    (ar1.classScopes c).attrs = (ar.classScopes c).attrs ||| system ∧
    (∀ x attr, (ar.classScopes x).getAttribute attr = true →
      (ar1.classScopes x).getAttribute attr = true) ∧
    (∀ x, (ar1.classScopes x).derivesFromRedeclaring =
      (ar.classScopes x).derivesFromRedeclaring) ∧
    (∀ x, x ≠ c → ar1.classScopes x = ar.classScopes x) ∧
    (∀ f, (ar1.functionScopes f).dynamic = (ar.functionScopes f).dynamic ∧
      (ar1.functionScopes f).virtual = (ar.functionScopes f).virtual) := by
  unfold setSystem at h
  simp only [] at h
  obtain ⟨h1, h2⟩ := setSystemOwn_funcs _ _ _ h
  have hc : ar1.classScopes c =
      { ar.classScopes c with attrs := (ar.classScopes c).attrs ||| system,
                              volatile := false, dynamic := false } := by
    rw [h1]
    simp [AnalysisResult.updClass, setAttribute]
  have hx : ∀ x, x ≠ c → ar1.classScopes x = ar.classScopes x := by
    intro x hne
    rw [h1]
    simp [AnalysisResult.updClass, setAttribute, Function.update_noteq hne]
  refine ⟨by rw [hc], by rw [hc], ?_, ?_, hx, ?_⟩
  · intro x attr ha
    by_cases hxc : x = c
    · subst hxc
      rw [hc]
      unfold ClassScope.getAttribute at ha ⊢
      simp only [bne_iff_ne, ne_eq] at ha ⊢
      exact and_or_ne_zero _ _ _ ha
    · rw [hx x hxc]; exact ha
  · intro x
    by_cases hxc : x = c
    · subst hxc; rw [hc]
    · rw [hx x hxc]
  · intro f
    have := h2 f
    simpa [AnalysisResult.updClass, setAttribute] using this

/-- The counterexample of C26: `setSystem` on a class that is volatile returns
a state in which the class is not volatile. -/
theorem setSystem_clears_volatile :
    (volatileClassGraph.classScopes 0).volatile = true ∧
    (setSystem 2 volatileClassGraph 0).map (fun a => (a.classScopes 0).volatile) =
      some false ∧
    ∀ a1, setSystem 2 volatileClassGraph 0 = some a1 → ¬ Widens volatileClassGraph a1 := by
  refine ⟨by decide, by decide, ?_⟩
  intro a1 h hw
  have h1 := (setSystem_flags 2 volatileClassGraph a1 0 h).1
  have h2 := hw.volatileKept 0 (by decide)
  rw [h1] at h2
  exact absurd h2 (by simp)

/-- C26, amended: every returning run of `collectMethods`, `findFunction`,
`findConstructor`, `setDynamic` and `setStaticDynamic`, and every call of
`setRedeclaring` and `addFunction`, only widens the state: no class loses its
volatile flag or an attribute bit, no tag goes back to `FromNormal`, no
function loses its dynamic or virtual flag.  A returning call of `setSystem`
keeps the attribute bits, the tags and the dynamic and virtual flags, but
leaves the class not volatile. -/
theorem classScope_operations_widen (ar : AnalysisResult) (c : ClassId) :
    (∀ fuel funcs collectPrivate forInvoke ar1 funcs1,
      collectMethods fuel ar c funcs collectPrivate forInvoke = some (ar1, funcs1) →
      Widens ar ar1) ∧
    (∀ fuel name recursive exclIntfBase ar1 r,
      findFunction fuel ar c name recursive exclIntfBase = some (ar1, r) → Widens ar ar1) ∧
    (∀ classNameConstructor fuel recursive ar1 r,
      findConstructor classNameConstructor fuel ar c recursive = some (ar1, r) →
      Widens ar ar1) ∧
    (∀ fuel name ar1, setDynamic fuel ar c name = some ar1 → Widens ar ar1) ∧
    (∀ fuel ar1, setStaticDynamic fuel ar c = some ar1 → Widens ar ar1) ∧
    (∀ redecId, Widens ar (setRedeclaring ar c redecId)) ∧
    (∀ funcScope, Widens ar (addFunction ar c funcScope).1) ∧
    (∀ system ar1, setSystem system ar c = some ar1 →
      (ar1.classScopes c).volatile = false ∧
      (∀ x, x ≠ c → (ar1.classScopes x).volatile = (ar.classScopes x).volatile) ∧
      (∀ x attr, (ar.classScopes x).getAttribute attr = true →
        (ar1.classScopes x).getAttribute attr = true) ∧
      (∀ x, (ar1.classScopes x).derivesFromRedeclaring =
        (ar.classScopes x).derivesFromRedeclaring) ∧
      (∀ f, (ar1.functionScopes f).dynamic = (ar.functionScopes f).dynamic ∧
        (ar1.functionScopes f).virtual = (ar.functionScopes f).virtual)) := by
  refine ⟨?_, ?_, ?_, ?_, ?_, ?_, ?_, ?_⟩
  · intro fuel funcs cp fi ar1 funcs1 h
    exact (collectMethods_evolves fuel ar c funcs cp fi ar1 funcs1 h).1.evolvesWidens
  · intro fuel name recursive excl ar1 r h
    exact (findFunction_flagged fuel ar c name recursive excl ar1 r h).flaggedWidens
  · intro cnc fuel recursive ar1 r h
    exact (findConstructor_flagged cnc fuel ar c recursive ar1 r h).2.flaggedWidens
  · intro fuel name ar1 h
    exact (setDynamic_flagged fuel ar c name ar1 h).2.flaggedWidens
  · intro fuel ar1 h
    exact (setStaticDynamic_flagged fuel ar c ar1 h).2.flaggedWidens
  · intro redecId
    exact setRedeclaring_widens ar c redecId
  · intro f
    exact addFunction_widens ar c f
  · intro system ar1 h
    obtain ⟨h1, -, h3, h4, h5, h6⟩ := setSystem_flags system ar ar1 c h
    exact ⟨h1, fun x hx => by rw [h5 x hx], h3, h4, h6⟩

/-- Witness of C26 on `volatileClassGraph`: the run of `collectMethods` on the
class returns and only widens the state, and so does `setRedeclaring`, after
which the class is still volatile and its method still dynamic and virtual. -/
theorem classScope_operations_widen_witness :
    collectMethods 1 volatileClassGraph 0 [] true false =
      some (volatileClassGraph, [("m", 0)]) ∧
    Widens volatileClassGraph volatileClassGraph ∧
    Widens volatileClassGraph (setRedeclaring volatileClassGraph 0 1) ∧
    ((setRedeclaring volatileClassGraph 0 1).classScopes 0).volatile = true ∧
    ((setRedeclaring volatileClassGraph 0 1).functionScopes 0).dynamic = true :=
  ⟨rfl,
    (classScope_operations_widen volatileClassGraph 0).1 1 [] true false
      volatileClassGraph [("m", 0)] rfl,
    (classScope_operations_widen volatileClassGraph 0).2.2.2.2.2.1 1,
    by decide, by decide⟩

/-! ## Claim C24: the methods selected for an invoke table -/

theorem eligible_of_not_skips (system staticOnly : Bool) (fs : FunctionScope)
    (h : jumpTableSkips system staticOnly fs = false) : Eligible system staticOnly fs := by
  unfold jumpTableSkips at h
  unfold Eligible
  cases ha : fs.isAbstract <;> cases hs : fs.isStatic <;> cases hd : fs.dynamic <;>
    cases hv : fs.virtual <;> cases system <;> cases staticOnly <;>
    simp [ha, hs, hd, hv] at h ⊢

/-- Every name that `findJumpTableMethods` selects is the key of an entry of
`m_functions` whose first declaration is not redeclaring and is eligible. -/
theorem findJumpTableMethods_eligible (system : Bool) (ar : AnalysisResult) (staticOnly : Bool)
    (fs : List (String × List FuncId)) (names : List String)
    (h : findJumpTableMethods system ar staticOnly fs = some names) :
    ∀ name, name ∈ names → ∃ vec func, (name, vec) ∈ fs ∧ vec[0]? = some func ∧
      (ar.functionScopes func).isRedeclaring = false ∧
      Eligible system staticOnly (ar.functionScopes func) := by
  induction fs generalizing names with
  | nil =>
    simp only [findJumpTableMethods, Option.some.injEq] at h
    subst h
    intro name hn
    exact absurd hn (List.not_mem_nil _)
  | cons e rest ih =>
    obtain ⟨key, vec⟩ := e
    simp only [findJumpTableMethods] at h
    split at h
    · exact absurd h (by simp)
    · rename_i func hfunc
      split at h
      · exact absurd h (by simp)
      · rename_i names1 hrest
        have hlift : ∀ name, name ∈ names1 → ∃ vec1 func1, (name, vec1) ∈ (key, vec) :: rest ∧
            vec1[0]? = some func1 ∧ (ar.functionScopes func1).isRedeclaring = false ∧
            Eligible system staticOnly (ar.functionScopes func1) := by
          intro name hn
          obtain ⟨vec1, func1, h1, h2⟩ := ih names1 hrest name hn
          exact ⟨vec1, func1, List.mem_cons_of_mem _ h1, h2⟩
        split at h
        · rename_i hred
          split at h
          · simp only [Option.some.injEq] at h
            subst h
            exact hlift
          · rename_i hskip
            simp only [Option.some.injEq] at h
            subst h
            intro name hn
            rcases List.mem_cons.mp hn with h1 | h1
            · subst h1
              refine ⟨vec, func, List.mem_cons_self _ _, hfunc, by simpa using hred, ?_⟩
              exact eligible_of_not_skips _ _ _ (by simpa using hskip)
            · exact hlift name h1
        · simp only [Option.some.injEq] at h
          subst h
          exact hlift

/-- Every name of the flattened selection is the key of an entry of the
flattened table whose first function is eligible and is not in the pseudo-main
of a file. -/
theorem flattenedMethods_eligible (system : Bool) (inPseudoMain : FuncId → Bool)
    (ar : AnalysisResult) (staticOnly : Bool)
    (fs : List (String × List FuncId)) (names : List String)
    (h : flattenedMethods system inPseudoMain ar staticOnly fs = some names) :
    ∀ name, name ∈ names → ∃ vec func, (name, vec) ∈ fs ∧ vec[0]? = some func ∧
      inPseudoMain func = false ∧ Eligible system staticOnly (ar.functionScopes func) := by
  induction fs generalizing names with
  | nil =>
    simp only [flattenedMethods, Option.some.injEq] at h
    subst h
    intro name hn
    exact absurd hn (List.not_mem_nil _)
  | cons e rest ih =>
    obtain ⟨key, vec⟩ := e
    simp only [flattenedMethods] at h
    split at h
    · exact absurd h (by simp)
    · rename_i func hfunc
      split at h
      · exact absurd h (by simp)
      · rename_i names1 hrest
        have hlift : ∀ name, name ∈ names1 → ∃ vec1 func1, (name, vec1) ∈ (key, vec) :: rest ∧
            vec1[0]? = some func1 ∧ inPseudoMain func1 = false ∧
            Eligible system staticOnly (ar.functionScopes func1) := by
          intro name hn
          obtain ⟨vec1, func1, h1, h2⟩ := ih names1 hrest name hn
          exact ⟨vec1, func1, List.mem_cons_of_mem _ h1, h2⟩
        split at h
        · simp only [Option.some.injEq] at h
          subst h
          exact hlift
        · rename_i hskip
          simp only [Option.some.injEq] at h
          subst h
          intro name hn
          rcases List.mem_cons.mp hn with h1 | h1
          · subst h1
            have hp : inPseudoMain func = false := by
              cases hpm : inPseudoMain func
              · rfl
              · exact absurd (by simp [hpm]) hskip
            refine ⟨vec, func, List.mem_cons_self _ _, hfunc, hp, ?_⟩
            apply eligible_of_not_skips
            unfold jumpTableSkips
            rw [hp] at hskip
            simpa using hskip
          · exact hlift name h1

/-- The keys of a table that `outputCPPJumpTable` emits: with flattened tables
they are selected from the flattened table, otherwise by
`findJumpTableMethods`. -/
theorem outputCPPJumpTable_keys (opts : OutputOptions) (inPseudoMain : FuncId → Bool)
    (fuel : Nat) (ar : AnalysisResult) (c : ClassId) (staticOnly dynamicObject forEval : Bool)
    (ar1 : AnalysisResult) (out : JumpTableCode)
    (h : outputCPPJumpTable opts inPseudoMain fuel ar c staticOnly dynamicObject forEval =
      some (ar1, out)) :
    (opts.flattenInvoke = true ∧
      (∃ fss, collectMethods fuel ar c [] true true = some (ar1, fss) ∧
        out.funcScopes = flattenScopes fss []) ∧
      flattenedMethods opts.systemCPP inPseudoMain ar1 staticOnly out.funcScopes =
        some out.keys) ∨
    (opts.flattenInvoke = false ∧ ar1 = ar ∧ out.funcScopes = [] ∧
      findJumpTableMethods opts.systemCPP ar staticOnly (ar.classScopes c).functions =
        some out.keys) := by
  unfold outputCPPJumpTable at h
  simp only [] at h
  cases hfl : opts.flattenInvoke with
  | true =>
    left
    simp only [hfl, if_true] at h
    cases hcm : collectMethods fuel ar c [] true true with
    | none => simp [hcm] at h
    | some q =>
      obtain ⟨a1, fss⟩ := q
      simp only [hcm] at h
      split at h
      · exact absurd h (by simp)
      · split at h
        · exact absurd h (by simp)
        · rename_i funcs hsel
          split at h
          · exact absurd h (by simp)
          · split at h
            · exact absurd h (by simp)
            · split at h
              · split at h
                · exact absurd h (by simp)
                · simp only [Option.some.injEq, Prod.mk.injEq] at h
                  obtain ⟨rfl, rfl⟩ := h
                  exact ⟨rfl, ⟨fss, rfl, rfl⟩, hsel⟩
              · simp only [Option.some.injEq, Prod.mk.injEq] at h
                obtain ⟨rfl, rfl⟩ := h
                exact ⟨rfl, ⟨fss, rfl, rfl⟩, hsel⟩
  | false =>
    right
    simp only [hfl, Bool.false_eq_true, if_false] at h
    split at h
    · exact absurd h (by simp)
    · rename_i found hfound
      split at h
      · exact absurd h (by simp)
      · split at h
        · split at h
          · exact absurd h (by simp)
          · simp only [Option.some.injEq, Prod.mk.injEq] at h
            obtain ⟨rfl, rfl⟩ := h
            exact ⟨rfl, rfl, rfl, hfound⟩
        · simp only [Option.some.injEq, Prod.mk.injEq] at h
          obtain ⟨rfl, rfl⟩ := h
          exact ⟨rfl, rfl, rfl, hfound⟩

/-- C24: every name selected by `findJumpTableMethods` is the key of a method
entry of the class whose first declaration is not abstract and is dynamic or
virtual, unless the output is the system's, and is static when the static
table is built; the same holds for every name of the flattened selection and
the first function of its entry in the flattened table; and so every key of a
table that `outputCPPJumpTable` emits has such a function, in the state the
table is emitted in. -/
theorem jumpTable_methods_eligible (opts : OutputOptions) (inPseudoMain : FuncId → Bool)
    (ar : AnalysisResult) (c : ClassId) (staticOnly : Bool) :
    (∀ names,
      findJumpTableMethods opts.systemCPP ar staticOnly (ar.classScopes c).functions =
        some names →
      ∀ name, name ∈ names → ∃ vec func, (name, vec) ∈ (ar.classScopes c).functions ∧
        vec[0]? = some func ∧ Eligible opts.systemCPP staticOnly (ar.functionScopes func)) ∧
    (∀ funcScopes names,
      flattenedMethods opts.systemCPP inPseudoMain ar staticOnly funcScopes = some names →
      ∀ name, name ∈ names → ∃ vec func, (name, vec) ∈ funcScopes ∧ vec[0]? = some func ∧
        Eligible opts.systemCPP staticOnly (ar.functionScopes func)) ∧
    (∀ fuel dynamicObject forEval ar1 out,
      outputCPPJumpTable opts inPseudoMain fuel ar c staticOnly dynamicObject forEval =
        some (ar1, out) →
      ∀ name, name ∈ out.keys → ∃ func,
        Eligible opts.systemCPP staticOnly (ar1.functionScopes func) ∧
        ((∃ vec, (name, vec) ∈ out.funcScopes ∧ vec[0]? = some func) ∨
          (∃ vec, (name, vec) ∈ (ar1.classScopes c).functions ∧ vec[0]? = some func))) := by
  refine ⟨?_, ?_, ?_⟩
  · intro names h name hn
    obtain ⟨vec, func, h1, h2, -, h4⟩ := findJumpTableMethods_eligible _ _ _ _ _ h name hn
    exact ⟨vec, func, h1, h2, h4⟩
  · intro funcScopes names h name hn
    obtain ⟨vec, func, h1, h2, -, h4⟩ := flattenedMethods_eligible _ _ _ _ _ _ h name hn
    exact ⟨vec, func, h1, h2, h4⟩
  · intro fuel dynamicObject forEval ar1 out h name hn
    rcases outputCPPJumpTable_keys opts inPseudoMain fuel ar c staticOnly dynamicObject forEval
      ar1 out h with ⟨-, -, hsel⟩ | ⟨-, hst, -, hsel⟩
    · obtain ⟨vec, func, h1, h2, -, h4⟩ := flattenedMethods_eligible _ _ _ _ _ _ hsel name hn
      exact ⟨func, h4, Or.inl ⟨vec, h1, h2⟩⟩
    · subst hst
      obtain ⟨vec, func, h1, h2, -, h4⟩ := findJumpTableMethods_eligible _ _ _ _ _ hsel name hn
      exact ⟨func, h4, Or.inr ⟨vec, h1, h2⟩⟩

/-- Witness of C24 on `methodsGraph`: of the methods `a`, `s`, `v`, `p`, `w`
the instance table gets `s`, `v` and `w`, and the static table gets `s`; in the
output of the system every method but the abstract `a` is selected. -/
theorem jumpTable_methods_eligible_witness :
    findJumpTableMethods false methodsGraph false (methodsGraph.classScopes 0).functions =
      some ["s", "v", "w"] ∧
    findJumpTableMethods false methodsGraph true (methodsGraph.classScopes 0).functions =
      some ["s"] ∧
    findJumpTableMethods true methodsGraph false (methodsGraph.classScopes 0).functions =
      some ["s", "v", "p", "w"] ∧
    (outputCPPJumpTable sampleOptions (fun _ => false) 1 methodsGraph 0 false false false).map
      (fun r => r.2.keys) = some ["s", "v", "w"] ∧
    (outputCPPJumpTable sampleOptions (fun _ => false) 1 methodsGraph 0 true false false).map
      (fun r => r.2.keys) = some ["s"] ∧
    (∀ name, name ∈ ["s", "v", "w"] → ∃ vec func,
      (name, vec) ∈ (methodsGraph.classScopes 0).functions ∧ vec[0]? = some func ∧
      Eligible sampleOptions.systemCPP false (methodsGraph.functionScopes func)) :=
  ⟨by decide, by decide, by decide, by decide, by decide,
    (jumpTable_methods_eligible sampleOptions (fun _ => false) methodsGraph 0 false).1
      ["s", "v", "w"] (by decide)⟩

/-! ## Claim C23: the threshold of the table for few arguments -/

/-- What a returning run of `outputCPPMethodInvokeTable` emits: every key is
found in the map; its entry is emitted, unless the table is the one for few
arguments and the function requires more parameters than the threshold, in
which case no entry bears the key's name. -/
theorem outputCPPMethodInvokeTable_entries (opts : OutputOptions) (ar : AnalysisResult)
    (funcScopes : List (String × List FuncId)) (fewArgs staticOnly forEval : Bool)
    (keys : List String) (entries : List InvokeEntry)
    (h : outputCPPMethodInvokeTable opts ar funcScopes fewArgs staticOnly forEval keys =
      some entries) :
    (∀ e, e ∈ entries → e.name ∈ keys ∧ ∃ vec func, mapFind funcScopes e.name = some vec ∧
      vec[0]? = some func ∧ e = invokeEntry opts ar e.name func fewArgs staticOnly forEval ∧
      (fewArgs = false ∨ (ar.functionScopes func).minParamCount ≤ opts.invokeFewArgsCount)) ∧
    (∀ name, name ∈ keys → ∃ vec func, mapFind funcScopes name = some vec ∧
      vec[0]? = some func ∧
      ((fewArgs = false ∨ (ar.functionScopes func).minParamCount ≤ opts.invokeFewArgsCount) →
        invokeEntry opts ar name func fewArgs staticOnly forEval ∈ entries)) := by
  induction keys generalizing entries with
  | nil =>
    simp only [outputCPPMethodInvokeTable, Option.some.injEq] at h
    subst h
    exact ⟨fun e he => absurd he (List.not_mem_nil _),
      fun name hn => absurd hn (List.not_mem_nil _)⟩
  | cons key rest ih =>
    simp only [outputCPPMethodInvokeTable] at h
    split at h
    · exact absurd h (by simp)
    · rename_i vec hvec
      split at h
      · exact absurd h (by simp)
      · rename_i func hfunc
        split at h
        · exact absurd h (by simp)
        · rename_i entries1 hrest
          obtain ⟨ih1, ih2⟩ := ih entries1 hrest
          have hold : ∀ e, e ∈ entries1 → e.name ∈ key :: rest ∧
              ∃ vec func, mapFind funcScopes e.name = some vec ∧
              vec[0]? = some func ∧
              e = invokeEntry opts ar e.name func fewArgs staticOnly forEval ∧
              (fewArgs = false ∨
                (ar.functionScopes func).minParamCount ≤ opts.invokeFewArgsCount) := by
            intro e he
            obtain ⟨h1, h2⟩ := ih1 e he
            exact ⟨List.mem_cons_of_mem _ h1, h2⟩
          split at h
          · rename_i hskip
            simp only [Option.some.injEq] at h
            subst h
            refine ⟨hold, ?_⟩
            intro name hn
            rcases List.mem_cons.mp hn with h1 | h1
            · subst h1
              refine ⟨vec, func, hvec, hfunc, ?_⟩
              intro hc
              simp only [Bool.and_eq_true, decide_eq_true_eq] at hskip
              rcases hc with hc | hc
              · rw [hc] at hskip; exact absurd hskip.1 (by simp)
              · omega
            · exact ih2 name h1
          · rename_i hskip
            simp only [Option.some.injEq] at h
            subst h
            constructor
            · intro e he
              rcases List.mem_cons.mp he with h1 | h1
              · subst h1
                refine ⟨List.mem_cons_self _ _, vec, func, hvec, hfunc, rfl, ?_⟩
                simp only [Bool.and_eq_true, decide_eq_true_eq, not_and, not_lt] at hskip
                cases hf : fewArgs
                · exact Or.inl rfl
                · exact Or.inr (hskip hf)
              · exact hold e h1
            · intro name hn
              rcases List.mem_cons.mp hn with h1 | h1
              · subst h1
                exact ⟨vec, func, hvec, hfunc, fun _ => List.mem_cons_self _ _⟩
              · obtain ⟨vec1, func1, h2, h3, h4⟩ := ih2 name h1
                exact ⟨vec1, func1, h2, h3, fun hc => List.mem_cons_of_mem _ (h4 hc)⟩

/-- The table is emitted whenever every key is found in the map with a first
function. -/
theorem outputCPPMethodInvokeTable_total (opts : OutputOptions) (ar : AnalysisResult)
    (funcScopes : List (String × List FuncId)) (fewArgs staticOnly forEval : Bool)
    (keys : List String)
    (hk : ∀ name, name ∈ keys → ∃ vec func, mapFind funcScopes name = some vec ∧
      vec[0]? = some func) :
    ∃ entries, outputCPPMethodInvokeTable opts ar funcScopes fewArgs staticOnly forEval keys =
      some entries := by
  induction keys with
  | nil => exact ⟨[], rfl⟩
  | cons key rest ih =>
    obtain ⟨vec, func, h1, h2⟩ := hk key (List.mem_cons_self _ _)
    obtain ⟨entries, h3⟩ := ih (fun name hn => hk name (List.mem_cons_of_mem _ hn))
    simp only [outputCPPMethodInvokeTable, h1, h2, h3]
    split
    · exact ⟨_, rfl⟩
    · exact ⟨_, rfl⟩

theorem mem_mapSet {β : Type} (l : List (String × β)) (key : String) (v : β)
    (e : String × β) (h : e ∈ mapSet l key v) : e = (key, v) ∨ e ∈ l := by
  induction l with
  | nil =>
    simp only [mapSet, List.mem_singleton] at h
    exact Or.inl h
  | cons x rest ih =>
    obtain ⟨k, w⟩ := x
    simp only [mapSet] at h
    split at h
    · rename_i hk
      rcases List.mem_cons.mp h with h1 | h1
      · exact Or.inl (by rw [h1, hk])
      · exact Or.inr (List.mem_cons_of_mem _ h1)
    · rcases List.mem_cons.mp h with h1 | h1
      · exact Or.inr (by rw [h1]; exact List.mem_cons_self _ _)
      · rcases ih h1 with h2 | h2
        · exact Or.inl h2
        · exact Or.inr (List.mem_cons_of_mem _ h2)

/-- The flattened table holds every entry under its key, each with a
function. -/
theorem flattenScopes_found (fss : FuncMap) (funcScopes : List (String × List FuncId))
    (h : ScopesFound funcScopes) : ScopesFound (flattenScopes fss funcScopes) := by
  induction fss generalizing funcScopes with
  | nil => exact h
  | cons e rest ih =>
    obtain ⟨name, f⟩ := e
    simp only [flattenScopes]
    apply ih
    intro n v hm
    have hne : (mapFind funcScopes name).getD [] ++ [f] ≠ [] := by simp
    have hhead : ∃ func, ((mapFind funcScopes name).getD [] ++ [f])[0]? = some func := by
      cases hl : (mapFind funcScopes name).getD [] ++ [f] with
      | nil => exact absurd hl hne
      | cons a l => exact ⟨a, List.getElem?_cons_zero⟩
    have hfind : ∃ vec1 func,
        mapFind (mapSet funcScopes name ((mapFind funcScopes name).getD [] ++ [f])) n =
          some vec1 ∧ vec1[0]? = some func := by
      rw [mapFind_mapSet]
      by_cases hk : name = n
      · obtain ⟨func, hf⟩ := hhead
        exact ⟨_, func, by rw [if_pos hk], hf⟩
      · rw [if_neg hk]
        rcases mem_mapSet _ _ _ _ hm with h1 | h1
        · simp only [Prod.mk.injEq] at h1
          exact absurd h1.1.symm hk
        · exact (h n v h1).2
    refine ⟨?_, hfind⟩
    rcases mem_mapSet _ _ _ _ hm with h1 | h1
    · simp only [Prod.mk.injEq] at h1
      rw [h1.2]; exact hne
    · exact (h n v h1).1

theorem findJumpTableMethods_total (system : Bool) (ar : AnalysisResult) (staticOnly : Bool)
    (fs : List (String × List FuncId)) (hne : ∀ name vec, (name, vec) ∈ fs → vec ≠ []) :
    ∃ names, findJumpTableMethods system ar staticOnly fs = some names := by
  induction fs with
  | nil => exact ⟨[], rfl⟩
  | cons e rest ih =>
    obtain ⟨name, vec⟩ := e
    obtain ⟨names, hn⟩ := ih (fun n v hm => hne n v (List.mem_cons_of_mem _ hm))
    cases vec with
    | nil => exact absurd rfl (hne name [] (List.mem_cons_self _ _))
    | cons f l =>
      simp only [findJumpTableMethods, List.getElem?_cons_zero, hn]
      split
      · split
        · exact ⟨_, rfl⟩
        · exact ⟨_, rfl⟩
      · exact ⟨_, rfl⟩

theorem flattenedMethods_total (system : Bool) (inPseudoMain : FuncId → Bool)
    (ar : AnalysisResult) (staticOnly : Bool)
    (fs : List (String × List FuncId)) (hne : ∀ name vec, (name, vec) ∈ fs → vec ≠ []) :
    ∃ names, flattenedMethods system inPseudoMain ar staticOnly fs = some names := by
  induction fs with
  | nil => exact ⟨[], rfl⟩
  | cons e rest ih =>
    obtain ⟨name, vec⟩ := e
    obtain ⟨names, hn⟩ := ih (fun n v hm => hne n v (List.mem_cons_of_mem _ hm))
    cases vec with
    | nil => exact absurd rfl (hne name [] (List.mem_cons_self _ _))
    | cons f l =>
      simp only [flattenedMethods, List.getElem?_cons_zero, hn]
      split
      · exact ⟨_, rfl⟩
      · exact ⟨_, rfl⟩

theorem Evolves.acyclicKept {ar ar1 : AnalysisResult} (h : Evolves ar ar1)
    {rank : ClassId → Nat} (hA : Acyclic ar rank) : Acyclic ar1 rank := by
  intro c base hc hb d hd
  rw [h.findClasses] at hd
  refine hA c base hc ?_ d hd
  rcases hb with hb | hb
  · exact Or.inl (by rw [hb, h.parent])
  · exact Or.inr ((h.bases c).subset hb)

theorem Acyclic.toRanked {ar : AnalysisResult} {rank : ClassId → Nat} (hA : Acyclic ar rank) :
    Ranked ar rank :=
  fun c base hc hb _ d hd => hA c base hc (Or.inr hb) d hd

/-- With flattened tables, on an acyclic class graph whose function vectors are
non-empty, `outputCPPJumpTable` returns. -/
theorem outputCPPJumpTable_total (opts : OutputOptions) (inPseudoMain : FuncId → Bool)
    (ar : AnalysisResult) (rank : ClassId → Nat) (c : ClassId)
    (staticOnly dynamicObject forEval : Bool)
    (hflat : opts.flattenInvoke = true) (hA : Acyclic ar rank) (hN : FunctionsNonempty ar)
    (hc : 0 < rank c) :
    ∃ r, outputCPPJumpTable opts inPseudoMain (rank c) ar c staticOnly dynamicObject forEval =
      some r := by
  obtain ⟨⟨ar1, fss⟩, hrun⟩ := collectMethods_total rank (rank c) true true ar c [] hA.toRanked hN
    hc (Nat.le_refl _)
  have hev := (collectMethods_evolves _ _ _ _ _ _ _ _ hrun).1
  have hN1 := hev.functionsNonempty hN
  have hA1 := hev.acyclicKept hA
  have hfound : ScopesFound (flattenScopes fss []) :=
    flattenScopes_found fss [] (fun n v hm => absurd hm (List.not_mem_nil _))
  obtain ⟨found, hfj⟩ := findJumpTableMethods_total opts.systemCPP ar1 staticOnly
    (ar1.classScopes c).functions (fun n v hm => hN1 c n v hm)
  obtain ⟨funcs, hsel⟩ := flattenedMethods_total opts.systemCPP inPseudoMain ar1 staticOnly
    (flattenScopes fss []) (fun n v hm => (hfound n v hm).1)
  have hkeys : ∀ name, name ∈ funcs → ∃ vec func,
      mapFind (flattenScopes fss []) name = some vec ∧ vec[0]? = some func := by
    intro name hn
    obtain ⟨vec, func, h1, -⟩ := flattenedMethods_eligible _ _ _ _ _ _ hsel name hn
    exact (hfound name vec h1).2
  obtain ⟨entries, hent⟩ := outputCPPMethodInvokeTable_total opts ar1 (flattenScopes fss [])
    false staticOnly forEval funcs hkeys
  obtain ⟨few, hfew⟩ := outputCPPMethodInvokeTable_total opts ar1 (flattenScopes fss [])
    true staticOnly false funcs hkeys
  obtain ⟨needs, hneeds⟩ := needsInvokeParent_total ar1 rank hA1 hN1 (rank c) c false hc
    (Nat.le_refl _)
  unfold outputCPPJumpTable
  simp only [hflat, if_true, hrun, hfj, hsel, hent, hneeds, hfew]
  split
  · exact ⟨_, rfl⟩
  · exact ⟨_, rfl⟩

/-- The two tables of a returning call of `outputCPPJumpTable` for the instance
table that is not for eval. -/
theorem outputCPPJumpTable_tables (opts : OutputOptions) (inPseudoMain : FuncId → Bool)
    (fuel : Nat) (ar : AnalysisResult) (c : ClassId) (dynamicObject : Bool)
    (ar1 : AnalysisResult) (out : JumpTableCode)
    (h : outputCPPJumpTable opts inPseudoMain fuel ar c false dynamicObject false =
      some (ar1, out)) :
    outputCPPMethodInvokeTable opts ar1 out.funcScopes false false false out.keys =
      some out.entries ∧
    ∃ few, out.fewArgsEntries = some few ∧
      outputCPPMethodInvokeTable opts ar1 out.funcScopes true false false out.keys =
        some few := by
  unfold outputCPPJumpTable at h
  simp only [] at h
  split at h
  · exact absurd h (by simp)
  · rename_i a1 funcScopes hflat
    split at h
    · exact absurd h (by simp)
    · split at h
      · exact absurd h (by simp)
      · rename_i funcs hsel
        split at h
        · exact absurd h (by simp)
        · rename_i entries hent
          split at h
          · exact absurd h (by simp)
          · simp only [Bool.not_false, Bool.and_self, if_true] at h
            split at h
            · exact absurd h (by simp)
            · rename_i few hfew
              simp only [Option.some.injEq, Prod.mk.injEq] at h
              obtain ⟨rfl, rfl⟩ := h
              exact ⟨hent, few, rfl, hfew⟩

/-- C23: in every returning call of `outputCPPJumpTable` for the instance table
that is not for eval, both the generic table and the table for few arguments
are emitted, and every key listed for the table is found with a first
function: the generic table holds the entry of that function; the table for few
arguments holds its entry when the function requires at most
`Option::InvokeFewArgsCount` parameters, and holds no entry of that name when
it requires more.  With flattened tables, on an acyclic class graph whose
function vectors are non-empty, the call returns. -/
theorem invokeTable_few_args_threshold (opts : OutputOptions) (inPseudoMain : FuncId → Bool)
    (ar : AnalysisResult) (c : ClassId) (dynamicObject : Bool) :
    (∀ fuel ar1 out,
      outputCPPJumpTable opts inPseudoMain fuel ar c false dynamicObject false =
        some (ar1, out) →
      ∃ few, out.fewArgsEntries = some few ∧
        ∀ name, name ∈ out.keys → ∃ vec func,
          mapFind out.funcScopes name = some vec ∧ vec[0]? = some func ∧
          invokeEntry opts ar1 name func false false false ∈ out.entries ∧
          ((ar1.functionScopes func).minParamCount ≤ opts.invokeFewArgsCount →
            invokeEntry opts ar1 name func true false false ∈ few) ∧
          (opts.invokeFewArgsCount < (ar1.functionScopes func).minParamCount →
            ∀ e, e ∈ few → e.name ≠ name)) ∧
    (∀ rank, opts.flattenInvoke = true → Acyclic ar rank → FunctionsNonempty ar →
      0 < rank c →
      ∃ r, outputCPPJumpTable opts inPseudoMain (rank c) ar c false dynamicObject false =
        some r) := by
  refine ⟨?_, fun rank hflat hA hN hc =>
    outputCPPJumpTable_total opts inPseudoMain ar rank c false dynamicObject false hflat hA hN hc⟩
  intro fuel ar1 out h
  obtain ⟨hent, few, hfewEq, hfew⟩ :=
    outputCPPJumpTable_tables opts inPseudoMain fuel ar c dynamicObject ar1 out h
  refine ⟨few, hfewEq, ?_⟩
  intro name hn
  obtain ⟨-, hg⟩ := outputCPPMethodInvokeTable_entries _ _ _ _ _ _ _ _ hent
  obtain ⟨hf1, hf2⟩ := outputCPPMethodInvokeTable_entries _ _ _ _ _ _ _ _ hfew
  obtain ⟨vec, func, h1, h2, h3⟩ := hg name hn
  obtain ⟨vec2, func2, h4, h5, h6⟩ := hf2 name hn
  rw [h1] at h4
  cases h4
  rw [h2] at h5
  cases h5
  refine ⟨vec, func, h1, h2, h3 (Or.inl rfl), fun hle => h6 (Or.inr hle), ?_⟩
  intro hlt e he hname
  obtain ⟨-, vec3, func3, h7, h8, -, h9⟩ := hf1 e he
  rw [hname, h1] at h7
  cases h7
  rw [h2] at h8
  cases h8
  rcases h9 with h9 | h9
  · exact absurd h9 (by simp)
  · omega

theorem methodsGraph_acyclic : Acyclic methodsGraph methodsRank := by
  intro c base hc hb d hd
  match c with
  | 0 =>
    have hb2 : base = "" := by
      rcases hb with h | h
      · exact h
      · simp [methodsGraph, mkAnalysisResult] at h
    subst hb2
    simp [findClasses, methodsGraph, mkAnalysisResult, toLower] at hd
  | n + 1 => exact absurd hc (by simp [methodsRank])

theorem methodsGraph_functionsNonempty : FunctionsNonempty methodsGraph := by
  intro c name vec hm
  match c with
  | 0 =>
    simp [methodsGraph, mkAnalysisResult] at hm
    rcases hm with h | h | h | h | h <;> simp [h.2]
  | n + 1 => simp [methodsGraph, mkAnalysisResult] at hm

/-- Witness of C23 on `methodsGraph` with the threshold 6: the call for the
instance table returns; the keys are `s`, `v` and `w`; the generic table holds
an entry for each, and the table for few arguments holds the entries of `s`,
which requires 6 parameters, and of `v`, not one of `w`, which requires 7. -/
theorem invokeTable_few_args_threshold_witness :
    (∃ r, outputCPPJumpTable sampleOptions (fun _ => false) (methodsRank 0) methodsGraph 0
      false false false = some r) ∧
    (outputCPPJumpTable sampleOptions (fun _ => false) 1 methodsGraph 0 false false false).map
      (fun r => (r.2.keys, r.2.entries.map (fun e => e.name),
        r.2.fewArgsEntries.map (fun l => l.map (fun e => e.name)))) =
      some (["s", "v", "w"], ["s", "v", "w"], some ["s", "v"]) ∧
    (methodsGraph.functionScopes 1).minParamCount = 6 ∧
    (methodsGraph.functionScopes 4).minParamCount = 7 ∧
    sampleOptions.invokeFewArgsCount = 6 :=
  ⟨(invokeTable_few_args_threshold sampleOptions (fun _ => false) methodsGraph 0 false).2
      methodsRank rfl methodsGraph_acyclic methodsGraph_functionsNonempty (by decide),
    by decide, by decide, by decide, by decide⟩

/-! ## Claim C30: the assertion of `outputCPPMethodInvokeTable` -/

/-- No key is found in the empty map: the table of a non-empty list of keys is
not emitted. -/
theorem outputCPPMethodInvokeTable_empty_map (opts : OutputOptions) (ar : AnalysisResult)
    (fewArgs staticOnly forEval : Bool) (key : String) (keys : List String) :
    outputCPPMethodInvokeTable opts ar [] fewArgs staticOnly forEval (key :: keys) = none := by
  simp [outputCPPMethodInvokeTable, mapFind]

/-- Without flattened tables the map handed to `outputCPPMethodInvokeTable` is
empty: a call of `outputCPPJumpTable` returns only when `findJumpTableMethods`
selects no method at all. -/
theorem outputCPPJumpTable_unflattened (opts : OutputOptions) (inPseudoMain : FuncId → Bool)
    (fuel : Nat) (ar : AnalysisResult) (c : ClassId) (staticOnly dynamicObject forEval : Bool)
    (hflat : opts.flattenInvoke = false) (key : String) (keys : List String)
    (hsel : findJumpTableMethods opts.systemCPP ar staticOnly (ar.classScopes c).functions =
      some (key :: keys)) :
    outputCPPJumpTable opts inPseudoMain fuel ar c staticOnly dynamicObject forEval = none := by
  unfold outputCPPJumpTable
  simp only [hflat, Bool.false_eq_true, if_false, hsel, outputCPPMethodInvokeTable_empty_map]

/-- C30 (what the code does): with `Option::FlattenInvoke` off, for the class
of `methodsGraph`, `findJumpTableMethods` selects the keys `s`, `v` and `w`,
the map handed alongside is empty, the lookup of the first key fails, and no
call of `outputCPPJumpTable` for the instance table returns, whatever the fuel,
`dynamicObject` and `forEval` are; with the flag on the call returns. -/
theorem outputCPPJumpTable_assertion_fails :
    findJumpTableMethods unflattenedOptions.systemCPP methodsGraph false
      (methodsGraph.classScopes 0).functions = some ["s", "v", "w"] ∧
    mapFind ([] : List (String × List FuncId)) "s" = none ∧
    outputCPPMethodInvokeTable unflattenedOptions methodsGraph [] false false false
      ["s", "v", "w"] = none ∧
    (∀ inPseudoMain fuel dynamicObject forEval,
      outputCPPJumpTable unflattenedOptions inPseudoMain fuel methodsGraph 0 false
        dynamicObject forEval = none) ∧
    (outputCPPJumpTable sampleOptions (fun _ => false) 1 methodsGraph 0 false false
      false).isSome = true := by
  refine ⟨by decide, by decide, by decide, ?_, by decide⟩
  intro inPseudoMain fuel dynamicObject forEval
  exact outputCPPJumpTable_unflattened unflattenedOptions inPseudoMain fuel methodsGraph 0 false
    dynamicObject forEval rfl "s" ["v", "w"] (by decide)

/-! ## Claim C25: the fallthrough of the invoke tables -/

theorem anyLastPrivate_congr {ar ar1 : AnalysisResult}
    (h : ∀ f, (ar1.functionScopes f).isPrivate = (ar.functionScopes f).isPrivate)
    (fs : List (String × List FuncId)) : anyLastPrivate ar1 fs = anyLastPrivate ar fs := by
  induction fs with
  | nil => rfl
  | cons e rest ih =>
    obtain ⟨name, vec⟩ := e
    simp only [anyLastPrivate]
    cases vec.getLast? with
    | none => rfl
    | some last => simp only [h last, ih]

/-- The result of `needsInvokeParent` is the same in a later state of a run of
`collectMethods`. -/
theorem needsInvokeParent_evolves {ar ar1 : AnalysisResult} (h : Evolves ar ar1) (fuel : Nat) :
    ∀ c cs, needsInvokeParent fuel ar1 c cs = needsInvokeParent fuel ar c cs := by
  induction fuel with
  | zero => intro c cs; rfl
  | succ fuel ih =>
    intro c cs
    simp only [needsInvokeParent]
    rw [h.functions, h.parent, h.findClass, anyLastPrivate_congr (fun f => h.isPrivate f)]
    cases (if cs = true then anyLastPrivate ar (ar.classScopes c).functions else some false) with
    | none => rfl
    | some b =>
      cases b with
      | true => rfl
      | false =>
        simp only []
        split
        · cases hf : findClass ar (ar.classScopes c).parent with
          | none => rfl
          | some super => simp only [h.isRedeclaring, ih]
        · rfl

/-- What a returning call of `outputCPPJumpTable` emits as the function called
by its `return` statement. -/
theorem outputCPPJumpTable_target (opts : OutputOptions) (inPseudoMain : FuncId → Bool)
    (fuel : Nat) (ar : AnalysisResult) (c : ClassId) (staticOnly dynamicObject forEval : Bool)
    (ar1 : AnalysisResult) (out : JumpTableCode)
    (h : outputCPPJumpTable opts inPseudoMain fuel ar c staticOnly dynamicObject forEval =
      some (ar1, out)) :
    Evolves ar ar1 ∧ out.staticOnly = staticOnly ∧ out.forEval = forEval ∧
    out.invokeName = invokeNameOf opts staticOnly forEval ∧
    (opts.flattenInvoke = true → ∃ needs, needsInvokeParent fuel ar c false = some needs) ∧
    ((forEval = true ∨ opts.flattenInvoke = false ∨
        needsInvokeParent fuel ar c false = some true) →
      out.target = parentScopeOf opts (ar.classScopes c) staticOnly dynamicObject ++
        out.invokeName) ∧
    (forEval = false → opts.flattenInvoke = true →
      needsInvokeParent fuel ar c false = some false →
      out.target =
        (if (ar1.classScopes c).derivesFromRedeclaring ≠ Derivation.FromNormal
          then "c_DynamicObjectData" else "c_ObjectData") ++ "::" ++ out.invokeName) := by
  unfold outputCPPJumpTable at h
  simp only [] at h
  split at h
  · exact absurd h (by simp)
  · rename_i a1 funcScopes hflat
    have hev : Evolves ar a1 := by
      split at hflat
      · split at hflat
        · exact absurd hflat (by simp)
        · rename_i a2 fss hrun
          simp only [Option.some.injEq, Prod.mk.injEq] at hflat
          obtain ⟨rfl, -⟩ := hflat
          exact (collectMethods_evolves _ _ _ _ _ _ _ _ hrun).1
      · simp only [Option.some.injEq, Prod.mk.injEq] at hflat
        obtain ⟨rfl, -⟩ := hflat
        exact Evolves.refl _
    split at h
    · exact absurd h (by simp)
    · split at h
      · exact absurd h (by simp)
      · split at h
        · exact absurd h (by simp)
        · split at h
          · exact absurd h (by simp)
          · rename_i needs hneeds
            have hout : ar1 = a1 ∧ out.staticOnly = staticOnly ∧ out.forEval = forEval ∧
                out.invokeName = invokeNameOf opts staticOnly forEval ∧
                out.target = if forEval = true then
                    parentScopeOf opts (ar.classScopes c) staticOnly dynamicObject ++
                      invokeNameOf opts staticOnly forEval
                  else baseOf opts (a1.classScopes c) needs
                    (parentScopeOf opts (ar.classScopes c) staticOnly dynamicObject ++
                      invokeNameOf opts staticOnly forEval)
                    (invokeNameOf opts staticOnly forEval) := by
              split at h
              · split at h
                · exact absurd h (by simp)
                · simp only [Option.some.injEq, Prod.mk.injEq] at h
                  obtain ⟨rfl, rfl⟩ := h
                  exact ⟨rfl, rfl, rfl, rfl, rfl⟩
              · simp only [Option.some.injEq, Prod.mk.injEq] at h
                obtain ⟨rfl, rfl⟩ := h
                exact ⟨rfl, rfl, rfl, rfl, rfl⟩
            obtain ⟨rfl, h1, h2, h3, h4⟩ := hout
            have hneeds2 : opts.flattenInvoke = true →
                needsInvokeParent fuel ar c false = some needs := by
              intro hf
              simp only [hf, if_true] at hneeds
              rw [← needsInvokeParent_evolves hev]; exact hneeds
            refine ⟨hev, h1, h2, h3, fun hf => ⟨needs, hneeds2 hf⟩, ?_, ?_⟩
            · intro hc
              rw [h4, h3]
              rcases hc with hc | hc | hc
              · simp [hc]
              · cases forEval
                · simp [baseOf, hc]
                · simp
              · cases hf : opts.flattenInvoke
                · cases forEval
                  · simp [baseOf, hf]
                  · simp
                · have hn := hneeds2 hf
                  rw [hc] at hn
                  cases hn
                  cases forEval
                  · simp [baseOf, hf]
                  · simp
            · intro hfe hf hn
              have hn2 := hneeds2 hf
              rw [hn] at hn2
              cases hn2
              rw [h4, h3, hfe]
              simp [baseOf, hf]

/-- With flattened tables, on an acyclic class graph whose function vectors are
non-empty, the output of the invoke tables returns. -/
theorem outputCPPSupportMethodsImpl_total (opts : OutputOptions) (inPseudoMain : FuncId → Bool)
    (ar : AnalysisResult) (rank : ClassId → Nat) (c : ClassId)
    (hflat : opts.flattenInvoke = true) (hA : Acyclic ar rank) (hN : FunctionsNonempty ar)
    (hc : 0 < rank c) :
    ∃ r, outputCPPSupportMethodsImpl opts inPseudoMain (rank c) ar c = some r := by
  unfold outputCPPSupportMethodsImpl
  simp only []
  split
  · obtain ⟨⟨a1, t1⟩, h1⟩ := outputCPPJumpTable_total opts inPseudoMain ar rank c false
      (decide ((ar.classScopes c).derivesFromRedeclaring = Derivation.DirectFromRedeclared))
      false hflat hA hN hc
    have e1 := (outputCPPJumpTable_target _ _ _ _ _ _ _ _ _ _ h1).1
    obtain ⟨⟨a2, t2⟩, h2⟩ := outputCPPJumpTable_total opts inPseudoMain a1 rank c true
      (decide ((ar.classScopes c).derivesFromRedeclaring = Derivation.DirectFromRedeclared))
      false hflat (e1.acyclicKept hA) (e1.functionsNonempty hN) hc
    have e2 := (outputCPPJumpTable_target _ _ _ _ _ _ _ _ _ _ h2).1
    obtain ⟨⟨a3, t3⟩, h3⟩ := outputCPPJumpTable_total opts inPseudoMain a2 rank c false
      (decide ((ar.classScopes c).derivesFromRedeclaring = Derivation.DirectFromRedeclared))
      true hflat (e2.acyclicKept (e1.acyclicKept hA))
      (e2.functionsNonempty (e1.functionsNonempty hN)) hc
    have e3 := (outputCPPJumpTable_target _ _ _ _ _ _ _ _ _ _ h3).1
    obtain ⟨⟨a4, t4⟩, h4⟩ := outputCPPJumpTable_total opts inPseudoMain a3 rank c true
      (decide ((ar.classScopes c).derivesFromRedeclaring = Derivation.DirectFromRedeclared))
      true hflat (e3.acyclicKept (e2.acyclicKept (e1.acyclicKept hA)))
      (e3.functionsNonempty (e2.functionsNonempty (e1.functionsNonempty hN))) hc
    simp only [h1, h2, h3, h4]
    split
    · exact ⟨_, rfl⟩
    · exact ⟨_, rfl⟩
  · exact ⟨_, rfl⟩

theorem parentScopeOf_congr (opts : OutputOptions) {c c1 : ClassScope}
    (h : c1.parent = c.parent) (staticOnly dynamicObject : Bool) :
    parentScopeOf opts c1 staticOnly dynamicObject =
      parentScopeOf opts c staticOnly dynamicObject := by
  simp only [parentScopeOf, parentNameOf, h]

/-- One call of `outputCPPJumpTable` made by the output of the invoke tables,
from a later state `a` of the state `ar` the output began in. -/
theorem outputCPPJumpTable_spec (opts : OutputOptions) (inPseudoMain : FuncId → Bool)
    (fuel : Nat) (ar a : AnalysisResult) (c : ClassId) (staticOnly forEval : Bool)
    (a1 : AnalysisResult) (t : JumpTableCode) (hev : Evolves ar a)
    (h : outputCPPJumpTable opts inPseudoMain fuel a c staticOnly
      (decide ((ar.classScopes c).derivesFromRedeclaring = Derivation.DirectFromRedeclared))
      forEval = some (a1, t)) :
    Evolves ar a1 ∧ TargetSpec opts fuel ar c t := by
  obtain ⟨e1, h1, h2, h3, -, h5, h6⟩ := outputCPPJumpTable_target _ _ _ _ _ _ _ _ _ _ h
  refine ⟨hev.trans e1, ?_, ?_⟩
  · intro hc
    have hc2 : forEval = true ∨ opts.flattenInvoke = false ∨
        needsInvokeParent fuel a c false = some true := by
      rw [needsInvokeParent_evolves hev, ← h2]; exact hc
    have ht := h5 hc2
    rw [parentScopeOf_congr opts (hev.parent c)] at ht
    constructor
    · intro hd
      rw [ht, h1]
      simp [parentScopeOf, runtimeParent, hd]
    · intro hd
      rw [ht]
      simp [parentScopeOf, namedParent, hd]
  · intro hfe hf hn
    have ht := h6 (by rw [← h2]; exact hfe) hf (by rw [needsInvokeParent_evolves hev]; exact hn)
    constructor
    · rw [ht]
      split
      · left; simp [String.append_assoc]
      · right; simp [String.append_assoc]
    · intro htag
      have htag1 := (hev.trans e1).derives c htag
      rw [ht, if_pos htag1]
      simp [String.append_assoc]

/-- C25, amended: in every returning output of the invoke tables of a class,
each table falls through as follows.  An eval table, and every table when the
tables are not flattened or `needsInvokeParent(ar, false)` holds, calls the
runtime indirection (the parent object for the instance table, the entry of
the class-statics registry for the static table) exactly when the class is
tagged `DirectFromRedeclared`, and the statically named parent class when it
is tagged `IndirectFromRedeclared` or `FromNormal`.  A table that is not for
eval, with flattened tables and `needsInvokeParent(ar, false)` false, calls the
root class: `c_DynamicObjectData` or `c_ObjectData`, the former when the class
was tagged.  With flattened tables, on an acyclic class graph whose function
vectors are non-empty, the output returns. -/
theorem invokeTables_fallthrough (opts : OutputOptions) (inPseudoMain : FuncId → Bool)
    (ar : AnalysisResult) (c : ClassId) :
    (∀ fuel ar1 tables,
      outputCPPSupportMethodsImpl opts inPseudoMain fuel ar c = some (ar1, tables) →
      ∀ t, t ∈ tables → TargetSpec opts fuel ar c t) ∧
    (∀ rank, opts.flattenInvoke = true → Acyclic ar rank → FunctionsNonempty ar →
      0 < rank c →
      ∃ r, outputCPPSupportMethodsImpl opts inPseudoMain (rank c) ar c = some r) := by
  refine ⟨?_, fun rank hflat hA hN hc =>
    outputCPPSupportMethodsImpl_total opts inPseudoMain ar rank c hflat hA hN hc⟩
  intro fuel ar1 tables h t ht
  unfold outputCPPSupportMethodsImpl at h
  simp only [] at h
  split at h
  · split at h
    · exact absurd h (by simp)
    · rename_i a1 t1 h1
      obtain ⟨e1, s1⟩ := outputCPPJumpTable_spec _ _ _ ar ar c _ _ _ _ (Evolves.refl _) h1
      split at h
      · exact absurd h (by simp)
      · rename_i a2 t2 h2
        obtain ⟨e2, s2⟩ := outputCPPJumpTable_spec _ _ _ ar a1 c _ _ _ _ e1 h2
        split at h
        · split at h
          · exact absurd h (by simp)
          · rename_i a3 t3 h3
            obtain ⟨e3, s3⟩ := outputCPPJumpTable_spec _ _ _ ar a2 c _ _ _ _ e2 h3
            split at h
            · exact absurd h (by simp)
            · rename_i a4 t4 h4
              obtain ⟨e4, s4⟩ := outputCPPJumpTable_spec _ _ _ ar a3 c _ _ _ _ e3 h4
              simp only [Option.some.injEq, Prod.mk.injEq] at h
              obtain ⟨-, rfl⟩ := h
              simp only [List.mem_cons, List.mem_singleton, List.not_mem_nil, or_false] at ht
              rcases ht with rfl | rfl | rfl | rfl
              · exact s1
              · exact s2
              · exact s3
              · exact s4
        · simp only [Option.some.injEq, Prod.mk.injEq] at h
          obtain ⟨-, rfl⟩ := h
          simp only [List.mem_cons, List.mem_singleton, List.not_mem_nil, or_false] at ht
          rcases ht with rfl | rfl
          · exact s1
          · exact s2
  · simp only [Option.some.injEq, Prod.mk.injEq] at h
    obtain ⟨-, rfl⟩ := h
    exact absurd ht (List.not_mem_nil _)

/-- The counterexample of C25: the class `c` of `indirectGraph` is tagged
`IndirectFromRedeclared`, and its two tables fall through to the statically
named parent class `c_p`, not to the runtime indirection; the class `a` of
`chainGraph` is tagged `FromNormal` and has the parent `b`, and its two tables
fall through to the root class `c_ObjectData`, not to `c_b`. -/
theorem indirect_class_named_parent :
    (indirectGraph.classScopes 0).derivesFromRedeclaring = Derivation.IndirectFromRedeclared ∧
    (outputCPPSupportMethodsImpl sampleOptions (fun _ => false) 3 indirectGraph 0).map
      (fun r => r.2.map (fun t => t.target)) = some ["c_p::o_invoke", "c_p::os_invoke"] ∧
    namedParent sampleOptions (indirectGraph.classScopes 0) = "c_p::" ∧
    runtimeParent sampleOptions (indirectGraph.classScopes 0) false = "parent->" ∧
    runtimeParent sampleOptions (indirectGraph.classScopes 0) true = "g->cso_p->" ∧
    (chainGraph.classScopes 0).derivesFromRedeclaring = Derivation.FromNormal ∧
    (outputCPPSupportMethodsImpl sampleOptions (fun _ => false) 3 chainGraph 0).map
      (fun r => r.2.map (fun t => t.target)) =
        some ["c_ObjectData::o_invoke", "c_ObjectData::os_invoke"] ∧
    namedParent sampleOptions (chainGraph.classScopes 0) = "c_b::" := by
  refine ⟨by decide, by decide, by decide, by decide, by decide, by decide, by decide,
    by decide⟩

theorem taggedGroupGraph_functionsNonempty : FunctionsNonempty taggedGroupGraph := by
  intro c name vec hm
  match c with
  | 0 => simp [taggedGroupGraph, untaggedGroupGraph, setDerives, AnalysisResult.updClass,
      mkAnalysisResult] at hm
  | 1 => simp [taggedGroupGraph, untaggedGroupGraph, setDerives, AnalysisResult.updClass,
      mkAnalysisResult] at hm
  | 2 =>
    simp [taggedGroupGraph, untaggedGroupGraph, setDerives, AnalysisResult.updClass,
      mkAnalysisResult] at hm
    simp [hm.2]
  | n + 3 => simp [taggedGroupGraph, untaggedGroupGraph, setDerives,
      AnalysisResult.updClass, mkAnalysisResult] at hm

/-- Witness of C25 (amended) on `taggedGroupGraph`, whose class `c` is tagged
`DirectFromRedeclared` and has the parent name `p` of a redeclaration group:
the output returns, the instance table falls through to `parent->o_invoke` and
the static table to `g->cso_p->os_invoke`. -/
theorem invokeTables_fallthrough_witness :
    (∃ r, outputCPPSupportMethodsImpl sampleOptions (fun _ => false) (rootRank 0)
      taggedGroupGraph 0 = some r) ∧
    (taggedGroupGraph.classScopes 0).derivesFromRedeclaring =
      Derivation.DirectFromRedeclared ∧
    (outputCPPSupportMethodsImpl sampleOptions (fun _ => false) 2 taggedGroupGraph 0).map
      (fun r => r.2.map (fun t => t.target)) =
        some ["parent->o_invoke", "g->cso_p->os_invoke"] :=
  ⟨(invokeTables_fallthrough sampleOptions (fun _ => false) taggedGroupGraph 0).2 rootRank rfl
      taggedGroupGraph_acyclic taggedGroupGraph_functionsNonempty (by decide),
    by decide, by decide⟩

/-! ## The last visit of a base name and the tag after it -/

/-- A member of a list has a last index. -/
theorem exists_last_index {α : Type} (l : List α) (b : α) (h : b ∈ l) :
    ∃ k : Nat, l[k]? = some b ∧ ∀ j : Nat, k < j → l[j]? ≠ some b := by
  induction l with
  | nil => exact absurd h (List.not_mem_nil _)
  | cons a t ih =>
    by_cases ht : b ∈ t
    · obtain ⟨k, hk, hlast⟩ := ih ht
      refine ⟨k + 1, by simpa using hk, ?_⟩
      intro j hj
      obtain ⟨m, rfl⟩ : ∃ m, j = m + 1 := ⟨j - 1, by omega⟩
      simpa using hlast m (by omega)
    · have hba : b = a := by
        rcases List.mem_cons.mp h with h1 | h1
        · exact h1
        · exact absurd h1 ht
      subst hba
      refine ⟨0, by simp, ?_⟩
      intro j hj hjb
      obtain ⟨m, rfl⟩ : ∃ m, j = m + 1 := ⟨j - 1, by omega⟩
      rw [List.getElem?_cons_succ] at hjb
      exact ht (mem_of_getElem?_eq_some hjb)

theorem TagSafe.later {ar ar2 afin : AnalysisResult} {self : ClassId} {T : Derivation}
    {b : String} (hev : Evolves ar ar2) (h : TagSafe ar afin self T b) :
    TagSafe ar2 afin self T b := by
  unfold TagSafe at h ⊢
  rw [hev.parent, hev.isInterface, hev.findClass]
  rcases h with h | h | ⟨s, h1, h2, h3⟩ | ⟨s, h1, h2, h3⟩
  · exact Or.inl h
  · exact Or.inr (Or.inl h)
  · exact Or.inr (Or.inr (Or.inl ⟨s, h1, by rw [hev.isRedeclaring]; exact h2, h3⟩))
  · exact Or.inr (Or.inr (Or.inr ⟨s, h1, by rw [hev.isRedeclaring]; exact h2, h3⟩))

/-- One iteration of the walk with `forInvoke = false` at a base that has been
seen or is safe for the tag `T` leaves the tag `T` of `self` in place. -/
theorem walkStep_tag_kept
    {rec : AnalysisResult → ClassId → FuncMap → Option (AnalysisResult × FuncMap)}
    {rank : ClassId → Nat} {self : ClassId}
    (hrecF : RecFrame rank (rank self) rec) (hself : 0 < rank self)
    {T : Derivation} {afin : AnalysisResult}
    {i : Nat} {seen : List String} {ar : AnalysisResult} {funcs : FuncMap}
    {seen1 : List String} {ar1 : AnalysisResult} {funcs1 : FuncMap}
    (hR : Ranked ar rank) (hname : (ar.classScopes self).name ∈ seen)
    (htag : (ar.classScopes self).derivesFromRedeclaring = T)
    (hfin : Evolves ar1 afin)
    (hb : ∀ b, (ar.classScopes self).bases[i]? = some b → b ∈ seen ∨ TagSafe ar afin self T b)
    (h : WalkStep rec self false i seen ar funcs seen1 ar1 funcs1) :
    (ar1.classScopes self).derivesFromRedeclaring = T := by
  cases h with
  | invalid base hbase hseen =>
    simp [eraseBase, record, AnalysisResult.updClass]
    exact htag
  | skipped base hbase hseen hinvoke hparent => exact absurd hinvoke (by simp)
  | redeclaredParentInvoke base super hbase hseen hinvoke hparent hfind hredec =>
    exact absurd hinvoke (by simp)
  | redeclaredParent base super ar2 funcs2 hbase hseen hinvoke hparent hfind hredec hcands =>
    rw [(afterRedeclaredParent_self ar2 self).1]
    rcases hb base hbase with h1 | h1 | h1 | ⟨s, h1, h2, h3⟩ | ⟨s, h1, h2, h3⟩
    · exact absurd h1 hseen
    · exact absurd hparent h1.1
    · rw [hfind] at h1; exact absurd h1.1 (by simp)
    · exact h3.symm
    · rw [hfind] at h1
      obtain rfl := Option.some.inj h1
      rw [hredec] at h2
      exact absurd h2 (by simp)
  | redeclaredBase base super hbase hseen hinvoke hparent hfind hredec =>
    unfold afterRedeclaredBase
    split
    · rename_i hi
      have hT : T = Derivation.DirectFromRedeclared := by
        rcases hb base hbase with h1 | h1 | h1 | ⟨s, h1, h2, h3⟩ | ⟨s, h1, h2, h3⟩
        · exact absurd h1 hseen
        · rw [hi] at h1; exact absurd h1.2 (by simp)
        · rw [hfind] at h1; exact absurd h1.1 (by simp)
        · exact h3
        · rw [hfind] at h1
          obtain rfl := Option.some.inj h1
          rw [hredec] at h2
          exact absurd h2 (by simp)
      simp [setDerives, AnalysisResult.updClass, hT]
    · exact htag
  | known base super ar2 funcs2 hbase hseen hfollow hfind hredec hcall =>
    have hlow := hR.lower hself hbase hname hseen (findClass_mem hfind)
    have h1 := hrecF _ _ _ _ _ hR hlow.1 hlow.2 hcall
    have hsame : ar2.classScopes self = ar.classScopes self :=
      h1 self (fun hh => Nat.lt_irrefl _ hh.2)
    have hps : super ≠ self := fun e => Nat.lt_irrefl _ (e ▸ hlow.2)
    have hsuper : ((afterKnownBase ar2 self super base).classScopes super) =
        ar2.classScopes super := OnlySelf_afterKnownBase ar2 self super base super hps
    have hT : (ar2.classScopes super).derivesFromRedeclaring ≠ Derivation.FromNormal →
        (base = (ar.classScopes self).parent ∨ (ar.classScopes self).isInterface = true) →
        T = Derivation.IndirectFromRedeclared := by
      intro ht hor
      rcases hb base hbase with h1 | h1 | h1 | ⟨s, h1, h2, h3⟩ | ⟨s, h1, h2, h3⟩
      · exact absurd h1 hseen
      · rcases hor with h4 | h4
        · exact absurd h4 h1.1
        · rw [h4] at h1; exact absurd h1.2 (by simp)
      · rw [hfind] at h1; exact absurd h1.1 (by simp)
      · rw [hfind] at h1
        obtain rfl := Option.some.inj h1
        rw [hredec] at h2
        exact absurd h2 (by simp)
      · rw [hfind] at h1
        obtain rfl := Option.some.inj h1
        rcases h3 with h3 | h3
        · exact h3
        · have := hfin.derives super (by rw [hsuper]; exact ht)
          exact absurd h3 this
    unfold afterKnownBase
    split
    · rename_i ht
      split
      · rename_i hp
        rw [hT ht (Or.inl (by rw [← hsame]; exact hp))]
        simp [setVolatile, forceVariants, setDerives, AnalysisResult.updClass]
      · split
        · rename_i hi
          rw [hT ht (Or.inr (by rw [← hsame]; exact hi))]
          simp [setDerives, AnalysisResult.updClass]
        · rw [hsame]; exact htag
    · rw [hsame]; exact htag
  | unknown base hbase hseen hfollow hfind =>
    have hT : (base = (ar.classScopes self).parent ∨ (ar.classScopes self).isInterface = true) →
        T = Derivation.DirectFromRedeclared := by
      intro hor
      rcases hb base hbase with h1 | h1 | h1 | ⟨s, h1, h2, h3⟩ | ⟨s, h1, h2, h3⟩
      · exact absurd h1 hseen
      · rcases hor with h4 | h4
        · exact absurd h4 h1.1
        · rw [h4] at h1; exact absurd h1.2 (by simp)
      · exact h1.2
      · rw [hfind] at h1; exact absurd h1 (by simp)
      · rw [hfind] at h1; exact absurd h1 (by simp)
    unfold afterUnknownBase
    simp only []
    split
    · rename_i hp
      rw [hT (Or.inl hp)]
      simp [setVolatile, forceVariants, setNeedGlobalPointer, setDerives,
        AnalysisResult.updClass, record]
    · split
      · rename_i hi
        rw [hT (Or.inr hi)]
        simp [eraseBase, setDerives, AnalysisResult.updClass, record]
      · simp [eraseBase, AnalysisResult.updClass, record]
        exact htag

/-- The walk with `forInvoke = false` over the indices below `n` leaves the
tag `T` of `self` in place when every base at these indices has been seen,
stands at a higher index below `n` as well, or is safe for `T`. -/
theorem walkRange_tag_kept
    (rec : AnalysisResult → ClassId → FuncMap → Option (AnalysisResult × FuncMap))
    (hrecE : RecEvolves rec) (rank : ClassId → Nat) (self : ClassId)
    (hrecF : RecFrame rank (rank self) rec) (hself : 0 < rank self)
    (T : Derivation) (afin : AnalysisResult) (n : Nat) :
    ∀ (seen : List String) (ar : AnalysisResult) (funcs : FuncMap)
      (seen1 : List String) (ar1 : AnalysisResult) (funcs1 : FuncMap),
      Ranked ar rank → (ar.classScopes self).name ∈ seen →
      (ar.classScopes self).derivesFromRedeclaring = T →
      Evolves ar1 afin →
      (∀ j b, j < n → (ar.classScopes self).bases[j]? = some b →
        b ∈ seen ∨ (∃ j', j < j' ∧ j' < n ∧ (ar.classScopes self).bases[j']? = some b) ∨
          TagSafe ar afin self T b) →
      walkRange rec self false 0 n seen ar funcs = some (seen1, ar1, funcs1) →
      (ar1.classScopes self).derivesFromRedeclaring = T := by
  induction n with
  | zero =>
    intro seen ar funcs seen1 ar1 funcs1 hR hname htag hfin hlow h
    simp only [walkRange, Option.some.injEq, Prod.mk.injEq] at h
    obtain ⟨-, rfl, -⟩ := h
    exact htag
  | succ n ih =>
    intro seen ar funcs seen1 ar1 funcs1 hR hname htag hfin hlow h
    simp only [walkRange, Nat.zero_add] at h
    split at h
    · exact absurd h (by simp)
    · rename_i seen2 ar2 funcs2 hstep
      have hws := walkStep_of_walkBase hstep
      obtain ⟨hev, -⟩ := walkStep_evolves hrecE hws
      have hrest := walkRange_evolves rec hrecE self false 0 n _ _ _ _ _ _ h
      have hname2 : (ar2.classScopes self).name ∈ seen2 := by
        rw [hev.name]; exact walkStep_seen hws _ hname
      have htag2 : (ar2.classScopes self).derivesFromRedeclaring = T := by
        refine walkStep_tag_kept hrecF hself hR hname htag (hrest.trans hfin) ?_ hws
        intro b hb
        rcases hlow n b (Nat.lt_succ_self n) hb with h1 | ⟨j', h1, h2, -⟩ | h1
        · exact Or.inl h1
        · omega
        · exact Or.inr h1
      have hb := walkStep_bases hrecF hself hrecE hR hname hws
      have htake : (ar2.classScopes self).bases.take n = (ar.classScopes self).bases.take n := by
        rcases hb with hb | hb
        · rw [hb]
        · rw [hb, take_eraseIdx_of_le _ _ _ (Nat.le_refl _)]
      refine ih seen2 ar2 funcs2 seen1 ar1 funcs1 (hev.ranked hR) hname2 htag2 hfin ?_ h
      intro j b hj hjb
      rw [getElem?_of_take_eq htake hj] at hjb
      rcases hlow j b (Nat.lt_succ_of_lt hj) hjb with h1 | ⟨j', h1, h2, h3⟩ | h1
      · exact Or.inl (walkStep_seen hws _ h1)
      · by_cases hjn : j' = n
        · subst hjn
          exact Or.inl (walkStep_sees hws b h3)
        · have hlt : j' < n := by omega
          refine Or.inr (Or.inl ⟨j', h1, hlt, ?_⟩)
          rw [getElem?_of_take_eq htake hlt]; exact h3
      · exact Or.inr (Or.inr (h1.later hev))

/-- The run on a class `x` of an acyclic graph, taken apart at the last index
`k` at which the base list of `x` holds the name `b`, which is not the name of
`x`: the first loop, the walk over the indices above `k`, which has not seen
`b`, the iteration at `k`, and the walk over the indices below `k`. -/
theorem collectMethods_last_visit (rank : ClassId → Nat) (fuel : Nat) (ar : AnalysisResult)
    (x : ClassId) (funcs : FuncMap) (collectPrivate forInvoke : Bool) (k : Nat) (b : String)
    (ar1 : AnalysisResult) (funcs1 : FuncMap)
    (hR : Ranked ar rank) (hrank : 0 < rank x)
    (hk : (ar.classScopes x).bases[k]? = some b)
    (hlast : ∀ j : Nat, k < j → (ar.classScopes x).bases[j]? ≠ some b)
    (hself : b ≠ (ar.classScopes x).name)
    (h : collectMethods (fuel + 1) ar x funcs collectPrivate forInvoke = some (ar1, funcs1)) :
    ∃ arO funcsO seenP arP funcsP seenQ arQ funcsQ seen1,
      collectOwn collectPrivate (ar.classScopes x).functions ar funcs = some (arO, funcsO) ∧
      walkRange (fun a c t => collectMethods fuel a c t false forInvoke) x forInvoke (k + 1)
        ((ar.classScopes x).bases.length - (k + 1)) [(ar.classScopes x).name]
        (markMissing funcsO (ar.classScopes x).missingMethods arO) funcsO =
          some (seenP, arP, funcsP) ∧
      WalkStep (fun a c t => collectMethods fuel a c t false forInvoke) x forInvoke k
        seenP arP funcsP seenQ arQ funcsQ ∧
      walkRange (fun a c t => collectMethods fuel a c t false forInvoke) x forInvoke 0 k
        seenQ arQ funcsQ = some (seen1, ar1, funcs1) ∧
      (Evolves ar arP ∧ MapLe funcs funcsP ∧ Ranked arP rank ∧
        (arP.classScopes x).name ∈ seenP ∧ b ∉ seenP ∧
        (arP.classScopes x).bases[k]? = some b) ∧
      (Evolves arP arQ ∧ Ranked arQ rank ∧ (arQ.classScopes x).name ∈ seenQ ∧
        Evolves arQ ar1 ∧ MapLe funcsQ funcs1) ∧
      (∀ j : Nat, j < k → (arQ.classScopes x).bases[j]? = (ar.classScopes x).bases[j]?) ∧
      (∀ (j : Nat) (b1 : String), k ≤ j → (ar.classScopes x).bases[j]? = some b1 →
        b1 ∈ seenQ) := by
  rw [collectMethods] at h
  split at h
  · exact absurd h (by simp)
  · rename_i ar2 funcs2 hown
    have h2 := collectOwn_classScopes _ _ _ _ _ _ hown
    have h3 := markMissing_classScopes funcs2 (ar2.classScopes x).missingMethods ar2
    have hcs := h3.1.trans h2.1
    have hevM := (collectOwn_evolves _ _ _ _ _ _ hown).1.trans
      (markMissing_evolves funcs2 (ar2.classScopes x).missingMethods ar2)
    have hleM := (collectOwn_evolves _ _ _ _ _ _ hown).2
    have hmiss : (ar2.classScopes x).missingMethods = (ar.classScopes x).missingMethods := by
      rw [h2.1]
    rw [hmiss] at h h3 hcs hevM
    generalize hM : markMissing funcs2 (ar.classScopes x).missingMethods ar2 = arM at *
    simp only [] at h
    have hklt : k < (ar.classScopes x).bases.length := (List.getElem?_eq_some.mp hk).1
    obtain ⟨n, hn⟩ : ∃ n, (ar.classScopes x).bases.length = (k + 1) + n :=
      ⟨(ar.classScopes x).bases.length - (k + 1), by omega⟩
    have hn1 : (ar.classScopes x).bases.length - (k + 1) = n := by omega
    rw [walkBases_eq_walkRange, hcs, hn, walkRange_add, Nat.zero_add] at h
    simp only [Option.map_eq_some', Prod.exists] at h
    obtain ⟨seen1, ar1a, funcs1a, hwalk, heq⟩ := h
    simp only [Prod.mk.injEq] at heq
    obtain ⟨rfl, rfl⟩ := heq
    have hrecE := collectMethods_recEvolves fuel false forInvoke
    have hF : RecFrame rank (rank x)
        (fun a d t => collectMethods fuel a d t false forInvoke) :=
      RecFrame_collectMethods rank fuel forInvoke (rank x)
    have hRM := hevM.ranked hR
    have hnameM : (arM.classScopes x).name ∈ [(ar.classScopes x).name] := by
      rw [hcs]; exact List.mem_singleton.mpr rfl
    cases hA : walkRange (fun a c t => collectMethods fuel a c t false forInvoke) x forInvoke
        (k + 1) n [(ar.classScopes x).name] arM funcs2 with
    | none => simp [hA] at hwalk
    | some qa =>
      obtain ⟨seenP, arP, funcsP⟩ := qa
      simp only [hA] at hwalk
      obtain ⟨hevA, hleA, -, htakeA, hseenA, hsubA⟩ := walkRange_inv _ hrecE rank x hF hrank
        forInvoke (k + 1) n _ arM funcs2 seenP arP funcsP hRM hnameM hA
      have hsees := walkRange_sees _ hrecE rank x hF hrank forInvoke
        (k + 1) n _ arM funcs2 seenP arP funcsP hRM hnameM hA
      have hevP := hevM.trans hevA
      have hRP := hevP.ranked hR
      have hnameP : (arP.classScopes x).name ∈ seenP := by
        rw [hevP.name]; exact hsubA _ (List.mem_singleton.mpr rfl)
      have hbP : (arP.classScopes x).bases[k]? = some b := by
        rw [getElem?_of_take_eq htakeA (Nat.lt_succ_self k), hcs]; exact hk
      have hnotseen : b ∉ seenP := by
        intro hmem
        rcases hseenA _ hmem with h1 | h1
        · exact hself (List.mem_singleton.mp h1)
        · rw [hcs] at h1
          obtain ⟨m, hm⟩ := List.getElem?_of_mem h1
          rw [List.getElem?_drop] at hm
          exact hlast (k + 1 + m) (by omega) hm
      simp only [walkRange, Nat.zero_add] at hwalk
      split at hwalk
      · exact absurd hwalk (by simp)
      · rename_i seenQ arQ funcsQ hstep
        have hws := walkStep_of_walkBase hstep
        obtain ⟨hevQ, -⟩ := walkStep_evolves hrecE hws
        have hnameQ : (arQ.classScopes x).name ∈ seenQ := by
          rw [hevQ.name]; exact walkStep_seen hws _ hnameP
        have hRQ := hevQ.ranked hRP
        obtain ⟨hevB, hleB, -, -, -, -⟩ := walkRange_inv _ hrecE rank x hF hrank
          forInvoke 0 k _ arQ funcsQ seen1 ar1a funcs1a hRQ hnameQ hwalk
        have hb := walkStep_bases hF hrank hrecE hRP hnameP hws
        have htakeQ : (arQ.classScopes x).bases.take k = (arP.classScopes x).bases.take k := by
          rcases hb with hb | hb
          · rw [hb]
          · rw [hb, take_eraseIdx_of_le _ _ _ (Nat.le_refl _)]
        refine ⟨ar2, funcs2, seenP, arP, funcsP, seenQ, arQ, funcsQ, seen1, hown, ?_, hws,
          hwalk, ⟨hevP, hleM.mtrans hleA, hRP, hnameP, hnotseen, hbP⟩,
          ⟨hevQ, hRQ, hnameQ, hevB, hleB⟩, ?_, ?_⟩
        · rw [hn1, hM]; exact hA
        · intro j hj
          rw [getElem?_of_take_eq htakeQ hj,
            getElem?_of_take_eq htakeA (Nat.lt_succ_of_lt hj), hcs]
        · intro j b1 hkj hjb
          by_cases hjk : j = k
          · subst hjk
            rw [hk] at hjb
            obtain rfl := Option.some.inj hjb
            exact walkStep_sees hws _ hbP
          · have hjlt : j < (ar.classScopes x).bases.length := (List.getElem?_eq_some.mp hjb).1
            exact walkStep_seen hws _
              (hsees j b1 (by omega) (by omega) (by rw [hcs]; exact hjb))

/-! ## Claim C2: a name that the table already holds -/

/-- C2 as stated fails for the candidates of a redeclared parent.  The parent
name `p` of `child` resolves to the group of the classes 1 and 2, which both
declare `m`, as the functions 1 and 3, neither private.  When the second
candidate is visited, the result table of the caller holds `m` from the first
(the loop over the candidate 1 alone leaves `m` mapped to function 1); the
candidate is collected from its own copy of the table from before the parent,
which has no `m`.  After the run on `child` the entry `m` is still function 1
and neither function 1 nor function 3 is virtual. -/
theorem later_candidate_not_marked_virtual :
    findClasses groupGraph (groupGraph.classScopes 0).parent = [1, 2] ∧
    (findClass groupGraph (groupGraph.classScopes 0).parent).map
      (fun s => (groupGraph.classScopes s).isRedeclaring) = some true ∧
    (collectOwn true (groupGraph.classScopes 0).functions groupGraph []).map (fun r => r.2) =
      some [("own", 0)] ∧
    (collectCandidates (fun a c t => collectMethods 1 a c t false false) [("own", 0)] [1]
      groupGraph [("own", 0)]).map (fun r => mapFind r.2 "m") = some (some 1) ∧
    mapFind (groupGraph.classScopes 2).functions "m" = some [3] ∧
    (groupGraph.functionScopes 3).isPrivate = false ∧
    (collectMethods 2 groupGraph 0 [] true false).map
      (fun r => (mapFind r.2 "m", (r.1.functionScopes 1).virtual,
        (r.1.functionScopes 3).virtual)) = some (some 1, false, false) := by
  decide

/-- C2, amended: a run of `collectMethods` that returns keeps every entry of
the table it is handed; when the class visited contributes a name (its last
declaration is not skipped as private) that the table handed to the visit
already holds, the entry stays and both the method of the entry and that last
declaration are virtual afterwards; on an acyclic graph the run returns.  The
loop over the candidates of a redeclared parent hands each candidate its own
copy of the table `pristine` from before the parent, not the result table of
the caller, which keeps its entries and takes from the candidate tables only
the names it does not hold (no method is marked on that account). -/
theorem collectMethods_collision_marks_virtual (ar : AnalysisResult) (c : ClassId)
    (funcs : FuncMap) (collectPrivate forInvoke : Bool)
    (name : String) (vec : List FuncId) (last existing : FuncId)
    (hdecl : (name, vec) ∈ (ar.classScopes c).functions)
    (hlast : vec.getLast? = some last)
    (hcontrib : collectPrivate = true ∨ (ar.functionScopes last).isPrivate = false)
    (hpresent : mapFind funcs name = some existing) :
    (∀ fuel ar1 funcs1,
      collectMethods fuel ar c funcs collectPrivate forInvoke = some (ar1, funcs1) →
      MapLe funcs funcs1 ∧
      mapFind funcs1 name = some existing ∧ (ar1.functionScopes existing).virtual = true ∧
        (ar1.functionScopes last).virtual = true) ∧
    (∀ rank, Ranked ar rank → FunctionsNonempty ar → 0 < rank c →
      ∃ ar1 funcs1,
        collectMethods (rank c) ar c funcs collectPrivate forInvoke = some (ar1, funcs1) ∧
        mapFind funcs1 name = some existing ∧ (ar1.functionScopes existing).virtual = true ∧
        (ar1.functionScopes last).virtual = true) ∧
    (∀ (fuel : Nat) (pristine : FuncMap) (cands : List ClassId) (a : AnalysisResult)
      (t : FuncMap) (a1 : AnalysisResult) (t1 : FuncMap),
      collectCandidates (fun x d u => collectMethods fuel x d u false forInvoke) pristine cands
        a t = some (a1, t1) →
      MapLe t t1 ∧
      ∃ curs, CandidateRuns (fun x d u => collectMethods fuel x d u false forInvoke) pristine
          cands a curs a1 ∧
        ∀ n, mapFind t1 n =
          match mapFind t n with
          | some f => some f
          | none => firstFound curs n) := by
  have hpart := fun fuel ar1 funcs1 h =>
    collectMethods_collision fuel ar c funcs collectPrivate forInvoke ar1 funcs1 name vec last
      existing hdecl hlast hcontrib hpresent h
  refine ⟨fun fuel ar1 funcs1 h =>
    ⟨(collectMethods_recEvolves fuel collectPrivate forInvoke ar c funcs ar1 funcs1 h).2,
      hpart fuel ar1 funcs1 h⟩, ?_, ?_⟩
  · intro rank hR hN hc
    obtain ⟨⟨ar1, funcs1⟩, hrun⟩ :=
      collectMethods_total rank (rank c) collectPrivate forInvoke ar c funcs hR hN hc
        (Nat.le_refl _)
    exact ⟨ar1, funcs1, hrun, hpart _ _ _ hrun⟩
  · intro fuel pristine cands a t a1 t1 h
    exact ⟨(collectCandidates_evolves _ (collectMethods_recEvolves fuel false forInvoke)
      pristine cands a t a1 t1 h).2, collectCandidates_runs _ pristine cands a t a1 t1 h⟩

/-- Witness of C2 (amended) on the chain: class `c` is visited with a table that
holds the `foo` of `b`; the entry stays and both `foo` end virtual. -/
theorem collectMethods_collision_marks_virtual_witness :
    ∃ ar1 funcs1,
      collectMethods (chainRank 2) chainGraph 2 [("foo", 0)] false false = some (ar1, funcs1) ∧
      mapFind funcs1 "foo" = some 0 ∧ (ar1.functionScopes 0).virtual = true ∧
      (ar1.functionScopes 1).virtual = true :=
  (collectMethods_collision_marks_virtual chainGraph 2 [("foo", 0)] false false "foo" [1] 1 0
    (by decide) (by decide) (by decide) (by decide)).2.1
    chainRank chainGraph_ranked chainGraph_functionsNonempty (by decide)

/-! ## Claim C8: the candidates of a redeclared parent, at whatever index -/

/-- C8, amended: let the parent name of `x` stand in the base list of `x`, at
whatever index and however often, not be the name of `x` itself, and resolve to
a redeclared class.  Then `collectMethods` on `x` with `forInvoke = false`
returns; the walk visits the parent at the last index `k` that holds its name;
with `funcsP` the table left by the first loop and the walk over the indices
above `k`, every candidate registered under the parent name is collected in
turn, with `collectPrivate = false`, from its own copy of `funcsP` (the tables
`curs`); the table produced holds under each name the entry of `funcsP`, or
else the entry of the first candidate table that has the name, and when
`k = 0`, so that the walk ends with the parent, it holds nothing else. -/
theorem collectMethods_redeclared_parent_union (ar : AnalysisResult)
    (rank : ClassId → Nat) (x : ClassId) (funcs : FuncMap) (collectPrivate : Bool)
    (s : ClassId)
    (hR : Ranked ar rank) (hN : FunctionsNonempty ar) (hrank : 0 < rank x)
    (hmem : (ar.classScopes x).parent ∈ (ar.classScopes x).bases)
    (hself : (ar.classScopes x).parent ≠ (ar.classScopes x).name)
    (hfind : findClass ar (ar.classScopes x).parent = some s)
    (hredec : (ar.classScopes s).isRedeclaring = true) :
    ∃ ar1 funcs1 k arO funcsO seenP arP funcsP curs arQ,
      collectMethods (rank x) ar x funcs collectPrivate false = some (ar1, funcs1) ∧
      (ar.classScopes x).bases[k]? = some (ar.classScopes x).parent ∧
      (∀ j : Nat, k < j → (ar.classScopes x).bases[j]? ≠ some (ar.classScopes x).parent) ∧
      collectOwn collectPrivate (ar.classScopes x).functions ar funcs = some (arO, funcsO) ∧
      walkRange (fun a c t => collectMethods (rank x - 1) a c t false false) x false (k + 1)
        ((ar.classScopes x).bases.length - (k + 1)) [(ar.classScopes x).name]
        (markMissing funcsO (ar.classScopes x).missingMethods arO) funcsO =
          some (seenP, arP, funcsP) ∧
      CandidateRuns (fun a c t => collectMethods (rank x - 1) a c t false false) funcsP
        (findClasses ar (ar.classScopes x).parent) arP curs arQ ∧
      (∀ name f,
        (match mapFind funcsP name with
          | some f => some f
          | none => firstFound curs name) = some f →
        mapFind funcs1 name = some f) ∧
      (k = 0 → ∀ name, mapFind funcs1 name =
        match mapFind funcsP name with
        | some f => some f
        | none => firstFound curs name) := by
  obtain ⟨k, hk, hlast⟩ := exists_last_index _ _ hmem
  obtain ⟨⟨ar1, funcs1⟩, hrun⟩ :=
    collectMethods_total rank (rank x) collectPrivate false ar x funcs hR hN hrank (Nat.le_refl _)
  cases hf : rank x with
  | zero => omega
  | succ fuel =>
    rw [hf] at hrun
    obtain ⟨arO, funcsO, seenP, arP, funcsP, seenQ, arQ, funcsQ, seen1, hown, hupper, hstep,
      hlower, ⟨hevP, -, hRP, hnameP, hnotseen, hbP⟩, ⟨hevPQ, hRQ, hnameQ, hevQ, hleQ⟩, -, -⟩ :=
      collectMethods_last_visit rank fuel ar x funcs collectPrivate false k _ ar1 funcs1
        hR hrank hk hlast hself hrun
    have hpar := hevP.parent x
    simp only [Nat.add_sub_cancel]
    cases hstep with
    | invalid base hbase hseen =>
      rw [hbP] at hbase
      obtain rfl := Option.some.inj hbase
      exact absurd hseen hnotseen
    | skipped base hbase hseen hinvoke hparent => exact absurd hinvoke (by simp)
    | redeclaredParentInvoke base super hbase hseen hinvoke hparent hfind2 hredec2 =>
      exact absurd hinvoke (by simp)
    | redeclaredParent base super ar2 funcs2 hbase hseen hinvoke hparent hfind2 hredec2
        hcands =>
      obtain ⟨curs, hruns, hfound⟩ := collectCandidates_runs _ _ _ _ _ _ _ hcands
      rw [hevP.findClasses, hpar] at hruns
      refine ⟨_, _, k, arO, funcsO, seenP, arP, funcsP, curs, ar2, hrun, hk, hlast, hown,
        hupper, hruns, ?_, ?_⟩
      · intro name f hf
        exact hleQ name f (by rw [hfound name]; exact hf)
      · intro hk0
        subst hk0
        simp only [walkRange, Option.some.injEq, Prod.mk.injEq] at hlower
        obtain ⟨-, -, rfl⟩ := hlower
        exact hfound
    | redeclaredBase base super hbase hseen hinvoke hparent hfind2 hredec2 =>
      rw [hbP] at hbase
      rw [hpar] at hparent
      exact absurd (Option.some.inj hbase).symm hparent
    | known base super ar2 funcs2 hbase hseen hfollow hfind2 hredec2 hcall =>
      rw [hbP] at hbase
      obtain rfl := Option.some.inj hbase
      rw [hevP.findClass, hfind] at hfind2
      obtain rfl := Option.some.inj hfind2
      rw [hevP.isRedeclaring, hredec] at hredec2
      exact absurd hredec2 (by simp)
    | unknown base hbase hseen hfollow hfind2 =>
      rw [hbP] at hbase
      obtain rfl := Option.some.inj hbase
      rw [hevP.findClass, hfind] at hfind2
      exact absurd hfind2 (by simp)

theorem repeatedParentGraph_ranked : Ranked repeatedParentGraph baseRank := by
  intro c base hc hb hne d hd
  match c with
  | 0 =>
    simp [repeatedParentGraph, mkAnalysisResult] at hb
    rcases hb with hb | hb | hb
    · subst hb
      simp [findClasses, repeatedParentGraph, mkAnalysisResult, toLower] at hd
      rcases hd with rfl | rfl <;> decide
    · subst hb
      simp [findClasses, repeatedParentGraph, mkAnalysisResult, toLower] at hd
      subst hd
      decide
    · subst hb
      simp [findClasses, repeatedParentGraph, mkAnalysisResult, toLower] at hd
      rcases hd with rfl | rfl <;> decide
  | n + 1 =>
    match n with
    | 0 => simp [repeatedParentGraph, mkAnalysisResult] at hb
    | 1 => simp [repeatedParentGraph, mkAnalysisResult] at hb
    | 2 => simp [repeatedParentGraph, mkAnalysisResult] at hb
    | m + 3 => simp [repeatedParentGraph, mkAnalysisResult] at hb

theorem repeatedParentGraph_functionsNonempty : FunctionsNonempty repeatedParentGraph := by
  intro c name vec hm
  match c with
  | 0 =>
    simp [repeatedParentGraph, mkAnalysisResult] at hm
    simp [hm.2]
  | 1 =>
    simp [repeatedParentGraph, mkAnalysisResult] at hm
    rcases hm with hm | hm <;> simp [hm.2]
  | 2 =>
    simp [repeatedParentGraph, mkAnalysisResult] at hm
    rcases hm with hm | hm <;> simp [hm.2]
  | 3 =>
    simp [repeatedParentGraph, mkAnalysisResult] at hm
    simp [hm.2]
  | n + 4 => simp [repeatedParentGraph, mkAnalysisResult] at hm

/-- Witness of C8 (amended) on a class whose base list names the parent group
twice, with an interface in between: the candidates are merged at the last
entry of the parent, the table evaluates to the class's own `own`, then `m`
and `only1` of the first candidate, then `extra` of the interface, and the
entry at index 0 is dropped as an invalid derivation. -/
theorem collectMethods_redeclared_parent_union_witness :
    (∃ ar1 funcs1 k arO funcsO seenP arP funcsP curs arQ,
      collectMethods (baseRank 0) repeatedParentGraph 0 [] true false = some (ar1, funcs1) ∧
      (repeatedParentGraph.classScopes 0).bases[k]? =
        some (repeatedParentGraph.classScopes 0).parent ∧
      (∀ j : Nat, k < j → (repeatedParentGraph.classScopes 0).bases[j]? ≠
        some (repeatedParentGraph.classScopes 0).parent) ∧
      collectOwn true (repeatedParentGraph.classScopes 0).functions repeatedParentGraph [] =
        some (arO, funcsO) ∧
      walkRange (fun a c t => collectMethods (baseRank 0 - 1) a c t false false) 0 false (k + 1)
        ((repeatedParentGraph.classScopes 0).bases.length - (k + 1))
        [(repeatedParentGraph.classScopes 0).name]
        (markMissing funcsO (repeatedParentGraph.classScopes 0).missingMethods arO) funcsO =
          some (seenP, arP, funcsP) ∧
      CandidateRuns (fun a c t => collectMethods (baseRank 0 - 1) a c t false false) funcsP
        (findClasses repeatedParentGraph (repeatedParentGraph.classScopes 0).parent) arP curs
        arQ ∧
      (∀ name f,
        (match mapFind funcsP name with
          | some f => some f
          | none => firstFound curs name) = some f →
        mapFind funcs1 name = some f) ∧
      (k = 0 → ∀ name, mapFind funcs1 name =
        match mapFind funcsP name with
        | some f => some f
        | none => firstFound curs name)) ∧
    (collectMethods (baseRank 0) repeatedParentGraph 0 [] true false).map
      (fun r => (r.2, (r.1.classScopes 0).bases)) =
      some ([("own", 0), ("m", 1), ("only1", 2), ("extra", 5)], ["i", "p"]) ∧
    (collectMethods (rootRank 0) groupGraph 0 [] true false).map (fun r => r.2) =
      some [("own", 0), ("m", 1), ("only1", 2)] :=
  ⟨collectMethods_redeclared_parent_union repeatedParentGraph baseRank 0 [] true 1
    repeatedParentGraph_ranked repeatedParentGraph_functionsNonempty (by decide) (by decide)
    (by decide) (by decide) (by decide), by decide, by decide⟩

/-! ## Claim C9: an unknown or redeclared parent, at whatever index -/

/-- C9 as stated fails in two ways.  For a class of a redeclaration group that
names its own group as parent, the parent name resolves to a redeclared class,
the base is dropped as an invalid derivation, and after `collectMethods` the
tag is still `FromNormal` and no global pointer is requested.  For an
interface `x` whose parent name `ghost` is unregistered and whose base list
`ghost, j, ghost` holds between the two entries of the parent an interface `j`
that is tagged once collected, the walk tags `x` Direct at the last entry and
Indirect at `j` afterwards: the run ends with `x` tagged
`IndirectFromRedeclared`. -/
theorem ambiguous_parent_not_direct :
    ((findClass selfGroupGraph (selfGroupGraph.classScopes 0).parent).map
        (fun s => (selfGroupGraph.classScopes s).isRedeclaring) = some true ∧
      (collectMethods 1 selfGroupGraph 0 [] true false).map
        (fun r => ((r.1.classScopes 0).derivesFromRedeclaring,
          (r.1.classScopes 0).variableTable.needGlobalPointer)) =
        some (Derivation.FromNormal, false)) ∧
    (findClass ghostInterfaceGraph (ghostInterfaceGraph.classScopes 0).parent = none ∧
      (ghostInterfaceGraph.classScopes 0).bases = ["ghost", "j", "ghost"] ∧
      (collectMethods 2 ghostInterfaceGraph 0 [] true false).map
        (fun r => ((r.1.classScopes 1).derivesFromRedeclaring,
          (r.1.classScopes 0).derivesFromRedeclaring)) =
        some (Derivation.DirectFromRedeclared, Derivation.IndirectFromRedeclared)) := by
  decide

/-- C9, amended: let the parent name of `x` stand in the base list of `x`, at
whatever index and however often, not be the name of `x` itself, and be
unregistered or resolve to a redeclared class.  Then `collectMethods` on `x`
with `forInvoke = false` returns, and afterwards `x` is volatile, has its
variables forced to variants and needs the global pointer, in the unregistered
case an `UnknownBaseClass` diagnostic naming the parent is recorded for `x`,
and `x` is tagged: not `FromNormal`, and `DirectFromRedeclared` whenever `x` is
not an interface, or no base listed before an entry of the parent, other than
the name of `x` and not repeated at a higher index, resolves to a single class
that is not redeclared and is tagged at the end of the run. -/
theorem collectMethods_ambiguous_parent (ar : AnalysisResult) (rank : ClassId → Nat)
    (x : ClassId) (funcs : FuncMap) (collectPrivate : Bool)
    (hR : Ranked ar rank) (hN : FunctionsNonempty ar) (hrank : 0 < rank x)
    (hmem : (ar.classScopes x).parent ∈ (ar.classScopes x).bases)
    (hself : (ar.classScopes x).parent ≠ (ar.classScopes x).name)
    (hamb : findClass ar (ar.classScopes x).parent = none ∨
      ∃ s, findClass ar (ar.classScopes x).parent = some s ∧
        (ar.classScopes s).isRedeclaring = true) :
    ∃ ar1 funcs1,
      collectMethods (rank x) ar x funcs collectPrivate false = some (ar1, funcs1) ∧
      (ar1.classScopes x).volatile = true ∧
      (ar1.classScopes x).variableTable.forcedVariants = true ∧
      (ar1.classScopes x).variableTable.needGlobalPointer = true ∧
      (findClass ar (ar.classScopes x).parent = none →
        ({ kind := ErrorType.UnknownBaseClass, construct1 := Construct.classStmt x,
           construct2 := Construct.null, data := (ar.classScopes x).parent } : ErrorRecord) ∈
          ar1.codeError) ∧
      (ar1.classScopes x).derivesFromRedeclaring ≠ Derivation.FromNormal ∧
      (((ar.classScopes x).isInterface = false ∨
          ∀ (j j1 : Nat) (b : String) (s : ClassId), j < j1 →
            (ar.classScopes x).bases[j1]? = some (ar.classScopes x).parent →
            (ar.classScopes x).bases[j]? = some b →
            b ≠ (ar.classScopes x).name →
            (∀ i : Nat, j < i → (ar.classScopes x).bases[i]? ≠ some b) →
            findClass ar b = some s → (ar.classScopes s).isRedeclaring = false →
            (ar1.classScopes s).derivesFromRedeclaring = Derivation.FromNormal) →
        (ar1.classScopes x).derivesFromRedeclaring = Derivation.DirectFromRedeclared) := by
  obtain ⟨k, hk, hlast⟩ := exists_last_index _ _ hmem
  obtain ⟨⟨ar1, funcs1⟩, hrun⟩ :=
    collectMethods_total rank (rank x) collectPrivate false ar x funcs hR hN hrank (Nat.le_refl _)
  refine ⟨ar1, funcs1, hrun, ?_⟩
  cases hf : rank x with
  | zero => omega
  | succ fuel =>
    rw [hf] at hrun
    obtain ⟨arO, funcsO, seenP, arP, funcsP, seenQ, arQ, funcsQ, seen1, -, -, hstep, hlower,
      ⟨hevP, -, hRP, hnameP, hnotseen, hbP⟩, ⟨hevPQ, hRQ, hnameQ, hevQ, -⟩, hlowb, hseenQ⟩ :=
      collectMethods_last_visit rank fuel ar x funcs collectPrivate false k _ ar1 funcs1
        hR hrank hk hlast hself hrun
    have hpar := hevP.parent x
    have hQ : (arQ.classScopes x).derivesFromRedeclaring = Derivation.DirectFromRedeclared ∧
        (arQ.classScopes x).volatile = true ∧
        (arQ.classScopes x).variableTable.forcedVariants = true ∧
        (arQ.classScopes x).variableTable.needGlobalPointer = true ∧
        (findClass ar (ar.classScopes x).parent = none →
          ({ kind := ErrorType.UnknownBaseClass, construct1 := Construct.classStmt x,
             construct2 := Construct.null, data := (ar.classScopes x).parent } : ErrorRecord) ∈
            arQ.codeError) := by
      cases hstep with
      | invalid base hbase hseen =>
        rw [hbP] at hbase
        obtain rfl := Option.some.inj hbase
        exact absurd hseen hnotseen
      | skipped base hbase hseen hinvoke hparent => exact absurd hinvoke (by simp)
      | redeclaredParentInvoke base super hbase hseen hinvoke hparent hfind hredec =>
        exact absurd hinvoke (by simp)
      | redeclaredParent base super ar2 funcs2 hbase hseen hinvoke hparent hfind hredec hcands =>
        obtain ⟨h1, h2, h3, h4⟩ := afterRedeclaredParent_self ar2 x
        refine ⟨h1, h2, h3, h4, ?_⟩
        intro hnone
        rw [hparent, hevP.findClass, hpar, hnone] at hfind
        exact absurd hfind (by simp)
      | redeclaredBase base super hbase hseen hinvoke hparent hfind hredec =>
        rw [hbP] at hbase
        rw [hpar] at hparent
        exact absurd (Option.some.inj hbase).symm hparent
      | known base super ar2 funcs2 hbase hseen hfollow hfind hredec hcall =>
        rw [hbP] at hbase
        obtain rfl := Option.some.inj hbase
        rw [hevP.findClass] at hfind
        rcases hamb with hnone | ⟨s, hs, hsr⟩
        · rw [hnone] at hfind; exact absurd hfind (by simp)
        · rw [hs] at hfind
          obtain rfl := Option.some.inj hfind
          rw [hevP.isRedeclaring, hsr] at hredec
          exact absurd hredec (by simp)
      | unknown base hbase hseen hfollow hfind =>
        rw [hbP] at hbase
        obtain rfl := Option.some.inj hbase
        obtain ⟨h1, h2, h3, h4, h5⟩ :=
          afterUnknownBase_parent_self arP x (ar.classScopes x).parent k hpar.symm
        exact ⟨h1, h2, h3, h4, fun _ => h5⟩
    obtain ⟨q1, q2, q3, q4, q5⟩ := hQ
    refine ⟨hevQ.volatile x q2, hevQ.forced x q3, hevQ.needGlobal x q4, fun hn => ?_,
      hevQ.derives x (by rw [q1]; simp), ?_⟩
    · obtain ⟨t, ht⟩ := hevQ.codeError
      rw [← ht]
      exact List.mem_append_left _ (q5 hn)
    · intro hcond
      have hF : RecFrame rank (rank x)
          (fun a d t => collectMethods fuel a d t false false) :=
        RecFrame_collectMethods rank fuel false (rank x)
      refine walkRange_tag_kept _ (collectMethods_recEvolves fuel false false) rank x hF hrank
        Derivation.DirectFromRedeclared ar1 k seenQ arQ funcsQ seen1 ar1 funcs1 hRQ hnameQ q1
        (Evolves.refl _) ?_ hlower
      intro j b hj hjb
      rw [hlowb j hj] at hjb
      by_cases hbp : b = (ar.classScopes x).parent
      · exact Or.inl (hbp ▸ hseenQ k _ (Nat.le_refl _) hk)
      by_cases hbn : b = (ar.classScopes x).name
      · refine Or.inl ?_
        rw [hbn, ← (hevP.trans hevPQ).name]
        exact hnameQ
      by_cases hrep : ∃ i : Nat, j < i ∧ (ar.classScopes x).bases[i]? = some b
      · obtain ⟨i, hji, hib⟩ := hrep
        by_cases hik : i < k
        · exact Or.inr (Or.inl ⟨i, hji, hik, by rw [hlowb i hik]; exact hib⟩)
        · exact Or.inl (hseenQ i b (by omega) hib)
      refine Or.inr (Or.inr (TagSafe.later (hevP.trans hevPQ) ?_))
      rcases hcond with hni | hall
      · exact Or.inl ⟨hbp, hni⟩
      · cases hfb : findClass ar b with
        | none => exact Or.inr (Or.inl ⟨hfb, rfl⟩)
        | some s =>
          cases hr : (ar.classScopes s).isRedeclaring with
          | true => exact Or.inr (Or.inr (Or.inl ⟨s, hfb, hr, rfl⟩))
          | false =>
            exact Or.inr (Or.inr (Or.inr ⟨s, hfb, hr, Or.inr
              (hall j k b s hj hk hjb hbn (fun i hi hib => hrep ⟨i, hi, hib⟩) hfb hr)⟩))

theorem ghostTwiceGraph_ranked : Ranked ghostTwiceGraph rootRank := by
  intro c base hc hb hne d hd
  match c with
  | 0 =>
    simp [ghostTwiceGraph, mkAnalysisResult] at hb
    subst hb
    simp [findClasses, ghostTwiceGraph, mkAnalysisResult, toLower] at hd
  | n + 1 => simp [ghostTwiceGraph, mkAnalysisResult] at hb

theorem ghostTwiceGraph_functionsNonempty : FunctionsNonempty ghostTwiceGraph := by
  intro c name vec hm
  match c with
  | 0 => simp [ghostTwiceGraph, mkAnalysisResult] at hm
  | n + 1 => simp [ghostTwiceGraph, mkAnalysisResult] at hm

/-- Witness of C9 (amended): the class `x` names its unregistered parent
`ghost` twice; the run ends with `x` tagged Direct. -/
theorem collectMethods_ambiguous_parent_witness :
    (∃ ar1 funcs1,
      collectMethods (rootRank 0) ghostTwiceGraph 0 [] true false = some (ar1, funcs1) ∧
      (ar1.classScopes 0).volatile = true ∧
      (ar1.classScopes 0).variableTable.forcedVariants = true ∧
      (ar1.classScopes 0).variableTable.needGlobalPointer = true ∧
      (findClass ghostTwiceGraph (ghostTwiceGraph.classScopes 0).parent = none →
        ({ kind := ErrorType.UnknownBaseClass, construct1 := Construct.classStmt 0,
           construct2 := Construct.null,
           data := (ghostTwiceGraph.classScopes 0).parent } : ErrorRecord) ∈ ar1.codeError) ∧
      (ar1.classScopes 0).derivesFromRedeclaring ≠ Derivation.FromNormal ∧
      (((ghostTwiceGraph.classScopes 0).isInterface = false ∨
          ∀ (j j1 : Nat) (b : String) (s : ClassId), j < j1 →
            (ghostTwiceGraph.classScopes 0).bases[j1]? =
              some (ghostTwiceGraph.classScopes 0).parent →
            (ghostTwiceGraph.classScopes 0).bases[j]? = some b →
            b ≠ (ghostTwiceGraph.classScopes 0).name →
            (∀ i : Nat, j < i → (ghostTwiceGraph.classScopes 0).bases[i]? ≠ some b) →
            findClass ghostTwiceGraph b = some s →
            (ghostTwiceGraph.classScopes s).isRedeclaring = false →
            (ar1.classScopes s).derivesFromRedeclaring = Derivation.FromNormal) →
        (ar1.classScopes 0).derivesFromRedeclaring = Derivation.DirectFromRedeclared)) ∧
    (collectMethods (rootRank 0) ghostTwiceGraph 0 [] true false).map
      (fun r => ((r.1.classScopes 0).derivesFromRedeclaring, (r.1.classScopes 0).volatile,
        (r.1.classScopes 0).variableTable.forcedVariants,
        (r.1.classScopes 0).variableTable.needGlobalPointer, (r.1.classScopes 0).bases)) =
      some (Derivation.DirectFromRedeclared, true, true, true, ["ghost"]) ∧
    (collectMethods (rootRank 0) ghostTwiceGraph 0 [] true false).map
      (fun r => r.1.codeError.map (fun e => (e.kind, e.data))) =
      some [(ErrorType.UnknownBaseClass, "ghost"), (ErrorType.InvalidDerivation, "ghost")] :=
  ⟨collectMethods_ambiguous_parent ghostTwiceGraph rootRank 0 [] true
    ghostTwiceGraph_ranked ghostTwiceGraph_functionsNonempty (by decide) (by decide)
    (by decide) (Or.inl (by decide)), by decide, by decide⟩

/-! ## Claim C12: a base that derives from a redeclared class, at whatever index -/

end HPHP
